import Mathlib

/-!
# ESP32 polyphonic synthesizer: voice pool, oscillator automaton and frame loop

A shallow embedding of `PolySynth.cpp`, `WaveGenerator.cpp`, `WaveFactory.cpp`
and the headers they use.

Conventions of the embedding.

* `uint32_t` values are natural numbers reduced modulo `2^32` where the C
  arithmetic can wrap.
* A `uint32_t *` is a word address (an `Int`); the tables built by the factory
  live in a read-only memory `Mem`, a partial map from word addresses to words.
  Reading an unmapped address is undefined behaviour.
* A `WaveGenerator *` is either `NULL` (`none`) or the index of one of the
  `NROFWAVEGENERATORS` elements of `PolySynth::wavegenerators`; a `Note *` is
  `NULL` or an index into `WaveFactory::notes`.
* Undefined behaviour (dereferencing `NULL`, reading outside a table or an
  array) is the outcome `fault`; a loop that has not finished within the given
  number of iterations is the outcome `fuel`.
-/

/-! ## constants.h, WaveFactory.h -/

def WAVEPARTERRORMAX : Nat := 100000 / 2
def NROFSTYLES : Nat := 3
def NROFWAVEGENERATORS : Nat := 16
def BUFFERSIZE : Nat := 256
def NROFBUFFERS : Nat := 2
def SAMPLERATE : Nat := 192000
def TOP : Nat := ((0xffff / 2) / NROFWAVEGENERATORS) - 0x10
def BASE : Nat := 0
def STEREOTOP : Nat := (TOP <<< 16) + TOP
def STEREOBASE : Nat := (BASE <<< 16) + BASE
def MINMIDINOTES : Nat := 21
def MAXMIDINOTES : Nat := 127
def NROFNOTESINOCTAVE : Nat := 12

/-- Modulus of `uint32_t` arithmetic. -/
def UINT32 : Nat := 2 ^ 32

/-- Result of running a piece of the program. -/
inductive Outcome (α : Type) where
  | ok (a : α)
  | fault
  | fuel
deriving DecidableEq, Repr

/-- Read-only table memory: word address to stored `uint32_t`. -/
abbrev Mem := Int → Option Nat

/-! ## Note.h -/

/-- Class `Note` (the `frequency` and `name` members are only printed). -/
structure Note where
  samples : Fin 3 → Int
  sampleSizes : Fin 3 → Int
  sampleErrors : Fin 3 → Nat
  midiNoteNr : Int
  delta : Int
  toWaveGenerator : Option (Fin 16)
deriving DecidableEq

/-! ## WaveGenerator.h, WaveGenerator.cpp -/

/-- Class `WaveGenerator` (`prevValue` is never read or written). -/
structure WaveGenerator where
  toNextFreeWaveGenerator : Option (Fin 16)
  state : Nat
  stopping : Bool
  toStartWave : Int
  toEndWave : Int
  toWave : Int
  delta : Int
  sampleError : Nat
  totalError : Nat
deriving DecidableEq, Repr

/-- `WaveGenerator::setWave`. -/
def WaveGenerator.setWave (g : WaveGenerator) (wave : Int) (waveSize : Int) (d : Int)
    (error : Nat) : WaveGenerator :=
  { g with
    toStartWave := wave
    toEndWave := wave + (waveSize - 1)
    toWave := wave
    state := 1
    delta := d
    stopping := false
    sampleError := error
    totalError := 0 }

/-- `WaveGenerator::clearWave`. -/
def WaveGenerator.clearWave (g : WaveGenerator) : WaveGenerator :=
  { g with stopping := true }

/-- `WaveGenerator::clearStopping`: the returned flag and the voice afterwards. -/
def WaveGenerator.clearStopping (g : WaveGenerator) : Bool × WaveGenerator :=
  if g.stopping && g.state == 0 then
    (true, { g with stopping := false })
  else
    (false, g)

/-! ## WaveFactory.cpp -/

/-- `WaveFactory::getNote`: the index of the entry, or `none` for `NULL`. -/
def WaveFactory.getNote (noteNr : Nat) : Option (Fin 128) :=
  if h : noteNr ≥ MINMIDINOTES ∧ noteNr ≤ MAXMIDINOTES then
    some ⟨noteNr, by
      have h2 := h.2
      simp only [MAXMIDINOTES] at h2
      omega⟩
  else
    none

/-! ## PolySynth.h, PolySynth.cpp -/

/-- Class `PolySynth`: the members the note handling and the frame loop use. -/
structure PolySynth where
  buffer : List Nat
  wavegenerators : Fin 16 → WaveGenerator
  notes : Fin 128 → Note
  toFreeWaveGenerators : Option (Fin 16)
  style : Nat
deriving DecidableEq

/-- The link `&wavegenerators[index+1]` written by `initFreeWaveGenerators`,
`NULL` for the last voice. -/
def initLink (index : Fin 16) : Option (Fin 16) :=
  if h : index.val + 1 < 16 then some ⟨index.val + 1, h⟩ else none

/-- `PolySynth::initFreeWaveGenerators`. -/
def PolySynth.initFreeWaveGenerators (s : PolySynth) : PolySynth :=
  { s with
    toFreeWaveGenerators := some 0
    wavegenerators := fun index =>
      { s.wavegenerators index with toNextFreeWaveGenerator := initLink index } }

/-- `PolySynth::startNote`. -/
def PolySynth.startNote (s : PolySynth) (pitch _velocity : Nat) : Outcome PolySynth :=
  match s.toFreeWaveGenerators with
  | none => .ok s
  | some toWaveGenerator =>
    let toFree := (s.wavegenerators toWaveGenerator).toNextFreeWaveGenerator
    match WaveFactory.getNote pitch with
    | none => .fault
    | some toNote =>
      if h : s.style < 3 then
        let st : Fin 3 := ⟨s.style, h⟩
        let note := s.notes toNote
        let g := (s.wavegenerators toWaveGenerator).setWave
          (note.samples st) (note.sampleSizes st) note.delta (note.sampleErrors st)
        .ok { s with
          toFreeWaveGenerators := toFree
          wavegenerators := Function.update s.wavegenerators toWaveGenerator g
          notes := Function.update s.notes toNote
            { note with toWaveGenerator := some toWaveGenerator } }
      else .fault

/-- `PolySynth::stopNote`. -/
def PolySynth.stopNote (s : PolySynth) (pitch _velocity : Nat) : Outcome PolySynth :=
  match WaveFactory.getNote pitch with
  | none => .fault
  | some toNote =>
    let note := s.notes toNote
    let gens := match note.toWaveGenerator with
      | none => s.wavegenerators
      | some toWaveGenerator =>
        Function.update s.wavegenerators toWaveGenerator
          (s.wavegenerators toWaveGenerator).clearWave
    .ok { s with
      wavegenerators := gens
      notes := Function.update s.notes toNote { note with toWaveGenerator := none } }

/-- `PolySynth::setStyle`. -/
def PolySynth.setStyle (s : PolySynth) (newStyle : Nat) : PolySynth :=
  { s with style := newStyle }

/-! ## Frame generation: `setSamplesInBuffer`, `addSamplesToBuffer` -/

/-- Unary minus on `uint32_t`. -/
def neg32 (v : Nat) : Nat := (UINT32 - v % UINT32) % UINT32

/-- Addition on `uint32_t`. -/
def add32 (a b : Nat) : Nat := (a + b) % UINT32

/-- Subtraction on `uint32_t`. -/
def sub32 (a b : Nat) : Nat := (a % UINT32 + (UINT32 - b % UINT32)) % UINT32

/-- The voice together with the caller's buffer and the local `bufferIndex`. -/
structure Run where
  g : WaveGenerator
  buffer : List Nat
  bufferIndex : Nat
deriving DecidableEq, Repr

/-- The idle loop `while (bufferIndex < bufferSize) { buffer[bufferIndex] (op)= STEREOBASE;
bufferIndex++; }`; `room` is `bufferSize - bufferIndex` and `write old v` is the stored
word (`v` for `=`, `old + v` for `+=`). -/
def idleLoop (write : Nat → Nat → Nat) : Nat → Run → Outcome Run
  | 0, r => .ok r
  | room + 1, r =>
    if h : r.bufferIndex < r.buffer.length then
      idleLoop write room
        { r with
          buffer := r.buffer.set r.bufferIndex (write r.buffer[r.bufferIndex] STEREOBASE)
          bufferIndex := r.bufferIndex + 1 }
    else .fault

/-- The table loops `while ((bufferIndex < bufferSize) && cond(toWave)) { buffer[bufferIndex]
(op)= val( *toWave); bufferIndex++; toWave = next(toWave); }` of cases 1 to 4; `room` is
`bufferSize - bufferIndex`. -/
def sampleLoop (mem : Mem) (cond : Int → Bool) (val : Nat → Nat) (next : Int → Int)
    (write : Nat → Nat → Nat) : Nat → Run → Outcome Run
  | 0, r => .ok r
  | room + 1, r =>
    if cond r.g.toWave then
      match mem r.g.toWave with
      | none => .fault
      | some v =>
        if h : r.bufferIndex < r.buffer.length then
          sampleLoop mem cond val next write room
            { g := { r.g with toWave := next r.g.toWave }
              buffer := r.buffer.set r.bufferIndex (write r.buffer[r.bufferIndex] (val v))
              bufferIndex := r.bufferIndex + 1 }
        else .fault
    else .ok r

/-- The single extra sample of cases 5 and 6: `totalError -= WAVEPARTERRORMAX;
buffer[bufferIndex] (op)= val( *toEndWave); bufferIndex++; state = newState;`. -/
def extraSample (mem : Mem) (val : Nat → Nat) (write : Nat → Nat → Nat) (newState : Nat)
    (r : Run) : Outcome Run :=
  match mem r.g.toEndWave with
  | none => .fault
  | some v =>
    if h : r.bufferIndex < r.buffer.length then
      .ok { g := { r.g with
                   totalError := sub32 r.g.totalError WAVEPARTERRORMAX
                   state := newState }
            buffer := r.buffer.set r.bufferIndex (write r.buffer[r.bufferIndex] (val v))
            bufferIndex := r.bufferIndex + 1 }
    else .fault

/-- End of a forward pass (cases 1 and 3): `state = down; toWave = toEndWave;
totalError = totalError + sampleError; if (totalError > WAVEPARTERRORMAX) state = extra;`. -/
def endForward (down extra : Nat) (g : WaveGenerator) : WaveGenerator :=
  let totalError := add32 g.totalError g.sampleError
  { g with
    state := if totalError > WAVEPARTERRORMAX then extra else down
    toWave := g.toEndWave
    totalError := totalError }

/-- One execution of the `switch (state)` in `WaveGenerator::setSamplesInBuffer`,
entered with `bufferIndex < bufferSize`. -/
def WaveGenerator.setSamplesCase (mem : Mem) (bufferSize : Nat) (r : Run) : Outcome Run :=
  let room := bufferSize - r.bufferIndex
  match r.g.state with
  | 0 => idleLoop (fun _ v => v) room r
  | 1 =>
    match sampleLoop mem (fun toWave => toWave ≤ r.g.toEndWave) (fun v => v)
        (fun toWave => toWave + r.g.delta) (fun _ v => v) room r with
    | .ok r1 =>
      if r1.bufferIndex < bufferSize then .ok { r1 with g := endForward 2 5 r1.g }
      else .ok r1
    | .fault => .fault
    | .fuel => .fuel
  | 2 =>
    match sampleLoop mem (fun toWave => toWave ≥ r.g.toStartWave) (fun v => v)
        (fun toWave => toWave - r.g.delta) (fun _ v => v) room r with
    | .ok r1 =>
      if r1.bufferIndex < bufferSize then
        .ok { r1 with g := { r1.g with
                             state := if r1.g.stopping then 0 else 3
                             toWave := r1.g.toStartWave } }
      else .ok r1
    | .fault => .fault
    | .fuel => .fuel
  | 3 =>
    match sampleLoop mem (fun toWave => toWave ≤ r.g.toEndWave) neg32
        (fun toWave => toWave + r.g.delta) (fun _ v => v) room r with
    | .ok r1 =>
      if r1.bufferIndex < bufferSize then .ok { r1 with g := endForward 4 6 r1.g }
      else .ok r1
    | .fault => .fault
    | .fuel => .fuel
  | 4 =>
    match sampleLoop mem (fun toWave => toWave ≥ r.g.toStartWave) neg32
        (fun toWave => toWave - r.g.delta) (fun _ v => v) room r with
    | .ok r1 =>
      if r1.bufferIndex < bufferSize then
        .ok { r1 with g := { r1.g with state := 1, toWave := r1.g.toStartWave } }
      else .ok r1
    | .fault => .fault
    | .fuel => .fuel
  | 5 =>
    if r.bufferIndex < bufferSize then extraSample mem (fun v => v) (fun _ v => v) 2 r
    else .ok r
  | 6 =>
    if r.bufferIndex < bufferSize then extraSample mem neg32 (fun _ v => v) 4 r
    else .ok r
  | _ => .ok r

/-- The outer loop `while (bufferIndex < bufferSize) switch (state) ...` of
`setSamplesInBuffer`, run for at most `fuel` iterations. -/
def WaveGenerator.setSamplesLoop (mem : Mem) (bufferSize : Nat) : Nat → Run → Outcome Run
  | 0, r => if r.bufferIndex < bufferSize then .fuel else .ok r
  | fuel + 1, r =>
    if r.bufferIndex < bufferSize then
      match WaveGenerator.setSamplesCase mem bufferSize r with
      | .ok r1 => WaveGenerator.setSamplesLoop mem bufferSize fuel r1
      | .fault => .fault
      | .fuel => .fuel
    else .ok r

/-- `WaveGenerator::setSamplesInBuffer`: the voice and the buffer afterwards. -/
def WaveGenerator.setSamplesInBuffer (mem : Mem) (fuel : Nat) (g : WaveGenerator)
    (buffer : List Nat) (bufferSize : Nat) : Outcome (WaveGenerator × List Nat) :=
  match WaveGenerator.setSamplesLoop mem bufferSize fuel
      { g := g, buffer := buffer, bufferIndex := 0 } with
  | .ok r => .ok (r.g, r.buffer)
  | .fault => .fault
  | .fuel => .fuel

/-- One execution of the `switch (state)` in `WaveGenerator::addSamplesToBuffer`,
entered with `bufferIndex < bufferSize`. -/
def WaveGenerator.addSamplesCase (mem : Mem) (bufferSize : Nat) (r : Run) : Outcome Run :=
  let room := bufferSize - r.bufferIndex
  match r.g.state with
  | 0 => idleLoop add32 room r
  | 1 =>
    match sampleLoop mem (fun toWave => toWave ≤ r.g.toEndWave) (fun v => v)
        (fun toWave => toWave + r.g.delta) add32 room r with
    | .ok r1 =>
      if r1.bufferIndex < bufferSize then .ok { r1 with g := endForward 2 5 r1.g }
      else .ok r1
    | .fault => .fault
    | .fuel => .fuel
  | 2 =>
    match sampleLoop mem (fun toWave => toWave ≥ r.g.toStartWave) (fun v => v)
        (fun toWave => toWave - r.g.delta) add32 room r with
    | .ok r1 =>
      if r1.bufferIndex < bufferSize then
        .ok { r1 with g := { r1.g with
                             state := if r1.g.stopping then 0 else 3
                             toWave := r1.g.toStartWave } }
      else .ok r1
    | .fault => .fault
    | .fuel => .fuel
  | 3 =>
    match sampleLoop mem (fun toWave => toWave ≤ r.g.toEndWave) neg32
        (fun toWave => toWave + r.g.delta) add32 room r with
    | .ok r1 =>
      if r1.bufferIndex < bufferSize then .ok { r1 with g := endForward 4 6 r1.g }
      else .ok r1
    | .fault => .fault
    | .fuel => .fuel
  | 4 =>
    match sampleLoop mem (fun toWave => toWave ≥ r.g.toStartWave) neg32
        (fun toWave => toWave - r.g.delta) add32 room r with
    | .ok r1 =>
      if r1.bufferIndex < bufferSize then
        .ok { r1 with g := { r1.g with state := 1, toWave := r1.g.toStartWave } }
      else .ok r1
    | .fault => .fault
    | .fuel => .fuel
  | 5 =>
    if r.bufferIndex < bufferSize then extraSample mem (fun v => v) add32 2 r
    else .ok r
  | 6 =>
    if r.bufferIndex < bufferSize then extraSample mem neg32 add32 4 r
    else .ok r
  | _ => .ok r

/-- The outer loop of `addSamplesToBuffer`, run for at most `fuel` iterations. -/
def WaveGenerator.addSamplesLoop (mem : Mem) (bufferSize : Nat) : Nat → Run → Outcome Run
  | 0, r => if r.bufferIndex < bufferSize then .fuel else .ok r
  | fuel + 1, r =>
    if r.bufferIndex < bufferSize then
      match WaveGenerator.addSamplesCase mem bufferSize r with
      | .ok r1 => WaveGenerator.addSamplesLoop mem bufferSize fuel r1
      | .fault => .fault
      | .fuel => .fuel
    else .ok r

/-- `WaveGenerator::addSamplesToBuffer`: the voice and the buffer afterwards. -/
def WaveGenerator.addSamplesToBuffer (mem : Mem) (fuel : Nat) (g : WaveGenerator)
    (buffer : List Nat) (bufferSize : Nat) : Outcome (WaveGenerator × List Nat) :=
  match WaveGenerator.addSamplesLoop mem bufferSize fuel
      { g := g, buffer := buffer, bufferIndex := 0 } with
  | .ok r => .ok (r.g, r.buffer)
  | .fault => .fault
  | .fuel => .fuel

/-! ## The frame loop `PolySynth::loop` -/

/-- The two statements `if (wg->clearStopping()) { wg->toNextFreeWaveGenerator =
toFreeWaveGenerators; toFreeWaveGenerators = wg; }` for the voice `index`, after its
fill call left it as `g` and the buffer as `buffer`. -/
def PolySynth.pollVoice (s : PolySynth) (index : Fin 16) (g : WaveGenerator)
    (buffer : List Nat) : PolySynth :=
  if (g.clearStopping).1 then
    { s with
      buffer := buffer
      wavegenerators := Function.update s.wavegenerators index
        { (g.clearStopping).2 with toNextFreeWaveGenerator := s.toFreeWaveGenerators }
      toFreeWaveGenerators := some index }
  else
    { s with
      buffer := buffer
      wavegenerators := Function.update s.wavegenerators index (g.clearStopping).2 }

/-- First part of `PolySynth::loop`: voice 0 fills the buffer and is polled. -/
def PolySynth.loopFirst (mem : Mem) (fuel : Nat) (s : PolySynth) : Outcome PolySynth :=
  match (s.wavegenerators 0).setSamplesInBuffer mem fuel s.buffer BUFFERSIZE with
  | .ok (g, buffer) => .ok (s.pollVoice 0 g buffer)
  | .fault => .fault
  | .fuel => .fuel

/-- Body of the `for` loop of `PolySynth::loop` for one voice. -/
def PolySynth.loopBody (mem : Mem) (fuel : Nat) (s : PolySynth) (index : Fin 16) :
    Outcome PolySynth :=
  match (s.wavegenerators index).addSamplesToBuffer mem fuel s.buffer BUFFERSIZE with
  | .ok (g, buffer) => .ok (s.pollVoice index g buffer)
  | .fault => .fault
  | .fuel => .fuel

/-- The loop `for (index = ...; index < NROFWAVEGENERATORS; index++)` of
`PolySynth::loop`; `count` bounds the remaining iterations. -/
def PolySynth.loopRest (mem : Mem) (fuel : Nat) : Nat → Nat → PolySynth → Outcome PolySynth
  | 0, _, s => .ok s
  | count + 1, index, s =>
    if h : index < 16 then
      match s.loopBody mem fuel ⟨index, h⟩ with
      | .ok s1 => PolySynth.loopRest mem fuel count (index + 1) s1
      | .fault => .fault
      | .fuel => .fuel
    else .ok s

/-- `PolySynth::loop` up to the hand-over of the buffer to the I2S driver; every fill
call may use up to `fuel` iterations of its outer loop. -/
def PolySynth.loop (mem : Mem) (fuel : Nat) (s : PolySynth) : Outcome PolySynth :=
  match s.loopFirst mem fuel with
  | .ok s1 => PolySynth.loopRest mem fuel NROFWAVEGENERATORS 1 s1
  | .fault => .fault
  | .fuel => .fuel

/-! ## The free list and the initial object -/

/-- Follow the `toNextFreeWaveGenerator` links from `head` for at most `n` voices;
`none` when the chain has not reached `NULL` by then. -/
def freeListFrom (next : Fin 16 → Option (Fin 16)) : Nat → Option (Fin 16) →
    Option (List (Fin 16))
  | _, none => some []
  | 0, some _ => none
  | n + 1, some v =>
    match freeListFrom next n (next v) with
    | some l => some (v :: l)
    | none => none

/-- The voices on the free list, head first (`none` if the links form a cycle). -/
def PolySynth.freeList (s : PolySynth) : Option (List (Fin 16)) :=
  freeListFrom (fun i => (s.wavegenerators i).toNextFreeWaveGenerator)
    NROFWAVEGENERATORS s.toFreeWaveGenerators

/-- A `WaveGenerator` as its default member initialisers leave it in the statically
allocated `PolySynth` object. -/
def WaveGenerator.fresh : WaveGenerator :=
  { toNextFreeWaveGenerator := none, state := 0, stopping := false, toStartWave := 0,
    toEndWave := 0, toWave := 0, delta := 0, sampleError := 0, totalError := 0 }

/-- The statically allocated `PolySynth` object after `initFreeWaveGenerators`, with
`tables` the per-note data stored by `WaveFactory::begin`; `begin` never writes
`Note::toWaveGenerator`, which is therefore still `NULL`. -/
def PolySynth.initial (tables : Fin 128 → Note) : PolySynth :=
  PolySynth.initFreeWaveGenerators
    { buffer := List.replicate BUFFERSIZE 0
      wavegenerators := fun _ => WaveGenerator.fresh
      notes := fun i => { tables i with toWaveGenerator := none }
      toFreeWaveGenerators := none
      style := 1 }

/-- States the program reaches from the initial object by calls that return. -/
inductive Reachable (mem : Mem) (tables : Fin 128 → Note) : PolySynth → Prop where
  | init : Reachable mem tables (PolySynth.initial tables)
  | startNote {s s1 : PolySynth} (pitch velocity : Nat) :
      Reachable mem tables s → s.startNote pitch velocity = .ok s1 → Reachable mem tables s1
  | stopNote {s s1 : PolySynth} (pitch velocity : Nat) :
      Reachable mem tables s → s.stopNote pitch velocity = .ok s1 → Reachable mem tables s1
  | setStyle {s : PolySynth} (newStyle : Nat) :
      Reachable mem tables s → Reachable mem tables (s.setStyle newStyle)
  | loop {s s1 : PolySynth} (fuel : Nat) :
      Reachable mem tables s → s.loop mem fuel = .ok s1 → Reachable mem tables s1

/-! ## Proof device: the two fill functions as instances of one loop -/

/-- The `switch` of the fill functions with the store operator as a parameter
(`write old v` is `v` in `setSamplesInBuffer`, `old + v` in `addSamplesToBuffer`). -/
def fillCase (write : Nat → Nat → Nat) (mem : Mem) (bufferSize : Nat) (r : Run) :
    Outcome Run :=
  let room := bufferSize - r.bufferIndex
  match r.g.state with
  | 0 => idleLoop write room r
  | 1 =>
    match sampleLoop mem (fun toWave => toWave ≤ r.g.toEndWave) (fun v => v)
        (fun toWave => toWave + r.g.delta) write room r with
    | .ok r1 =>
      if r1.bufferIndex < bufferSize then .ok { r1 with g := endForward 2 5 r1.g }
      else .ok r1
    | .fault => .fault
    | .fuel => .fuel
  | 2 =>
    match sampleLoop mem (fun toWave => toWave ≥ r.g.toStartWave) (fun v => v)
        (fun toWave => toWave - r.g.delta) write room r with
    | .ok r1 =>
      if r1.bufferIndex < bufferSize then
        .ok { r1 with g := { r1.g with
                             state := if r1.g.stopping then 0 else 3
                             toWave := r1.g.toStartWave } }
      else .ok r1
    | .fault => .fault
    | .fuel => .fuel
  | 3 =>
    match sampleLoop mem (fun toWave => toWave ≤ r.g.toEndWave) neg32
        (fun toWave => toWave + r.g.delta) write room r with
    | .ok r1 =>
      if r1.bufferIndex < bufferSize then .ok { r1 with g := endForward 4 6 r1.g }
      else .ok r1
    | .fault => .fault
    | .fuel => .fuel
  | 4 =>
    match sampleLoop mem (fun toWave => toWave ≥ r.g.toStartWave) neg32
        (fun toWave => toWave - r.g.delta) write room r with
    | .ok r1 =>
      if r1.bufferIndex < bufferSize then
        .ok { r1 with g := { r1.g with state := 1, toWave := r1.g.toStartWave } }
      else .ok r1
    | .fault => .fault
    | .fuel => .fuel
  | 5 =>
    if r.bufferIndex < bufferSize then extraSample mem (fun v => v) write 2 r
    else .ok r
  | 6 =>
    if r.bufferIndex < bufferSize then extraSample mem neg32 write 4 r
    else .ok r
  | _ => .ok r

/-- The outer loop over `fillCase`. -/
def fillLoop (write : Nat → Nat → Nat) (mem : Mem) (bufferSize : Nat) :
    Nat → Run → Outcome Run
  | 0, r => if r.bufferIndex < bufferSize then .fuel else .ok r
  | fuel + 1, r =>
    if r.bufferIndex < bufferSize then
      match fillCase write mem bufferSize r with
      | .ok r1 => fillLoop write mem bufferSize fuel r1
      | .fault => .fault
      | .fuel => .fuel
    else .ok r

/-! ## Auxiliary definitions used in the statements -/

/-- A table-less note entry, used to build concrete states. -/
def Note.blank : Note :=
  { samples := fun _ => 0, sampleSizes := fun _ => 0, sampleErrors := fun _ => 0,
    midiNoteNr := 0, delta := 0, toWaveGenerator := none }

/-- The fields no fill call writes. -/
def WaveGenerator.SameBinding (g g1 : WaveGenerator) : Prop :=
  g1.toNextFreeWaveGenerator = g.toNextFreeWaveGenerator ∧ g1.stopping = g.stopping ∧
  g1.toStartWave = g.toStartWave ∧ g1.toEndWave = g.toEndWave ∧ g1.delta = g.delta ∧
  g1.sampleError = g.sampleError

/-- The state transitions one `switch` execution can take. -/
def WaveGenerator.Transition (g g1 : WaveGenerator) : Prop :=
  (g.state = 0 → g1.state = 0) ∧
  (g.state = 1 → g1.state = 1 ∨ g1.state = 2 ∨ g1.state = 5) ∧
  (g.state = 2 → g1.state = 2 ∨ (g1.state = 0 ∧ g.stopping = true) ∨
    (g1.state = 3 ∧ g.stopping = false)) ∧
  (g.state = 3 → g1.state = 3 ∨ g1.state = 4 ∨ g1.state = 6) ∧
  (g.state = 4 → g1.state = 4 ∨ g1.state = 1) ∧
  (g.state = 5 → g1.state = 5 ∨ g1.state = 2) ∧
  (g.state = 6 → g1.state = 6 ∨ g1.state = 4) ∧
  (6 < g.state → g1.state = g.state)

/-- What a complete fill call can do to the state of a voice. -/
def WaveGenerator.RunTransition (g g1 : WaveGenerator) : Prop :=
  (g.state = 0 → g1.state = 0) ∧
  (g1.state = 0 → g.state = 0 ∨ g.stopping = true) ∧
  (g.state ≤ 6 → g1.state ≤ 6)

/-- Memory holding the words of `table` from word address `base` on, nothing else. -/
def tableMem (base : Int) (table : List Nat) : Mem :=
  fun a => if a < base then none else table[(a - base).toNat]?

/-- The calls `PolySynth::loop` makes on one voice. -/
inductive VoiceCall where
  | setSamplesInBuffer (fuel : Nat) (buffer : List Nat) (bufferSize : Nat)
  | addSamplesToBuffer (fuel : Nat) (buffer : List Nat) (bufferSize : Nat)
  | clearStopping

/-- Run a sequence of calls on a voice; for every `clearStopping` call, in order, record
whether the voice was Idle when it was made and what it returned. -/
def pollTrace (mem : Mem) : List VoiceCall → WaveGenerator → Outcome (List (Bool × Bool))
  | [], _ => .ok []
  | .clearStopping :: calls, g =>
    match pollTrace mem calls (g.clearStopping).2 with
    | .ok l => .ok ((g.state == 0, (g.clearStopping).1) :: l)
    | .fault => .fault
    | .fuel => .fuel
  | .setSamplesInBuffer fuel buffer bufferSize :: calls, g =>
    match g.setSamplesInBuffer mem fuel buffer bufferSize with
    | .ok (g1, _) => pollTrace mem calls g1
    | .fault => .fault
    | .fuel => .fuel
  | .addSamplesToBuffer fuel buffer bufferSize :: calls, g =>
    match g.addSamplesToBuffer mem fuel buffer bufferSize with
    | .ok (g1, _) => pollTrace mem calls g1
    | .fault => .fault
    | .fuel => .fuel

/-- A three-word table at word address 100. -/
def demoMem : Mem := tableMem 100 [0, 5, 9]

/-- A voice bound to the table of `demoMem` with stride 1 and no correction. -/
def demoVoice : WaveGenerator := WaveGenerator.fresh.setWave 100 3 1 0

/-- The voice `demoVoice` after a stop request, in Down1 with two samples to go. -/
def demoDown : Run :=
  { g := { demoVoice.clearWave with state := 2, toWave := 101 }, buffer := [7, 7, 7],
    bufferIndex := 0 }

/-- What one `switch` execution of `setSamplesInBuffer` makes of `demoDown`. -/
def demoIdle : Run :=
  { g := { demoVoice.clearWave with state := 0, toWave := 100 }, buffer := [5, 0, 7],
    bufferIndex := 2 }

/-- Successive `startNote` calls, one per (pitch, velocity) pair. -/
def PolySynth.startNotes (s : PolySynth) : List (Nat × Nat) → Outcome PolySynth
  | [] => .ok s
  | pv :: rest =>
    match s.startNote pv.1 pv.2 with
    | .ok s1 => s1.startNotes rest
    | .fault => .fault
    | .fuel => .fuel

/-- Voice `V` is on the free list. -/
def PolySynth.onFreeList (s : PolySynth) (V : Fin 16) : Prop :=
  V ∈ (s.freeList).getD []

/-- Note entry `i` references voice `V`. -/
def PolySynth.boundTo (s : PolySynth) (i : Fin 128) (V : Fin 16) : Prop :=
  (s.notes i).toWaveGenerator = some V

instance (s : PolySynth) (V : Fin 16) : Decidable (s.onFreeList V) := by
  unfold PolySynth.onFreeList
  infer_instance

instance (s : PolySynth) (i : Fin 128) (V : Fin 16) : Decidable (s.boundTo i V) := by
  unfold PolySynth.boundTo
  infer_instance

/-- The value of an outcome that is known to be `ok`. -/
def Outcome.get {α : Type} (o : Outcome α) (d : α) : α :=
  match o with
  | .ok a => a
  | .fault => d
  | .fuel => d

/-- Note entries that all use the three-word table of `demoMem` with stride 1. -/
def demoTables : Fin 128 → Note :=
  fun _ => { samples := fun _ => 100, sampleSizes := fun _ => 3, sampleErrors := fun _ => 0,
             midiNoteNr := 0, delta := 1, toWaveGenerator := none }

/-- The initial object after `startNote(69, 100)`. -/
def demoBound : PolySynth :=
  ((PolySynth.initial demoTables).startNote 69 100).get (PolySynth.initial demoTables)

/-- The table data of a note entry, which only `WaveFactory::begin` writes. -/
def Note.SameTable (n n1 : Note) : Prop :=
  n1.samples = n.samples ∧ n1.sampleSizes = n.sampleSizes ∧
  n1.sampleErrors = n.sampleErrors ∧ n1.delta = n.delta ∧ n1.midiNoteNr = n.midiNoteNr

/-- The sixteen voices in slot order. -/
def allVoices : List (Fin 16) := [0, 1, 2, 3, 4, 5, 6, 7, 8, 9, 10, 11, 12, 13, 14, 15]

/-- Sixteen note-on events with pairwise distinct pitches. -/
def demoChord : List (Nat × Nat) :=
  [(21, 100), (33, 90), (45, 80), (57, 70), (69, 60), (81, 50), (93, 40), (105, 30),
   (117, 20), (22, 10), (34, 100), (46, 100), (58, 100), (70, 100), (82, 100), (127, 100)]

/-- The pool invariant: the links form the duplicate-free list `L` of Idle voices with
clear stop flag; a referenced voice is off the list, not Idle and not stopping; no
voice is referenced twice; every Idle voice is on the list. -/
structure PoolInv (s : PolySynth) (L : List (Fin 16)) : Prop where
  free : s.freeList = some L
  nodup : L.Nodup
  idle : ∀ V ∈ L, (s.wavegenerators V).state = 0 ∧ (s.wavegenerators V).stopping = false
  bound : ∀ i V, (s.notes i).toWaveGenerator = some V →
    V ∉ L ∧ (s.wavegenerators V).stopping = false ∧ (s.wavegenerators V).state ≠ 0
  unique : ∀ i j V, (s.notes i).toWaveGenerator = some V →
    (s.notes j).toWaveGenerator = some V → i = j
  idleFree : ∀ V, (s.wavegenerators V).state = 0 → V ∈ L

/-- The partition of the voices as the data model states it: every voice is either on
the free list and unreferenced, or off the free list and referenced by exactly one
note entry. -/
def PolySynth.Partition (s : PolySynth) : Prop :=
  ∀ V : Fin 16, (s.onFreeList V ∧ ¬ ∃ i, s.boundTo i V) ∨
    (¬ s.onFreeList V ∧ ∃ i, s.boundTo i V ∧ ∀ j, s.boundTo j V → j = i)

/-- The state `demoBound` after `stopNote(69, 100)`. -/
def demoReleased : PolySynth :=
  (demoBound.stopNote 69 100).get demoBound

/-! ## The automaton sample by sample -/

/-- What the fill loops do between two evaluations of their loop conditions: either one
sample is emitted (`some v`: one pass through the body of an inner loop, or the extra
sample of case 5 or 6), or a pass ends and the state changes (`none`: the code after an
inner loop whose table condition has become false). -/
def WaveGenerator.microStep (mem : Mem) (g : WaveGenerator) :
    Outcome (WaveGenerator × Option Nat) :=
  match g.state with
  | 0 => .ok (g, some STEREOBASE)
  | 1 =>
    if g.toWave ≤ g.toEndWave then
      match mem g.toWave with
      | none => .fault
      | some v => .ok ({ g with toWave := g.toWave + g.delta }, some v)
    else .ok (endForward 2 5 g, none)
  | 2 =>
    if g.toWave ≥ g.toStartWave then
      match mem g.toWave with
      | none => .fault
      | some v => .ok ({ g with toWave := g.toWave - g.delta }, some v)
    else .ok ({ g with state := if g.stopping then 0 else 3, toWave := g.toStartWave }, none)
  | 3 =>
    if g.toWave ≤ g.toEndWave then
      match mem g.toWave with
      | none => .fault
      | some v => .ok ({ g with toWave := g.toWave + g.delta }, some (neg32 v))
    else .ok (endForward 4 6 g, none)
  | 4 =>
    if g.toWave ≥ g.toStartWave then
      match mem g.toWave with
      | none => .fault
      | some v => .ok ({ g with toWave := g.toWave - g.delta }, some (neg32 v))
    else .ok ({ g with state := 1, toWave := g.toStartWave }, none)
  | 5 =>
    match mem g.toEndWave with
    | none => .fault
    | some v =>
      .ok ({ g with totalError := sub32 g.totalError WAVEPARTERRORMAX, state := 2 }, some v)
  | 6 =>
    match mem g.toEndWave with
    | none => .fault
    | some v =>
      .ok ({ g with totalError := sub32 g.totalError WAVEPARTERRORMAX, state := 4 },
        some (neg32 v))
  | _ => .ok (g, none)

/-- `Emits mem g out g1`: started as `g`, the automaton emits exactly the samples `out`
and is `g1` right after the last of them. -/
inductive Emits (mem : Mem) : WaveGenerator → List Nat → WaveGenerator → Prop where
  | nil (g : WaveGenerator) : Emits mem g [] g
  | emit {g g1 g2 : WaveGenerator} {v : Nat} {out : List Nat} :
      g.microStep mem = .ok (g1, some v) → Emits mem g1 out g2 → Emits mem g (v :: out) g2
  | quiet {g g1 g2 : WaveGenerator} {out : List Nat} :
      g.microStep mem = .ok (g1, none) → Emits mem g1 out g2 → out ≠ [] → Emits mem g out g2

/-- The buffer after the words `out` have been stored from index `i` on, `write old v`
being the stored word. -/
def writeList (write : Nat → Nat → Nat) : List Nat → Nat → List Nat → List Nat
  | buffer, _, [] => buffer
  | buffer, i, v :: out =>
    writeList write (buffer.set i (write (buffer.getD i 0) v)) (i + 1) out

/-- One fill call for `n` samples on a zeroed buffer of `n` words, with
`addSamplesToBuffer` if `add` is set and with `setSamplesInBuffer` otherwise. -/
def WaveGenerator.fill (mem : Mem) (fuel : Nat) (g : WaveGenerator) (add : Bool) (n : Nat) :
    Outcome (WaveGenerator × List Nat) :=
  if add then g.addSamplesToBuffer mem fuel (List.replicate n 0) n
  else g.setSamplesInBuffer mem fuel (List.replicate n 0) n

/-- Successive fill calls on one voice, one per entry of `frames` (which fill function,
how many samples); the result is all the words produced, in order, and the voice
afterwards. -/
def playFrames (mem : Mem) (fuel : Nat) : List (Bool × Nat) → WaveGenerator →
    Outcome (List Nat × WaveGenerator)
  | [], g => .ok ([], g)
  | frame :: frames, g =>
    match g.fill mem fuel frame.1 frame.2 with
    | .ok (g1, buffer1) =>
      match playFrames mem fuel frames g1 with
      | .ok (out, g2) => .ok (buffer1 ++ out, g2)
      | .fault => .fault
      | .fuel => .fuel
    | .fault => .fault
    | .fuel => .fuel

/-- Invariant of a voice bound to the table of `L` words at `w` with stride `d`, with
`last` the sample emitted last: in state 5 and at the start of Down1 the cursor is at
the table end; later in Down1 the cursor is a multiple of `d` below the table end and
`last` is the word one stride above the cursor, which lies in the table. -/
def WaveGenerator.DownInv (mem : Mem) (w L d : Int) (g : WaveGenerator)
    (last : Option Nat) : Prop :=
  g.toStartWave = w ∧ g.toEndWave = w + (L - 1) ∧ g.delta = d ∧
  (g.state = 5 → g.toWave = g.toEndWave) ∧
  (g.state = 2 → g.toWave = g.toEndWave ∨
    (∃ j : Nat, g.toWave + (j + 1) * d = g.toEndWave ∧ w ≤ g.toWave + d ∧
      last = mem (g.toWave + d) ∧ last ≠ none))

/-- The sample emitted last after `out` has been emitted, `last` being the one before. -/
def lastOf (out : List Nat) (last : Option Nat) : Option Nat :=
  match out.getLast? with
  | some v => some v
  | none => last

/-- A four-word table at word address 100. -/
def demoMem4 : Mem := tableMem 100 [0, 5, 9, 12]

/-! ## The square table of `WaveFactory::makeSquareNote` -/

/-- `monoSample` in `makeSquareNote`: `upValue*TOP` with `upValue = 0.9`, that is
1827.9 (the double product lies within 1e-9 of it), truncated by the conversion to
`uint32_t`. -/
def squareMonoSample : Nat := (9 * TOP) / 10

/-- The table `makeSquareNote` builds: `bufferSize` times the word
`(monoSample << 16) | monoSample`. -/
def makeSquareNote (bufferSize : Nat) : List Nat :=
  List.replicate bufferSize ((squareMonoSample <<< 16) ||| squareMonoSample)

/-- `bufferSize` of the pitch class of A0 (pitch 21): `frequency` is
`27.5*pow(base, 0) = 27.5`, so `SAMPLERATE/(frequency*4)` is `192000/110 = 1745.45...`,
truncated by the conversion to `int`. -/
def bufferSizeA0 : Nat := (SAMPLERATE * 10) / (275 * 4)

/-- Memory with the square table of pitch class A0 at word address 1000. -/
def squareMem : Mem := tableMem 1000 (makeSquareNote bufferSizeA0)

/-- The note entry of pitch 117 after `WaveFactory::begin`, square style only: eight
octaves above pitch 21 it shares that pitch's table and has stride `2^8`; `begin` does
not write `sampleErrors` of the notes above the first octave, which is 0 in the
statically allocated object. Other entries are left blank. -/
def squareTables : Fin 128 → Note :=
  fun i =>
    if i = 117 then
      { samples := fun st => if st = 2 then 1000 else 0
        sampleSizes := fun st => if st = 2 then (bufferSizeA0 : Int) else 0
        sampleErrors := fun _ => 0
        midiNoteNr := 117
        delta := 256
        toWaveGenerator := none }
    else Note.blank

/-- Voice 0 as `startNote(117, 100)` binds it in square style. -/
def squareVoice : WaveGenerator :=
  { toNextFreeWaveGenerator := some 1, state := 1, stopping := false, toStartWave := 1000,
    toEndWave := 2744, toWave := 1000, delta := 256, sampleError := 0, totalError := 0 }

/-- The state of the voice after a fill call. -/
def stateAfter (o : Outcome (WaveGenerator × List Nat)) : Option Nat :=
  match o with
  | .ok (g, _) => some g.state
  | .fault => none
  | .fuel => none

/-- The words a fill call left in the buffer. -/
def samplesOf (o : Outcome (WaveGenerator × List Nat)) : List Nat :=
  match o with
  | .ok (_, buffer) => buffer
  | .fault => []
  | .fuel => []

/-! ## The error accumulator -/

/-- Invariant of the accumulator of a voice whose correction unit is at most
`WAVEPARTERRORMAX`: above the threshold exactly in states 5 and 6, and there at most
twice the threshold. -/
def WaveGenerator.ErrInv (g : WaveGenerator) : Prop :=
  g.sampleError ≤ WAVEPARTERRORMAX ∧
  ((g.state = 5 ∨ g.state = 6) →
    WAVEPARTERRORMAX < g.totalError ∧ g.totalError ≤ 2 * WAVEPARTERRORMAX) ∧
  (¬ (g.state = 5 ∨ g.state = 6) → g.totalError ≤ WAVEPARTERRORMAX)

/-! ## Packing and mixing of samples -/

/-- The packed stereo word `(monoSample << 16) | monoSample` of the factory, in
`uint32_t` arithmetic. -/
def pack (monoSample : Nat) : Nat := ((monoSample <<< 16) % UINT32) ||| monoSample

/-- What a voice adds to a mixed word: the table word `pack m`, or its negation in the
inverted passes (`c.1` set). -/
def contribution (c : Bool × Nat) : Nat :=
  if c.1 then neg32 (pack c.2) else pack c.2

/-- The signed level a contribution stands for. -/
def signedLevel (c : Bool × Nat) : Int :=
  if c.1 then -(c.2 : Int) else (c.2 : Int)

/-- One buffer word after `PolySynth::loop`: the first voice stores its word, the other
voices add theirs. -/
def mixWords : List Nat → Nat
  | [] => 0
  | first :: others => others.foldl add32 first

/-! ## Voices in play -/

/-- A voice bound to the readable table of `L ≥ 1` words at `w` with stride `d ≥ 1`, in
one of the states 0 to 6, with the cursor where the passes leave it: in a forward pass
from the table start up to one stride past the table end, in a backward pass from the
table end down to one stride before the table start, in states 5 and 6 at the table
end. -/
def WaveGenerator.Playing (mem : Mem) (w L d : Int) (g : WaveGenerator) : Prop :=
  g.toStartWave = w ∧ g.toEndWave = w + (L - 1) ∧ g.delta = d ∧ 1 ≤ L ∧ 1 ≤ d ∧
  g.state ≤ 6 ∧
  (∀ k : Int, 0 ≤ k → k < L → mem (w + k) ≠ none) ∧
  ((g.state = 1 ∨ g.state = 3) → w ≤ g.toWave ∧ g.toWave ≤ g.toEndWave + d) ∧
  ((g.state = 2 ∨ g.state = 4) → g.toWave ≤ g.toEndWave ∧ w ≤ g.toWave + d) ∧
  ((g.state = 5 ∨ g.state = 6) → g.toWave = g.toEndWave)

/-- A voice the fill functions can run: Idle, or in play on some table. -/
def WaveGenerator.Sound (mem : Mem) (g : WaveGenerator) : Prop :=
  g.state = 0 ∨ ∃ w L d, g.Playing mem w L d

/-- The next execution of the `switch` emits at least one sample. -/
def WaveGenerator.Ready (g : WaveGenerator) : Prop :=
  g.state = 0 ∨ ((g.state = 1 ∨ g.state = 3) ∧ g.toWave ≤ g.toEndWave) ∨
  ((g.state = 2 ∨ g.state = 4) ∧ g.toStartWave ≤ g.toWave) ∨ g.state = 5 ∨ g.state = 6


/-! ## The first cycle of a voice -/

/-- The voice `g` at another point of its cycle: state, cursor and accumulator replaced,
binding kept. -/
def WaveGenerator.inPass (g : WaveGenerator) (state : Nat) (toWave : Int) (totalError : Nat) :
    WaveGenerator :=
  { g with state := state, toWave := toWave, totalError := totalError }


/-! ## WaveFactory.cpp: building the tables -/

/-- Numerator of `SAMPLERATE/frequency` for the pitch `index`. In `WaveFactory::begin`,
`frequency = tuningbase*pow(base, index-MINMIDINOTES)` with `tuningbase = 27.50 = 275/10`
and `base = 1.059463094 = 1059463094/10^9`, so `SAMPLERATE/frequency` is the fraction
`periodNum index / periodDen index`. The program evaluates these expressions in `double`;
for the twelve pitches it calls the `make...Note` functions with, the exact quotients lie
more than 0.02 (`bufferSize`) and 0.006 (`sampleError`) from the next integer, far
beyond the rounding error of the `double` evaluation, so the truncated results are those
of the exact arithmetic used here. -/
def periodNum (index : Nat) : Nat := SAMPLERATE * 10 * (10 ^ 9) ^ (index - MINMIDINOTES)

/-- Denominator of `SAMPLERATE/frequency` for the pitch `index`. -/
def periodDen (index : Nat) : Nat := 275 * 1059463094 ^ (index - MINMIDINOTES)

/-- The statement `int bufferSize = (SAMPLERATE/(frequency*4));` of the three
`make...Note` functions. -/
def quarterSize (index : Nat) : Nat := periodNum index / (periodDen index * 4)

/-- The statements `nrOfSamples = (SAMPLERATE/frequency); error = nrOfSamples -
trunc(nrOfSamples); uint32_t sampleError = (error*WAVEPARTERRORMAX);`. -/
def sampleErrorOf (index : Nat) : Nat :=
  (periodNum index % periodDen index) * WAVEPARTERRORMAX / periodDen index

/-- The heap the tables are allocated on: the words stored so far, the first free word
address and the number of `malloc` calls. `malloc` is a bump allocator that never
fails. -/
structure Heap where
  mem : Mem
  next : Int
  count : Nat

/-- An empty heap starting at word address `start`. -/
def Heap.start (start : Int) : Heap := { mem := fun _ => none, next := start, count := 0 }

/-- The statement `buffer = (uint32_t *) malloc(bufferSize*4)` followed by the loop
`buffer[index] = v` that stores the table. -/
def Heap.store (h : Heap) (table : List Nat) : Int × Heap :=
  (h.next,
   { mem := fun a =>
       if h.next ≤ a ∧ a < h.next + table.length then table[(a - h.next).toNat]? else h.mem a
     next := h.next + table.length
     count := h.count + 1 })

/-- The member `notes` of class `WaveFactory`, with the heap its tables live on. -/
structure WaveFactory where
  notes : Fin 128 → Note
  heap : Heap

/-- `WaveFactory::makeSinusNote` for `midiNoteNr = index`; `sinusSample bufferSize i`
stands for `monoSample`, the conversion to `uint32_t` of `sin(angle)*TOP` in iteration
`i`. -/
def WaveFactory.makeSinusNote (sinusSample : Nat → Nat → Nat) (h : Heap) (toNote : Note)
    (index : Nat) : Heap × Note :=
  let bufferSize := quarterSize index
  let stored := h.store ((List.range bufferSize).map (fun i => pack (sinusSample bufferSize i)))
  (stored.2,
   { toNote with
     samples := Function.update toNote.samples 0 stored.1
     sampleSizes := Function.update toNote.sampleSizes 0 (bufferSize : Int)
     sampleErrors := Function.update toNote.sampleErrors 0 (sampleErrorOf index) })

/-- `WaveFactory::makeTriangleNote` for `midiNoteNr = index`; `triangleSample bufferSize i`
stands for `monoSample`, the conversion to `uint32_t` of `upValue*TOP` in iteration
`i`. -/
def WaveFactory.makeTriangleNote (triangleSample : Nat → Nat → Nat) (h : Heap) (toNote : Note)
    (index : Nat) : Heap × Note :=
  let bufferSize := quarterSize index
  let stored :=
    h.store ((List.range bufferSize).map (fun i => pack (triangleSample bufferSize i)))
  (stored.2,
   { toNote with
     samples := Function.update toNote.samples 1 stored.1
     sampleSizes := Function.update toNote.sampleSizes 1 (bufferSize : Int)
     sampleErrors := Function.update toNote.sampleErrors 1 (sampleErrorOf index) })

/-- `WaveFactory::makeSquareNote` for `midiNoteNr = index`: every word is `0.9*TOP`
truncated, packed. -/
def WaveFactory.makeSquareNote (h : Heap) (toNote : Note) (index : Nat) : Heap × Note :=
  let bufferSize := quarterSize index
  let stored := h.store (List.replicate bufferSize (pack squareMonoSample))
  (stored.2,
   { toNote with
     samples := Function.update toNote.samples 2 stored.1
     sampleSizes := Function.update toNote.sampleSizes 2 (bufferSize : Int)
     sampleErrors := Function.update toNote.sampleErrors 2 (sampleErrorOf index) })

/-- Body of the first loop of `WaveFactory::begin`. -/
def WaveFactory.baseNote (sinusSample triangleSample : Nat → Nat → Nat) (f : WaveFactory)
    (index : Fin 128) : WaveFactory :=
  let sinus := WaveFactory.makeSinusNote sinusSample f.heap (f.notes index) index
  let triangle := WaveFactory.makeTriangleNote triangleSample sinus.1 sinus.2 index
  let square := WaveFactory.makeSquareNote triangle.1 triangle.2 index
  { notes := Function.update f.notes index
      { square.2 with delta := 1, midiNoteNr := (index.val : Int) }
    heap := square.1 }

/-- The first loop of `WaveFactory::begin`,
`for(index = MINMIDINOTES; index < (MINMIDINOTES+NROFNOTESINOCTAVE); index++)`. -/
def WaveFactory.firstOctave (sinusSample triangleSample : Nat → Nat → Nat) :
    Nat → Nat → WaveFactory → Outcome WaveFactory
  | 0, index, f => if index < MINMIDINOTES + NROFNOTESINOCTAVE then .fuel else .ok f
  | fuel + 1, index, f =>
    if index < MINMIDINOTES + NROFNOTESINOCTAVE then
      if h : index < 128 then
        WaveFactory.firstOctave sinusSample triangleSample fuel (index + 1)
          (f.baseNote sinusSample triangleSample ⟨index, h⟩)
      else .fault
    else .ok f

/-- The variables of the second loop of `WaveFactory::begin`; `toBaseNote` is an index
into `notes`. -/
structure OctaveLoop where
  f : WaveFactory
  multiplier : Int
  baseCount : Nat
  toBaseNote : Nat

/-- Body of the second loop of `WaveFactory::begin`. -/
def WaveFactory.higherNote (st : OctaveLoop) (index : Fin 128) : Outcome OctaveLoop :=
  if h : st.toBaseNote < 128 then
    let base := st.f.notes ⟨st.toBaseNote, h⟩
    let toNote := st.f.notes index
    let notes := Function.update st.f.notes index
      { toNote with
        midiNoteNr := (index.val : Int)
        samples := base.samples
        sampleSizes := base.sampleSizes
        delta := st.multiplier }
    let baseCount := st.baseCount + 1
    if baseCount = NROFNOTESINOCTAVE then
      .ok { f := { st.f with notes := notes }, multiplier := st.multiplier * 2, baseCount := 0,
            toBaseNote := MINMIDINOTES }
    else
      .ok { f := { st.f with notes := notes }, multiplier := st.multiplier,
            baseCount := baseCount, toBaseNote := st.toBaseNote + 1 }
  else .fault

/-- The second loop of `WaveFactory::begin`,
`for(index = (MINMIDINOTES+NROFNOTESINOCTAVE); index <= MAXMIDINOTES; index++)`. -/
def WaveFactory.higherOctaves : Nat → Nat → OctaveLoop → Outcome OctaveLoop
  | 0, index, st => if index ≤ MAXMIDINOTES then .fuel else .ok st
  | fuel + 1, index, st =>
    if index ≤ MAXMIDINOTES then
      if h : index < 128 then
        match WaveFactory.higherNote st ⟨index, h⟩ with
        | .ok st1 => WaveFactory.higherOctaves fuel (index + 1) st1
        | .fault => .fault
        | .fuel => .fuel
      else .fault
    else .ok st

/-- `WaveFactory::begin`; each loop may use up to `fuel` iterations. -/
def WaveFactory.begin (sinusSample triangleSample : Nat → Nat → Nat) (fuel : Nat)
    (f : WaveFactory) : Outcome WaveFactory :=
  match WaveFactory.firstOctave sinusSample triangleSample fuel MINMIDINOTES f with
  | .ok f1 =>
    match WaveFactory.higherOctaves fuel (MINMIDINOTES + NROFNOTESINOCTAVE)
        { f := f1, multiplier := 2, baseCount := 0, toBaseNote := MINMIDINOTES } with
    | .ok st => .ok st.f
    | .fault => .fault
    | .fuel => .fuel
  | .fault => .fault
  | .fuel => .fuel

/-- The `WaveFactory` member of the statically allocated `PolySynth` object before
`begin`: all-zero note entries, nothing allocated; the heap starts at `start`. -/
def WaveFactory.zero (start : Int) : WaveFactory :=
  { notes := fun _ => Note.blank, heap := Heap.start start }

/-- The block of `L` words at `w` has been allocated and stored on the heap. -/
def Heap.Holds (h : Heap) (w L : Int) : Prop :=
  (∀ k : Int, 0 ≤ k → k < L → h.mem (w + k) ≠ none) ∧ w + L ≤ h.next

/-- What the first loop of `WaveFactory::begin` leaves in the entry of the base-octave
pitch `p`: stride 1 and, for each style, a table of `quarterSize p` words of its own on
the heap and the correction unit `sampleErrorOf p`. -/
def Note.BaseBuilt (note : Note) (h : Heap) (p : Nat) : Prop :=
  note.delta = 1 ∧ note.midiNoteNr = (p : Int) ∧
  ∀ s : Fin 3, note.sampleSizes s = (quarterSize p : Int) ∧
    note.sampleErrors s = sampleErrorOf p ∧ h.Holds (note.samples s) (quarterSize p)


/-! ## The mix of one period -/

/-- Word `i` of the samples `outs j` of voice `j`, for a slot number `j` below 16. -/
def slotWord (outs : Fin 16 → List Nat) (j i : Nat) : Nat :=
  if h : j < 16 then (outs ⟨j, h⟩).getD i 0 else 0


/-! ## Release of a voice -/

/-- Number of samples a pass still emits when its cursor is `span` words before the word
it runs up to (`span < 0`: the cursor is past it), with stride `d`. -/
def stepsLeft (span d : Int) : Nat := ((span + d) / d).toNat

/-- Samples left in a forward pass. -/
def WaveGenerator.upLeft (g : WaveGenerator) : Nat := stepsLeft (g.toEndWave - g.toWave) g.delta

/-- Samples left in a backward pass. -/
def WaveGenerator.downLeft (g : WaveGenerator) : Nat :=
  stepsLeft (g.toWave - g.toStartWave) g.delta

/-- Samples of a complete pass over the table, `ceil(L/d)`. -/
def WaveGenerator.passLength (g : WaveGenerator) : Nat :=
  stepsLeft (g.toEndWave - g.toStartWave) g.delta

/-- Samples a voice with a pending stop request emits before it is Idle, when each
forward pass still to be completed is followed by `e` extra samples. -/
def WaveGenerator.remain (e : Nat) (g : WaveGenerator) : Nat :=
  match g.state with
  | 1 => g.upLeft + e + g.passLength
  | 2 => g.downLeft
  | 3 => g.upLeft + e + g.passLength + g.passLength + e + g.passLength
  | 4 => g.downLeft + g.passLength + e + g.passLength
  | 5 => e + g.passLength
  | 6 => e + g.passLength + g.passLength + e + g.passLength
  | _ => 0

/-- The state after `n` periods of `PolySynth::loop`. -/
def PolySynth.loops (mem : Mem) (fuel : Nat) : Nat → PolySynth → Outcome PolySynth
  | 0, s => .ok s
  | n + 1, s =>
    match s.loop mem fuel with
    | .ok s1 => PolySynth.loops mem fuel n s1
    | .fault => .fault
    | .fuel => .fuel


/-! ## Reachable states on built tables -/

/-- The tables are built: every supported pitch has, in every style, a readable table of
at least one word in `mem` and a stride of at least 1. -/
def TablesReady (mem : Mem) (tables : Fin 128 → Note) : Prop :=
  ∀ p : Fin 128, 21 ≤ p.val → ∀ st : Fin 3,
    1 ≤ (tables p).sampleSizes st ∧ 1 ≤ (tables p).delta ∧
    ∀ k : Int, 0 ≤ k → k < (tables p).sampleSizes st → mem ((tables p).samples st + k) ≠ none

/-- The buffer has BUFFERSIZE words, every voice is Idle or in play on a table, and the
note entries carry the tables. -/
def PolySynth.Fit (mem : Mem) (tables : Fin 128 → Note) (s : PolySynth) : Prop :=
  s.buffer.length = BUFFERSIZE ∧ (∀ k, (s.wavegenerators k).Sound mem) ∧
  ∀ p, (tables p).SameTable (s.notes p)


/-! ## Where the cursor is between calls -/

/-- The cursor is at most one stride outside the table. -/
def WaveGenerator.Within (g : WaveGenerator) : Prop :=
  g.toStartWave - g.delta ≤ g.toWave ∧ g.toWave ≤ g.toEndWave + g.delta

/-! ## The table words a pass visits -/

/-- The table offsets a forward pass (cases 1 and 3) reads, in order: the cursor starts
at `toStartWave` and advances by `delta = d` while it is at most `toEndWave`, so it reads
the offsets `0, d, 2d, ...` up to `L - 1`. -/
def upIndices (L d : Nat) : List Nat :=
  (List.range ((L - 1) / d + 1)).map (fun k => k * d)

/-- The table offsets a backward pass (cases 2 and 4) reads, in order: the cursor starts
at `toEndWave` and retreats by `delta = d` while it is at least `toStartWave`, so it reads
the offsets `L - 1, L - 1 - d, ...` down to 0. -/
def downIndices (L d : Nat) : List Nat :=
  (List.range ((L - 1) / d + 1)).map (fun k => L - 1 - k * d)

/-! ## Counting forward passes and extra samples -/

/-- Ghost counter: 1 if the micro step taken from `g` with result `o` is the end of a
forward pass, the code after the inner loop of case 1 or case 3 (which adds `sampleError`
to `totalError`), and 0 otherwise. -/
def passExit (g : WaveGenerator) (o : Option Nat) : Nat :=
  if (g.state = 1 ∨ g.state = 3) ∧ o = none then 1 else 0

/-- Ghost counter: 1 if the micro step taken from `g` is the extra sample of case 5 or
case 6 (which subtracts `WAVEPARTERRORMAX` from `totalError`), and 0 otherwise. -/
def extraCount (g : WaveGenerator) : Nat :=
  if g.state = 5 ∨ g.state = 6 then 1 else 0

/-- The voice after a sequence of events, `true` for a call of `clearWave` and `false`
for one micro step of a fill function, together with the number of forward passes
completed and the number of extra samples emitted on the way. -/
def tally (mem : Mem) : List Bool → WaveGenerator → Outcome (WaveGenerator × Nat × Nat)
  | [], g => .ok (g, 0, 0)
  | true :: events, g => tally mem events g.clearWave
  | false :: events, g =>
    match g.microStep mem with
    | .ok (g1, o) =>
      match tally mem events g1 with
      | .ok (g2, passes, extras) => .ok (g2, passes + passExit g o, extras + extraCount g)
      | .fault => .fault
      | .fuel => .fuel
    | .fault => .fault
    | .fuel => .fuel

/-! ## The two lanes of a word -/

/-- The signed level the low 16-bit lane of a word stands for, in two's complement. -/
def laneLevel (v : Nat) : Int :=
  if v % 65536 < 32768 then ((v % 65536 : Nat) : Int) else ((v % 65536 : Nat) : Int) - 65536

/-- The table `[0, 5, 9]` at the addresses 100..102, each level packed into both lanes
as the factory does (`pack m = m * 65537`). -/
def demoPacked : Mem := tableMem 100 [0, 5 * 65537, 9 * 65537]

/-! ## A voice left behind by a second note-on -/

/-- Voice `V` is referenced by no note entry, its stop flag is clear and it is not
Idle. -/
def PolySynth.Orphan (s : PolySynth) (V : Fin 16) : Prop :=
  (∀ i, (s.notes i).toWaveGenerator ≠ some V) ∧
  (s.wavegenerators V).stopping = false ∧ (s.wavegenerators V).state ≠ 0

/-- `Evolves mem allowed s s1`: the object gets from `s` to `s1` by calls that return,
of `startNote` and `stopNote` with pitches in `allowed`, of `setStyle` and of `loop`. -/
inductive Evolves (mem : Mem) (allowed : Nat → Prop) : PolySynth → PolySynth → Prop where
  | refl (s : PolySynth) : Evolves mem allowed s s
  | startNote {s s1 s2 : PolySynth} (pitch velocity : Nat) :
      Evolves mem allowed s s1 → allowed pitch → s1.startNote pitch velocity = .ok s2 →
      Evolves mem allowed s s2
  | stopNote {s s1 s2 : PolySynth} (pitch velocity : Nat) :
      Evolves mem allowed s s1 → allowed pitch → s1.stopNote pitch velocity = .ok s2 →
      Evolves mem allowed s s2
  | setStyle {s s1 : PolySynth} (newStyle : Nat) :
      Evolves mem allowed s s1 → Evolves mem allowed s (s1.setStyle newStyle)
  | loop {s s1 s2 : PolySynth} (fuel : Nat) :
      Evolves mem allowed s s1 → s1.loop mem fuel = .ok s2 → Evolves mem allowed s s2

/-! ## Basic facts -/

theorem setSamplesCase_eq_fillCase (mem : Mem) (bufferSize : Nat) (r : Run) :
    WaveGenerator.setSamplesCase mem bufferSize r = fillCase (fun _ v => v) mem bufferSize r :=
  rfl

theorem addSamplesCase_eq_fillCase (mem : Mem) (bufferSize : Nat) (r : Run) :
    WaveGenerator.addSamplesCase mem bufferSize r = fillCase add32 mem bufferSize r :=
  rfl

theorem setSamplesLoop_eq_fillLoop (mem : Mem) (bufferSize fuel : Nat) (r : Run) :
    WaveGenerator.setSamplesLoop mem bufferSize fuel r
      = fillLoop (fun _ v => v) mem bufferSize fuel r := by
  induction fuel generalizing r with
  | zero => rfl
  | succ n ih =>
    simp only [WaveGenerator.setSamplesLoop, fillLoop, setSamplesCase_eq_fillCase]
    split
    · split <;> simp_all
    · rfl

theorem addSamplesLoop_eq_fillLoop (mem : Mem) (bufferSize fuel : Nat) (r : Run) :
    WaveGenerator.addSamplesLoop mem bufferSize fuel r
      = fillLoop add32 mem bufferSize fuel r := by
  induction fuel generalizing r with
  | zero => rfl
  | succ n ih =>
    simp only [WaveGenerator.addSamplesLoop, fillLoop, addSamplesCase_eq_fillCase]
    split
    · split <;> simp_all
    · rfl

theorem getNote_out_of_range (pitch : Nat) (hp : pitch < MINMIDINOTES ∨ MAXMIDINOTES < pitch) :
    WaveFactory.getNote pitch = none := by
  unfold WaveFactory.getNote
  rw [dif_neg]
  omega

theorem getNote_in_range (i : Fin 128) (h : MINMIDINOTES ≤ i.val) :
    WaveFactory.getNote i.val = some i := by
  unfold WaveFactory.getNote
  have h2 : i.val ≤ MAXMIDINOTES := by
    have := i.isLt
    simp only [MAXMIDINOTES]
    omega
  rw [dif_pos ⟨h, h2⟩]

/-- The links alone determine the free list. -/
theorem freeList_congr (s s1 : PolySynth)
    (hhead : s1.toFreeWaveGenerators = s.toFreeWaveGenerators)
    (hnext : ∀ W, (s1.wavegenerators W).toNextFreeWaveGenerator
      = (s.wavegenerators W).toNextFreeWaveGenerator) :
    s1.freeList = s.freeList := by
  unfold PolySynth.freeList
  rw [hhead]
  congr 1
  funext W
  exact hnext W

/-! ## Note handling: pitches outside the supported range -/

/-- C1 (code bug). With a voice on the free list and a pitch outside [21,127],
`startNote` does not return: `getNote` yields `NULL` and the entry is dereferenced
(after the head voice has already been unlinked), so the call is not a no-op. -/
theorem startNote_out_of_range_faults (s : PolySynth) (pitch velocity : Nat)
    (hfree : s.toFreeWaveGenerators ≠ none)
    (hp : pitch < MINMIDINOTES ∨ MAXMIDINOTES < pitch) :
    s.startNote pitch velocity = Outcome.fault := by
  unfold PolySynth.startNote
  cases hf : s.toFreeWaveGenerators with
  | none => exact absurd hf hfree
  | some V => simp [getNote_out_of_range pitch hp]

theorem startNote_out_of_range_faults_witness :
    (PolySynth.initial (fun _ => Note.blank)).startNote 20 100 = Outcome.fault :=
  startNote_out_of_range_faults (PolySynth.initial (fun _ => Note.blank)) 20 100
    (by decide) (by decide)

/-- C2 (code bug). For a pitch outside [21,127] `stopNote` does not return: the `NULL`
result of `getNote` is dereferenced to read `toWaveGenerator`. -/
theorem stopNote_out_of_range_faults (s : PolySynth) (pitch velocity : Nat)
    (hp : pitch < MINMIDINOTES ∨ MAXMIDINOTES < pitch) :
    s.stopNote pitch velocity = Outcome.fault := by
  unfold PolySynth.stopNote
  simp [getNote_out_of_range pitch hp]

theorem stopNote_out_of_range_faults_witness :
    (PolySynth.initial (fun _ => Note.blank)).stopNote 128 0 = Outcome.fault :=
  stopNote_out_of_range_faults (PolySynth.initial (fun _ => Note.blank)) 128 0 (by decide)

/-! ## Note handling: `stopNote` -/

/-- C3. For a pitch in [21,127] whose note entry has no bound voice, `stopNote`
returns and leaves the whole state (voices, note entries, free list, buffer, style)
unchanged. -/
theorem stopNote_unbound_noop (s : PolySynth) (velocity : Nat) (i : Fin 128)
    (hlo : MINMIDINOTES ≤ i.val) (hnone : (s.notes i).toWaveGenerator = none) :
    s.stopNote i.val velocity = Outcome.ok s := by
  unfold PolySynth.stopNote
  rw [getNote_in_range i hlo]
  simp only [hnone]
  have hn : Function.update s.notes i { s.notes i with toWaveGenerator := none } = s.notes := by
    rw [← hnone]
    exact Function.update_eq_self i s.notes
  rw [hn]

theorem stopNote_unbound_noop_witness :
    (PolySynth.initial (fun _ => Note.blank)).stopNote 60 100
      = Outcome.ok (PolySynth.initial (fun _ => Note.blank)) :=
  stopNote_unbound_noop (PolySynth.initial (fun _ => Note.blank)) 100 60 (by decide) rfl

/-- Effect of `stopNote` on a note entry that references voice `V`. -/
theorem stopNote_sets_stop (s : PolySynth) (velocity : Nat) (i : Fin 128) (V : Fin 16)
    (hlo : MINMIDINOTES ≤ i.val) (href : (s.notes i).toWaveGenerator = some V) :
    ∃ s1, s.stopNote i.val velocity = Outcome.ok s1 ∧
      s1.wavegenerators V = { s.wavegenerators V with stopping := true } ∧
      (∀ W, W ≠ V → s1.wavegenerators W = s.wavegenerators W) ∧
      s1.notes i = { s.notes i with toWaveGenerator := none } ∧
      (∀ j, j ≠ i → s1.notes j = s.notes j) ∧
      s1.toFreeWaveGenerators = s.toFreeWaveGenerators ∧
      (∀ W, (s1.wavegenerators W).toNextFreeWaveGenerator
        = (s.wavegenerators W).toNextFreeWaveGenerator) ∧
      s1.freeList = s.freeList ∧
      s1.buffer = s.buffer ∧ s1.style = s.style := by
  unfold PolySynth.stopNote
  rw [getNote_in_range i hlo]
  simp only [href]
  have hnext : ∀ W, (Function.update s.wavegenerators V
      (s.wavegenerators V).clearWave W).toNextFreeWaveGenerator
      = (s.wavegenerators W).toNextFreeWaveGenerator := by
    intro W
    by_cases hW : W = V
    · subst hW; simp [WaveGenerator.clearWave]
    · simp [Function.update_noteq hW]
  refine ⟨_, rfl, ?_, ?_, ?_, ?_, rfl, hnext, ?_, rfl, rfl⟩
  · simp [WaveGenerator.clearWave]
  · intro W hW
    simp [Function.update_noteq hW]
  · simp
  · intro j hj
    simp [Function.update_noteq hj]
  · exact freeList_congr _ _ rfl hnext

/-- C6. For a pitch in [21,127] whose note entry references voice `V`, `stopNote`
sets the stop flag of `V` and nothing else in `V`, clears the voice reference of that
note entry, and changes no other voice, no other note entry, not the free list (head
and links), not the buffer and not the style. -/
theorem stopNote_bound (s : PolySynth) (velocity : Nat) (i : Fin 128) (V : Fin 16)
    (hlo : MINMIDINOTES ≤ i.val) (href : (s.notes i).toWaveGenerator = some V) :
    ∃ s1, s.stopNote i.val velocity = Outcome.ok s1 ∧
      s1.wavegenerators V = { s.wavegenerators V with stopping := true } ∧
      (∀ W, W ≠ V → s1.wavegenerators W = s.wavegenerators W) ∧
      s1.notes i = { s.notes i with toWaveGenerator := none } ∧
      (∀ j, j ≠ i → s1.notes j = s.notes j) ∧
      s1.toFreeWaveGenerators = s.toFreeWaveGenerators ∧
      (∀ W, (s1.wavegenerators W).toNextFreeWaveGenerator
        = (s.wavegenerators W).toNextFreeWaveGenerator) ∧
      s1.freeList = s.freeList ∧
      s1.buffer = s.buffer ∧ s1.style = s.style := by
  unfold PolySynth.stopNote
  rw [getNote_in_range i hlo]
  simp only [href]
  have hnext : ∀ W, (Function.update s.wavegenerators V
      (s.wavegenerators V).clearWave W).toNextFreeWaveGenerator
      = (s.wavegenerators W).toNextFreeWaveGenerator := by
    intro W
    by_cases hW : W = V
    · subst hW; simp [WaveGenerator.clearWave]
    · simp [Function.update_noteq hW]
  refine ⟨_, rfl, ?_, ?_, ?_, ?_, rfl, hnext, ?_, rfl, rfl⟩
  · simp [WaveGenerator.clearWave]
  · intro W hW
    simp [Function.update_noteq hW]
  · simp
  · intro j hj
    simp [Function.update_noteq hj]
  · exact freeList_congr _ _ rfl hnext

/-! ## Frame generation: what a fill call can change in a voice -/

theorem sameBinding_refl (g : WaveGenerator) : g.SameBinding g :=
  ⟨rfl, rfl, rfl, rfl, rfl, rfl⟩

theorem sameBinding_trans {g g1 g2 : WaveGenerator} (h1 : g.SameBinding g1)
    (h2 : g1.SameBinding g2) : g.SameBinding g2 := by
  unfold WaveGenerator.SameBinding at h1 h2 ⊢
  refine ⟨?_, ?_, ?_, ?_, ?_, ?_⟩
  · rw [h2.1, h1.1]
  · rw [h2.2.1, h1.2.1]
  · rw [h2.2.2.1, h1.2.2.1]
  · rw [h2.2.2.2.1, h1.2.2.2.1]
  · rw [h2.2.2.2.2.1, h1.2.2.2.2.1]
  · rw [h2.2.2.2.2.2, h1.2.2.2.2.2]

theorem idleLoop_voice (write : Nat → Nat → Nat) (room : Nat) (r r1 : Run)
    (h : idleLoop write room r = Outcome.ok r1) : r1.g = r.g := by
  induction room generalizing r with
  | zero =>
    simp only [idleLoop, Outcome.ok.injEq] at h
    rw [← h]
  | succ n ih =>
    simp only [idleLoop] at h
    split at h
    · have h2 := ih _ h
      exact h2
    · cases h

theorem sampleLoop_voice (mem : Mem) (cond : Int → Bool) (val : Nat → Nat) (next : Int → Int)
    (write : Nat → Nat → Nat) (room : Nat) (r r1 : Run)
    (h : sampleLoop mem cond val next write room r = Outcome.ok r1) :
    r.g.SameBinding r1.g ∧ r1.g.state = r.g.state ∧ r1.g.totalError = r.g.totalError := by
  induction room generalizing r with
  | zero =>
    simp only [sampleLoop, Outcome.ok.injEq] at h
    rw [← h]
    exact ⟨sameBinding_refl _, rfl, rfl⟩
  | succ n ih =>
    simp only [sampleLoop] at h
    split at h
    · split at h
      · cases h
      · split at h
        · have h2 := ih _ h
          exact h2
        · cases h
    · simp only [Outcome.ok.injEq] at h
      rw [← h]
      exact ⟨sameBinding_refl _, rfl, rfl⟩

theorem extraSample_voice (mem : Mem) (val : Nat → Nat) (write : Nat → Nat → Nat)
    (newState : Nat) (r r1 : Run) (h : extraSample mem val write newState r = Outcome.ok r1) :
    r.g.SameBinding r1.g ∧ r1.g.state = newState ∧ r1.g.toWave = r.g.toWave ∧
      r1.g.totalError = sub32 r.g.totalError WAVEPARTERRORMAX := by
  unfold extraSample at h
  split at h
  · cases h
  · split at h
    · simp only [Outcome.ok.injEq] at h
      rw [← h]
      exact ⟨sameBinding_refl _, rfl, rfl, rfl⟩
    · cases h

theorem endForward_state (down extra : Nat) (g : WaveGenerator) :
    (endForward down extra g).state = down ∨ (endForward down extra g).state = extra := by
  unfold endForward
  simp only
  split
  · right; rfl
  · left; rfl

theorem endForward_binding (down extra : Nat) (g : WaveGenerator) :
    g.SameBinding (endForward down extra g) :=
  ⟨rfl, rfl, rfl, rfl, rfl, rfl⟩

theorem fillCase_spec (write : Nat → Nat → Nat) (mem : Mem) (bufferSize : Nat) (r r1 : Run)
    (h : fillCase write mem bufferSize r = Outcome.ok r1) :
    r.g.SameBinding r1.g ∧ r.g.Transition r1.g := by
  unfold fillCase at h
  simp only at h
  split at h
  · -- case 0
    have hv := idleLoop_voice _ _ _ _ h
    rw [hv]
    refine ⟨sameBinding_refl _, ?_⟩
    simp_all [WaveGenerator.Transition]
  · -- case 1
    split at h
    · rename_i r2 hl
      obtain ⟨hb, hst, -⟩ := sampleLoop_voice _ _ _ _ _ _ _ _ hl
      split at h
      · simp only [Outcome.ok.injEq] at h
        subst h
        refine ⟨sameBinding_trans hb (endForward_binding 2 5 r2.g), ?_⟩
        have hs := endForward_state 2 5 r2.g
        simp only [WaveGenerator.Transition]
        rcases hs with hs | hs <;> simp_all
      · simp only [Outcome.ok.injEq] at h
        subst h
        refine ⟨hb, ?_⟩
        simp_all [WaveGenerator.Transition]
    · cases h
    · cases h
  · -- case 2
    split at h
    · rename_i r2 hl
      obtain ⟨hb, hst, -⟩ := sampleLoop_voice _ _ _ _ _ _ _ _ hl
      split at h
      · simp only [Outcome.ok.injEq] at h
        subst h
        refine ⟨sameBinding_trans hb ⟨rfl, rfl, rfl, rfl, rfl, rfl⟩, ?_⟩
        have hstop : r2.g.stopping = r.g.stopping := hb.2.1
        simp only [WaveGenerator.Transition]
        cases hc : r.g.stopping <;> simp_all
      · simp only [Outcome.ok.injEq] at h
        subst h
        refine ⟨hb, ?_⟩
        simp_all [WaveGenerator.Transition]
    · cases h
    · cases h
  · -- case 3
    split at h
    · rename_i r2 hl
      obtain ⟨hb, hst, -⟩ := sampleLoop_voice _ _ _ _ _ _ _ _ hl
      split at h
      · simp only [Outcome.ok.injEq] at h
        subst h
        refine ⟨sameBinding_trans hb (endForward_binding 4 6 r2.g), ?_⟩
        have hs := endForward_state 4 6 r2.g
        simp only [WaveGenerator.Transition]
        rcases hs with hs | hs <;> simp_all
      · simp only [Outcome.ok.injEq] at h
        subst h
        refine ⟨hb, ?_⟩
        simp_all [WaveGenerator.Transition]
    · cases h
    · cases h
  · -- case 4
    split at h
    · rename_i r2 hl
      obtain ⟨hb, hst, -⟩ := sampleLoop_voice _ _ _ _ _ _ _ _ hl
      split at h
      · simp only [Outcome.ok.injEq] at h
        subst h
        refine ⟨sameBinding_trans hb ⟨rfl, rfl, rfl, rfl, rfl, rfl⟩, ?_⟩
        simp_all [WaveGenerator.Transition]
      · simp only [Outcome.ok.injEq] at h
        subst h
        refine ⟨hb, ?_⟩
        simp_all [WaveGenerator.Transition]
    · cases h
    · cases h
  · -- case 5
    split at h
    · obtain ⟨hb, hst, -⟩ := extraSample_voice _ _ _ _ _ _ h
      refine ⟨hb, ?_⟩
      simp_all [WaveGenerator.Transition]
    · simp only [Outcome.ok.injEq] at h
      subst h
      refine ⟨sameBinding_refl _, ?_⟩
      simp_all [WaveGenerator.Transition]
  · -- case 6
    split at h
    · obtain ⟨hb, hst, -⟩ := extraSample_voice _ _ _ _ _ _ h
      refine ⟨hb, ?_⟩
      simp_all [WaveGenerator.Transition]
    · simp only [Outcome.ok.injEq] at h
      subst h
      refine ⟨sameBinding_refl _, ?_⟩
      simp_all [WaveGenerator.Transition]
  · -- default
    simp only [Outcome.ok.injEq] at h
    subst h
    exact ⟨sameBinding_refl _, by simp_all [WaveGenerator.Transition]⟩

theorem transition_run {g g1 : WaveGenerator} (h : g.Transition g1) : g.RunTransition g1 := by
  obtain ⟨h0, h1, h2, h3, h4, h5, h6, h7⟩ := h
  refine ⟨h0, ?_, ?_⟩
  · intro hz
    by_contra hne
    push_neg at hne
    have hs : g.state = 1 ∨ g.state = 2 ∨ g.state = 3 ∨ g.state = 4 ∨ g.state = 5 ∨
        g.state = 6 ∨ 6 < g.state := by omega
    rcases hs with hs | hs | hs | hs | hs | hs | hs
    · have := h1 hs; omega
    · rcases h2 hs with h | h | h
      · omega
      · exact hne.2 h.2
      · omega
    · have := h3 hs; omega
    · have := h4 hs; omega
    · have := h5 hs; omega
    · have := h6 hs; omega
    · have := h7 hs; omega
  · intro hle
    have hs : g.state = 0 ∨ g.state = 1 ∨ g.state = 2 ∨ g.state = 3 ∨ g.state = 4 ∨
        g.state = 5 ∨ g.state = 6 := by omega
    rcases hs with hs | hs | hs | hs | hs | hs | hs
    · have := h0 hs; omega
    · have := h1 hs; omega
    · have := h2 hs; omega
    · have := h3 hs; omega
    · have := h4 hs; omega
    · have := h5 hs; omega
    · have := h6 hs; omega

theorem runTransition_trans {g g1 g2 : WaveGenerator} (hb : g.SameBinding g1)
    (h1 : g.RunTransition g1) (h2 : g1.RunTransition g2) : g.RunTransition g2 := by
  obtain ⟨a0, a1, a2⟩ := h1
  obtain ⟨b0, b1, b2⟩ := h2
  refine ⟨fun h => b0 (a0 h), ?_, fun h => b2 (a2 h)⟩
  intro hz
  rcases b1 hz with h | h
  · exact a1 h
  · right
    rw [← hb.2.1]
    exact h

theorem fillLoop_spec (write : Nat → Nat → Nat) (mem : Mem) (bufferSize fuel : Nat)
    (r r1 : Run) (h : fillLoop write mem bufferSize fuel r = Outcome.ok r1) :
    r.g.SameBinding r1.g ∧ r.g.RunTransition r1.g := by
  induction fuel generalizing r with
  | zero =>
    simp only [fillLoop] at h
    split at h
    · cases h
    · simp only [Outcome.ok.injEq] at h
      subst h
      exact ⟨sameBinding_refl _, fun h => h, fun h => Or.inl h, fun h => h⟩
  | succ n ih =>
    simp only [fillLoop] at h
    split at h
    · split at h
      · rename_i r2 hc
        obtain ⟨hb, ht⟩ := fillCase_spec _ _ _ _ _ hc
        obtain ⟨hb2, ht2⟩ := ih _ h
        exact ⟨sameBinding_trans hb hb2, runTransition_trans hb (transition_run ht) ht2⟩
      · cases h
      · cases h
    · simp only [Outcome.ok.injEq] at h
      subst h
      exact ⟨sameBinding_refl _, fun h => h, fun h => Or.inl h, fun h => h⟩

theorem setSamplesInBuffer_spec (mem : Mem) (fuel : Nat) (g g1 : WaveGenerator)
    (buffer buffer1 : List Nat) (bufferSize : Nat)
    (h : g.setSamplesInBuffer mem fuel buffer bufferSize = Outcome.ok (g1, buffer1)) :
    g.SameBinding g1 ∧ g.RunTransition g1 := by
  unfold WaveGenerator.setSamplesInBuffer at h
  rw [setSamplesLoop_eq_fillLoop] at h
  split at h
  · rename_i r hl
    simp only [Outcome.ok.injEq, Prod.mk.injEq] at h
    have := fillLoop_spec _ _ _ _ _ _ hl
    rw [h.1] at this
    exact this
  · cases h
  · cases h

theorem addSamplesToBuffer_spec (mem : Mem) (fuel : Nat) (g g1 : WaveGenerator)
    (buffer buffer1 : List Nat) (bufferSize : Nat)
    (h : g.addSamplesToBuffer mem fuel buffer bufferSize = Outcome.ok (g1, buffer1)) :
    g.SameBinding g1 ∧ g.RunTransition g1 := by
  unfold WaveGenerator.addSamplesToBuffer at h
  rw [addSamplesLoop_eq_fillLoop] at h
  split at h
  · rename_i r hl
    simp only [Outcome.ok.injEq, Prod.mk.injEq] at h
    have := fillLoop_spec _ _ _ _ _ _ hl
    rw [h.1] at this
    exact this
  · cases h
  · cases h


theorem stopNote_bound_witness :
    ∃ s1, demoBound.stopNote 69 100 = Outcome.ok s1 ∧
      (s1.wavegenerators 0).stopping = true ∧ (s1.notes 69).toWaveGenerator = none := by
  obtain ⟨s1, h1, h2, -, h3, -⟩ := stopNote_bound demoBound 100 69 0 (by decide) (by decide)
  exact ⟨s1, h1, by rw [h2], by rw [h3]⟩

/-! ## The automaton reaches Idle only from Down1 -/

/-- C7. In `setSamplesInBuffer` and in `addSamplesToBuffer`, one execution of the
`switch` started in state 1, 3, 4, 5 or 6 never ends in state 0, whatever the stop
flag; started in state 2 it ends in state 2, 0 or 3, and when it leaves state 2 it
ends in state 0 if and only if the stop flag is set. -/
theorem idle_only_from_down1 (mem : Mem) (bufferSize : Nat) (r r1 : Run)
    (h : WaveGenerator.setSamplesCase mem bufferSize r = Outcome.ok r1 ∨
      WaveGenerator.addSamplesCase mem bufferSize r = Outcome.ok r1) :
    ((r.g.state = 1 ∨ r.g.state = 3 ∨ r.g.state = 4 ∨ r.g.state = 5 ∨ r.g.state = 6) →
      r1.g.state ≠ 0) ∧
    (r.g.state = 2 → (r1.g.state = 2 ∨ r1.g.state = 0 ∨ r1.g.state = 3) ∧
      (r1.g.state ≠ 2 → (r1.g.state = 0 ↔ r.g.stopping = true))) := by
  have hspec : r.g.Transition r1.g := by
    rcases h with h | h
    · rw [setSamplesCase_eq_fillCase] at h
      exact (fillCase_spec _ _ _ _ _ h).2
    · rw [addSamplesCase_eq_fillCase] at h
      exact (fillCase_spec _ _ _ _ _ h).2
  obtain ⟨-, h1, h2, h3, h4, h5, h6, -⟩ := hspec
  refine ⟨?_, ?_⟩
  · intro hs
    rcases hs with hs | hs | hs | hs | hs
    · have := h1 hs; omega
    · have := h3 hs; omega
    · have := h4 hs; omega
    · have := h5 hs; omega
    · have := h6 hs; omega
  · intro hs
    have := h2 hs
    refine ⟨by omega, ?_⟩
    intro hne
    rcases this with h | h | h
    · exact absurd h hne
    · simp [h.1, h.2]
    · simp [h.1, h.2]

theorem idle_only_from_down1_witness :
    WaveGenerator.setSamplesCase demoMem 3 demoDown = Outcome.ok demoIdle ∧
    (demoIdle.g.state = 0 ↔ demoDown.g.stopping = true) :=
  ⟨by decide,
   ((idle_only_from_down1 demoMem 3 demoDown demoIdle (Or.inl (by decide))).2 rfl).2
     (by decide)⟩

/-! ## `clearStopping` -/

theorem pollTrace_not_stopping (mem : Mem) (calls : List VoiceCall) (g : WaveGenerator)
    (l : List (Bool × Bool)) (hs : g.stopping = false)
    (h : pollTrace mem calls g = Outcome.ok l) : ∀ e ∈ l, e.2 = false := by
  induction calls generalizing g l with
  | nil =>
    simp only [pollTrace, Outcome.ok.injEq] at h
    subst h
    simp
  | cons c calls ih =>
    cases c with
    | clearStopping =>
      simp only [pollTrace] at h
      split at h
      · rename_i l1 h1
        simp only [Outcome.ok.injEq] at h
        subst h
        have hc : g.clearStopping = (false, g) := by simp [WaveGenerator.clearStopping, hs]
        rw [hc] at h1
        intro e he
        rcases List.mem_cons.mp he with he | he
        · rw [he, hc]
        · exact ih g l1 hs h1 e he
      · cases h
      · cases h
    | setSamplesInBuffer fuel buffer bufferSize =>
      simp only [pollTrace] at h
      split at h
      · rename_i g1 b1 h1
        have hb := (setSamplesInBuffer_spec _ _ _ _ _ _ _ h1).1
        exact ih g1 l (hb.2.1.trans hs) h
      · cases h
      · cases h
    | addSamplesToBuffer fuel buffer bufferSize =>
      simp only [pollTrace] at h
      split at h
      · rename_i g1 b1 h1
        have hb := (addSamplesToBuffer_spec _ _ _ _ _ _ _ h1).1
        exact ih g1 l (hb.2.1.trans hs) h
      · cases h
      · cases h

theorem pollTrace_stopping (mem : Mem) (calls : List VoiceCall) (g : WaveGenerator)
    (l : List (Bool × Bool)) (hs : g.stopping = true)
    (h : pollTrace mem calls g = Outcome.ok l) :
    ∀ l1 e l2, l = l1 ++ e :: l2 → (e.2 = true ↔ e.1 = true ∧ ∀ x ∈ l1, x.1 = false) := by
  induction calls generalizing g l with
  | nil =>
    simp only [pollTrace, Outcome.ok.injEq] at h
    subst h
    intro l1 e l2 hl
    simp at hl
  | cons c calls ih =>
    cases c with
    | clearStopping =>
      simp only [pollTrace] at h
      split at h
      · rename_i l0 h1
        simp only [Outcome.ok.injEq] at h
        subst h
        intro l1 e l2 hl
        by_cases hz : g.state = 0
        · have hc : g.clearStopping = (true, { g with stopping := false }) := by
            simp [WaveGenerator.clearStopping, hs, hz]
          rw [hc] at h1 hl
          have hfalse := pollTrace_not_stopping mem calls _ l0 rfl h1
          cases l1 with
          | nil =>
            simp only [List.nil_append, List.cons.injEq] at hl
            rw [← hl.1]
            simp [hz]
          | cons x l1 =>
            simp only [List.cons_append, List.cons.injEq] at hl
            have he : e.2 = false := hfalse e (by rw [hl.2]; simp)
            rw [he, ← hl.1]
            simp [hz]
        · have hc : g.clearStopping = (false, g) := by
            simp [WaveGenerator.clearStopping, hz]
          rw [hc] at h1 hl
          have hrec := ih g l0 hs h1
          cases l1 with
          | nil =>
            simp only [List.nil_append, List.cons.injEq] at hl
            rw [← hl.1]
            simp [hz]
          | cons x l1 =>
            simp only [List.cons_append, List.cons.injEq] at hl
            rw [hrec l1 e l2 hl.2, ← hl.1]
            simp [hz]
      · cases h
      · cases h
    | setSamplesInBuffer fuel buffer bufferSize =>
      simp only [pollTrace] at h
      split at h
      · rename_i g1 b1 h1
        have hb := (setSamplesInBuffer_spec _ _ _ _ _ _ _ h1).1
        exact ih g1 l (hb.2.1.trans hs) h
      · cases h
      · cases h
    | addSamplesToBuffer fuel buffer bufferSize =>
      simp only [pollTrace] at h
      split at h
      · rename_i g1 b1 h1
        have hb := (addSamplesToBuffer_spec _ _ _ _ _ _ _ h1).1
        exact ih g1 l (hb.2.1.trans hs) h
      · cases h
      · cases h


theorem pollTrace_count (mem : Mem) (calls : List VoiceCall) (g : WaveGenerator)
    (l : List (Bool × Bool)) (h : pollTrace mem calls g = Outcome.ok l) :
    List.countP (fun e => e.2) l ≤ 1 := by
  induction calls generalizing g l with
  | nil =>
    simp only [pollTrace, Outcome.ok.injEq] at h
    subst h
    simp
  | cons c calls ih =>
    cases c with
    | clearStopping =>
      simp only [pollTrace] at h
      split at h
      · rename_i l0 h1
        simp only [Outcome.ok.injEq] at h
        subst h
        by_cases hr : (g.clearStopping).1 = true
        · have hs : (g.clearStopping).2.stopping = false := by
            unfold WaveGenerator.clearStopping at hr ⊢
            split
            · rfl
            · rename_i hc
              simp [hc] at hr
          have hfalse := pollTrace_not_stopping mem calls _ l0 hs h1
          have h0 : List.countP (fun e => e.2) l0 = 0 := by
            rw [List.countP_eq_zero]
            intro e he
            simp [hfalse e he]
          rw [List.countP_cons, h0]
          simp [hr]
        · have := ih _ l0 h1
          rw [List.countP_cons]
          simp [hr]
          exact this
      · cases h
      · cases h
    | setSamplesInBuffer fuel buffer bufferSize =>
      simp only [pollTrace] at h
      split at h
      · exact ih _ l h
      · cases h
      · cases h
    | addSamplesToBuffer fuel buffer bufferSize =>
      simp only [pollTrace] at h
      split at h
      · exact ih _ l h
      · cases h
      · cases h

/-- C9. `clearStopping` returns true exactly when the stop flag is set and the state is
Idle (0); it then clears the stop flag and nothing else, so that a repeated call
returns false; when it returns false the voice is unchanged. In any sequence of fill
and `clearStopping` calls made on a voice after `clearWave` (no new `setWave`), at most
one `clearStopping` call returns true, and a call returns true exactly when it is the
first one made while the voice is Idle. -/
theorem clearStopping_once (g : WaveGenerator) (mem : Mem) (calls : List VoiceCall)
    (l : List (Bool × Bool)) (h : pollTrace mem calls g.clearWave = Outcome.ok l) :
    ((g.clearStopping).1 = true ↔ g.stopping = true ∧ g.state = 0) ∧
    ((g.clearStopping).1 = true →
      (g.clearStopping).2 = { g with stopping := false } ∧
      ((g.clearStopping).2.clearStopping).1 = false) ∧
    ((g.clearStopping).1 = false → (g.clearStopping).2 = g) ∧
    List.countP (fun e => e.2) l ≤ 1 ∧
    (∀ l1 e l2, l = l1 ++ e :: l2 → (e.2 = true ↔ e.1 = true ∧ ∀ x ∈ l1, x.1 = false)) := by
  refine ⟨?_, ?_, ?_, pollTrace_count mem calls _ l h,
    pollTrace_stopping mem calls _ l rfl h⟩
  · unfold WaveGenerator.clearStopping
    split
    · rename_i hc
      simpa using hc
    · rename_i hc
      simpa using hc
  · intro hr
    unfold WaveGenerator.clearStopping at hr ⊢
    split
    · simp
    · rename_i hc
      simp [hc] at hr
  · intro hr
    unfold WaveGenerator.clearStopping at hr ⊢
    split
    · rename_i hc
      simp [hc] at hr
    · rfl

theorem clearStopping_once_witness :
    pollTrace demoMem
      [VoiceCall.clearStopping, VoiceCall.setSamplesInBuffer 20 [7, 7, 7, 7, 7, 7, 7] 7,
       VoiceCall.clearStopping, VoiceCall.clearStopping] demoVoice.clearWave
      = Outcome.ok [(false, false), (true, true), (true, false)] ∧
    List.countP (fun e => e.2) [(false, false), (true, true), (true, false)] ≤ 1 :=
  ⟨by decide,
   (clearStopping_once demoVoice demoMem
      [VoiceCall.clearStopping, VoiceCall.setSamplesInBuffer 20 [7, 7, 7, 7, 7, 7, 7] 7,
       VoiceCall.clearStopping, VoiceCall.clearStopping]
      [(false, false), (true, true), (true, false)] (by decide)).2.2.2.1⟩


/-! ## The free list -/

theorem freeListFrom_succ (next : Fin 16 → Option (Fin 16)) (n : Nat) (head : Option (Fin 16))
    (l : List (Fin 16)) (h : freeListFrom next n head = some l) :
    freeListFrom next (n + 1) head = some l := by
  induction n generalizing head l with
  | zero =>
    cases head with
    | none => simpa [freeListFrom] using h
    | some v => simp [freeListFrom] at h
  | succ n ih =>
    cases head with
    | none => simpa [freeListFrom] using h
    | some v =>
      simp only [freeListFrom] at h ⊢
      cases hrec : freeListFrom next n (next v) with
      | none => simp [hrec] at h
      | some l1 =>
        rw [hrec] at h
        rw [ih _ _ hrec]
        exact h

theorem freeListFrom_length (next : Fin 16 → Option (Fin 16)) (n : Nat)
    (head : Option (Fin 16)) (l : List (Fin 16)) (h : freeListFrom next n head = some l) :
    l.length ≤ n := by
  induction n generalizing head l with
  | zero =>
    cases head with
    | none =>
      simp only [freeListFrom, Option.some.injEq] at h
      subst h
      simp
    | some v => simp [freeListFrom] at h
  | succ n ih =>
    cases head with
    | none =>
      simp only [freeListFrom, Option.some.injEq] at h
      subst h
      simp
    | some v =>
      simp only [freeListFrom] at h
      cases hrec : freeListFrom next n (next v) with
      | none => simp [hrec] at h
      | some l1 =>
        rw [hrec] at h
        simp only [Option.some.injEq] at h
        subst h
        have := ih _ _ hrec
        simp
        omega

/-- Fuel beyond the length of the chain is not needed. -/
theorem freeListFrom_fuel (next : Fin 16 → Option (Fin 16)) (n m : Nat)
    (head : Option (Fin 16)) (l : List (Fin 16)) (h : freeListFrom next n head = some l)
    (hm : l.length ≤ m) : freeListFrom next m head = some l := by
  induction n generalizing head l m with
  | zero =>
    cases head with
    | none =>
      simp only [freeListFrom, Option.some.injEq] at h
      subst h
      cases m <;> simp [freeListFrom]
    | some v => simp [freeListFrom] at h
  | succ n ih =>
    cases head with
    | none =>
      simp only [freeListFrom, Option.some.injEq] at h
      subst h
      cases m <;> simp [freeListFrom]
    | some v =>
      simp only [freeListFrom] at h
      cases hrec : freeListFrom next n (next v) with
      | none => simp [hrec] at h
      | some l1 =>
        rw [hrec] at h
        simp only [Option.some.injEq] at h
        subst h
        cases m with
        | zero => simp at hm
        | succ m =>
          simp only [List.length_cons, Nat.add_le_add_iff_right] at hm
          simp only [freeListFrom]
          rw [ih m _ _ hrec hm]

/-- Only the links of the voices on the chain matter. -/
theorem freeListFrom_congr (next next1 : Fin 16 → Option (Fin 16)) (n : Nat)
    (head : Option (Fin 16)) (l : List (Fin 16)) (h : freeListFrom next n head = some l)
    (hagree : ∀ V ∈ l, next1 V = next V) : freeListFrom next1 n head = some l := by
  induction n generalizing head l with
  | zero =>
    cases head with
    | none => simpa [freeListFrom] using h
    | some v => simp [freeListFrom] at h
  | succ n ih =>
    cases head with
    | none => simpa [freeListFrom] using h
    | some v =>
      simp only [freeListFrom] at h ⊢
      cases hrec : freeListFrom next n (next v) with
      | none => simp [hrec] at h
      | some l1 =>
        rw [hrec] at h
        simp only [Option.some.injEq] at h
        subst h
        rw [hagree v (by simp), ih _ _ hrec (fun V hV => hagree V (by simp [hV]))]

theorem freeList_cons (s : PolySynth) (V : Fin 16) (rest : List (Fin 16))
    (h : s.freeList = some (V :: rest)) :
    s.toFreeWaveGenerators = some V ∧
    freeListFrom (fun i => (s.wavegenerators i).toNextFreeWaveGenerator) NROFWAVEGENERATORS
      (s.wavegenerators V).toNextFreeWaveGenerator = some rest := by
  unfold PolySynth.freeList at h
  cases hh : s.toFreeWaveGenerators with
  | none => simp [hh, freeListFrom] at h
  | some W =>
    rw [hh] at h
    simp only [NROFWAVEGENERATORS, freeListFrom] at h
    cases hrec : freeListFrom (fun i => (s.wavegenerators i).toNextFreeWaveGenerator) 15
        (s.wavegenerators W).toNextFreeWaveGenerator with
    | none => simp [hrec] at h
    | some l1 =>
      rw [hrec] at h
      simp only [Option.some.injEq, List.cons.injEq] at h
      obtain ⟨h1, h2⟩ := h
      subst h1 h2
      exact ⟨rfl, freeListFrom_succ _ _ _ _ hrec⟩

theorem freeList_nil (s : PolySynth) (h : s.freeList = some []) :
    s.toFreeWaveGenerators = none := by
  unfold PolySynth.freeList at h
  cases hh : s.toFreeWaveGenerators with
  | none => rfl
  | some W =>
    rw [hh] at h
    simp only [NROFWAVEGENERATORS, freeListFrom] at h
    split at h <;> simp at h


/-! ## Note handling: `startNote` -/

/-- The state `startNote` produces when it binds voice `V` to note entry `i`. -/
theorem startNote_eq (s : PolySynth) (velocity : Nat) (i : Fin 128) (V : Fin 16) (st : Fin 3)
    (hlo : MINMIDINOTES ≤ i.val) (hstyle : s.style = st.val)
    (hhead : s.toFreeWaveGenerators = some V) :
    s.startNote i.val velocity = Outcome.ok
      { s with
        toFreeWaveGenerators := (s.wavegenerators V).toNextFreeWaveGenerator
        wavegenerators := Function.update s.wavegenerators V
          ((s.wavegenerators V).setWave ((s.notes i).samples st) ((s.notes i).sampleSizes st)
            (s.notes i).delta ((s.notes i).sampleErrors st))
        notes := Function.update s.notes i { s.notes i with toWaveGenerator := some V } } := by
  unfold PolySynth.startNote
  rw [hhead]
  simp only [getNote_in_range i hlo]
  have hlt : s.style < 3 := by rw [hstyle]; exact st.isLt
  rw [dif_pos hlt]
  have hst : (⟨s.style, hlt⟩ : Fin 3) = st := Fin.ext hstyle
  rw [hst]

theorem startNote_none (s : PolySynth) (pitch velocity : Nat)
    (hhead : s.toFreeWaveGenerators = none) : s.startNote pitch velocity = Outcome.ok s := by
  unfold PolySynth.startNote
  rw [hhead]

/-- Effect of `startNote` when the free list is `V :: rest`. -/
theorem startNote_pops_head (s : PolySynth) (velocity : Nat) (i : Fin 128) (V : Fin 16)
    (rest : List (Fin 16)) (st : Fin 3)
    (hlo : MINMIDINOTES ≤ i.val) (hstyle : s.style = st.val)
    (hfree : s.freeList = some (V :: rest)) :
    ∃ s1, s.startNote i.val velocity = Outcome.ok s1 ∧
      s1.freeList = some rest ∧
      s1.wavegenerators V =
        { toNextFreeWaveGenerator := (s.wavegenerators V).toNextFreeWaveGenerator
          state := 1
          stopping := false
          toStartWave := (s.notes i).samples st
          toEndWave := (s.notes i).samples st + ((s.notes i).sampleSizes st - 1)
          toWave := (s.notes i).samples st
          delta := (s.notes i).delta
          sampleError := (s.notes i).sampleErrors st
          totalError := 0 } ∧
      (∀ W, W ≠ V → s1.wavegenerators W = s.wavegenerators W) ∧
      s1.notes i = { s.notes i with toWaveGenerator := some V } ∧
      (∀ j, j ≠ i → s1.notes j = s.notes j) ∧
      s1.buffer = s.buffer ∧ s1.style = s.style ∧
      (∀ velocity2, s.startNote i.val velocity2 = Outcome.ok s1) := by
  obtain ⟨hhead, htail⟩ := freeList_cons s V rest hfree
  refine ⟨_, startNote_eq s velocity i V st hlo hstyle hhead, ?_, ?_, ?_, ?_, ?_, rfl, rfl, ?_⟩
  · unfold PolySynth.freeList
    simp only
    have hfun : (fun W => (Function.update s.wavegenerators V
        ((s.wavegenerators V).setWave ((s.notes i).samples st) ((s.notes i).sampleSizes st)
          (s.notes i).delta ((s.notes i).sampleErrors st)) W).toNextFreeWaveGenerator)
        = fun W => (s.wavegenerators W).toNextFreeWaveGenerator := by
      funext W
      by_cases hW : W = V
      · subst hW; simp [WaveGenerator.setWave]
      · simp [Function.update_noteq hW]
    rw [hfun]
    exact htail
  · simp [WaveGenerator.setWave]
  · intro W hW
    simp [Function.update_noteq hW]
  · simp
  · intro j hj
    simp [Function.update_noteq hj]
  · intro velocity2
    exact startNote_eq s velocity2 i V st hlo hstyle hhead

/-- C5. With voice `V` at the head of the free list, a pitch in [21,127] and one of the
three styles selected, `startNote` returns; afterwards the free list is the former
tail, `V` has cursor and start marker at the first word of the note's table for the
current style, end marker at its last word, the note's stride, the note's correction
unit for that style, accumulator 0, stop flag clear and state 1, the note entry
references `V`, every other voice and note entry, the buffer and the style are
unchanged, and the result does not depend on the velocity. -/
theorem startNote_binds_head (s : PolySynth) (velocity : Nat) (i : Fin 128) (V : Fin 16)
    (rest : List (Fin 16)) (st : Fin 3)
    (hlo : MINMIDINOTES ≤ i.val) (hstyle : s.style = st.val)
    (hfree : s.freeList = some (V :: rest)) :
    ∃ s1, s.startNote i.val velocity = Outcome.ok s1 ∧
      s1.freeList = some rest ∧
      s1.wavegenerators V =
        { toNextFreeWaveGenerator := (s.wavegenerators V).toNextFreeWaveGenerator
          state := 1
          stopping := false
          toStartWave := (s.notes i).samples st
          toEndWave := (s.notes i).samples st + ((s.notes i).sampleSizes st - 1)
          toWave := (s.notes i).samples st
          delta := (s.notes i).delta
          sampleError := (s.notes i).sampleErrors st
          totalError := 0 } ∧
      (∀ W, W ≠ V → s1.wavegenerators W = s.wavegenerators W) ∧
      s1.notes i = { s.notes i with toWaveGenerator := some V } ∧
      (∀ j, j ≠ i → s1.notes j = s.notes j) ∧
      s1.buffer = s.buffer ∧ s1.style = s.style ∧
      (∀ velocity2, s.startNote i.val velocity2 = Outcome.ok s1) := by
  obtain ⟨hhead, htail⟩ := freeList_cons s V rest hfree
  refine ⟨_, startNote_eq s velocity i V st hlo hstyle hhead, ?_, ?_, ?_, ?_, ?_, rfl, rfl, ?_⟩
  · unfold PolySynth.freeList
    simp only
    have hfun : (fun W => (Function.update s.wavegenerators V
        ((s.wavegenerators V).setWave ((s.notes i).samples st) ((s.notes i).sampleSizes st)
          (s.notes i).delta ((s.notes i).sampleErrors st)) W).toNextFreeWaveGenerator)
        = fun W => (s.wavegenerators W).toNextFreeWaveGenerator := by
      funext W
      by_cases hW : W = V
      · subst hW; simp [WaveGenerator.setWave]
      · simp [Function.update_noteq hW]
    rw [hfun]
    exact htail
  · simp [WaveGenerator.setWave]
  · intro W hW
    simp [Function.update_noteq hW]
  · simp
  · intro j hj
    simp [Function.update_noteq hj]
  · intro velocity2
    exact startNote_eq s velocity2 i V st hlo hstyle hhead

theorem startNote_binds_head_witness :
    ∃ s1, (PolySynth.initial (fun _ => Note.blank)).startNote 69 100 = Outcome.ok s1 ∧
      s1.freeList = some [1, 2, 3, 4, 5, 6, 7, 8, 9, 10, 11, 12, 13, 14, 15] ∧
      (s1.wavegenerators 0).state = 1 := by
  obtain ⟨s1, h1, h2, h3, -⟩ :=
    startNote_binds_head (PolySynth.initial (fun _ => Note.blank)) 100 69 0
      [1, 2, 3, 4, 5, 6, 7, 8, 9, 10, 11, 12, 13, 14, 15] 1 (by decide) (by decide) (by decide)
  exact ⟨s1, h1, h2, by rw [h3]⟩


theorem startNotes_run (ps : List (Nat × Nat)) (s : PolySynth) (L : List (Fin 16)) (st : Fin 3)
    (hstyle : s.style = st.val) (hL : s.freeList = some L) (hLnodup : L.Nodup)
    (hlen : ps.length ≤ L.length) (hnodup : (ps.map Prod.fst).Nodup)
    (hrange : ∀ pv ∈ ps, MINMIDINOTES ≤ pv.1 ∧ pv.1 ≤ MAXMIDINOTES) :
    ∃ s1, s.startNotes ps = Outcome.ok s1 ∧ s1.freeList = some (L.drop ps.length) ∧
      s1.style = s.style ∧ s1.buffer = s.buffer ∧
      (∀ (k : Nat) (pv : Nat × Nat) (V : Fin 16) (i : Fin 128), ps[k]? = some pv →
        L[k]? = some V → i.val = pv.1 →
        (s1.notes i).toWaveGenerator = some V ∧
        s1.wavegenerators V = (s.wavegenerators V).setWave ((s.notes i).samples st)
          ((s.notes i).sampleSizes st) (s.notes i).delta ((s.notes i).sampleErrors st)) ∧
      (∀ W, W ∉ L.take ps.length → s1.wavegenerators W = s.wavegenerators W) ∧
      (∀ j : Fin 128, (∀ pv ∈ ps, pv.1 ≠ j.val) → s1.notes j = s.notes j) ∧
      (∀ j : Fin 128, (s.notes j).SameTable (s1.notes j)) := by
  induction ps generalizing s L with
  | nil =>
    refine ⟨s, rfl, by simpa using hL, rfl, rfl, ?_, fun _ _ => rfl, fun _ _ => rfl,
      fun _ => ⟨rfl, rfl, rfl, rfl, rfl⟩⟩
    intro k pv V i hk
    simp at hk
  | cons pv0 ps ih =>
    cases L with
    | nil => simp at hlen
    | cons V0 L =>
      have hr0 := hrange pv0 (by simp)
      have hlt0 : pv0.1 < 128 := by
        have := hr0.2
        simp only [MAXMIDINOTES] at this
        omega
      obtain ⟨hhead, htail⟩ := freeList_cons s V0 L hL
      have hstart := startNote_eq s pv0.2 ⟨pv0.1, hlt0⟩ V0 st hr0.1 hstyle hhead
      obtain ⟨s1, hs1, hfree1, -, hW1, hn1, hj1, hbuf1, hst1, -⟩ :=
        startNote_pops_head s pv0.2 ⟨pv0.1, hlt0⟩ V0 L st hr0.1 hstyle hL
      simp only [List.nodup_cons] at hLnodup
      simp only [List.map_cons, List.nodup_cons] at hnodup
      obtain ⟨s2, hs2, hfree2, hst2, hbuf2, hbind2, hW2, hj2, htab2⟩ :=
        ih s1 L (hst1.trans hstyle) hfree1 hLnodup.2 (by simpa using hlen) hnodup.2
          (fun pv hpv => hrange pv (by simp [hpv]))
      have htab1 : ∀ j : Fin 128, (s.notes j).SameTable (s1.notes j) := by
        intro j
        by_cases hj : j = ⟨pv0.1, hlt0⟩
        · rw [hj, hn1]
          exact ⟨rfl, rfl, rfl, rfl, rfl⟩
        · rw [hj1 j hj]
          exact ⟨rfl, rfl, rfl, rfl, rfl⟩
      refine ⟨s2, ?_, ?_, hst2.trans hst1, hbuf2.trans hbuf1, ?_, ?_, ?_, ?_⟩
      · simp only [PolySynth.startNotes]
        simp only [] at hs1
        rw [hs1]
        exact hs2
      · simpa using hfree2
      · intro k pv V i hk hV hi
        cases k with
        | zero =>
          simp only [List.getElem?_cons_zero, Option.some.injEq] at hk hV
          subst hk hV
          have hieq : i = ⟨pv0.1, hlt0⟩ := Fin.ext hi
          have hnotin : ∀ pv ∈ ps, pv.1 ≠ i.val := by
            intro pv hpv heq
            apply hnodup.1
            rw [List.mem_map]
            exact ⟨pv, hpv, by rw [heq, hi]⟩
          have hVnot : V0 ∉ L.take ps.length := fun hmem => hLnodup.1 (List.mem_of_mem_take hmem)
          rw [hj2 i hnotin, hW2 V0 hVnot, hieq, hn1]
          refine ⟨rfl, ?_⟩
          have := hstart.symm.trans hs1
          simp only [Outcome.ok.injEq] at this
          rw [← this]
          simp
        | succ k =>
          simp only [List.getElem?_cons_succ] at hk hV
          obtain ⟨hb1, hb2⟩ := hbind2 k pv V i hk hV hi
          refine ⟨hb1, ?_⟩
          have hVL : V ∈ L := List.mem_iff_getElem?.mpr ⟨k, hV⟩
          have hVne : V ≠ V0 := fun h => hLnodup.1 (h ▸ hVL)
          obtain ⟨t1, t2, t3, t4, -⟩ := htab1 i
          rw [hb2, hW1 V hVne, t1, t2, t3, t4]
      · intro W hW
        simp only [List.length_cons, List.take_succ_cons, List.mem_cons, not_or] at hW
        rw [hW2 W hW.2, hW1 W hW.1]
      · intro j hj
        have hne : j ≠ ⟨pv0.1, hlt0⟩ := by
          intro h
          exact hj pv0 (by simp) (by rw [h])
        rw [hj2 j (fun pv hpv => hj pv (by simp [hpv])), hj1 j hne]
      · intro j
        have hfst := htab1 j
        have hsnd := htab2 j
        unfold Note.SameTable at hfst hsnd ⊢
        refine ⟨?_, ?_, ?_, ?_, ?_⟩
        · rw [hsnd.1, hfst.1]
        · rw [hsnd.2.1, hfst.2.1]
        · rw [hsnd.2.2.1, hfst.2.2.1]
        · rw [hsnd.2.2.2.1, hfst.2.2.2.1]
        · rw [hsnd.2.2.2.2, hfst.2.2.2.2]


theorem initFreeWaveGenerators_freeList (s : PolySynth) :
    s.initFreeWaveGenerators.freeList = some allVoices := by
  show freeListFrom initLink 16 (some 0) = some allVoices
  decide

/-- C4. After `initFreeWaveGenerators` the free list is the sixteen voices in slot
order. Sixteen successive `startNote` calls with pairwise distinct pitches in [21,127]
then all return, the k-th of them binds voice k to its note entry (for k = 0..15), and
the free list ends up empty; after that every `startNote` call returns and leaves the
whole state unchanged. -/
theorem startNote_full_pool (s : PolySynth) (st : Fin 3) (ps : List (Nat × Nat))
    (hstyle : s.style = st.val) (hlen : ps.length = NROFWAVEGENERATORS)
    (hnodup : (ps.map Prod.fst).Nodup)
    (hrange : ∀ pv ∈ ps, MINMIDINOTES ≤ pv.1 ∧ pv.1 ≤ MAXMIDINOTES) :
    s.initFreeWaveGenerators.freeList = some allVoices ∧
    ∃ s16, s.initFreeWaveGenerators.startNotes ps = Outcome.ok s16 ∧
      s16.freeList = some [] ∧ s16.toFreeWaveGenerators = none ∧
      (∀ (k : Fin 16) (pv : Nat × Nat) (i : Fin 128), ps[k.val]? = some pv → i.val = pv.1 →
        (s16.notes i).toWaveGenerator = some k ∧
        s16.wavegenerators k = (s.initFreeWaveGenerators.wavegenerators k).setWave
          ((s.notes i).samples st) ((s.notes i).sampleSizes st) (s.notes i).delta
          ((s.notes i).sampleErrors st)) ∧
      (∀ pitch velocity, s16.startNote pitch velocity = Outcome.ok s16) := by
  have hinit := initFreeWaveGenerators_freeList s
  refine ⟨hinit, ?_⟩
  obtain ⟨s16, h1, h2, -, -, h3, -, -, -⟩ :=
    startNotes_run ps s.initFreeWaveGenerators allVoices st hstyle hinit (by decide)
      (by rw [hlen]; decide) hnodup hrange
  have hdrop : List.drop ps.length allVoices = [] := by rw [hlen]; decide
  rw [hdrop] at h2
  have hnone := freeList_nil s16 h2
  refine ⟨s16, h1, h2, hnone, ?_, fun pitch velocity => startNote_none s16 pitch velocity hnone⟩
  intro k pv i hk hi
  have hall : ∀ V : Fin 16, allVoices[V.val]? = some V := by decide
  have hV := hall k
  exact h3 k.val pv k i hk hV hi

theorem startNote_full_pool_witness :
    ∃ s16, (PolySynth.initial demoTables).initFreeWaveGenerators.startNotes demoChord
        = Outcome.ok s16 ∧
      s16.freeList = some [] ∧ s16.startNote 60 100 = Outcome.ok s16 := by
  obtain ⟨s16, h1, h2, -, -, h3⟩ :=
    (startNote_full_pool (PolySynth.initial demoTables) 1 demoChord (by decide) (by decide)
      (by decide) (by decide)).2
  exact ⟨s16, h1, h2, h3 60 100⟩


/-! ## The pool invariant -/

theorem freeList_links (s s1 : PolySynth) (L : List (Fin 16)) (h : s.freeList = some L)
    (hhead : s1.toFreeWaveGenerators = s.toFreeWaveGenerators)
    (hnext : ∀ W ∈ L, (s1.wavegenerators W).toNextFreeWaveGenerator
      = (s.wavegenerators W).toNextFreeWaveGenerator) :
    s1.freeList = some L := by
  unfold PolySynth.freeList at h ⊢
  rw [hhead]
  exact freeListFrom_congr _ _ _ _ _ h hnext

theorem freeList_push (s s1 : PolySynth) (L : List (Fin 16)) (X : Fin 16)
    (h : s.freeList = some L) (hnodup : L.Nodup) (hX : X ∉ L)
    (hhead : s1.toFreeWaveGenerators = some X)
    (hlink : (s1.wavegenerators X).toNextFreeWaveGenerator = s.toFreeWaveGenerators)
    (hnext : ∀ W, W ≠ X → (s1.wavegenerators W).toNextFreeWaveGenerator
      = (s.wavegenerators W).toNextFreeWaveGenerator) :
    s1.freeList = some (X :: L) := by
  have hlen : L.length ≤ 15 := by
    have hcons : (X :: L).Nodup := List.nodup_cons.mpr ⟨hX, hnodup⟩
    have := List.Nodup.length_le_card hcons
    simp only [List.length_cons, Fintype.card_fin] at this
    omega
  unfold PolySynth.freeList at h ⊢
  rw [hhead]
  simp only [NROFWAVEGENERATORS, freeListFrom, hlink]
  have h15 := freeListFrom_fuel _ _ 15 _ _ h hlen
  have h15' := freeListFrom_congr _
    (fun i => (s1.wavegenerators i).toNextFreeWaveGenerator) _ _ _ h15
    (fun W hW => hnext W (fun hWX => hX (hWX ▸ hW)))
  rw [h15']

theorem poolInv_initial (tables : Fin 128 → Note) : PoolInv (PolySynth.initial tables) allVoices where
  free := initFreeWaveGenerators_freeList _
  nodup := by decide
  idle := fun V _ => ⟨rfl, rfl⟩
  bound := fun i V h => by simp [PolySynth.initial, PolySynth.initFreeWaveGenerators] at h
  unique := fun i j V h => by simp [PolySynth.initial, PolySynth.initFreeWaveGenerators] at h
  idleFree := fun V _ => by
    have hall : ∀ W : Fin 16, W ∈ allVoices := by decide
    exact hall V

theorem poolInv_startNote (s s1 : PolySynth) (L : List (Fin 16)) (pitch velocity : Nat)
    (hinv : PoolInv s L) (h : s.startNote pitch velocity = Outcome.ok s1) :
    ∃ L1, PoolInv s1 L1 := by
  cases L with
  | nil =>
    have hnone := freeList_nil s hinv.free
    rw [startNote_none s pitch velocity hnone] at h
    simp only [Outcome.ok.injEq] at h
    subst h
    exact ⟨[], hinv⟩
  | cons V rest =>
    obtain ⟨hhead, htail⟩ := freeList_cons s V rest hinv.free
    unfold PolySynth.startNote at h
    rw [hhead] at h
    simp only at h
    split at h
    · cases h
    · rename_i i hi
      split at h
      · rename_i hstyle
        simp only [Outcome.ok.injEq] at h
        have hnd := List.nodup_cons.mp hinv.nodup
        have hgen : ∀ W, W ≠ V → s1.wavegenerators W = s.wavegenerators W := by
          intro W hW
          rw [← h]
          simp [Function.update_noteq hW]
        have hgenV : (s1.wavegenerators V).state = 1 ∧ (s1.wavegenerators V).stopping = false := by
          rw [← h]
          simp [WaveGenerator.setWave]
        have hnote : ∀ j, j ≠ i → s1.notes j = s.notes j := by
          intro j hj
          rw [← h]
          simp [Function.update_noteq hj]
        have hnotei : (s1.notes i).toWaveGenerator = some V := by
          rw [← h]
          simp
        have hrefV : ∀ j, (s.notes j).toWaveGenerator ≠ some V := by
          intro j hj
          exact (hinv.bound j V hj).1 (by simp)
        refine ⟨rest, ?_, hnd.2, ?_, ?_, ?_, ?_⟩
        · unfold PolySynth.freeList
          rw [← h]
          simp only
          have hfun : (fun W => (Function.update s.wavegenerators V
              ((s.wavegenerators V).setWave ((s.notes i).samples ⟨s.style, hstyle⟩)
                ((s.notes i).sampleSizes ⟨s.style, hstyle⟩)
                (s.notes i).delta ((s.notes i).sampleErrors ⟨s.style, hstyle⟩))
              W).toNextFreeWaveGenerator)
              = fun W => (s.wavegenerators W).toNextFreeWaveGenerator := by
            funext W
            by_cases hW : W = V
            · subst hW; simp [WaveGenerator.setWave]
            · simp [Function.update_noteq hW]
          rw [hfun]
          exact htail
        · intro W hW
          have hne : W ≠ V := fun hWV => hnd.1 (hWV ▸ hW)
          rw [hgen W hne]
          exact hinv.idle W (by simp [hW])
        · intro j W hj
          by_cases hji : j = i
          · subst hji
            rw [hnotei] at hj
            simp only [Option.some.injEq] at hj
            subst hj
            exact ⟨hnd.1, hgenV.2, by rw [hgenV.1]; decide⟩
          · rw [hnote j hji] at hj
            have hb := hinv.bound j W hj
            have hne : W ≠ V := fun hWV => hb.1 (by simp [hWV])
            rw [hgen W hne]
            exact ⟨fun hmem => hb.1 (by simp [hmem]), hb.2⟩
        · intro j k W hj hk
          by_cases hji : j = i
          · by_cases hki : k = i
            · rw [hji, hki]
            · subst hji
              rw [hnotei] at hj
              simp only [Option.some.injEq] at hj
              subst hj
              rw [hnote k hki] at hk
              exact absurd hk (hrefV k)
          · by_cases hki : k = i
            · subst hki
              rw [hnotei] at hk
              simp only [Option.some.injEq] at hk
              subst hk
              rw [hnote j hji] at hj
              exact absurd hj (hrefV j)
            · rw [hnote j hji] at hj
              rw [hnote k hki] at hk
              exact hinv.unique j k W hj hk
        · intro W hW
          by_cases hne : W = V
          · subst hne
            rw [hgenV.1] at hW
            cases hW
          · rw [hgen W hne] at hW
            have := hinv.idleFree W hW
            simp only [List.mem_cons] at this
            rcases this with h1 | h1
            · exact absurd h1 hne
            · exact h1
      · cases h


theorem poolInv_stopNote (s s1 : PolySynth) (L : List (Fin 16)) (pitch velocity : Nat)
    (hinv : PoolInv s L) (h : s.stopNote pitch velocity = Outcome.ok s1) :
    PoolInv s1 L := by
  unfold PolySynth.stopNote at h
  split at h
  · cases h
  · rename_i i hi
    simp only [Outcome.ok.injEq] at h
    have hnotei : (s1.notes i).toWaveGenerator = none := by
      rw [← h]
      simp
    have hnote : ∀ j, j ≠ i → s1.notes j = s.notes j := by
      intro j hj
      rw [← h]
      simp [Function.update_noteq hj]
    have hhead : s1.toFreeWaveGenerators = s.toFreeWaveGenerators := by rw [← h]
    -- the voices: only the referenced voice changes, and only its stop flag
    have hgen : ∀ W, (s.notes i).toWaveGenerator ≠ some W →
        s1.wavegenerators W = s.wavegenerators W := by
      intro W hW
      rw [← h]
      cases href : (s.notes i).toWaveGenerator with
      | none => rfl
      | some V =>
        have hne : W ≠ V := fun hWV => hW (hWV ▸ href)
        simp [Function.update_noteq hne]
    have hsame : ∀ W, (s1.wavegenerators W).toNextFreeWaveGenerator
          = (s.wavegenerators W).toNextFreeWaveGenerator ∧
        (s1.wavegenerators W).state = (s.wavegenerators W).state := by
      intro W
      rw [← h]
      cases href : (s.notes i).toWaveGenerator with
      | none => exact ⟨rfl, rfl⟩
      | some V =>
        by_cases hWV : W = V
        · subst hWV
          simp [WaveGenerator.clearWave]
        · simp [Function.update_noteq hWV]
    refine ⟨freeList_links s s1 L hinv.free hhead (fun W _ => (hsame W).1), hinv.nodup,
      ?_, ?_, ?_, ?_⟩
    · intro W hW
      have hne : (s.notes i).toWaveGenerator ≠ some W :=
        fun href => (hinv.bound i W href).1 hW
      rw [hgen W hne]
      exact hinv.idle W hW
    · intro j W hj
      have hji : j ≠ i := by
        intro hji
        rw [hji, hnotei] at hj
        cases hj
      rw [hnote j hji] at hj
      have hne : (s.notes i).toWaveGenerator ≠ some W :=
        fun href => hji (hinv.unique j i W hj href)
      rw [hgen W hne]
      exact hinv.bound j W hj
    · intro j k W hj hk
      have hji : j ≠ i := by
        intro hji
        rw [hji, hnotei] at hj
        cases hj
      have hki : k ≠ i := by
        intro hki
        rw [hki, hnotei] at hk
        cases hk
      rw [hnote j hji] at hj
      rw [hnote k hki] at hk
      exact hinv.unique j k W hj hk
    · intro W hW
      rw [(hsame W).2] at hW
      exact hinv.idleFree W hW

theorem poolInv_setStyle (s : PolySynth) (L : List (Fin 16)) (newStyle : Nat)
    (hinv : PoolInv s L) : PoolInv (s.setStyle newStyle) L :=
  ⟨hinv.free, hinv.nodup, hinv.idle, hinv.bound, hinv.unique, hinv.idleFree⟩

theorem clearStopping_true (g : WaveGenerator) (h : (g.clearStopping).1 = true) :
    g.stopping = true ∧ g.state = 0 ∧ (g.clearStopping).2 = { g with stopping := false } := by
  unfold WaveGenerator.clearStopping at h ⊢
  split
  · rename_i hc
    simp only [Bool.and_eq_true, beq_iff_eq] at hc
    exact ⟨hc.1, hc.2, rfl⟩
  · rename_i hc
    simp [hc] at h

theorem clearStopping_false (g : WaveGenerator) (h : ¬ (g.clearStopping).1 = true) :
    ¬ (g.stopping = true ∧ g.state = 0) ∧ (g.clearStopping).2 = g := by
  unfold WaveGenerator.clearStopping at h ⊢
  split
  · rename_i hc
    simp [hc] at h
  · rename_i hc
    simp only [Bool.and_eq_true, beq_iff_eq] at hc
    exact ⟨hc, rfl⟩

theorem poolInv_pollVoice (s : PolySynth) (L : List (Fin 16)) (X : Fin 16)
    (g1 : WaveGenerator) (buffer1 : List Nat) (hinv : PoolInv s L)
    (hb : (s.wavegenerators X).SameBinding g1) (ht : (s.wavegenerators X).RunTransition g1) :
    ∃ L1, PoolInv (s.pollVoice X g1 buffer1) L1 := by
  obtain ⟨hlink, hstop, -⟩ := hb
  obtain ⟨ht0, ht1, -⟩ := ht
  unfold PolySynth.pollVoice
  by_cases hpoll : (g1.clearStopping).1 = true
  · obtain ⟨hs1, hz1, hc⟩ := clearStopping_true g1 hpoll
    rw [if_pos hpoll, hc]
    have hsX : (s.wavegenerators X).stopping = true := by rw [← hstop]; exact hs1
    have hXL : X ∉ L := by
      intro hX
      have := (hinv.idle X hX).2
      rw [hsX] at this
      cases this
    have hXref : ∀ i, (s.notes i).toWaveGenerator ≠ some X := by
      intro i hi
      have := (hinv.bound i X hi).2.1
      rw [hsX] at this
      cases this
    refine ⟨X :: L, ?_, List.nodup_cons.mpr ⟨hXL, hinv.nodup⟩, ?_, ?_, hinv.unique, ?_⟩
    · apply freeList_push s _ L X hinv.free hinv.nodup hXL rfl
      · simp
      · intro W hW
        simp [Function.update_noteq hW]
    · intro V hV
      by_cases hVX : V = X
      · subst hVX
        simp [hz1]
      · simp only [List.mem_cons] at hV
        rcases hV with hV | hV
        · exact absurd hV hVX
        · simp only [Function.update_noteq hVX]
          exact hinv.idle V hV
    · intro i V hi
      have hVX : V ≠ X := fun hVX => hXref i (hVX ▸ hi)
      have hbV := hinv.bound i V hi
      simp only [Function.update_noteq hVX]
      exact ⟨by simp [hVX, hbV.1], hbV.2⟩
    · intro W hW
      by_cases hWX : W = X
      · simp [hWX]
      · simp only [Function.update_noteq hWX] at hW
        simp [hinv.idleFree W hW]
  · obtain ⟨hnot, hc⟩ := clearStopping_false g1 hpoll
    rw [if_neg hpoll, hc]
    refine ⟨L, ?_, hinv.nodup, ?_, ?_, hinv.unique, ?_⟩
    · apply freeList_links s _ L hinv.free
      · rfl
      intro W _
      by_cases hWX : W = X
      · subst hWX
        simp [hlink]
      · simp [Function.update_noteq hWX]
    · intro V hV
      by_cases hVX : V = X
      · subst hVX
        have := hinv.idle V hV
        simp only [Function.update_same]
        exact ⟨ht0 this.1, hstop.trans this.2⟩
      · simp only [Function.update_noteq hVX]
        exact hinv.idle V hV
    · intro i V hi
      have hbV := hinv.bound i V hi
      by_cases hVX : V = X
      · subst hVX
        simp only [Function.update_same]
        refine ⟨hbV.1, hstop.trans hbV.2.1, ?_⟩
        intro hz
        rcases ht1 hz with h0 | h0
        · exact hbV.2.2 h0
        · rw [hbV.2.1] at h0
          cases h0
      · simp only [Function.update_noteq hVX]
        exact hbV
    · intro W hW
      by_cases hWX : W = X
      · subst hWX
        simp only [Function.update_same] at hW
        rcases ht1 hW with h0 | h0
        · exact hinv.idleFree W h0
        · exact absurd ⟨hstop.trans h0, hW⟩ hnot
      · simp only [Function.update_noteq hWX] at hW
        exact hinv.idleFree W hW

theorem poolInv_loopFirst (mem : Mem) (fuel : Nat) (s s1 : PolySynth) (L : List (Fin 16))
    (hinv : PoolInv s L) (h : s.loopFirst mem fuel = Outcome.ok s1) : ∃ L1, PoolInv s1 L1 := by
  unfold PolySynth.loopFirst at h
  split at h
  · rename_i g buffer hfill
    simp only [Outcome.ok.injEq] at h
    subst h
    obtain ⟨hb, ht⟩ := setSamplesInBuffer_spec _ _ _ _ _ _ _ hfill
    exact poolInv_pollVoice s L 0 g buffer hinv hb ht
  · cases h
  · cases h

theorem poolInv_loopBody (mem : Mem) (fuel : Nat) (s s1 : PolySynth) (index : Fin 16)
    (L : List (Fin 16)) (hinv : PoolInv s L) (h : s.loopBody mem fuel index = Outcome.ok s1) :
    ∃ L1, PoolInv s1 L1 := by
  unfold PolySynth.loopBody at h
  split at h
  · rename_i g buffer hfill
    simp only [Outcome.ok.injEq] at h
    subst h
    obtain ⟨hb, ht⟩ := addSamplesToBuffer_spec _ _ _ _ _ _ _ hfill
    exact poolInv_pollVoice s L index g buffer hinv hb ht
  · cases h
  · cases h

theorem poolInv_loopRest (mem : Mem) (fuel count index : Nat) (s s1 : PolySynth)
    (L : List (Fin 16)) (hinv : PoolInv s L)
    (h : PolySynth.loopRest mem fuel count index s = Outcome.ok s1) : ∃ L1, PoolInv s1 L1 := by
  induction count generalizing index s L with
  | zero =>
    simp only [PolySynth.loopRest, Outcome.ok.injEq] at h
    subst h
    exact ⟨L, hinv⟩
  | succ n ih =>
    simp only [PolySynth.loopRest] at h
    split at h
    · split at h
      · rename_i s2 hbody
        obtain ⟨L2, hinv2⟩ := poolInv_loopBody _ _ _ _ _ _ hinv hbody
        exact ih _ _ _ hinv2 h
      · cases h
      · cases h
    · simp only [Outcome.ok.injEq] at h
      subst h
      exact ⟨L, hinv⟩

theorem poolInv_loop (mem : Mem) (fuel : Nat) (s s1 : PolySynth) (L : List (Fin 16))
    (hinv : PoolInv s L) (h : s.loop mem fuel = Outcome.ok s1) : ∃ L1, PoolInv s1 L1 := by
  unfold PolySynth.loop at h
  split at h
  · rename_i s2 hfirst
    obtain ⟨L2, hinv2⟩ := poolInv_loopFirst _ _ _ _ _ hinv hfirst
    exact poolInv_loopRest _ _ _ _ _ _ _ hinv2 h
  · cases h
  · cases h

/-- Every reachable state satisfies the pool invariant. -/
theorem reachable_poolInv (mem : Mem) (tables : Fin 128 → Note) (s : PolySynth)
    (h : Reachable mem tables s) : ∃ L, PoolInv s L := by
  induction h with
  | init => exact ⟨allVoices, poolInv_initial tables⟩
  | startNote pitch velocity _ hstep ih =>
    obtain ⟨L, hinv⟩ := ih
    exact poolInv_startNote _ _ _ _ _ hinv hstep
  | stopNote pitch velocity _ hstep ih =>
    obtain ⟨L, hinv⟩ := ih
    exact ⟨L, poolInv_stopNote _ _ _ _ _ hinv hstep⟩
  | setStyle newStyle _ ih =>
    obtain ⟨L, hinv⟩ := ih
    exact ⟨L, poolInv_setStyle _ _ _ hinv⟩
  | loop fuel _ hstep ih =>
    obtain ⟨L, hinv⟩ := ih
    exact poolInv_loop _ _ _ _ _ hinv hstep


/-! ## Free or bound: the partition of the voices -/

theorem ok_get {α : Type} (o : Outcome α) (a d : α) (h : o = Outcome.ok a) :
    o = Outcome.ok (o.get d) := by
  rw [h]
  rfl

theorem reachable_demoBound : Reachable demoMem demoTables demoBound :=
  Reachable.startNote 69 100 Reachable.init
    (ok_get _ _ _ (startNote_eq (PolySynth.initial demoTables) 100 69 0 1 (by decide) rfl rfl))

theorem reachable_demoReleased : Reachable demoMem demoTables demoReleased := by
  obtain ⟨s1, h1, -⟩ := stopNote_sets_stop demoBound 100 69 0 (by decide) (by decide)
  exact Reachable.stopNote 69 100 reachable_demoBound (ok_get _ _ _ h1)

theorem demoReleased_unbound : ¬ ∃ i, demoReleased.boundTo i 0 := by
  rintro ⟨i, hi⟩
  obtain ⟨s1, h1, -, -, h3, h4, -⟩ := stopNote_sets_stop demoBound 100 69 0 (by decide) (by decide)
  have h1b : demoBound.stopNote 69 100 = Outcome.ok s1 := h1
  have hs1 : demoReleased = s1 := by
    unfold demoReleased
    rw [h1b]
    rfl
  unfold PolySynth.boundTo at hi
  rw [hs1] at hi
  by_cases hi69 : i = 69
  · rw [hi69, h3] at hi
    cases hi
  · rw [h4 i hi69] at hi
    obtain ⟨L, hinv⟩ := reachable_poolInv demoMem demoTables demoBound reachable_demoBound
    have hu := hinv.unique i 69 0 hi (by decide)
    exact hi69 hu

/-- C10 (counterexample). After `startNote(69, 100)` and `stopNote(69, 100)` on the
initial object, voice 0 is neither on the free list nor referenced by a note entry: the
partition of the voices does not hold in this reachable state. -/
theorem partition_fails_after_stopNote :
    Reachable demoMem demoTables demoReleased ∧
    ¬ demoReleased.onFreeList 0 ∧ (¬ ∃ i, demoReleased.boundTo i 0) ∧
    ¬ demoReleased.Partition := by
  have h1 : ¬ demoReleased.onFreeList 0 := by decide
  have h2 : ¬ ∃ i, demoReleased.boundTo i 0 := demoReleased_unbound
  refine ⟨reachable_demoReleased, h1, h2, ?_⟩
  intro hp
  rcases hp 0 with h | h
  · exact h1 h.1
  · obtain ⟨i, hi, -⟩ := h.2
    exact h2 ⟨i, hi⟩

/-- C10 (amended). In every state reachable from the initial object by calls of
`startNote`, `stopNote`, `setStyle` and `loop` that return, the links form a free list,
and for every voice: it is never both on the free list and referenced by a note
entry; at most one note entry references it; and if it is neither on the free list nor
referenced, then it is not Idle. -/
theorem free_or_bound_never_both (mem : Mem) (tables : Fin 128 → Note) (s : PolySynth)
    (h : Reachable mem tables s) (V : Fin 16) :
    (∃ L, s.freeList = some L) ∧
    ¬ (s.onFreeList V ∧ ∃ i, s.boundTo i V) ∧
    (∀ i j, s.boundTo i V → s.boundTo j V → i = j) ∧
    (¬ s.onFreeList V → (¬ ∃ i, s.boundTo i V) → (s.wavegenerators V).state ≠ 0) := by
  obtain ⟨L, hinv⟩ := reachable_poolInv mem tables s h
  have hon : s.onFreeList V ↔ V ∈ L := by
    unfold PolySynth.onFreeList
    rw [hinv.free]
    rfl
  refine ⟨⟨L, hinv.free⟩, ?_, ?_, ?_⟩
  · rintro ⟨hfree, i, hi⟩
    exact (hinv.bound i V hi).1 (hon.mp hfree)
  · intro i j hi hj
    exact hinv.unique i j V hi hj
  · intro hfree _ hz
    exact hfree (hon.mpr (hinv.idleFree V hz))

theorem free_or_bound_never_both_witness :
    ¬ demoReleased.onFreeList 0 ∧ (¬ ∃ i, demoReleased.boundTo i 0) ∧
    (demoReleased.wavegenerators 0).state ≠ 0 := by
  have h1 : ¬ demoReleased.onFreeList 0 := by decide
  have h2 : ¬ ∃ i, demoReleased.boundTo i 0 := demoReleased_unbound
  exact ⟨h1, h2,
    (free_or_bound_never_both demoMem demoTables demoReleased reachable_demoReleased 0).2.2.2
      h1 h2⟩


/-! ## The fill loops and the sample-by-sample automaton -/

theorem emits_append {mem : Mem} {g a b : WaveGenerator} {o1 o2 : List Nat}
    (h1 : Emits mem g o1 a) (h2 : Emits mem a o2 b) : Emits mem g (o1 ++ o2) b := by
  induction h1 with
  | nil => simpa using h2
  | emit hm _ ih => exact Emits.emit hm (ih h2)
  | quiet hm _ hne ih => exact Emits.quiet hm (ih h2) (by simp [hne])

theorem writeList_append (write : Nat → Nat → Nat) (buffer : List Nat) (i : Nat)
    (o1 o2 : List Nat) :
    writeList write buffer i (o1 ++ o2)
      = writeList write (writeList write buffer i o1) (i + o1.length) o2 := by
  induction o1 generalizing buffer i with
  | nil => simp [writeList]
  | cons v o1 ih =>
    rw [List.cons_append]
    simp only [writeList, List.length_cons]
    rw [ih]
    congr 1
    omega

theorem writeList_length (write : Nat → Nat → Nat) (buffer : List Nat) (i : Nat)
    (out : List Nat) : (writeList write buffer i out).length = buffer.length := by
  induction out generalizing buffer i with
  | nil => rfl
  | cons v out ih =>
    simp only [writeList]
    rw [ih]
    simp

theorem idleLoop_emits (mem : Mem) (write : Nat → Nat → Nat) (room : Nat) (r r1 : Run)
    (h : idleLoop write room r = Outcome.ok r1) (hstate : r.g.state = 0) :
    Emits mem r.g (List.replicate room STEREOBASE) r1.g ∧
    r1.bufferIndex = r.bufferIndex + room ∧
    r1.buffer = writeList write r.buffer r.bufferIndex (List.replicate room STEREOBASE) ∧
    (r.bufferIndex ≤ r.buffer.length → r.bufferIndex + room ≤ r.buffer.length) := by
  induction room generalizing r with
  | zero =>
    simp only [idleLoop, Outcome.ok.injEq] at h
    subst h
    exact ⟨Emits.nil _, rfl, rfl, by simp⟩
  | succ n ih =>
    simp only [idleLoop] at h
    split at h
    · rename_i hlt
      obtain ⟨h1, h2, h3, h4⟩ := ih _ h hstate
      have hm : r.g.microStep mem = Outcome.ok (r.g, some STEREOBASE) := by
        unfold WaveGenerator.microStep
        rw [hstate]
      refine ⟨Emits.emit hm h1, ?_, ?_, ?_⟩
      · rw [h2]; simp only; omega
      · rw [h3]
        simp only [List.replicate_succ, writeList]
        rw [List.getD_eq_getElem _ _ hlt]
      · intro _
        simp only [List.length_set] at h4
        omega
    · cases h

theorem sampleLoop_emits (mem : Mem) (cond : Int → Bool) (val : Nat → Nat) (next : Int → Int)
    (write : Nat → Nat → Nat) (P : WaveGenerator → Prop)
    (hP : ∀ g t, P g → P { g with toWave := t })
    (hmicro : ∀ g v, P g → cond g.toWave = true → mem g.toWave = some v →
      g.microStep mem = Outcome.ok ({ g with toWave := next g.toWave }, some (val v)))
    (room : Nat) (r r1 : Run)
    (h : sampleLoop mem cond val next write room r = Outcome.ok r1) (hPr : P r.g) :
    ∃ out, Emits mem r.g out r1.g ∧ r1.bufferIndex = r.bufferIndex + out.length ∧
      out.length ≤ room ∧ (out.length < room → cond r1.g.toWave = false) ∧
      r1.buffer = writeList write r.buffer r.bufferIndex out ∧
      (r.bufferIndex ≤ r.buffer.length → r.bufferIndex + out.length ≤ r.buffer.length) := by
  induction room generalizing r with
  | zero =>
    simp only [sampleLoop, Outcome.ok.injEq] at h
    subst h
    exact ⟨[], Emits.nil _, rfl, by simp, by simp, rfl, by simp⟩
  | succ n ih =>
    simp only [sampleLoop] at h
    split at h
    · rename_i hc
      split at h
      · cases h
      · rename_i v hv
        split at h
        · rename_i hlt
          obtain ⟨out, h1, h2, h3, h4, h5, h6⟩ := ih _ h (hP _ _ hPr)
          refine ⟨val v :: out, Emits.emit (hmicro r.g v hPr hc hv) h1, ?_, ?_, ?_, ?_, ?_⟩
          · rw [h2]; simp only [List.length_cons]; omega
          · simp only [List.length_cons]; omega
          · intro hlen
            simp only [List.length_cons] at hlen
            exact h4 (by omega)
          · rw [h5]
            simp only [writeList]
            rw [List.getD_eq_getElem _ _ hlt]
          · intro _
            simp only [List.length_set, List.length_cons] at h6 ⊢
            omega
        · cases h
    · rename_i hc
      simp only [Outcome.ok.injEq] at h
      subst h
      refine ⟨[], Emits.nil _, rfl, by simp, ?_, rfl, by simp⟩
      intro _
      simpa using hc

theorem extraSample_emits (mem : Mem) (val : Nat → Nat) (write : Nat → Nat → Nat)
    (newState : Nat) (r r1 : Run)
    (hmicro : ∀ v, mem r.g.toEndWave = some v → r.g.microStep mem = Outcome.ok
      ({ r.g with totalError := sub32 r.g.totalError WAVEPARTERRORMAX, state := newState },
        some (val v)))
    (h : extraSample mem val write newState r = Outcome.ok r1) :
    ∃ v, Emits mem r.g [v] r1.g ∧ r1.bufferIndex = r.bufferIndex + 1 ∧
      r1.buffer = writeList write r.buffer r.bufferIndex [v] ∧
      (r.bufferIndex ≤ r.buffer.length → r.bufferIndex + 1 ≤ r.buffer.length) := by
  unfold extraSample at h
  split at h
  · cases h
  · rename_i v hv
    split at h
    · rename_i hlt
      simp only [Outcome.ok.injEq] at h
      subst h
      refine ⟨val v, Emits.emit (hmicro v hv) (Emits.nil _), rfl, ?_, fun _ => by omega⟩
      simp only [writeList]
      rw [List.getD_eq_getElem _ _ hlt]
    · cases h


/-- One table pass of the `switch` (cases 1 to 4): the inner loop, then the state change
`trans` if the buffer is not yet full. -/
theorem passCase_emits (mem : Mem) (cond : Int → Bool) (val : Nat → Nat) (next : Int → Int)
    (write : Nat → Nat → Nat) (trans : WaveGenerator → WaveGenerator) (st : Nat)
    (bufferSize : Nat) (r r2 r1 : Run)
    (hemit : ∀ g v, g.state = st → r.g.SameBinding g → cond g.toWave = true →
      mem g.toWave = some v →
      g.microStep mem = Outcome.ok ({ g with toWave := next g.toWave }, some (val v)))
    (hquiet : ∀ g, g.state = st → r.g.SameBinding g → cond g.toWave = false →
      g.microStep mem = Outcome.ok (trans g, none))
    (hs : r.g.state = st)
    (hloop : sampleLoop mem cond val next write (bufferSize - r.bufferIndex) r = Outcome.ok r2)
    (h : (if r2.bufferIndex < bufferSize then Outcome.ok { r2 with g := trans r2.g }
      else Outcome.ok r2) = Outcome.ok r1) :
    ∃ out gmid, Emits mem r.g out gmid ∧ r1.bufferIndex = r.bufferIndex + out.length ∧
      r1.bufferIndex ≤ max bufferSize r.bufferIndex ∧
      r1.buffer = writeList write r.buffer r.bufferIndex out ∧
      (r.bufferIndex ≤ r.buffer.length → r1.bufferIndex ≤ r.buffer.length) ∧
      (gmid = r1.g ∨ (r1.bufferIndex < bufferSize ∧
        gmid.microStep mem = Outcome.ok (r1.g, none))) := by
  obtain ⟨hb, hst, -⟩ := sampleLoop_voice _ _ _ _ _ _ _ _ hloop
  obtain ⟨out, h1, h2, h3, h4, h5, h6⟩ :=
    sampleLoop_emits mem cond val next write
      (fun g => g.state = st ∧ r.g.SameBinding g)
      (fun g t hg => ⟨hg.1, hg.2⟩)
      (fun g v hg hc hv => hemit g v hg.1 hg.2 hc hv)
      _ r r2 hloop ⟨hs, sameBinding_refl _⟩
  split at h
  · rename_i hlt
    simp only [Outcome.ok.injEq] at h
    subst h
    refine ⟨out, r2.g, h1, h2, ?_, h5, ?_, Or.inr ⟨hlt, ?_⟩⟩
    · simp only
      omega
    · intro hle
      have := h6 hle
      simp only
      omega
    · apply hquiet r2.g (hst.trans hs) hb
      apply h4
      omega
  · rename_i hge
    simp only [Outcome.ok.injEq] at h
    subst h
    refine ⟨out, r2.g, h1, h2, ?_, h5, ?_, Or.inl rfl⟩
    · omega
    · intro hle
      have := h6 hle
      omega

theorem fillCase_emits (write : Nat → Nat → Nat) (mem : Mem) (bufferSize : Nat) (r r1 : Run)
    (h : fillCase write mem bufferSize r = Outcome.ok r1) (hlt : r.bufferIndex < bufferSize) :
    ∃ out gmid, Emits mem r.g out gmid ∧ r1.bufferIndex = r.bufferIndex + out.length ∧
      r1.bufferIndex ≤ bufferSize ∧
      r1.buffer = writeList write r.buffer r.bufferIndex out ∧
      (r.bufferIndex ≤ r.buffer.length → r1.bufferIndex ≤ r.buffer.length) ∧
      (gmid = r1.g ∨ (r1.bufferIndex < bufferSize ∧
        gmid.microStep mem = Outcome.ok (r1.g, none))) := by
  have hmax : max bufferSize r.bufferIndex = bufferSize := by omega
  unfold fillCase at h
  simp only at h
  split at h
  · -- case 0
    rename_i hs
    obtain ⟨h1, h2, h3, h4⟩ := idleLoop_emits mem write _ r r1 h hs
    refine ⟨_, r1.g, h1, ?_, ?_, h3, ?_, Or.inl rfl⟩
    · rw [h2]; simp
    · rw [h2]; omega
    · intro hle
      have := h4 hle
      omega
  · -- case 1
    rename_i hs
    split at h
    · rename_i r2 hloop
      have := passCase_emits mem _ _ _ write (endForward 2 5) 1 bufferSize r r2 r1
        (fun g v hg hb hc hv => by
          unfold WaveGenerator.microStep
          rw [hg]
          simp only [hb.2.2.2.1, hb.2.2.2.2.1]
          simp only [decide_eq_true_eq] at hc
          rw [if_pos hc, hv])
        (fun g hg hb hc => by
          unfold WaveGenerator.microStep
          rw [hg]
          simp only [hb.2.2.2.1]
          simp only [decide_eq_false_iff_not] at hc
          rw [if_neg hc])
        hs hloop h
      rw [hmax] at this
      exact this
    · cases h
    · cases h
  · -- case 2
    rename_i hs
    split at h
    · rename_i r2 hloop
      have := passCase_emits mem _ _ _ write
        (fun g => { g with state := if g.stopping then 0 else 3, toWave := g.toStartWave })
        2 bufferSize r r2 r1
        (fun g v hg hb hc hv => by
          unfold WaveGenerator.microStep
          rw [hg]
          simp only [hb.2.2.1, hb.2.2.2.2.1]
          simp only [ge_iff_le, decide_eq_true_eq] at hc
          rw [if_pos hc, hv])
        (fun g hg hb hc => by
          unfold WaveGenerator.microStep
          rw [hg]
          simp only [hb.2.2.1]
          simp only [ge_iff_le, decide_eq_false_iff_not] at hc
          rw [if_neg hc])
        hs hloop h
      rw [hmax] at this
      exact this
    · cases h
    · cases h
  · -- case 3
    rename_i hs
    split at h
    · rename_i r2 hloop
      have := passCase_emits mem _ _ _ write (endForward 4 6) 3 bufferSize r r2 r1
        (fun g v hg hb hc hv => by
          unfold WaveGenerator.microStep
          rw [hg]
          simp only [hb.2.2.2.1, hb.2.2.2.2.1]
          simp only [decide_eq_true_eq] at hc
          rw [if_pos hc, hv])
        (fun g hg hb hc => by
          unfold WaveGenerator.microStep
          rw [hg]
          simp only [hb.2.2.2.1]
          simp only [decide_eq_false_iff_not] at hc
          rw [if_neg hc])
        hs hloop h
      rw [hmax] at this
      exact this
    · cases h
    · cases h
  · -- case 4
    rename_i hs
    split at h
    · rename_i r2 hloop
      have := passCase_emits mem _ _ _ write
        (fun g => { g with state := 1, toWave := g.toStartWave })
        4 bufferSize r r2 r1
        (fun g v hg hb hc hv => by
          unfold WaveGenerator.microStep
          rw [hg]
          simp only [hb.2.2.1, hb.2.2.2.2.1]
          simp only [ge_iff_le, decide_eq_true_eq] at hc
          rw [if_pos hc, hv])
        (fun g hg hb hc => by
          unfold WaveGenerator.microStep
          rw [hg]
          simp only [hb.2.2.1]
          simp only [ge_iff_le, decide_eq_false_iff_not] at hc
          rw [if_neg hc])
        hs hloop h
      rw [hmax] at this
      exact this
    · cases h
    · cases h
  · -- case 5
    rename_i hs
    rw [if_pos hlt] at h
    obtain ⟨v, h1, h2, h3, h4⟩ := extraSample_emits mem _ write 2 r r1
      (fun v hv => by
        unfold WaveGenerator.microStep
        rw [hs]
        simp only [hv]) h
    refine ⟨[v], r1.g, h1, h2, ?_, h3, ?_, Or.inl rfl⟩
    · omega
    · intro hle
      have := h4 hle
      omega
  · -- case 6
    rename_i hs
    rw [if_pos hlt] at h
    obtain ⟨v, h1, h2, h3, h4⟩ := extraSample_emits mem _ write 4 r r1
      (fun v hv => by
        unfold WaveGenerator.microStep
        rw [hs]
        simp only [hv]) h
    refine ⟨[v], r1.g, h1, h2, ?_, h3, ?_, Or.inl rfl⟩
    · omega
    · intro hle
      have := h4 hle
      omega
  · -- default
    simp only [Outcome.ok.injEq] at h
    subst h
    exact ⟨[], r.g, Emits.nil _, rfl, by omega, rfl, fun h => h, Or.inl rfl⟩


theorem fillLoop_emits (write : Nat → Nat → Nat) (mem : Mem) (bufferSize fuel : Nat)
    (r r1 : Run) (h : fillLoop write mem bufferSize fuel r = Outcome.ok r1)
    (hle : r.bufferIndex ≤ bufferSize) :
    ∃ out, Emits mem r.g out r1.g ∧ r.bufferIndex + out.length = bufferSize ∧
      r1.buffer = writeList write r.buffer r.bufferIndex out := by
  induction fuel generalizing r with
  | zero =>
    simp only [fillLoop] at h
    split at h
    · cases h
    · simp only [Outcome.ok.injEq] at h
      subst h
      exact ⟨[], Emits.nil _, by simp; omega, rfl⟩
  | succ n ih =>
    simp only [fillLoop] at h
    split at h
    · rename_i hlt
      split at h
      · rename_i r2 hcase
        obtain ⟨out1, gmid, h1, h2, h3, h4, -, h6⟩ := fillCase_emits _ _ _ _ _ hcase hlt
        obtain ⟨out2, k1, k2, k3⟩ := ih r2 h h3
        refine ⟨out1 ++ out2, ?_, ?_, ?_⟩
        · rcases h6 with h6 | h6
          · rw [h6] at h1
            exact emits_append h1 k1
          · have hne : out2 ≠ [] := by
              intro hnil
              rw [hnil] at k2
              simp at k2
              omega
            exact emits_append h1 (Emits.quiet h6.2 k1 hne)
        · simp only [List.length_append]
          omega
        · rw [k3, h4, h2, writeList_append]
      · cases h
      · cases h
    · simp only [Outcome.ok.injEq] at h
      subst h
      exact ⟨[], Emits.nil _, by simp; omega, rfl⟩

theorem writeList_set_zero (buffer out : List Nat) :
    ∀ i, i + out.length ≤ buffer.length →
      writeList (fun _ v => v) buffer i out
        = buffer.take i ++ out ++ buffer.drop (i + out.length) := by
  induction out generalizing buffer with
  | nil =>
    intro i _
    simp [writeList]
  | cons v out ih =>
    intro i hi
    simp only [List.length_cons] at hi
    simp only [writeList]
    rw [ih _ (i + 1) (by simp; omega)]
    simp only [List.length_cons]
    have hset : buffer.set i v = buffer.take i ++ v :: buffer.drop (i + 1) := by
      rw [List.set_eq_take_append_cons_drop, if_pos (by omega)]
    have hlen : (buffer.take i).length = i := by simp; omega
    have h1 : (buffer.set i v).take (i + 1) = buffer.take i ++ [v] := by
      rw [hset]
      have := @List.take_append Nat (buffer.take i) (v :: buffer.drop (i + 1)) 1
      rw [hlen] at this
      rw [this]
      simp
    have h2 : (buffer.set i v).drop (i + 1 + out.length) = buffer.drop (i + (out.length + 1)) := by
      rw [List.drop_set_of_lt _ _ (by omega)]
      congr 1
      omega
    rw [h1, h2]
    simp

/-- A `setSamplesInBuffer` call for `n` samples emits `n` samples and stores them in the
first `n` words of the buffer. -/
theorem setSamplesInBuffer_emits (mem : Mem) (fuel : Nat) (g g1 : WaveGenerator)
    (buffer buffer1 : List Nat) (n : Nat) (hn : n ≤ buffer.length)
    (h : g.setSamplesInBuffer mem fuel buffer n = Outcome.ok (g1, buffer1)) :
    ∃ out, Emits mem g out g1 ∧ out.length = n ∧ buffer1 = out ++ buffer.drop n := by
  unfold WaveGenerator.setSamplesInBuffer at h
  rw [setSamplesLoop_eq_fillLoop] at h
  split at h
  · rename_i r hl
    simp only [Outcome.ok.injEq, Prod.mk.injEq] at h
    obtain ⟨out, h1, h2, h3⟩ := fillLoop_emits _ _ _ _ _ _ hl (by simp)
    simp only [zero_add] at h2 h3
    rw [h.1] at h1
    refine ⟨out, h1, h2, ?_⟩
    rw [← h.2, h3, writeList_set_zero buffer out 0 (by omega)]
    simp [h2]
  · cases h
  · cases h


/-- An `addSamplesToBuffer` call for `n` samples emits `n` samples and adds them to the
first `n` words of the buffer. -/
theorem addSamplesToBuffer_emits (mem : Mem) (fuel : Nat) (g g1 : WaveGenerator)
    (buffer buffer1 : List Nat) (n : Nat)
    (h : g.addSamplesToBuffer mem fuel buffer n = Outcome.ok (g1, buffer1)) :
    ∃ out, Emits mem g out g1 ∧ out.length = n ∧ buffer1 = writeList add32 buffer 0 out := by
  unfold WaveGenerator.addSamplesToBuffer at h
  rw [addSamplesLoop_eq_fillLoop] at h
  split at h
  · rename_i r hl
    simp only [Outcome.ok.injEq, Prod.mk.injEq] at h
    obtain ⟨out, h1, h2, h3⟩ := fillLoop_emits _ _ _ _ _ _ hl (by simp)
    simp only [zero_add] at h2 h3
    rw [h.1] at h1
    exact ⟨out, h1, h2, by rw [← h.2, h3]⟩
  · cases h
  · cases h

theorem neg32_lt (v : Nat) : neg32 v < UINT32 := by
  unfold neg32
  exact Nat.mod_lt _ (by decide)

theorem microStep_bound (mem : Mem) (hmem : ∀ a v, mem a = some v → v < UINT32)
    (g g1 : WaveGenerator) (v : Nat) (h : g.microStep mem = Outcome.ok (g1, some v)) :
    v < UINT32 := by
  unfold WaveGenerator.microStep at h
  split at h
  · simp only [Outcome.ok.injEq, Prod.mk.injEq, Option.some.injEq] at h
    rw [← h.2]
    decide
  · split at h
    · split at h
      · cases h
      · rename_i x hx
        simp only [Outcome.ok.injEq, Prod.mk.injEq, Option.some.injEq] at h
        rw [← h.2]
        exact hmem _ _ hx
    · simp at h
  · split at h
    · split at h
      · cases h
      · rename_i x hx
        simp only [Outcome.ok.injEq, Prod.mk.injEq, Option.some.injEq] at h
        rw [← h.2]
        exact hmem _ _ hx
    · simp at h
  · split at h
    · split at h
      · cases h
      · simp only [Outcome.ok.injEq, Prod.mk.injEq, Option.some.injEq] at h
        rw [← h.2]
        exact neg32_lt _
    · simp at h
  · split at h
    · split at h
      · cases h
      · simp only [Outcome.ok.injEq, Prod.mk.injEq, Option.some.injEq] at h
        rw [← h.2]
        exact neg32_lt _
    · simp at h
  · split at h
    · cases h
    · rename_i x hx
      simp only [Outcome.ok.injEq, Prod.mk.injEq, Option.some.injEq] at h
      rw [← h.2]
      exact hmem _ _ hx
  · split at h
    · cases h
    · simp only [Outcome.ok.injEq, Prod.mk.injEq, Option.some.injEq] at h
      rw [← h.2]
      exact neg32_lt _
  · simp at h

theorem emits_bound (mem : Mem) (hmem : ∀ a v, mem a = some v → v < UINT32)
    (g g1 : WaveGenerator) (out : List Nat) (h : Emits mem g out g1) :
    ∀ x ∈ out, x < UINT32 := by
  induction h with
  | nil => simp
  | emit hm _ ih =>
    intro x hx
    rcases List.mem_cons.mp hx with hx | hx
    · rw [hx]
      exact microStep_bound mem hmem _ _ _ hm
    · exact ih x hx
  | quiet _ _ _ ih => exact ih

theorem writeList_add_zero (out pre : List Nat) (m : Nat) (hm : out.length ≤ m)
    (hout : ∀ x ∈ out, x < UINT32) :
    writeList add32 (pre ++ List.replicate m 0) pre.length out
      = pre ++ out ++ List.replicate (m - out.length) 0 := by
  induction out generalizing pre m with
  | nil => simp [writeList]
  | cons v out ih =>
    cases m with
    | zero => simp at hm
    | succ m =>
      simp only [List.length_cons, Nat.add_le_add_iff_right] at hm
      have hv : v < UINT32 := hout v (by simp)
      simp only [writeList, List.replicate_succ]
      have hget : (pre ++ 0 :: List.replicate m 0).getD pre.length 0 = 0 := by
        rw [List.getD_eq_getElem?_getD, List.getElem?_append_right (le_refl _)]
        simp
      have hset : (pre ++ 0 :: List.replicate m 0).set pre.length (add32 0 v)
          = (pre ++ [v]) ++ List.replicate m 0 := by
        rw [List.set_append_right _ _ (le_refl _)]
        simp [add32, Nat.mod_eq_of_lt hv]
      rw [hget, hset]
      have hlen : pre.length + 1 = (pre ++ [v]).length := by simp
      rw [hlen, ih (pre ++ [v]) m hm (fun x hx => hout x (by simp [hx]))]
      simp

/-- A fill call on a zeroed buffer returns exactly the samples the voice emits. -/
theorem fill_emits (mem : Mem) (hmem : ∀ a v, mem a = some v → v < UINT32) (fuel : Nat)
    (g g1 : WaveGenerator) (add : Bool) (n : Nat) (buffer1 : List Nat)
    (h : g.fill mem fuel add n = Outcome.ok (g1, buffer1)) :
    Emits mem g buffer1 g1 ∧ buffer1.length = n := by
  unfold WaveGenerator.fill at h
  split at h
  · obtain ⟨out, h1, h2, h3⟩ := addSamplesToBuffer_emits _ _ _ _ _ _ _ h
    have hb := emits_bound mem hmem _ _ _ h1
    have := writeList_add_zero out [] n (by omega) hb
    simp only [List.nil_append, List.length_nil] at this
    rw [this, h2] at h3
    simp only [Nat.sub_self, List.replicate_zero, List.append_nil] at h3
    rw [h3]
    exact ⟨h1, h2⟩
  · obtain ⟨out, h1, h2, h3⟩ := setSamplesInBuffer_emits _ _ _ _ _ _ _ (by simp) h
    have hd : List.drop n (List.replicate n 0) = ([] : List Nat) := by simp
    rw [hd] at h3
    simp only [List.append_nil] at h3
    rw [h3]
    exact ⟨h1, h2⟩

theorem playFrames_emits (mem : Mem) (hmem : ∀ a v, mem a = some v → v < UINT32) (fuel : Nat)
    (frames : List (Bool × Nat)) (g g1 : WaveGenerator) (out : List Nat)
    (h : playFrames mem fuel frames g = Outcome.ok (out, g1)) : Emits mem g out g1 := by
  induction frames generalizing g out with
  | nil =>
    simp only [playFrames, Outcome.ok.injEq, Prod.mk.injEq] at h
    rw [← h.1, ← h.2]
    exact Emits.nil _
  | cons frame frames ih =>
    simp only [playFrames] at h
    split at h
    · rename_i g2 buffer2 hfill
      split at h
      · rename_i out3 g3 hrest
        simp only [Outcome.ok.injEq, Prod.mk.injEq] at h
        obtain ⟨h1, h2⟩ := h
        subst h1 h2
        exact emits_append (fill_emits mem hmem _ _ _ _ _ _ hfill).1 (ih _ _ hrest)
      · cases h
      · cases h
    · cases h
    · cases h


theorem emits_nil_inv {mem : Mem} {g g1 : WaveGenerator} (h : Emits mem g [] g1) : g1 = g := by
  cases h with
  | nil => rfl
  | quiet _ _ hne => exact absurd rfl hne

/-- The automaton is deterministic: the run that emits fewer samples is a prefix of the
run that emits more. -/
theorem emits_prefix {mem : Mem} {g a b : WaveGenerator} {o1 o2 : List Nat}
    (h1 : Emits mem g o1 a) (h2 : Emits mem g o2 b) (hlen : o1.length ≤ o2.length) :
    ∃ o3, o2 = o1 ++ o3 ∧ Emits mem a o3 b := by
  induction h1 generalizing o2 with
  | nil => exact ⟨o2, rfl, h2⟩
  | emit hm _ ih =>
    cases h2 with
    | nil => simp at hlen
    | emit hm2 h2 =>
      rw [hm] at hm2
      simp only [Outcome.ok.injEq, Prod.mk.injEq, Option.some.injEq] at hm2
      obtain ⟨hg, hv⟩ := hm2
      subst hg hv
      simp only [List.length_cons, Nat.add_le_add_iff_right] at hlen
      obtain ⟨o3, ho, he⟩ := ih h2 hlen
      exact ⟨o3, by rw [ho]; rfl, he⟩
    | quiet hm2 _ _ =>
      rw [hm] at hm2
      simp at hm2
  | quiet hm _ hne ih =>
    cases h2 with
    | nil =>
      simp only [List.length_nil, Nat.le_zero, List.length_eq_zero] at hlen
      exact absurd hlen hne
    | emit hm2 _ =>
      rw [hm] at hm2
      simp at hm2
    | quiet hm2 h2 _ =>
      rw [hm] at hm2
      simp only [Outcome.ok.injEq, Prod.mk.injEq, and_true] at hm2
      subst hm2
      exact ih h2 hlen

theorem lastOf_cons (v : Nat) (out : List Nat) (last : Option Nat) :
    lastOf (v :: out) last = lastOf out (some v) := by
  cases out with
  | nil => rfl
  | cons x xs =>
    unfold lastOf
    rw [List.getLast?_cons_cons]
    cases h : (x :: xs).getLast? with
    | none => simp at h
    | some y => rfl

theorem lastOf_append (o1 o2 : List Nat) (last : Option Nat) :
    lastOf (o1 ++ o2) last = lastOf o2 (lastOf o1 last) := by
  induction o1 generalizing last with
  | nil => rfl
  | cons v o1 ih =>
    rw [List.cons_append, lastOf_cons, lastOf_cons, ih]

theorem lastOf_none (out : List Nat) : lastOf out none = out.getLast? := by
  unfold lastOf
  cases out.getLast? <;> rfl

theorem downInv_step (mem : Mem) (w L d : Int) (g g1 : WaveGenerator) (last o : Option Nat)
    (hinv : g.DownInv mem w L d last) (h : g.microStep mem = Outcome.ok (g1, o)) :
    g1.DownInv mem w L d (match o with | some v => some v | none => last) := by
  obtain ⟨hs, he, hdl, h5, h2⟩ := hinv
  unfold WaveGenerator.microStep at h
  split at h
  · -- state 0
    rename_i hst
    simp only [Outcome.ok.injEq, Prod.mk.injEq] at h
    obtain ⟨hg, ho⟩ := h
    subst hg ho
    exact ⟨hs, he, hdl, fun h => by omega, fun h => by omega⟩
  · -- state 1
    rename_i hst
    split at h
    · split at h
      · cases h
      · simp only [Outcome.ok.injEq, Prod.mk.injEq] at h
        obtain ⟨hg, ho⟩ := h
        subst hg ho
        exact ⟨hs, he, hdl, fun h => by simp only at h; omega, fun h => by simp only at h; omega⟩
    · simp only [Outcome.ok.injEq, Prod.mk.injEq] at h
      obtain ⟨hg, ho⟩ := h
      subst hg ho
      exact ⟨hs, he, hdl, fun _ => rfl, fun _ => Or.inl rfl⟩
  · -- state 2
    rename_i hst
    split at h
    · rename_i hge
      split at h
      · cases h
      · rename_i v hv
        simp only [Outcome.ok.injEq, Prod.mk.injEq] at h
        obtain ⟨hg, ho⟩ := h
        subst hg ho
        refine ⟨hs, he, hdl, fun h => by simp only at h; omega, fun _ => Or.inr ?_⟩
        simp only
        have hcur : g.toWave - g.delta + d = g.toWave := by rw [hdl]; ring
        rcases h2 hst with h0 | ⟨j, hj, -, -, -⟩
        · refine ⟨0, ?_, ?_, ?_, by simp⟩
          · rw [← h0, hdl]; ring
          · rw [hcur, ← hs]; exact hge
          · rw [hcur, hv]
        · refine ⟨j + 1, ?_, ?_, ?_, by simp⟩
          · rw [← hj, hdl]; push_cast; ring
          · rw [hcur, ← hs]; exact hge
          · rw [hcur, hv]
    · simp only [Outcome.ok.injEq, Prod.mk.injEq] at h
      obtain ⟨hg, ho⟩ := h
      subst hg ho
      refine ⟨hs, he, hdl, fun h => ?_, fun h => ?_⟩
      · simp only at h
        split at h <;> omega
      · simp only at h
        split at h <;> omega
  · -- state 3
    rename_i hst
    split at h
    · split at h
      · cases h
      · simp only [Outcome.ok.injEq, Prod.mk.injEq] at h
        obtain ⟨hg, ho⟩ := h
        subst hg ho
        exact ⟨hs, he, hdl, fun h => by simp only at h; omega, fun h => by simp only at h; omega⟩
    · simp only [Outcome.ok.injEq, Prod.mk.injEq] at h
      obtain ⟨hg, ho⟩ := h
      subst hg ho
      refine ⟨hs, he, hdl, fun h => ?_, fun h => ?_⟩
      · have := endForward_state 4 6 g
        omega
      · have := endForward_state 4 6 g
        omega
  · -- state 4
    rename_i hst
    split at h
    · split at h
      · cases h
      · simp only [Outcome.ok.injEq, Prod.mk.injEq] at h
        obtain ⟨hg, ho⟩ := h
        subst hg ho
        exact ⟨hs, he, hdl, fun h => by simp only at h; omega, fun h => by simp only at h; omega⟩
    · simp only [Outcome.ok.injEq, Prod.mk.injEq] at h
      obtain ⟨hg, ho⟩ := h
      subst hg ho
      exact ⟨hs, he, hdl, fun h => by simp only at h; omega, fun h => by simp only at h; omega⟩
  · -- state 5
    rename_i hst
    split at h
    · cases h
    · simp only [Outcome.ok.injEq, Prod.mk.injEq] at h
      obtain ⟨hg, ho⟩ := h
      subst hg ho
      exact ⟨hs, he, hdl, fun h => by simp only at h; omega, fun _ => Or.inl (h5 hst)⟩
  · -- state 6
    rename_i hst
    split at h
    · cases h
    · simp only [Outcome.ok.injEq, Prod.mk.injEq] at h
      obtain ⟨hg, ho⟩ := h
      subst hg ho
      exact ⟨hs, he, hdl, fun h => by simp only at h; omega, fun h => by simp only at h; omega⟩
  · -- other values of state
    rename_i n0 n1 n2 n3 n4 n5 n6
    simp only [Outcome.ok.injEq, Prod.mk.injEq] at h
    obtain ⟨hg, ho⟩ := h
    subst hg ho
    exact ⟨hs, he, hdl, fun h => absurd h n5, fun h => absurd h n2⟩

theorem downInv_emits (mem : Mem) (w L d : Int) (g g1 : WaveGenerator) (out : List Nat)
    (last : Option Nat) (hinv : g.DownInv mem w L d last) (h : Emits mem g out g1) :
    g1.DownInv mem w L d (lastOf out last) := by
  induction h generalizing last with
  | nil => exact hinv
  | emit hm _ ih =>
    rw [lastOf_cons]
    exact ih _ (downInv_step mem w L d _ _ last _ hinv hm)
  | quiet hm _ _ ih =>
    exact ih _ (downInv_step mem w L d _ _ last _ hinv hm)


/-! ## The sample before Idle -/

theorem microStep_idle (mem : Mem) (g g1 : WaveGenerator) (o : Option Nat)
    (h : g.microStep mem = Outcome.ok (g1, o)) :
    (g.state = 0 → g1 = g ∧ o = some STEREOBASE) ∧
    (g.state ≠ 0 → g1.state = 0 →
      o = none ∧ g.state = 2 ∧ g.toWave < g.toStartWave ∧ g.stopping = true) := by
  unfold WaveGenerator.microStep at h
  split at h
  · rename_i hst
    simp only [Outcome.ok.injEq, Prod.mk.injEq] at h
    exact ⟨fun _ => ⟨h.1.symm, h.2.symm⟩, fun hne => absurd hst hne⟩
  · rename_i hst
    refine ⟨fun h0 => by omega, fun _ hz => ?_⟩
    split at h
    · split at h
      · cases h
      · simp only [Outcome.ok.injEq, Prod.mk.injEq] at h
        rw [← h.1] at hz
        simp only at hz
        omega
    · simp only [Outcome.ok.injEq, Prod.mk.injEq] at h
      rw [← h.1] at hz
      have := endForward_state 2 5 g
      omega
  · rename_i hst
    refine ⟨fun h0 => by omega, fun _ hz => ?_⟩
    split at h
    · split at h
      · cases h
      · simp only [Outcome.ok.injEq, Prod.mk.injEq] at h
        rw [← h.1] at hz
        simp only at hz
        omega
    · rename_i hlt
      simp only [Outcome.ok.injEq, Prod.mk.injEq] at h
      rw [← h.1] at hz
      simp only at hz
      refine ⟨h.2.symm, hst, by omega, ?_⟩
      cases hstop : g.stopping with
      | true => rfl
      | false => simp [hstop] at hz
  · rename_i hst
    refine ⟨fun h0 => by omega, fun _ hz => ?_⟩
    split at h
    · split at h
      · cases h
      · simp only [Outcome.ok.injEq, Prod.mk.injEq] at h
        rw [← h.1] at hz
        simp only at hz
        omega
    · simp only [Outcome.ok.injEq, Prod.mk.injEq] at h
      rw [← h.1] at hz
      have := endForward_state 4 6 g
      omega
  · rename_i hst
    refine ⟨fun h0 => by omega, fun _ hz => ?_⟩
    split at h
    · split at h
      · cases h
      · simp only [Outcome.ok.injEq, Prod.mk.injEq] at h
        rw [← h.1] at hz
        simp only at hz
        omega
    · simp only [Outcome.ok.injEq, Prod.mk.injEq] at h
      rw [← h.1] at hz
      simp only at hz
      omega
  · rename_i hst
    refine ⟨fun h0 => by omega, fun _ hz => ?_⟩
    split at h
    · cases h
    · simp only [Outcome.ok.injEq, Prod.mk.injEq] at h
      rw [← h.1] at hz
      simp only at hz
      omega
  · rename_i hst
    refine ⟨fun h0 => by omega, fun _ hz => ?_⟩
    split at h
    · cases h
    · simp only [Outcome.ok.injEq, Prod.mk.injEq] at h
      rw [← h.1] at hz
      simp only at hz
      omega
  · rename_i n0 _ _ _ _ _ _
    simp only [Outcome.ok.injEq, Prod.mk.injEq] at h
    refine ⟨fun h0 => absurd h0 n0, fun hne hz => ?_⟩
    rw [← h.1] at hz
    exact absurd hz hne

theorem emits_idle (mem : Mem) (g g1 : WaveGenerator) (out : List Nat)
    (h : Emits mem g out g1) (hz : g.state = 0) : ∀ x ∈ out, x = STEREOBASE := by
  induction h with
  | nil => simp
  | emit hm _ ih =>
    obtain ⟨hg, hv⟩ := (microStep_idle mem _ _ _ hm).1 hz
    simp only [Option.some.injEq] at hv
    intro x hx
    rcases List.mem_cons.mp hx with hx | hx
    · rw [hx, hv]
    · exact ih (by rw [hg]; exact hz) x hx
  | quiet hm _ _ _ =>
    have := ((microStep_idle mem _ _ _ hm).1 hz).2
    cases this

/-- When the next sample is the first Idle one, the sample emitted last is the table
word at offset `(L - 1) % d`. -/
theorem idle_entry (mem : Mem) (w L d : Int) (hL : 1 ≤ L)
    (g g4 : WaveGenerator) (out : List Nat) (last : Option Nat)
    (h : Emits mem g out g4) (hlen : out.length = 1) (hz : g4.state = 0) (hne : g.state ≠ 0)
    (hinv : g.DownInv mem w L d last) :
    last = mem (w + (L - 1) % d) ∧ last ≠ none ∧ out = [STEREOBASE] := by
  induction h with
  | nil => simp at hlen
  | @emit g g1 g2 v out hm hrest _ =>
    have hout : out = [] := by
      simp only [List.length_cons, add_left_eq_self, List.length_eq_zero] at hlen
      exact hlen
    subst hout
    have hg := emits_nil_inv hrest
    subst hg
    have := ((microStep_idle mem _ _ _ hm).2 hne hz).1
    cases this
  | @quiet g g1 g2 out hm hrest _ ih =>
    by_cases hz1 : g1.state = 0
    · obtain ⟨-, hst, hlt, -⟩ := (microStep_idle mem _ _ _ hm).2 hne hz1
      obtain ⟨hs, he, hdl, -, h2⟩ := hinv
      have hall := emits_idle mem _ _ _ hrest hz1
      have hout : out = [STEREOBASE] := by
        match out, hlen with
        | [x], _ =>
          rw [hall x (by simp)]
      rcases h2 hst with h0 | ⟨j, hj, hlow, hlast, hsome⟩
      · omega
      · refine ⟨?_, hsome, hout⟩
        have hoff : g.toWave + d - w = (L - 1) % d := by
          have hr0 : 0 ≤ g.toWave + d - w := by omega
          have hr1 : g.toWave + d - w < d := by omega
          have hsum : L - 1 = (g.toWave + d - w) + d * j := by
            have : g.toWave + (↑j + 1) * d = w + (L - 1) := by rw [hj, he]
            linarith
          rw [hsum, Int.add_mul_emod_self_left, Int.emod_eq_of_lt hr0 hr1]
        rw [hlast, ← hoff]
        congr 1
        ring
    · exact ih hlen hz hz1 (downInv_step mem w L d _ _ last _ hinv hm)


theorem tableMem_bound (base : Int) (table : List Nat) (h : ∀ x ∈ table, x < UINT32) :
    ∀ a v, tableMem base table a = some v → v < UINT32 := by
  intro a v hv
  unfold tableMem at hv
  split at hv
  · cases hv
  · exact h v (List.mem_iff_getElem?.mpr ⟨_, hv⟩)

set_option maxRecDepth 100000 in
/-- C8 (counterexample). Pitch 117 in square style: `startNote(117, 100)` binds voice 0
to the square table of pitch class A0 (1745 words, all 1827 * 65537) with stride 256.
After a stop request the voice is still in Down1 after 14 samples and Idle after 15;
the 14th sample, the last one before Idle, is 1827 * 65537 = 119736099, not
STEREOBASE = 0. -/
theorem square_release_not_zero :
    ((((PolySynth.initial squareTables).setStyle 2).startNote 117 100).get
      (PolySynth.initial squareTables)).wavegenerators 0 = squareVoice ∧
    stateAfter (squareVoice.clearWave.fill squareMem 40 false 14) = some 2 ∧
    stateAfter (squareVoice.clearWave.fill squareMem 40 false 15) = some 0 ∧
    (samplesOf (squareVoice.clearWave.fill squareMem 40 false 14)).getLast? = some 119736099 ∧
    samplesOf (squareVoice.clearWave.fill squareMem 40 false 15)
      = samplesOf (squareVoice.clearWave.fill squareMem 40 false 14) ++ [STEREOBASE] ∧
    (119736099 : Nat) ≠ STEREOBASE := by
  refine ⟨by decide, by decide, by decide, by decide, by decide, by decide⟩

/-- C8 (amended). A voice bound by `setWave` to a table of `L ≥ 1` words at `w` with
stride `d` plays any sequence of frames, receives a stop request, and plays any further
frames. If from then on `n` more samples leave it non-Idle and `n + 1` more samples
leave it Idle, then sample `n + 1` is STEREOBASE and the sample emitted before it, the
last one before Idle, is the table word at offset `(L - 1) % d` (the first word of the
table when `d = 1`). -/
theorem last_sample_before_idle (mem : Mem) (hmem : ∀ a v, mem a = some v → v < UINT32)
    (g0 : WaveGenerator) (w L d : Int) (e : Nat) (hL : 1 ≤ L)
    (fuel1 fuel2 fuel3 fuel4 : Nat) (frames1 frames2 : List (Bool × Nat)) (add : Bool) (n : Nat)
    (out1 out2 b3 b4 : List Nat) (g1 g2 g3 g4 : WaveGenerator)
    (h1 : playFrames mem fuel1 frames1 (g0.setWave w L d e) = Outcome.ok (out1, g1))
    (h2 : playFrames mem fuel2 frames2 g1.clearWave = Outcome.ok (out2, g2))
    (h3 : g2.fill mem fuel3 add n = Outcome.ok (g3, b3)) (hs3 : g3.state ≠ 0)
    (h4 : g2.fill mem fuel4 add (n + 1) = Outcome.ok (g4, b4)) (hs4 : g4.state = 0) :
    ∃ v, mem (w + (L - 1) % d) = some v ∧ (out1 ++ out2 ++ b3).getLast? = some v ∧
      b4 = b3 ++ [STEREOBASE] := by
  have e1 := playFrames_emits mem hmem _ _ _ _ _ h1
  have e2 := playFrames_emits mem hmem _ _ _ _ _ h2
  obtain ⟨e3, l3⟩ := fill_emits mem hmem _ _ _ _ _ _ h3
  obtain ⟨e4, l4⟩ := fill_emits mem hmem _ _ _ _ _ _ h4
  obtain ⟨o, ho, eo⟩ := emits_prefix e3 e4 (by omega)
  have hlen : o.length = 1 := by
    have := congrArg List.length ho
    simp only [List.length_append] at this
    omega
  have k0 : (g0.setWave w L d e).DownInv mem w L d none :=
    ⟨rfl, rfl, rfl, fun h => by simp [WaveGenerator.setWave] at h,
      fun h => by simp [WaveGenerator.setWave] at h⟩
  have k1 := downInv_emits mem w L d _ _ _ _ k0 e1
  have k1c : g1.clearWave.DownInv mem w L d (lastOf out1 none) := k1
  have k2 := downInv_emits mem w L d _ _ _ _ k1c e2
  have k3 := downInv_emits mem w L d _ _ _ _ k2 e3
  obtain ⟨hlast, hsome, hout⟩ := idle_entry mem w L d hL _ _ _ _ eo hlen hs4 hs3 k3
  rw [← lastOf_append, ← lastOf_append, lastOf_none, ← List.append_assoc] at hlast hsome
  cases hv : mem (w + (L - 1) % d) with
  | none =>
    rw [hv] at hlast
    exact absurd hlast hsome
  | some v =>
    rw [hv] at hlast
    exact ⟨v, rfl, hlast, by rw [ho, hout]⟩

theorem last_sample_before_idle_witness :
    ∃ v, demoMem4 (100 + (4 - 1) % 2) = some v ∧ ([0] ++ [9] ++ [12, 5]).getLast? = some v ∧
      [12, 5, 0] = [12, 5] ++ [STEREOBASE] :=
  last_sample_before_idle demoMem4
    (tableMem_bound 100 [0, 5, 9, 12] (by decide))
    WaveGenerator.fresh 100 4 2 0 (by decide) 9 9 9 9 [(false, 1)] [(true, 1)] false 2
    [0] [9] [12, 5] [12, 5, 0]
    { (WaveGenerator.fresh.setWave 100 4 2 0) with toWave := 102 }
    { (WaveGenerator.fresh.setWave 100 4 2 0).clearWave with toWave := 104 }
    { (WaveGenerator.fresh.setWave 100 4 2 0).clearWave with state := 2, toWave := 99 }
    { (WaveGenerator.fresh.setWave 100 4 2 0).clearWave with state := 0, toWave := 100 }
    (by decide) (by decide) (by decide) (by decide) (by decide) (by decide)


/-! ## The error accumulator stays bounded -/

theorem endForward_err (down extra : Nat) (g : WaveGenerator)
    (hextra : extra = 5 ∨ extra = 6) (hdown : ¬ (down = 5 ∨ down = 6))
    (hstate : ¬ (g.state = 5 ∨ g.state = 6)) (h : g.ErrInv) :
    (endForward down extra g).ErrInv := by
  obtain ⟨hu, -, hlow⟩ := h
  have ht := hlow hstate
  have hsum : add32 g.totalError g.sampleError = g.totalError + g.sampleError := by
    unfold add32
    apply Nat.mod_eq_of_lt
    simp only [WAVEPARTERRORMAX, UINT32] at *
    omega
  unfold endForward
  simp only [hsum]
  refine ⟨hu, ?_, ?_⟩
  · intro hs
    simp only at hs
    split at hs
    · rename_i hgt
      simp only [WAVEPARTERRORMAX] at *
      omega
    · exact absurd hs hdown
  · intro hs
    simp only at hs ⊢
    split at hs
    · exact absurd hextra hs
    · rename_i hle
      omega

theorem fillCase_err (write : Nat → Nat → Nat) (mem : Mem) (bufferSize : Nat) (r r1 : Run)
    (h : fillCase write mem bufferSize r = Outcome.ok r1) (hinv : r.g.ErrInv) :
    r1.g.ErrInv ∧
    ((r.g.state = 5 ∨ r.g.state = 6) → r.bufferIndex < bufferSize →
      r1.g.totalError + WAVEPARTERRORMAX = r.g.totalError ∧
      r1.g.totalError ≤ WAVEPARTERRORMAX ∧
      (r.g.state = 5 → r1.g.state = 2) ∧ (r.g.state = 6 → r1.g.state = 4)) := by
  have keep : ∀ r2 : Run, r.g.SameBinding r2.g → r2.g.state = r.g.state →
      r2.g.totalError = r.g.totalError → r2.g.ErrInv := by
    intro r2 hb hs ht
    unfold WaveGenerator.ErrInv
    rw [hb.2.2.2.2.2, hs, ht]
    exact hinv
  have sub : ∀ r2 : Run, r.g.SameBinding r2.g → (r.g.state = 5 ∨ r.g.state = 6) →
      (r2.g.state = 2 ∨ r2.g.state = 4) →
      r2.g.totalError = sub32 r.g.totalError WAVEPARTERRORMAX →
      r2.g.ErrInv ∧ r2.g.totalError + WAVEPARTERRORMAX = r.g.totalError ∧
        r2.g.totalError ≤ WAVEPARTERRORMAX := by
    intro r2 hb hs hs2 ht
    obtain ⟨hlo, hhi⟩ := hinv.2.1 hs
    have hval : sub32 r.g.totalError WAVEPARTERRORMAX = r.g.totalError - WAVEPARTERRORMAX := by
      unfold sub32
      simp only [WAVEPARTERRORMAX, UINT32] at *
      omega
    rw [hval] at ht
    refine ⟨⟨?_, ?_, ?_⟩, by omega, by omega⟩
    · rw [hb.2.2.2.2.2]; exact hinv.1
    · intro h56; omega
    · intro _; omega
  unfold fillCase at h
  simp only at h
  split at h
  · rename_i hs
    have hv := idleLoop_voice _ _ _ _ h
    rw [hv]
    exact ⟨hinv, fun h56 => by omega⟩
  · rename_i hs
    refine ⟨?_, fun h56 => by omega⟩
    split at h
    · rename_i r2 hl
      obtain ⟨hb, hst, hte⟩ := sampleLoop_voice _ _ _ _ _ _ _ _ hl
      have h2 := keep r2 hb hst hte
      split at h
      · simp only [Outcome.ok.injEq] at h
        subst h
        exact endForward_err 2 5 r2.g (Or.inl rfl) (by omega) (by omega) h2
      · simp only [Outcome.ok.injEq] at h
        subst h
        exact h2
    · cases h
    · cases h
  · rename_i hs
    refine ⟨?_, fun h56 => by omega⟩
    split at h
    · rename_i r2 hl
      obtain ⟨hb, hst, hte⟩ := sampleLoop_voice _ _ _ _ _ _ _ _ hl
      have h2 := keep r2 hb hst hte
      split at h
      · simp only [Outcome.ok.injEq] at h
        subst h
        obtain ⟨a, b, c⟩ := h2
        refine ⟨a, fun h56 => ?_, fun _ => c (by omega)⟩
        simp only at h56
        split at h56 <;> omega
      · simp only [Outcome.ok.injEq] at h
        subst h
        exact h2
    · cases h
    · cases h
  · rename_i hs
    refine ⟨?_, fun h56 => by omega⟩
    split at h
    · rename_i r2 hl
      obtain ⟨hb, hst, hte⟩ := sampleLoop_voice _ _ _ _ _ _ _ _ hl
      have h2 := keep r2 hb hst hte
      split at h
      · simp only [Outcome.ok.injEq] at h
        subst h
        exact endForward_err 4 6 r2.g (Or.inr rfl) (by omega) (by omega) h2
      · simp only [Outcome.ok.injEq] at h
        subst h
        exact h2
    · cases h
    · cases h
  · rename_i hs
    refine ⟨?_, fun h56 => by omega⟩
    split at h
    · rename_i r2 hl
      obtain ⟨hb, hst, hte⟩ := sampleLoop_voice _ _ _ _ _ _ _ _ hl
      have h2 := keep r2 hb hst hte
      split at h
      · simp only [Outcome.ok.injEq] at h
        subst h
        obtain ⟨a, b, c⟩ := h2
        exact ⟨a, fun h56 => by simp only at h56; omega, fun _ => c (by omega)⟩
      · simp only [Outcome.ok.injEq] at h
        subst h
        exact h2
    · cases h
    · cases h
  · rename_i hs
    split at h
    · obtain ⟨hb, hst, -, hte⟩ := extraSample_voice _ _ _ _ _ _ h
      obtain ⟨a, b, c⟩ := sub r1 hb (Or.inl hs) (Or.inl hst) hte
      exact ⟨a, fun _ _ => ⟨b, c, fun _ => hst, fun h6 => by omega⟩⟩
    · rename_i hge
      simp only [Outcome.ok.injEq] at h
      subst h
      exact ⟨hinv, fun _ hlt => absurd hlt hge⟩
  · rename_i hs
    split at h
    · obtain ⟨hb, hst, -, hte⟩ := extraSample_voice _ _ _ _ _ _ h
      obtain ⟨a, b, c⟩ := sub r1 hb (Or.inr hs) (Or.inr hst) hte
      exact ⟨a, fun _ _ => ⟨b, c, fun h5 => by omega, fun _ => hst⟩⟩
    · rename_i hge
      simp only [Outcome.ok.injEq] at h
      subst h
      exact ⟨hinv, fun _ hlt => absurd hlt hge⟩
  · rename_i n0 n1 n2 n3 n4 n5 n6
    simp only [Outcome.ok.injEq] at h
    subst h
    exact ⟨hinv, fun h56 => by rcases h56 with h5 | h6; exact absurd h5 n5; exact absurd h6 n6⟩

theorem fillLoop_err (write : Nat → Nat → Nat) (mem : Mem) (bufferSize fuel : Nat)
    (r r1 : Run) (h : fillLoop write mem bufferSize fuel r = Outcome.ok r1)
    (hinv : r.g.ErrInv) : r1.g.ErrInv := by
  induction fuel generalizing r with
  | zero =>
    simp only [fillLoop] at h
    split at h
    · cases h
    · simp only [Outcome.ok.injEq] at h
      subst h
      exact hinv
  | succ n ih =>
    simp only [fillLoop] at h
    split at h
    · split at h
      · rename_i r2 hcase
        exact ih r2 h (fillCase_err _ _ _ _ _ hcase hinv).1
      · cases h
      · cases h
    · simp only [Outcome.ok.injEq] at h
      subst h
      exact hinv


theorem clearStopping_err (g : WaveGenerator) (h : g.ErrInv) : (g.clearStopping).2.ErrInv := by
  unfold WaveGenerator.clearStopping
  split
  · exact h
  · exact h

/-- C13. For a voice bound with a correction unit `u ≤ WAVEPARTERRORMAX`: right after
`setWave`, and after every `clearWave`, `clearStopping`, execution of the `switch` of
either fill function and complete fill call, the accumulator `totalError` is at most
`WAVEPARTERRORMAX` when the state is not 5 or 6, and above `WAVEPARTERRORMAX` but at
most `2 * WAVEPARTERRORMAX` when the state is 5 or 6. The `switch` execution that
leaves state 5 (6) subtracts `WAVEPARTERRORMAX` without underflow, leaves at most
`WAVEPARTERRORMAX` and enters state 2 (4), the reverse pass of the same half-cycle. -/
theorem accumulator_bounded (mem : Mem) (g0 : WaveGenerator) (w L d : Int) (u : Nat)
    (hu : u ≤ WAVEPARTERRORMAX) :
    (g0.setWave w L d u).ErrInv ∧
    (∀ g : WaveGenerator, g.ErrInv → g.clearWave.ErrInv ∧ (g.clearStopping).2.ErrInv) ∧
    (∀ (bufferSize : Nat) (r r1 : Run), r.g.ErrInv →
      (WaveGenerator.setSamplesCase mem bufferSize r = Outcome.ok r1 ∨
        WaveGenerator.addSamplesCase mem bufferSize r = Outcome.ok r1) →
      r1.g.ErrInv ∧
      ((r.g.state = 5 ∨ r.g.state = 6) → r.bufferIndex < bufferSize →
        r1.g.totalError + WAVEPARTERRORMAX = r.g.totalError ∧
        r1.g.totalError ≤ WAVEPARTERRORMAX ∧
        (r.g.state = 5 → r1.g.state = 2) ∧ (r.g.state = 6 → r1.g.state = 4))) ∧
    (∀ (fuel : Nat) (g g1 : WaveGenerator) (buffer buffer1 : List Nat) (n : Nat), g.ErrInv →
      (g.setSamplesInBuffer mem fuel buffer n = Outcome.ok (g1, buffer1) ∨
        g.addSamplesToBuffer mem fuel buffer n = Outcome.ok (g1, buffer1)) →
      g1.ErrInv) := by
  refine ⟨?_, ?_, ?_, ?_⟩
  · refine ⟨hu, ?_, ?_⟩
    · intro h56
      simp [WaveGenerator.setWave] at h56
    · intro _
      simp [WaveGenerator.setWave]
  · intro g hg
    exact ⟨hg, clearStopping_err g hg⟩
  · intro bufferSize r r1 hinv hcase
    rcases hcase with hcase | hcase
    · rw [setSamplesCase_eq_fillCase] at hcase
      exact fillCase_err _ _ _ _ _ hcase hinv
    · rw [addSamplesCase_eq_fillCase] at hcase
      exact fillCase_err _ _ _ _ _ hcase hinv
  · intro fuel g g1 buffer buffer1 n hinv hfill
    rcases hfill with hfill | hfill
    · unfold WaveGenerator.setSamplesInBuffer at hfill
      rw [setSamplesLoop_eq_fillLoop] at hfill
      split at hfill
      · rename_i r hl
        simp only [Outcome.ok.injEq, Prod.mk.injEq] at hfill
        rw [← hfill.1]
        exact fillLoop_err _ _ _ _ _ _ hl hinv
      · cases hfill
      · cases hfill
    · unfold WaveGenerator.addSamplesToBuffer at hfill
      rw [addSamplesLoop_eq_fillLoop] at hfill
      split at hfill
      · rename_i r hl
        simp only [Outcome.ok.injEq, Prod.mk.injEq] at hfill
        rw [← hfill.1]
        exact fillLoop_err _ _ _ _ _ _ hl hinv
      · cases hfill
      · cases hfill

theorem accumulator_bounded_witness :
    (WaveGenerator.fresh.setWave 100 3 1 40909).ErrInv :=
  (accumulator_bounded demoMem WaveGenerator.fresh 100 3 1 40909 (by decide)).1


/-! ## Headroom of the mix -/

theorem pack_eq (m : Nat) (hm : m < 65536) : pack m = m * 65537 := by
  unfold pack
  have hs : (m <<< 16) % UINT32 = 2 ^ 16 * m := by
    rw [Nat.shiftLeft_eq, Nat.mod_eq_of_lt]
    · ring
    · simp only [UINT32]
      omega
  rw [hs, ← Nat.mul_add_lt_is_or (by omega : m < 2 ^ 16)]
  ring

theorem neg32_modEq (v : Nat) : ((neg32 v : Nat) : Int) ≡ -(v : Int) [ZMOD (UINT32 : Int)] := by
  unfold neg32
  have hpos : 0 < UINT32 := by decide
  have hlt : v % UINT32 < UINT32 := Nat.mod_lt _ hpos
  have h1 : (((UINT32 - v % UINT32) % UINT32 : Nat) : Int)
      ≡ ((UINT32 - v % UINT32 : Nat) : Int) [ZMOD (UINT32 : Int)] := by
    rw [Int.natCast_mod]
    exact Int.mod_modEq _ _
  refine h1.trans ?_
  rw [Nat.cast_sub (le_of_lt hlt), Int.natCast_mod]
  have h2 : ((v : Int) % (UINT32 : Int)) ≡ (v : Int) [ZMOD (UINT32 : Int)] := Int.mod_modEq _ _
  have h3 : ((UINT32 : Nat) : Int) ≡ 0 [ZMOD (UINT32 : Int)] := by
    unfold Int.ModEq
    simp
  have := h3.sub h2
  simpa using this

theorem foldl_add32_modEq (ws : List Nat) (a : Nat) :
    ((ws.foldl add32 a : Nat) : Int) ≡ (a : Int) + ((ws.map (fun w => (w : Int))).sum)
      [ZMOD (UINT32 : Int)] := by
  induction ws generalizing a with
  | nil => simp [Int.ModEq]
  | cons w ws ih =>
    simp only [List.foldl_cons, List.map_cons, List.sum_cons]
    refine (ih (add32 a w)).trans ?_
    have h1 : ((add32 a w : Nat) : Int) ≡ (a : Int) + (w : Int) [ZMOD (UINT32 : Int)] := by
      unfold add32
      rw [Int.natCast_mod]
      push_cast
      exact Int.mod_modEq _ _
    have := h1.add_right ((ws.map (fun w => (w : Int))).sum)
    rw [add_assoc] at this
    exact this

theorem mixWords_modEq (ws : List Nat) :
    ((mixWords ws : Nat) : Int) ≡ (ws.map (fun w => (w : Int))).sum [ZMOD (UINT32 : Int)] := by
  cases ws with
  | nil => simp [mixWords, Int.ModEq]
  | cons w ws =>
    simp only [mixWords, List.map_cons, List.sum_cons]
    exact foldl_add32_modEq ws w

theorem contribution_modEq (c : Bool × Nat) (hc : c.2 ≤ TOP) :
    ((contribution c : Nat) : Int) ≡ signedLevel c * 65537 [ZMOD (UINT32 : Int)] := by
  have hm : c.2 < 65536 := by
    have : TOP = 2031 := by decide
    omega
  unfold contribution signedLevel
  split
  · refine (neg32_modEq _).trans ?_
    rw [pack_eq _ hm]
    push_cast
    rw [neg_mul]
  · rw [pack_eq _ hm]
    push_cast
    exact Int.ModEq.refl _

theorem contributions_sum_modEq (cs : List (Bool × Nat)) (hle : ∀ c ∈ cs, c.2 ≤ TOP) :
    ((cs.map contribution).map (fun w => (w : Int))).sum
      ≡ (cs.map signedLevel).sum * 65537 [ZMOD (UINT32 : Int)] := by
  induction cs with
  | nil => simp [Int.ModEq]
  | cons c cs ih =>
    simp only [List.map_cons, List.sum_cons, add_mul]
    exact (contribution_modEq c (hle c (by simp))).add
      (ih (fun x hx => hle x (by simp [hx])))

theorem signed_sum_bound (cs : List (Bool × Nat)) (hle : ∀ c ∈ cs, c.2 ≤ TOP) :
    -((cs.length * TOP : Nat) : Int) ≤ (cs.map signedLevel).sum ∧
    (cs.map signedLevel).sum ≤ ((cs.length * TOP : Nat) : Int) := by
  induction cs with
  | nil => simp
  | cons c cs ih =>
    obtain ⟨h1, h2⟩ := ih (fun x hx => hle x (by simp [hx]))
    have hc := hle c (by simp)
    simp only [List.map_cons, List.sum_cons, List.length_cons]
    have hs : -(TOP : Int) ≤ signedLevel c ∧ signedLevel c ≤ (TOP : Int) := by
      unfold signedLevel
      split <;> constructor <;> omega
    push_cast at h1 h2 ⊢
    constructor
    · nlinarith [hs.1, hs.2]
    · nlinarith [hs.1, hs.2]

/-- C17. The per-voice peak satisfies `TOP ≤ (0xffff/2)/NROFWAVEGENERATORS` and
`NROFWAVEGENERATORS * TOP ≤ 32767`. For any 16 contributions `± pack m` (negation
modulo `2^32`) with `m ≤ TOP`, where `pack m = m * 65536 + m`, the low 16 bits of the
mixed word are the 16-bit two's-complement encoding of the signed sum of the `± m`,
and that sum lies in [-32768, 32767]. -/
theorem mix_headroom (cs : List (Bool × Nat)) (hlen : cs.length = NROFWAVEGENERATORS)
    (hle : ∀ c ∈ cs, c.2 ≤ TOP) :
    TOP ≤ (0xffff / 2) / NROFWAVEGENERATORS ∧ NROFWAVEGENERATORS * TOP ≤ 32767 ∧
    (∀ c ∈ cs, pack c.2 = c.2 * 65536 + c.2) ∧
    ((mixWords (cs.map contribution) % 65536 : Nat) : Int)
      = (cs.map signedLevel).sum % 65536 ∧
    -32768 ≤ (cs.map signedLevel).sum ∧ (cs.map signedLevel).sum ≤ 32767 := by
  have htop : TOP = 2031 := by decide
  have hbound := signed_sum_bound cs hle
  rw [hlen] at hbound
  have h16 : NROFWAVEGENERATORS * TOP = 32496 := by decide
  rw [h16] at hbound
  refine ⟨by decide, by decide, ?_, ?_, by omega, by omega⟩
  · intro c hc
    rw [pack_eq c.2 (by have := hle c hc; omega)]
    ring
  · have hmix := (mixWords_modEq (cs.map contribution)).trans (contributions_sum_modEq cs hle)
    have hdvd : (65536 : Int) ∣ (UINT32 : Int) := by
      refine ⟨65536, ?_⟩
      simp [UINT32]
    have hlow := Int.ModEq.of_dvd hdvd hmix
    have hone : (cs.map signedLevel).sum * 65537 ≡ (cs.map signedLevel).sum [ZMOD 65536] := by
      have h1 : (65537 : Int) ≡ 1 [ZMOD 65536] := by decide
      have := (Int.ModEq.refl ((cs.map signedLevel).sum)).mul h1
      simpa using this
    have := hlow.trans hone
    rw [Int.natCast_mod]
    exact this

theorem mix_headroom_witness :
    ((mixWords ((List.replicate 16 (true, 2031)).map contribution) % 65536 : Nat) : Int)
      = ((List.replicate 16 (true, 2031)).map signedLevel).sum % 65536 :=
  (mix_headroom (List.replicate 16 (true, 2031)) (by decide) (by decide)).2.2.2.1


/-! ## The fill calls terminate -/

theorem idleLoop_total (write : Nat → Nat → Nat) (room : Nat) (r : Run)
    (hbuf : r.bufferIndex + room ≤ r.buffer.length) :
    ∃ r1, idleLoop write room r = Outcome.ok r1 ∧ r1.g = r.g ∧
      r1.buffer.length = r.buffer.length ∧ r1.bufferIndex = r.bufferIndex + room := by
  induction room generalizing r with
  | zero => exact ⟨r, rfl, rfl, rfl, rfl⟩
  | succ n ih =>
    have hlt : r.bufferIndex < r.buffer.length := by omega
    simp only [idleLoop, dif_pos hlt]
    obtain ⟨r1, h1, h2, h3, h4⟩ := ih
      { r with
        buffer := r.buffer.set r.bufferIndex (write r.buffer[r.bufferIndex] STEREOBASE)
        bufferIndex := r.bufferIndex + 1 } (by simp only [List.length_set]; omega)
    refine ⟨r1, h1, h2, ?_, ?_⟩
    · rw [h3]; simp
    · rw [h4]; simp only; omega

theorem sampleLoop_total (mem : Mem) (cond : Int → Bool) (val : Nat → Nat) (next : Int → Int)
    (write : Nat → Nat → Nat) (P : Int → Prop)
    (hP : ∀ t, P t → cond t = true → mem t ≠ none ∧ P (next t))
    (room : Nat) (r : Run) (hPr : P r.g.toWave)
    (hbuf : r.bufferIndex + room ≤ r.buffer.length) :
    ∃ r1, sampleLoop mem cond val next write room r = Outcome.ok r1 ∧ P r1.g.toWave ∧
      r1.buffer.length = r.buffer.length ∧ r.bufferIndex ≤ r1.bufferIndex ∧
      r1.bufferIndex ≤ r.bufferIndex + room ∧
      (r1.bufferIndex < r.bufferIndex + room → cond r1.g.toWave = false) ∧
      (0 < room → cond r.g.toWave = true → r.bufferIndex < r1.bufferIndex) ∧
      (cond r.g.toWave = false → r1 = r) := by
  induction room generalizing r with
  | zero =>
    exact ⟨r, rfl, hPr, rfl, le_refl _, le_refl _, fun h => absurd h (lt_irrefl _),
      fun h => absurd h (lt_irrefl _), fun _ => rfl⟩
  | succ n ih =>
    by_cases hc : cond r.g.toWave = true
    · obtain ⟨hread, hnext⟩ := hP _ hPr hc
      cases hm : mem r.g.toWave with
      | none => exact absurd hm hread
      | some v =>
        have hlt : r.bufferIndex < r.buffer.length := by omega
        simp only [sampleLoop, hc, if_true, hm, dif_pos hlt]
        obtain ⟨r1, h1, h2, h3, h4, h5, h6, -, -⟩ := ih
          { g := { r.g with toWave := next r.g.toWave }
            buffer := r.buffer.set r.bufferIndex (write r.buffer[r.bufferIndex] (val v))
            bufferIndex := r.bufferIndex + 1 } hnext (by simp only [List.length_set]; omega)
        simp only [List.length_set] at h3
        simp only at h4 h5 h6
        refine ⟨r1, h1, h2, h3, by omega, by omega, ?_, fun _ _ => by omega, ?_⟩
        · intro hlt1
          exact h6 (by omega)
        · intro hf
          cases hf
    · simp only [sampleLoop, hc]
      refine ⟨r, rfl, hPr, rfl, le_refl _, by omega, fun _ => ?_, fun _ h => absurd h (by decide),
        fun _ => rfl⟩
      simpa using hc

theorem extraSample_total (mem : Mem) (val : Nat → Nat) (write : Nat → Nat → Nat)
    (newState : Nat) (r : Run) (hread : mem r.g.toEndWave ≠ none)
    (hlt : r.bufferIndex < r.buffer.length) :
    ∃ r1, extraSample mem val write newState r = Outcome.ok r1 ∧
      r1.buffer.length = r.buffer.length ∧ r1.bufferIndex = r.bufferIndex + 1 ∧
      r1.g = { r.g with totalError := sub32 r.g.totalError WAVEPARTERRORMAX
                        state := newState } := by
  unfold extraSample
  cases hm : mem r.g.toEndWave with
  | none => exact absurd hm hread
  | some v =>
    simp only [dif_pos hlt]
    exact ⟨_, rfl, by simp, rfl, rfl⟩

theorem playing_read (mem : Mem) (w L d : Int) (g : WaveGenerator) (hp : g.Playing mem w L d)
    (t : Int) (hlo : w ≤ t) (hhi : t ≤ g.toEndWave) : mem t ≠ none := by
  obtain ⟨-, he, -, -, -, -, hread, -⟩ := hp
  have := hread (t - w) (by omega) (by omega)
  rw [show w + (t - w) = t by ring] at this
  exact this

/-- A forward pass of the `switch` (cases 1 and 3) on a voice in play. -/
theorem upCase_total (write : Nat → Nat → Nat) (mem : Mem) (bufferSize : Nat) (r : Run)
    (w L d : Int) (val : Nat → Nat) (down extra : Nat)
    (hs : r.g.state = 1 ∨ r.g.state = 3) (hdown : down = 2 ∨ down = 4)
    (hextra : extra = 5 ∨ extra = 6)
    (hcase : ∀ r2, sampleLoop mem (fun toWave => decide (toWave ≤ r.g.toEndWave)) val
        (fun toWave => toWave + r.g.delta) write (bufferSize - r.bufferIndex) r = Outcome.ok r2 →
      fillCase write mem bufferSize r = (if r2.bufferIndex < bufferSize then
        Outcome.ok { r2 with g := endForward down extra r2.g } else Outcome.ok r2))
    (hp : r.g.Playing mem w L d) (hlt : r.bufferIndex < bufferSize)
    (hbuf : bufferSize ≤ r.buffer.length) :
    ∃ r1, fillCase write mem bufferSize r = Outcome.ok r1 ∧ r1.g.Playing mem w L d ∧
      r1.buffer.length = r.buffer.length ∧ r1.bufferIndex ≤ bufferSize ∧
      (r.g.Ready → r.bufferIndex < r1.bufferIndex) ∧
      (¬ r.g.Ready → r1.bufferIndex = r.bufferIndex ∧ r1.g.Ready) := by
  have hp0 := hp
  have hodd : r.g.state % 2 = 1 ∧ r.g.state ≤ 3 := by
    rcases hs with h | h <;> rw [h] <;> decide
  have hdown2 : down % 2 = 0 ∧ 2 ≤ down ∧ down ≤ 4 := by
    rcases hdown with h | h <;> rw [h] <;> decide
  have hextra2 : 5 ≤ extra ∧ extra ≤ 6 := by
    rcases hextra with h | h <;> rw [h] <;> decide
  obtain ⟨hstart, hend, hdelta, hL, hd, hst6, hread, hup, hdn, h56⟩ := hp
  have hcur := hup hs
  clear hup hdn h56 hs hdown hextra hst6
  have hstep : ∀ t : Int, (w ≤ t ∧ t ≤ r.g.toEndWave + d) →
      decide (t ≤ r.g.toEndWave) = true →
      mem t ≠ none ∧ (w ≤ t + r.g.delta ∧ t + r.g.delta ≤ r.g.toEndWave + d) := by
    intro t ht hc
    simp only [decide_eq_true_eq] at hc
    refine ⟨playing_read mem w L d r.g hp0 t ht.1 hc, ?_⟩
    constructor <;> omega
  have hroom : r.bufferIndex + (bufferSize - r.bufferIndex) ≤ r.buffer.length := by omega
  obtain ⟨r2, hl, hP2, hlen2, hge2, hle2, hstop2, hprog2, hsame2⟩ :=
    sampleLoop_total mem (fun toWave => decide (toWave ≤ r.g.toEndWave)) val
      (fun toWave => toWave + r.g.delta) write
      (fun t => w ≤ t ∧ t ≤ r.g.toEndWave + d) hstep
      (bufferSize - r.bufferIndex) r hcur hroom
  clear hstep
  obtain ⟨hb, hst2, hte2⟩ := sampleLoop_voice _ _ _ _ _ _ _ _ hl
  have hplay2 : r2.g.Playing mem w L d := by
    refine ⟨hb.2.2.1.trans hstart, hb.2.2.2.1.trans hend, hb.2.2.2.2.1.trans hdelta, hL, hd,
      by omega, hread, ?_, ?_, ?_⟩
    · intro _
      rw [hb.2.2.2.1]
      exact hP2
    · intro h24; omega
    · intro h56'; omega
  rw [hcase r2 hl]
  by_cases hfull : r2.bufferIndex < bufferSize
  · rw [if_pos hfull]
    have hcond : ¬ r2.g.toWave ≤ r.g.toEndWave := by
      have := hstop2 (by omega)
      simpa using this
    have hstate := endForward_state down extra r2.g
    refine ⟨_, rfl, ?_, hlen2, le_of_lt hfull, ?_, ?_⟩
    · refine ⟨hb.2.2.1.trans hstart, hb.2.2.2.1.trans hend, hb.2.2.2.2.1.trans hdelta, hL, hd,
        ?_, hread, ?_, ?_, ?_⟩
      · simp only; omega
      · intro h13; simp only at h13; omega
      · intro _
        simp only [endForward]
        rw [hb.2.2.2.1]
        omega
      · intro _
        rfl
    · intro hready
      apply hprog2 (by omega)
      rcases hready with h | h | h | h | h
      · omega
      · simpa using h.2
      · omega
      · omega
      · omega
    · intro hnot
      have hc0 : ¬ r.g.toWave ≤ r.g.toEndWave := by
        intro hle
        exact hnot (Or.inr (Or.inl ⟨by omega, hle⟩))
      have hr2 := hsame2 (by simpa using hc0)
      subst hr2
      refine ⟨rfl, ?_⟩
      simp only
      rcases hstate with h | h
      · right; right; left
        refine ⟨by omega, ?_⟩
        simp only [endForward]
        omega
      · right; right; right
        omega
  · rw [if_neg hfull]
    refine ⟨_, rfl, hplay2, hlen2, by omega, ?_, ?_⟩
    · intro hready
      apply hprog2 (by omega)
      rcases hready with h | h | h | h | h
      · omega
      · simpa using h.2
      · omega
      · omega
      · omega
    · intro hnot
      have hc0 : ¬ r.g.toWave ≤ r.g.toEndWave := by
        intro hle
        exact hnot (Or.inr (Or.inl ⟨by omega, hle⟩))
      have hr2 := hsame2 (by simpa using hc0)
      subst hr2
      exact absurd hlt hfull

/-- A backward pass of the `switch` (cases 2 and 4) on a voice in play; `turn` is the
assignment made when the pass reaches the table start. -/
theorem downCase_total (write : Nat → Nat → Nat) (mem : Mem) (bufferSize : Nat) (r : Run)
    (w L d : Int) (val : Nat → Nat) (turn : WaveGenerator → WaveGenerator)
    (hs : r.g.state = 2 ∨ r.g.state = 4)
    (hturn : ∀ g : WaveGenerator, (turn g).toStartWave = g.toStartWave ∧
      (turn g).toEndWave = g.toEndWave ∧ (turn g).delta = g.delta ∧
      (turn g).toWave = g.toStartWave ∧ (turn g).state ≤ 3 ∧ (turn g).state ≠ 2)
    (hcase : ∀ r2, sampleLoop mem (fun toWave => decide (toWave ≥ r.g.toStartWave)) val
        (fun toWave => toWave - r.g.delta) write (bufferSize - r.bufferIndex) r = Outcome.ok r2 →
      fillCase write mem bufferSize r = (if r2.bufferIndex < bufferSize then
        Outcome.ok { r2 with g := turn r2.g } else Outcome.ok r2))
    (hp : r.g.Playing mem w L d) (hlt : r.bufferIndex < bufferSize)
    (hbuf : bufferSize ≤ r.buffer.length) :
    ∃ r1, fillCase write mem bufferSize r = Outcome.ok r1 ∧ r1.g.Playing mem w L d ∧
      r1.buffer.length = r.buffer.length ∧ r1.bufferIndex ≤ bufferSize ∧
      (r.g.Ready → r.bufferIndex < r1.bufferIndex) ∧
      (¬ r.g.Ready → r1.bufferIndex = r.bufferIndex ∧ r1.g.Ready) := by
  have hp0 := hp
  have heven : r.g.state % 2 = 0 ∧ 2 ≤ r.g.state ∧ r.g.state ≤ 4 := by
    rcases hs with h | h <;> rw [h] <;> decide
  obtain ⟨hstart, hend, hdelta, hL, hd, hst6, hread, hup, hdn, h56⟩ := hp
  have hcur := hdn hs
  have hs0 := hs
  clear hup hdn h56 hs hst6
  have hstep : ∀ t : Int, (t ≤ r.g.toEndWave ∧ w ≤ t + d) →
      decide (t ≥ r.g.toStartWave) = true →
      mem t ≠ none ∧ (t - r.g.delta ≤ r.g.toEndWave ∧ w ≤ t - r.g.delta + d) := by
    clear hs0
    intro t ht hc
    simp only [decide_eq_true_eq, ge_iff_le] at hc
    refine ⟨playing_read mem w L d r.g hp0 t (by omega) ht.1, ?_⟩
    constructor <;> omega
  have hroom : r.bufferIndex + (bufferSize - r.bufferIndex) ≤ r.buffer.length := by
    clear hs0 hstep
    omega
  obtain ⟨r2, hl, hP2, hlen2, hge2, hle2, hstop2, hprog2, hsame2⟩ :=
    sampleLoop_total mem (fun toWave => decide (toWave ≥ r.g.toStartWave)) val
      (fun toWave => toWave - r.g.delta) write
      (fun t => t ≤ r.g.toEndWave ∧ w ≤ t + d) hstep
      (bufferSize - r.bufferIndex) r hcur hroom
  clear hstep
  obtain ⟨hb, hst2, hte2⟩ := sampleLoop_voice _ _ _ _ _ _ _ _ hl
  have hready : r.g.Ready → r.bufferIndex < r2.bufferIndex := by
    intro hready
    have hpos : 0 < bufferSize - r.bufferIndex := by
      clear hs0 hstop2 hprog2 hsame2 hready
      omega
    apply hprog2 hpos
    clear hstop2 hprog2 hsame2 hs0
    rcases hready with h | h | h | h | h
    · omega
    · omega
    · simpa using h.2
    · omega
    · omega
  have hnready : ¬ r.g.Ready → r2 = r := by
    intro hnot
    apply hsame2
    have hc0 : ¬ r.g.toStartWave ≤ r.g.toWave := by
      intro hle
      exact hnot (Or.inr (Or.inr (Or.inl ⟨hs0, hle⟩)))
    simpa using hc0
  have hstopped : r2.bufferIndex < bufferSize → ¬ r.g.toStartWave ≤ r2.g.toWave := by
    intro hfull
    have hlt2 : r2.bufferIndex < r.bufferIndex + (bufferSize - r.bufferIndex) := by
      clear hs0 hstop2 hprog2 hsame2 hready hnready
      omega
    have := hstop2 hlt2
    simpa using this
  clear hstop2 hprog2 hsame2 hs0
  have hplay2 : r2.g.Playing mem w L d := by
    refine ⟨hb.2.2.1.trans hstart, hb.2.2.2.1.trans hend, hb.2.2.2.2.1.trans hdelta, hL, hd,
      ?_, hread, ?_, ?_, ?_⟩
    · clear hready hnready hstopped
      omega
    · intro h13
      clear hready hnready hstopped
      omega
    · intro _
      rw [hb.2.2.2.1]
      exact hP2
    · intro h56
      clear hready hnready hstopped
      omega
  rw [hcase r2 hl]
  by_cases hfull : r2.bufferIndex < bufferSize
  · rw [if_pos hfull]
    have hcond := hstopped hfull
    obtain ⟨t1, t2, t3, t4, t5, t6⟩ := hturn r2.g
    have hplay3 : (turn r2.g).Playing mem w L d := by
      refine ⟨t1.trans (hb.2.2.1.trans hstart), t2.trans (hb.2.2.2.1.trans hend),
        t3.trans (hb.2.2.2.2.1.trans hdelta), hL, hd, ?_, hread, ?_, ?_, ?_⟩
      · clear hready hnready hstopped
        omega
      · intro _
        rw [t4, t2, hb.2.2.1, hb.2.2.2.1]
        clear hready hnready hstopped
        omega
      · intro h24
        clear hready hnready hstopped
        omega
      · intro h56
        clear hready hnready hstopped
        omega
    refine ⟨_, rfl, hplay3, hlen2, le_of_lt hfull, hready, ?_⟩
    intro hnot
    have hr2 := hnready hnot
    subst hr2
    refine ⟨rfl, ?_⟩
    show (turn r2.g).Ready
    by_cases h0 : (turn r2.g).state = 0
    · exact Or.inl h0
    · right; left
      refine ⟨?_, ?_⟩
      · clear hready hnready hstopped hnot
        omega
      · rw [t4, t2]
        clear hready hnready hstopped hnot
        omega
  · rw [if_neg hfull]
    refine ⟨_, rfl, hplay2, hlen2, ?_, hready, ?_⟩
    · clear hready hnready hstopped
      omega
    · intro hnot
      have hr2 := hnready hnot
      subst hr2
      exact absurd hlt hfull

/-- The extra sample of cases 5 and 6 on a voice in play. -/
theorem extraCase_total (write : Nat → Nat → Nat) (mem : Mem) (bufferSize : Nat) (r : Run)
    (w L d : Int) (val : Nat → Nat) (newState : Nat)
    (hs : r.g.state = 5 ∨ r.g.state = 6) (hnew : newState = 2 ∨ newState = 4)
    (hcase : fillCase write mem bufferSize r = extraSample mem val write newState r)
    (hp : r.g.Playing mem w L d) (hlt : r.bufferIndex < bufferSize)
    (hbuf : bufferSize ≤ r.buffer.length) :
    ∃ r1, fillCase write mem bufferSize r = Outcome.ok r1 ∧ r1.g.Playing mem w L d ∧
      r1.buffer.length = r.buffer.length ∧ r1.bufferIndex ≤ bufferSize ∧
      (r.g.Ready → r.bufferIndex < r1.bufferIndex) ∧
      (¬ r.g.Ready → r1.bufferIndex = r.bufferIndex ∧ r1.g.Ready) := by
  have hp0 := hp
  obtain ⟨hstart, hend, hdelta, hL, hd, hst6, hread, hup, hdn, h56⟩ := hp
  have hcur := h56 hs
  clear hup hdn h56
  have hre : mem r.g.toEndWave ≠ none :=
    playing_read mem w L d r.g hp0 _ (by clear hs hnew; omega) (le_refl _)
  obtain ⟨r1, h1, hlen, hidx, hg⟩ :=
    extraSample_total mem val write newState r hre (lt_of_lt_of_le hlt hbuf)
  rw [hcase, h1]
  refine ⟨r1, rfl, ?_, hlen, by clear hs hnew; omega, fun _ => by clear hs hnew; omega, ?_⟩
  · rw [hg]
    refine ⟨hstart, hend, hdelta, hL, hd, ?_, hread, ?_, ?_, ?_⟩
    · show newState ≤ 6
      clear hs
      omega
    · intro h13
      have h13b : newState = 1 ∨ newState = 3 := h13
      clear h13 hs
      omega
    · intro _
      show r.g.toWave ≤ r.g.toEndWave ∧ w ≤ r.g.toWave + d
      clear hs hnew
      omega
    · intro h56
      have h56b : newState = 5 ∨ newState = 6 := h56
      clear h56 hs
      omega
  · intro hnot
    exact absurd (Or.inr (Or.inr (Or.inr (by clear hnew; omega)))) hnot

/-- One execution of the `switch` on an Idle voice or a voice in play returns, keeps the
voice Idle or in play, and either emits at least one sample or, emitting none, leaves the
voice where its next execution emits one. -/
theorem fillCase_total (write : Nat → Nat → Nat) (mem : Mem) (bufferSize : Nat) (r : Run)
    (w L d : Int) (hp : r.g.state = 0 ∨ r.g.Playing mem w L d)
    (hlt : r.bufferIndex < bufferSize) (hbuf : bufferSize ≤ r.buffer.length) :
    ∃ r1, fillCase write mem bufferSize r = Outcome.ok r1 ∧
      (r1.g.state = 0 ∨ r1.g.Playing mem w L d) ∧
      r1.buffer.length = r.buffer.length ∧ r1.bufferIndex ≤ bufferSize ∧
      (r.g.Ready → r.bufferIndex < r1.bufferIndex) ∧
      (¬ r.g.Ready → r1.bufferIndex = r.bufferIndex ∧ r1.g.Ready) := by
  by_cases h0 : r.g.state = 0
  · obtain ⟨r1, h1, hg, hlen, hidx⟩ := idleLoop_total write (bufferSize - r.bufferIndex) r
      (by omega)
    have hc : fillCase write mem bufferSize r = idleLoop write (bufferSize - r.bufferIndex) r := by
      unfold fillCase
      simp only [h0]
    rw [hc, h1]
    refine ⟨r1, rfl, Or.inl (by rw [hg]; exact h0), hlen, by omega, fun _ => by omega, ?_⟩
    intro hnot
    exact absurd (Or.inl h0) hnot
  · have hplay : r.g.Playing mem w L d := hp.resolve_left h0
    have hst6 : r.g.state ≤ 6 := hplay.2.2.2.2.2.1
    clear hp
    have hwrap : ∀ x : ∃ r1, fillCase write mem bufferSize r = Outcome.ok r1 ∧
        r1.g.Playing mem w L d ∧
        r1.buffer.length = r.buffer.length ∧ r1.bufferIndex ≤ bufferSize ∧
        (r.g.Ready → r.bufferIndex < r1.bufferIndex) ∧
        (¬ r.g.Ready → r1.bufferIndex = r.bufferIndex ∧ r1.g.Ready),
        ∃ r1, fillCase write mem bufferSize r = Outcome.ok r1 ∧
        (r1.g.state = 0 ∨ r1.g.Playing mem w L d) ∧
        r1.buffer.length = r.buffer.length ∧ r1.bufferIndex ≤ bufferSize ∧
        (r.g.Ready → r.bufferIndex < r1.bufferIndex) ∧
        (¬ r.g.Ready → r1.bufferIndex = r.bufferIndex ∧ r1.g.Ready) := by
      rintro ⟨r1, a, b, c⟩
      exact ⟨r1, a, Or.inr b, c⟩
    apply hwrap
    have hcases : r.g.state = 1 ∨ r.g.state = 2 ∨ r.g.state = 3 ∨ r.g.state = 4 ∨
        r.g.state = 5 ∨ r.g.state = 6 := by
      clear hwrap hplay
      omega
    clear hwrap hst6 h0
    rcases hcases with hs | hs | hs | hs | hs | hs
    · refine upCase_total write mem bufferSize r w L d (fun v => v) 2 5 (Or.inl hs)
        (Or.inl rfl) (Or.inl rfl) ?_ hplay hlt hbuf
      intro r2 hl
      unfold fillCase
      simp only [hs, hl]
    · refine downCase_total write mem bufferSize r w L d (fun v => v)
        (fun g => { g with state := if g.stopping then 0 else 3, toWave := g.toStartWave })
        (Or.inl hs) ?_ ?_ hplay hlt hbuf
      · intro g
        refine ⟨rfl, rfl, rfl, rfl, ?_, ?_⟩ <;> simp only <;> split <;> decide
      · intro r2 hl
        unfold fillCase
        simp only [hs, hl]
    · refine upCase_total write mem bufferSize r w L d neg32 4 6 (Or.inr hs)
        (Or.inr rfl) (Or.inr rfl) ?_ hplay hlt hbuf
      intro r2 hl
      unfold fillCase
      simp only [hs, hl]
    · refine downCase_total write mem bufferSize r w L d neg32
        (fun g => { g with state := 1, toWave := g.toStartWave })
        (Or.inr hs) ?_ ?_ hplay hlt hbuf
      · intro g
        refine ⟨rfl, rfl, rfl, rfl, ?_, ?_⟩ <;> simp only <;> decide
      · intro r2 hl
        unfold fillCase
        simp only [hs, hl]
    · refine extraCase_total write mem bufferSize r w L d (fun v => v) 2 (Or.inl hs)
        (Or.inl rfl) ?_ hplay hlt hbuf
      unfold fillCase
      simp only [hs, hlt, if_true]
    · refine extraCase_total write mem bufferSize r w L d neg32 4 (Or.inr hs)
        (Or.inr rfl) ?_ hplay hlt hbuf
      unfold fillCase
      simp only [hs, hlt, if_true]

/-- The outer loop returns within two executions of the `switch` per missing sample. -/
theorem fillLoop_total (write : Nat → Nat → Nat) (mem : Mem) (bufferSize : Nat)
    (w L d : Int) (fuel : Nat) :
    ∀ r : Run, (r.g.state = 0 ∨ r.g.Playing mem w L d) → bufferSize ≤ r.buffer.length →
      (r.g.Ready → 2 * (bufferSize - r.bufferIndex) ≤ fuel + 1) →
      (¬ r.g.Ready → 2 * (bufferSize - r.bufferIndex) ≤ fuel) →
      ∃ r1, fillLoop write mem bufferSize fuel r = Outcome.ok r1 ∧
        (r1.g.state = 0 ∨ r1.g.Playing mem w L d) := by
  induction fuel with
  | zero =>
    intro r hp hbuf hready hnready
    have hge : ¬ r.bufferIndex < bufferSize := by
      by_cases hr : r.g.Ready
      · have := hready hr
        clear hready hnready
        omega
      · have := hnready hr
        clear hready hnready
        omega
    refine ⟨r, ?_, hp⟩
    simp only [fillLoop, if_neg hge]
  | succ n ih =>
    intro r hp hbuf hready hnready
    by_cases hlt : r.bufferIndex < bufferSize
    · obtain ⟨r2, h2, hp2, hlen2, hle2, hprog, hquiet⟩ :=
        fillCase_total write mem bufferSize r w L d hp hlt hbuf
      simp only [fillLoop, if_pos hlt, h2]
      apply ih r2 hp2 (by rw [hlen2]; exact hbuf)
      · intro _
        by_cases hr : r.g.Ready
        · have h1 := hready hr
          have h3 := hprog hr
          clear hready hnready hprog hquiet ih
          omega
        · have h1 := hnready hr
          have h3 := (hquiet hr).1
          clear hready hnready hprog hquiet ih
          omega
      · intro hnr2
        by_cases hr : r.g.Ready
        · have h1 := hready hr
          have h3 := hprog hr
          clear hready hnready hprog hquiet ih
          omega
        · exact absurd (hquiet hr).2 hnr2
    · refine ⟨r, ?_, hp⟩
      simp only [fillLoop, if_neg hlt]

/-- Word `j` of a buffer after `out` was stored from index `i` on. -/
theorem writeList_getElem (write : Nat → Nat → Nat) (out : List Nat) :
    ∀ (buffer : List Nat) (i : Nat), i + out.length ≤ buffer.length → ∀ j : Nat,
      (writeList write buffer i out)[j]? =
        if i ≤ j ∧ j < i + out.length then
          some (write (buffer.getD j 0) (out.getD (j - i) 0))
        else buffer[j]? := by
  induction out with
  | nil =>
    intro buffer i _ j
    have hno : ¬ (i ≤ j ∧ j < i + ([] : List Nat).length) := by
      simp only [List.length_nil]
      omega
    rw [if_neg hno]
    rfl
  | cons v out ih =>
    intro buffer i hlen j
    simp only [List.length_cons] at hlen
    have hi : i < buffer.length := by omega
    simp only [writeList]
    rw [ih _ (i + 1) (by simp only [List.length_set]; omega) j]
    by_cases hji : j = i
    · subst hji
      have hno : ¬ (j + 1 ≤ j ∧ j < j + 1 + out.length) := by omega
      have hyes : j ≤ j ∧ j < j + (v :: out).length := by
        simp only [List.length_cons]
        omega
      rw [if_neg hno, if_pos hyes]
      simp [List.getElem?_set, hi]
    · by_cases hlo : i + 1 ≤ j ∧ j < i + 1 + out.length
      · have hyes : i ≤ j ∧ j < i + (v :: out).length := by
          simp only [List.length_cons]
          omega
        rw [if_pos hlo, if_pos hyes]
        have hsub : j - i = (j - (i + 1)) + 1 := by omega
        rw [hsub]
        simp only [List.getD_eq_getElem?_getD, List.getElem?_cons_succ]
        rw [List.getElem?_set_ne (by omega)]
      · have hno : ¬ (i ≤ j ∧ j < i + (v :: out).length) := by
          simp only [List.length_cons]
          omega
        rw [if_neg hlo, if_neg hno]
        rw [List.getElem?_set_ne (by omega)]


/-- Two runs of one voice that emit equally many samples emit the same samples and end in
the same voice state. -/
theorem emits_functional {mem : Mem} {g a b : WaveGenerator} {o1 o2 : List Nat}
    (h1 : Emits mem g o1 a) (h2 : Emits mem g o2 b) (hlen : o1.length = o2.length) :
    o1 = o2 ∧ a = b := by
  obtain ⟨o3, ho, he⟩ := emits_prefix h1 h2 (le_of_eq hlen)
  have h3 : o3 = [] := by
    have := congrArg List.length ho
    simp only [List.length_append] at this
    exact List.length_eq_zero.mp (by omega)
  subst h3
  exact ⟨by simpa using ho.symm, (emits_nil_inv he).symm⟩

/-- A voice just bound by `setWave` to a readable table is in play on it. -/
theorem setWave_playing (mem : Mem) (g0 : WaveGenerator) (w L d : Int) (u : Nat)
    (hL : 1 ≤ L) (hd : 1 ≤ d) (hread : ∀ k : Int, 0 ≤ k → k < L → mem (w + k) ≠ none) :
    (g0.setWave w L d u).Playing mem w L d := by
  refine ⟨rfl, rfl, rfl, hL, hd, ?_, hread, ?_, ?_, ?_⟩
  · show (1 : Nat) ≤ 6
    decide
  · intro _
    show w ≤ w ∧ w ≤ w + (L - 1) + d
    omega
  · intro h
    have h2 : (1 : Nat) = 2 ∨ (1 : Nat) = 4 := h
    omega
  · intro h
    have h2 : (1 : Nat) = 5 ∨ (1 : Nat) = 6 := h
    omega

/-- Both fill functions return on an Idle voice or a voice in play, with the words they
leave in the buffer. -/
theorem fills_total (mem : Mem) (g : WaveGenerator) (w L d : Int) (buffer : List Nat)
    (bufferSize fuel : Nat) (hp : g.state = 0 ∨ g.Playing mem w L d)
    (hbuf : bufferSize ≤ buffer.length) (hfuel : 2 * bufferSize ≤ fuel) :
    ∃ out g1, Emits mem g out g1 ∧ out.length = bufferSize ∧
      (g1.state = 0 ∨ g1.Playing mem w L d) ∧
      g.setSamplesInBuffer mem fuel buffer bufferSize
        = Outcome.ok (g1, writeList (fun _ v => v) buffer 0 out) ∧
      g.addSamplesToBuffer mem fuel buffer bufferSize
        = Outcome.ok (g1, writeList add32 buffer 0 out) := by
  have hrun : ∀ write : Nat → Nat → Nat, ∃ r1,
      fillLoop write mem bufferSize fuel { g := g, buffer := buffer, bufferIndex := 0 }
        = Outcome.ok r1 ∧ (r1.g.state = 0 ∨ r1.g.Playing mem w L d) := by
    intro write
    apply fillLoop_total write mem bufferSize w L d fuel _ hp hbuf
    · intro _
      show 2 * (bufferSize - 0) ≤ fuel + 1
      omega
    · intro _
      show 2 * (bufferSize - 0) ≤ fuel
      omega
  obtain ⟨r1, h1, hp1⟩ := hrun (fun _ v => v)
  obtain ⟨r2, h2, -⟩ := hrun add32
  obtain ⟨o1, he1, hl1, hb1⟩ := fillLoop_emits _ _ _ _ _ _ h1 (Nat.zero_le _)
  obtain ⟨o2, he2, hl2, hb2⟩ := fillLoop_emits _ _ _ _ _ _ h2 (Nat.zero_le _)
  have hl1b : o1.length = bufferSize := by simpa using hl1
  have hl2b : o2.length = bufferSize := by simpa using hl2
  obtain ⟨ho, hg⟩ := emits_functional he1 he2 (hl1b.trans hl2b.symm)
  refine ⟨o1, r1.g, he1, hl1b, hp1, ?_, ?_⟩
  · unfold WaveGenerator.setSamplesInBuffer
    rw [setSamplesLoop_eq_fillLoop, h1]
    simp only [hb1]
  · unfold WaveGenerator.addSamplesToBuffer
    rw [addSamplesLoop_eq_fillLoop, h2]
    simp only [hb2, ho, hg]

/-- C18. A voice bound by `setWave` to a readable table of `L ≥ 1` words with stride
`d ≥ 1` is in play, and for every voice that is Idle or in play, every `bufferSize` the
buffer has room for and every fuel of at least `2 * bufferSize` outer-loop iterations,
`setSamplesInBuffer` and `addSamplesToBuffer` both return: the voice advances by exactly
`bufferSize` emitted samples `out` to the same state `g1`, again Idle or in play; word
`j < bufferSize` of the buffer becomes `out[j]` (set) or the old word plus `out[j]`
mod 2^32 (add), and every word at an index `j ≥ bufferSize` is left as it was. -/
theorem fill_terminates (mem : Mem) (g0 g : WaveGenerator) (w L d : Int) (u : Nat)
    (buffer : List Nat) (bufferSize fuel : Nat) (hL : 1 ≤ L) (hd : 1 ≤ d)
    (hread : ∀ k : Int, 0 ≤ k → k < L → mem (w + k) ≠ none)
    (hp : g.state = 0 ∨ g.Playing mem w L d)
    (hbuf : bufferSize ≤ buffer.length) (hfuel : 2 * bufferSize ≤ fuel) :
    (g0.setWave w L d u).Playing mem w L d ∧
    ∃ out g1 buffer1 buffer2, Emits mem g out g1 ∧ out.length = bufferSize ∧
      (g1.state = 0 ∨ g1.Playing mem w L d) ∧
      g.setSamplesInBuffer mem fuel buffer bufferSize = Outcome.ok (g1, buffer1) ∧
      g.addSamplesToBuffer mem fuel buffer bufferSize = Outcome.ok (g1, buffer2) ∧
      buffer1.length = buffer.length ∧ buffer2.length = buffer.length ∧
      ∀ j : Nat,
        buffer1[j]? = (if j < bufferSize then some (out.getD j 0) else buffer[j]?) ∧
        buffer2[j]? =
          (if j < bufferSize then some (add32 (buffer.getD j 0) (out.getD j 0))
           else buffer[j]?) := by
  refine ⟨setWave_playing mem g0 w L d u hL hd hread, ?_⟩
  obtain ⟨out, g1, he, hlen, hp1, hset, hadd⟩ :=
    fills_total mem g w L d buffer bufferSize fuel hp hbuf hfuel
  refine ⟨out, g1, _, _, he, hlen, hp1, hset, hadd, writeList_length _ _ _ _,
    writeList_length _ _ _ _, ?_⟩
  intro j
  have hroom : 0 + out.length ≤ buffer.length := by omega
  rw [writeList_getElem _ out buffer 0 hroom j, writeList_getElem _ out buffer 0 hroom j]
  simp only [Nat.zero_le, true_and, Nat.zero_add, Nat.sub_zero, hlen]

theorem fill_terminates_witness :
    ∃ out g1 buffer1 buffer2, Emits demoMem demoVoice out g1 ∧ out.length = 4 ∧
      (g1.state = 0 ∨ g1.Playing demoMem 100 3 1) ∧
      demoVoice.setSamplesInBuffer demoMem 8 [7, 7, 7, 7, 7] 4 = Outcome.ok (g1, buffer1) ∧
      demoVoice.addSamplesToBuffer demoMem 8 [7, 7, 7, 7, 7] 4 = Outcome.ok (g1, buffer2) ∧
      buffer1.length = [7, 7, 7, 7, 7].length ∧ buffer2.length = [7, 7, 7, 7, 7].length ∧
      ∀ j : Nat,
        buffer1[j]? = (if j < 4 then some (out.getD j 0) else [7, 7, 7, 7, 7][j]?) ∧
        buffer2[j]? =
          (if j < 4 then some (add32 ([7, 7, 7, 7, 7].getD j 0) (out.getD j 0))
           else [7, 7, 7, 7, 7][j]?) :=
  (fill_terminates demoMem WaveGenerator.fresh demoVoice 100 3 1 0 [7, 7, 7, 7, 7] 4 8
    (by decide) (by decide)
    (by intro k h0 h3; interval_cases k <;> decide)
    (Or.inr (setWave_playing demoMem WaveGenerator.fresh 100 3 1 0 (by decide) (by decide)
      (by intro k h0 h3; interval_cases k <;> decide)))
    (by decide) (by decide)).2



/-! ## The first cycle of a voice -/

theorem tableMem_read (w : Int) (T : List Nat) (k : Nat) (hk : k < T.length) :
    tableMem w T (w + k) = some (T.get ⟨k, hk⟩) := by
  unfold tableMem
  have h1 : ¬ (w + (k : Int) < w) := by omega
  have h2 : (w + (k : Int) - w).toNat = k := by omega
  rw [if_neg h1, h2]
  exact List.getElem?_eq_getElem hk

theorem microStep_forward (mem : Mem) (g : WaveGenerator) (s : Nat) (t : Int) (e v : Nat)
    (hs : s = 1 ∨ s = 3) (ht : t ≤ g.toEndWave) (hm : mem t = some v) :
    (g.inPass s t e).microStep mem
      = Outcome.ok (g.inPass s (t + g.delta) e, some (if s = 1 then v else neg32 v)) := by
  rcases hs with h | h <;> subst h <;>
    simp [WaveGenerator.microStep, WaveGenerator.inPass, ht, hm]

theorem microStep_backward (mem : Mem) (g : WaveGenerator) (s : Nat) (t : Int) (e v : Nat)
    (hs : s = 2 ∨ s = 4) (ht : g.toStartWave ≤ t) (hm : mem t = some v) :
    (g.inPass s t e).microStep mem
      = Outcome.ok (g.inPass s (t - g.delta) e, some (if s = 2 then v else neg32 v)) := by
  rcases hs with h | h <;> subst h <;>
    simp [WaveGenerator.microStep, WaveGenerator.inPass, ht, hm]

theorem microStep_top (mem : Mem) (g : WaveGenerator) (s : Nat) (t : Int) (e : Nat)
    (hs : s = 1 ∨ s = 3) (ht : g.toEndWave < t)
    (he : add32 e g.sampleError ≤ WAVEPARTERRORMAX) :
    (g.inPass s t e).microStep mem
      = Outcome.ok (g.inPass (s + 1) g.toEndWave (add32 e g.sampleError), none) := by
  have hno : ¬ t ≤ g.toEndWave := by omega
  have hle : ¬ add32 e g.sampleError > WAVEPARTERRORMAX := by omega
  rcases hs with h | h <;> subst h <;>
    simp [WaveGenerator.microStep, WaveGenerator.inPass, endForward, hno, hle]

theorem microStep_bottom (mem : Mem) (g : WaveGenerator) (s : Nat) (t : Int) (e : Nat)
    (hs : s = 2 ∨ s = 4) (ht : t < g.toStartWave) (hstop : g.stopping = false) :
    (g.inPass s t e).microStep mem
      = Outcome.ok (g.inPass (if s = 2 then 3 else 1) g.toStartWave e, none) := by
  have hno : ¬ g.toStartWave ≤ t := by omega
  rcases hs with h | h <;> subst h <;>
    simp [WaveGenerator.microStep, WaveGenerator.inPass, hno, hstop]

/-- A forward pass with stride 1 from word `k` of the table emits the rest of the table
and leaves the cursor one past the table end. -/
theorem forward_pass (w : Int) (T : List Nat) (g : WaveGenerator) (s e : Nat)
    (hs : s = 1 ∨ s = 3) (hend : g.toEndWave = w + (T.length - 1)) (hdelta : g.delta = 1)
    (n : Nat) : ∀ k : Nat, k + n = T.length →
      Emits (tableMem w T) (g.inPass s (w + k) e)
        ((T.drop k).map (fun v => if s = 1 then v else neg32 v))
        (g.inPass s (w + T.length) e) := by
  induction n with
  | zero =>
    intro k hk
    have hk2 : k = T.length := by omega
    subst hk2
    rw [List.drop_length]
    exact Emits.nil _
  | succ n ih =>
    intro k hk
    have hlt : k < T.length := by omega
    rw [List.drop_eq_getElem_cons hlt, List.map_cons]
    have hstep := microStep_forward (tableMem w T) g s (w + k) e (T.get ⟨k, hlt⟩) hs
      (by rw [hend]; omega) (tableMem_read w T k hlt)
    have hnext := ih (k + 1) (by omega)
    have hcast : w + ((k + 1 : Nat) : Int) = w + (k : Int) + g.delta := by
      rw [hdelta]
      push_cast
      ring
    rw [hcast] at hnext
    exact Emits.emit hstep hnext

/-- A backward pass with stride 1 from word `k - 1` of the table emits the first `k`
words in reverse and leaves the cursor one before the table start. -/
theorem backward_pass (w : Int) (T : List Nat) (g : WaveGenerator) (s e : Nat)
    (hs : s = 2 ∨ s = 4) (hstart : g.toStartWave = w) (hdelta : g.delta = 1) :
    ∀ k : Nat, k ≤ T.length →
      Emits (tableMem w T) (g.inPass s (w + k - 1) e)
        ((T.take k).reverse.map (fun v => if s = 2 then v else neg32 v))
        (g.inPass s (w - 1) e) := by
  intro k
  induction k with
  | zero =>
    intro _
    have hcast : w + ((0 : Nat) : Int) - 1 = w - 1 := by simp
    rw [hcast, List.take_zero]
    exact Emits.nil _
  | succ k ih =>
    intro hk
    have hlt : k < T.length := by omega
    have htake : T.take (k + 1) = T.take k ++ [T.get ⟨k, hlt⟩] := by
      rw [List.take_succ, List.getElem?_eq_getElem hlt]
      rfl
    rw [htake, List.reverse_append, List.reverse_singleton, List.singleton_append,
      List.map_cons]
    have hcast : w + ((k + 1 : Nat) : Int) - 1 = w + (k : Int) := by
      push_cast
      ring
    rw [hcast]
    have hstep := microStep_backward (tableMem w T) g s (w + k) e (T.get ⟨k, hlt⟩) hs
      (by rw [hstart]; omega) (tableMem_read w T k hlt)
    have hnext := ih (by omega)
    have hcast2 : w + (k : Int) - 1 = w + (k : Int) - g.delta := by rw [hdelta]
    rw [hcast2] at hnext
    exact Emits.emit hstep hnext

theorem setWave_inPass (g0 : WaveGenerator) (w L d : Int) (u : Nat) :
    g0.setWave w L d u = (g0.setWave w L d u).inPass 1 (w + ((0 : Nat) : Int)) 0 := by
  simp [WaveGenerator.setWave, WaveGenerator.inPass]

/-- The first half cycle of a freshly bound voice with stride 1 whose correction unit is
at most `WAVEPARTERRORMAX`: the table, then the table reversed. -/
theorem half_cycle (w : Int) (T : List Nat) (g0 : WaveGenerator) (u : Nat)
    (hL : 1 ≤ T.length) (hu : u ≤ WAVEPARTERRORMAX) :
    Emits (tableMem w T) (g0.setWave w T.length 1 u) (T ++ T.reverse)
      ((g0.setWave w T.length 1 u).inPass 2 (w - 1) (add32 0 u)) := by
  have hA := forward_pass w T (g0.setWave w T.length 1 u) 1 0 (Or.inl rfl) rfl rfl
    T.length 0 (by omega)
  rw [← setWave_inPass] at hA
  have hmap : (T.drop 0).map (fun v => if 1 = 1 then v else neg32 v) = T := by simp
  rw [hmap] at hA
  have he : add32 0 u ≤ WAVEPARTERRORMAX := by
    unfold add32
    exact le_trans (Nat.mod_le _ _) (by omega)
  have htop := microStep_top (tableMem w T) (g0.setWave w T.length 1 u) 1 (w + T.length) 0
    (Or.inl rfl) (by show w + ((T.length : Int) - 1) < w + T.length; omega) he
  have hB := backward_pass w T (g0.setWave w T.length 1 u) 2 (add32 0 u) (Or.inl rfl) rfl rfl
    T.length (le_refl _)
  have hmap2 : (T.take T.length).reverse.map (fun v => if 2 = 2 then v else neg32 v)
      = T.reverse := by simp
  rw [hmap2] at hB
  have hend : (g0.setWave w T.length 1 u).toEndWave = w + (T.length : Int) - 1 := by
    show w + ((T.length : Int) - 1) = w + (T.length : Int) - 1
    ring
  rw [hend] at htop
  have hne : T.reverse ≠ [] := by
    intro h
    have := congrArg List.length h
    simp only [List.length_reverse, List.length_nil] at this
    omega
  exact emits_append hA (Emits.quiet htop hB hne)

/-- The third quarter: after the first half cycle the voice emits the negated table. -/
theorem third_quarter (w : Int) (T : List Nat) (g0 : WaveGenerator) (u : Nat)
    (hL : 1 ≤ T.length) :
    Emits (tableMem w T) ((g0.setWave w T.length 1 u).inPass 2 (w - 1) (add32 0 u))
      (T.map neg32) ((g0.setWave w T.length 1 u).inPass 3 (w + T.length) (add32 0 u)) := by
  have hbot := microStep_bottom (tableMem w T) (g0.setWave w T.length 1 u) 2 (w - 1)
    (add32 0 u) (Or.inl rfl) (by show w - 1 < w; omega) rfl
  have hC := forward_pass w T (g0.setWave w T.length 1 u) 3 (add32 0 u) (Or.inr rfl) rfl rfl
    T.length 0 (by omega)
  have hmap : (T.drop 0).map (fun v => if 3 = 1 then v else neg32 v) = T.map neg32 := by simp
  rw [hmap] at hC
  have hcast : w + ((0 : Nat) : Int) = (g0.setWave w T.length 1 u).toStartWave := by
    show w + ((0 : Nat) : Int) = w
    simp
  rw [hcast] at hC
  have hne : T.map neg32 ≠ [] := by
    intro h
    have := congrArg List.length h
    simp only [List.length_map, List.length_nil] at this
    omega
  exact Emits.quiet hbot hC hne

/-- The fourth quarter, when the accumulator stays at or below the threshold: the negated
table reversed. -/
theorem fourth_quarter (w : Int) (T : List Nat) (g0 : WaveGenerator) (u : Nat)
    (hL : 1 ≤ T.length) (hu : 2 * u ≤ WAVEPARTERRORMAX) :
    Emits (tableMem w T) ((g0.setWave w T.length 1 u).inPass 3 (w + T.length) (add32 0 u))
      (T.reverse.map neg32)
      ((g0.setWave w T.length 1 u).inPass 4 (w - 1) (add32 (add32 0 u) u)) := by
  have he : add32 (add32 0 u) (g0.setWave w T.length 1 u).sampleError ≤ WAVEPARTERRORMAX := by
    show add32 (add32 0 u) u ≤ WAVEPARTERRORMAX
    unfold add32
    have h1 : (0 + u) % UINT32 ≤ 0 + u := Nat.mod_le _ _
    exact le_trans (Nat.mod_le _ _) (by omega)
  have htop := microStep_top (tableMem w T) (g0.setWave w T.length 1 u) 3 (w + T.length)
    (add32 0 u) (Or.inr rfl) (by show w + ((T.length : Int) - 1) < w + T.length; omega) he
  have hD := backward_pass w T (g0.setWave w T.length 1 u) 4 (add32 (add32 0 u) u)
    (Or.inr rfl) rfl rfl T.length (le_refl _)
  have hmap : (T.take T.length).reverse.map (fun v => if 4 = 2 then v else neg32 v)
      = T.reverse.map neg32 := by simp
  rw [hmap] at hD
  have hend : (g0.setWave w T.length 1 u).toEndWave = w + (T.length : Int) - 1 := by
    show w + ((T.length : Int) - 1) = w + (T.length : Int) - 1
    ring
  rw [hend] at htop
  have hne : T.reverse.map neg32 ≠ [] := by
    intro h
    have := congrArg List.length h
    simp only [List.length_map, List.length_reverse, List.length_nil] at this
    omega
  exact Emits.quiet htop hD hne

/-- The samples of a run are those of any run of the same voice that is at least as
long. -/
theorem emits_sample {mem : Mem} {g a b : WaveGenerator} {o1 o2 : List Nat}
    (h1 : Emits mem g o1 a) (h2 : Emits mem g o2 b) (t : Nat) (ht1 : t < o1.length)
    (ht2 : t < o2.length) : o1[t]? = o2[t]? := by
  rcases Nat.le_total o1.length o2.length with hle | hle
  · obtain ⟨o3, ho, -⟩ := emits_prefix h1 h2 hle
    rw [ho, List.getElem?_append_left ht1]
  · obtain ⟨o3, ho, -⟩ := emits_prefix h2 h1 hle
    rw [ho, List.getElem?_append_left ht2]

/-- The samples a fill call on a zeroed buffer leaves are a run of the voice. -/
theorem samplesOf_emits (mem : Mem) (hmem : ∀ a v, mem a = some v → v < UINT32) (fuel : Nat)
    (g : WaveGenerator) (add : Bool) (n : Nat) (l : List Nat)
    (h : samplesOf (g.fill mem fuel add n) = l) (hne : l ≠ []) :
    ∃ g1, Emits mem g l g1 := by
  cases hf : g.fill mem fuel add n with
  | ok p =>
    obtain ⟨g1, b⟩ := p
    rw [hf] at h
    have hb : b = l := h
    subst hb
    exact ⟨g1, (fill_emits mem hmem fuel g g1 add n b hf).1⟩
  | fault =>
    rw [hf] at h
    exact absurd h.symm hne
  | fuel =>
    rw [hf] at h
    exact absurd h.symm hne

/-- C11 (counterexample). The table `[0, 5, 9]` (L = 3) bound with stride 1 and
correction unit 0: the voice emits 0, 5, 9, 9, 5, 0, so sample(4) = 5 while
sample(2 * 3 - 4) = sample(2) = 9. -/
theorem second_quarter_off_by_one :
    ∃ out g1, Emits demoMem demoVoice out g1 ∧ out = [0, 5, 9, 9, 5, 0] ∧
      3 ≤ 4 ∧ 4 < 2 * 3 ∧ out[4]? = some 5 ∧ out[2 * 3 - 4]? = some 9 :=
  ⟨_, _, half_cycle 100 [0, 5, 9] WaveGenerator.fresh 0 (by decide) (by decide), rfl,
    by decide, by decide, rfl, rfl⟩

/-- C11 (amended). A voice freshly bound with stride 1 to a table `T` of `L ≥ 1` words,
with a correction unit of at most `WAVEPARTERRORMAX`, emits the table and then the table
reversed; so in every run of it, for `L ≤ t < 2L`, sample `t` equals sample `2L - 1 - t`,
the table word at that offset. -/
theorem second_quarter_mirror (w : Int) (T : List Nat) (g0 : WaveGenerator) (u : Nat)
    (hL : 1 ≤ T.length) (hu : u ≤ WAVEPARTERRORMAX) (out : List Nat) (g1 : WaveGenerator)
    (h : Emits (tableMem w T) (g0.setWave w T.length 1 u) out g1) (t : Nat)
    (ht1 : T.length ≤ t) (ht2 : t < 2 * T.length) (hlen : t < out.length) :
    (∃ g2, Emits (tableMem w T) (g0.setWave w T.length 1 u) (T ++ T.reverse) g2) ∧
    out[t]? = out[2 * T.length - 1 - t]? ∧ out[t]? = T[2 * T.length - 1 - t]? := by
  have hH := half_cycle w T g0 u hL hu
  have hHlen : (T ++ T.reverse).length = 2 * T.length := by
    simp only [List.length_append, List.length_reverse]
    omega
  have e1 : out[t]? = (T ++ T.reverse)[t]? :=
    emits_sample h hH t hlen (by omega)
  have e2 : out[2 * T.length - 1 - t]? = (T ++ T.reverse)[2 * T.length - 1 - t]? :=
    emits_sample h hH _ (by omega) (by omega)
  have e3 : (T ++ T.reverse)[t]? = T[2 * T.length - 1 - t]? := by
    rw [List.getElem?_append_right ht1, List.getElem?_reverse (by omega)]
    congr 1
    omega
  have e4 : (T ++ T.reverse)[2 * T.length - 1 - t]? = T[2 * T.length - 1 - t]? :=
    List.getElem?_append_left (by omega)
  exact ⟨⟨_, hH⟩, by rw [e1, e2, e3, e4], by rw [e1, e3]⟩

theorem second_quarter_mirror_witness :
    (∃ g2, Emits (tableMem 100 [0, 5, 9]) (WaveGenerator.fresh.setWave 100 3 1 0)
      ([0, 5, 9] ++ [0, 5, 9].reverse) g2) ∧
    [0, 5, 9, 9, 5, 0][4]? = [0, 5, 9, 9, 5, 0][2 * 3 - 1 - 4]? ∧
    [0, 5, 9, 9, 5, 0][4]? = [0, 5, 9][2 * 3 - 1 - 4]? :=
  second_quarter_mirror 100 [0, 5, 9] WaveGenerator.fresh 0 (by decide) (by decide)
    [0, 5, 9, 9, 5, 0] _ (half_cycle 100 [0, 5, 9] WaveGenerator.fresh 0 (by decide) (by decide))
    4 (by decide) (by decide) (by decide)

set_option maxRecDepth 100000 in
/-- C12 (counterexample). The table `[0, 5, 9]` (L = 3) bound with stride 1 and
correction unit 30000: the accumulator passes `WAVEPARTERRORMAX` at the end of the third
quarter, the voice repeats the peak sample, and sample(10) = -9 while
-sample(10 - 2 * 3) = -sample(4) = -5 (mod 2^32). -/
theorem second_half_shifted_by_extra_sample :
    ∃ out g1, Emits demoMem (WaveGenerator.fresh.setWave 100 3 1 30000) out g1 ∧
      out = [0, 5, 9, 9, 5, 0, 0, 4294967291, 4294967287, 4294967287, 4294967287,
        4294967291, 0] ∧
      2 * 3 ≤ 10 ∧ 10 < 4 * 3 ∧ out[10]? = some 4294967287 ∧ out[10 - 2 * 3]? = some 5 ∧
      neg32 5 = 4294967291 := by
  obtain ⟨g1, hg⟩ := samplesOf_emits demoMem (tableMem_bound 100 [0, 5, 9] (by decide)) 30
    (WaveGenerator.fresh.setWave 100 3 1 30000) false 13
    [0, 5, 9, 9, 5, 0, 0, 4294967291, 4294967287, 4294967287, 4294967287, 4294967291, 0]
    (by decide) (by decide)
  exact ⟨_, g1, hg, rfl, by decide, by decide, rfl, rfl, by decide⟩

/-- C12 (amended). A voice freshly bound with stride 1 to a table `T` of `L ≥ 1` words,
with correction unit `u ≤ WAVEPARTERRORMAX`: in every run of it, sample `t` is the
negation mod 2^32 of sample `t - 2L` for `2L ≤ t < 3L`, and for all of `2L ≤ t < 4L`
when `2 * u ≤ WAVEPARTERRORMAX` (no sample is repeated in the first cycle). -/
theorem second_half_negated (w : Int) (T : List Nat) (g0 : WaveGenerator) (u : Nat)
    (hL : 1 ≤ T.length) (hu : u ≤ WAVEPARTERRORMAX) (out : List Nat) (g1 : WaveGenerator)
    (h : Emits (tableMem w T) (g0.setWave w T.length 1 u) out g1) (t : Nat)
    (hlen : t < out.length) (ht1 : 2 * T.length ≤ t)
    (ht2 : t < 3 * T.length ∨ (2 * u ≤ WAVEPARTERRORMAX ∧ t < 4 * T.length)) :
    ∃ v, out[t - 2 * T.length]? = some v ∧ out[t]? = some (neg32 v) := by
  have hH := half_cycle w T g0 u hL hu
  have hG := emits_append hH (third_quarter w T g0 u hL)
  have hHlen : (T ++ T.reverse).length = 2 * T.length := by
    simp only [List.length_append, List.length_reverse]
    omega
  have e1 : out[t - 2 * T.length]? = (T ++ T.reverse)[t - 2 * T.length]? :=
    emits_sample h hH _ (by omega) (by omega)
  have hlt : t - 2 * T.length < (T ++ T.reverse).length := by omega
  obtain ⟨v, hv⟩ : ∃ v, (T ++ T.reverse)[t - 2 * T.length]? = some v :=
    ⟨_, List.getElem?_eq_getElem hlt⟩
  refine ⟨v, e1.trans hv, ?_⟩
  rcases ht2 with h3 | ⟨hu2, h4⟩
  · have hGlen : (T ++ T.reverse ++ T.map neg32).length = 3 * T.length := by
      simp only [List.length_append, List.length_map, List.length_reverse]
      omega
    have e2 : out[t]? = (T ++ T.reverse ++ T.map neg32)[t]? :=
      emits_sample h hG t hlen (by omega)
    have hk : t - 2 * T.length < T.length := by omega
    rw [List.getElem?_append_left hk] at hv
    rw [e2, List.getElem?_append_right (by omega), hHlen, List.getElem?_map, hv]
    rfl
  · have hF := emits_append hG (fourth_quarter w T g0 u hL hu2)
    have hFlen : (T ++ T.reverse ++ T.map neg32 ++ T.reverse.map neg32).length
        = 4 * T.length := by
      simp only [List.length_append, List.length_map, List.length_reverse]
      omega
    have e2 : out[t]? = (T ++ T.reverse ++ T.map neg32 ++ T.reverse.map neg32)[t]? :=
      emits_sample h hF t hlen (by omega)
    have hshape : T ++ T.reverse ++ T.map neg32 ++ T.reverse.map neg32
        = (T ++ T.reverse) ++ (T ++ T.reverse).map neg32 := by
      simp only [List.map_append, List.append_assoc]
    rw [e2, hshape, List.getElem?_append_right (by omega), hHlen, List.getElem?_map, hv]
    rfl

theorem second_half_negated_witness :
    ∃ v, [0, 5, 9, 9, 5, 0, 0, 4294967291, 4294967287][8 - 2 * [0, 5, 9].length]? = some v ∧
      [0, 5, 9, 9, 5, 0, 0, 4294967291, 4294967287][8]? = some (neg32 v) :=
  second_half_negated 100 [0, 5, 9] WaveGenerator.fresh 0 (by decide) (by decide)
    [0, 5, 9, 9, 5, 0, 0, 4294967291, 4294967287] _
    (emits_append (half_cycle 100 [0, 5, 9] WaveGenerator.fresh 0 (by decide) (by decide))
      (third_quarter 100 [0, 5, 9] WaveGenerator.fresh 0 (by decide)))
    8 (by decide) (by decide) (Or.inl (by decide))



/-! ## WaveFactory.cpp: building the tables -/

theorem store_holds_new (h : Heap) (table : List Nat) :
    (h.store table).2.Holds (h.store table).1 table.length := by
  refine ⟨?_, le_refl _⟩
  intro k h0 hk
  show (if h.next ≤ h.next + k ∧ h.next + k < h.next + table.length
    then table[(h.next + k - h.next).toNat]? else h.mem (h.next + k)) ≠ none
  have hin : h.next ≤ h.next + k ∧ h.next + k < h.next + table.length := by omega
  rw [if_pos hin]
  have hlt : (h.next + k - h.next).toNat < table.length := by omega
  rw [List.getElem?_eq_getElem hlt]
  exact Option.some_ne_none _

theorem store_holds_old (h : Heap) (table : List Nat) (w L : Int) (hold : h.Holds w L) :
    (h.store table).2.Holds w L := by
  obtain ⟨hread, hnext⟩ := hold
  refine ⟨?_, ?_⟩
  · intro k h0 hk
    show (if h.next ≤ w + k ∧ w + k < h.next + table.length
      then table[(w + k - h.next).toNat]? else h.mem (w + k)) ≠ none
    have hout : ¬ (h.next ≤ w + k ∧ w + k < h.next + table.length) := by omega
    rw [if_neg hout]
    exact hread k h0 hk
  · show w + L ≤ h.next + table.length
    omega

theorem store_count (h : Heap) (table : List Nat) :
    (h.store table).2.count = h.count + 1 := rfl

/-- The first loop body builds the entry of its pitch, leaves the other entries alone
and allocates three tables. -/
theorem baseNote_spec (sinusSample triangleSample : Nat → Nat → Nat) (f : WaveFactory)
    (index : Fin 128) :
    ((f.baseNote sinusSample triangleSample index).notes index).BaseBuilt
      (f.baseNote sinusSample triangleSample index).heap index ∧
    ((f.baseNote sinusSample triangleSample index).notes index).toWaveGenerator
      = (f.notes index).toWaveGenerator ∧
    (∀ j : Fin 128, j ≠ index →
      (f.baseNote sinusSample triangleSample index).notes j = f.notes j) ∧
    (f.baseNote sinusSample triangleSample index).heap.count = f.heap.count + 3 ∧
    (∀ w L, f.heap.Holds w L →
      (f.baseNote sinusSample triangleSample index).heap.Holds w L) := by
  refine ⟨⟨?_, ?_, ?_⟩, ?_, ?_, ?_, ?_⟩
  · simp [WaveFactory.baseNote]
  · simp [WaveFactory.baseNote]
  · intro s
    have hsize : ∀ l : List Nat, l.length = quarterSize index →
        ((l.length : Nat) : Int) = (quarterSize index : Int) := by
      intro l hl
      rw [hl]
    have h0 := store_holds_new f.heap
      ((List.range (quarterSize index)).map
        (fun i => pack (sinusSample (quarterSize index) i)))
    have h1 := store_holds_new (WaveFactory.makeSinusNote sinusSample f.heap
      (f.notes index) index).1
      ((List.range (quarterSize index)).map
        (fun i => pack (triangleSample (quarterSize index) i)))
    have h2 := store_holds_new (WaveFactory.makeTriangleNote triangleSample
      (WaveFactory.makeSinusNote sinusSample f.heap (f.notes index) index).1
      (WaveFactory.makeSinusNote sinusSample f.heap (f.notes index) index).2 index).1
      (List.replicate (quarterSize index) (pack squareMonoSample))
    simp only [List.length_map, List.length_range, List.length_replicate] at h0 h1 h2
    have h0b := store_holds_old _ (List.replicate (quarterSize index) (pack squareMonoSample))
      _ _ (store_holds_old _ ((List.range (quarterSize index)).map
        (fun i => pack (triangleSample (quarterSize index) i))) _ _ h0)
    have h1b := store_holds_old _ (List.replicate (quarterSize index) (pack squareMonoSample))
      _ _ h1
    fin_cases s
    · refine ⟨?_, ?_, ?_⟩
      · simp [WaveFactory.baseNote, WaveFactory.makeSquareNote, WaveFactory.makeTriangleNote,
          WaveFactory.makeSinusNote]
      · simp [WaveFactory.baseNote, WaveFactory.makeSquareNote, WaveFactory.makeTriangleNote,
          WaveFactory.makeSinusNote]
      · simpa [WaveFactory.baseNote, WaveFactory.makeSquareNote, WaveFactory.makeTriangleNote,
          WaveFactory.makeSinusNote] using h0b
    · refine ⟨?_, ?_, ?_⟩
      · simp [WaveFactory.baseNote, WaveFactory.makeSquareNote, WaveFactory.makeTriangleNote,
          WaveFactory.makeSinusNote]
      · simp [WaveFactory.baseNote, WaveFactory.makeSquareNote, WaveFactory.makeTriangleNote,
          WaveFactory.makeSinusNote]
      · simpa [WaveFactory.baseNote, WaveFactory.makeSquareNote, WaveFactory.makeTriangleNote,
          WaveFactory.makeSinusNote] using h1b
    · refine ⟨?_, ?_, ?_⟩
      · simp [WaveFactory.baseNote, WaveFactory.makeSquareNote, WaveFactory.makeTriangleNote,
          WaveFactory.makeSinusNote]
      · simp [WaveFactory.baseNote, WaveFactory.makeSquareNote, WaveFactory.makeTriangleNote,
          WaveFactory.makeSinusNote]
      · simpa [WaveFactory.baseNote, WaveFactory.makeSquareNote, WaveFactory.makeTriangleNote,
          WaveFactory.makeSinusNote] using h2
  · simp [WaveFactory.baseNote, WaveFactory.makeSquareNote, WaveFactory.makeTriangleNote,
      WaveFactory.makeSinusNote]
  · intro j hj
    simp [WaveFactory.baseNote, Function.update_noteq hj]
  · simp [WaveFactory.baseNote, WaveFactory.makeSquareNote, WaveFactory.makeTriangleNote,
      WaveFactory.makeSinusNote, Heap.store]
  · intro w L hold
    exact store_holds_old _ _ _ _ (store_holds_old _ _ _ _ (store_holds_old _ _ _ _ hold))

theorem baseBuilt_mono (note : Note) (h h1 : Heap) (p : Nat)
    (hmono : ∀ w L, h.Holds w L → h1.Holds w L) (hb : note.BaseBuilt h p) :
    note.BaseBuilt h1 p :=
  ⟨hb.1, hb.2.1, fun s => ⟨(hb.2.2 s).1, (hb.2.2 s).2.1, hmono _ _ (hb.2.2 s).2.2⟩⟩

/-- The first loop of `begin` from `index` on: it returns, builds the entries of the
pitches `index .. 32`, leaves the other entries alone and allocates three tables per
pitch. -/
theorem firstOctave_spec (sinusSample triangleSample : Nat → Nat → Nat) (n : Nat) :
    ∀ (index fuel : Nat) (f : WaveFactory), index + n = 33 → n ≤ fuel →
      ∃ f1, WaveFactory.firstOctave sinusSample triangleSample fuel index f = Outcome.ok f1 ∧
        (∀ p : Fin 128, index ≤ p.val → p.val < 33 →
          (f1.notes p).BaseBuilt f1.heap p.val ∧
          (f1.notes p).toWaveGenerator = (f.notes p).toWaveGenerator) ∧
        (∀ j : Fin 128, (j.val < index ∨ 33 ≤ j.val) → f1.notes j = f.notes j) ∧
        f1.heap.count = f.heap.count + 3 * n ∧
        (∀ w L, f.heap.Holds w L → f1.heap.Holds w L) := by
  induction n with
  | zero =>
    intro index fuel f hidx _
    have hge : ¬ index < MINMIDINOTES + NROFNOTESINOCTAVE := by
      simp only [MINMIDINOTES, NROFNOTESINOCTAVE]
      omega
    refine ⟨f, ?_, ?_, fun _ _ => rfl, rfl, fun _ _ hh => hh⟩
    · cases fuel <;> simp only [WaveFactory.firstOctave, if_neg hge]
    · intro p h1 h2
      omega
  | succ n ih =>
    intro index fuel f hidx hfuel
    obtain ⟨fuel1, rfl⟩ : ∃ m, fuel = m + 1 := ⟨fuel - 1, by omega⟩
    have hlt : index < MINMIDINOTES + NROFNOTESINOCTAVE := by
      simp only [MINMIDINOTES, NROFNOTESINOCTAVE]
      omega
    have h128 : index < 128 := by omega
    obtain ⟨hbuilt, hwg, hother, hcount, hmono⟩ :=
      baseNote_spec sinusSample triangleSample f ⟨index, h128⟩
    obtain ⟨f1, hrun, hb1, ho1, hc1, hm1⟩ := ih (index + 1) fuel1
      (f.baseNote sinusSample triangleSample ⟨index, h128⟩) (by omega) (by omega)
    refine ⟨f1, ?_, ?_, ?_, ?_, ?_⟩
    · simp only [WaveFactory.firstOctave, if_pos hlt, dif_pos h128]
      exact hrun
    · intro p hp1 hp2
      by_cases hpi : p.val = index
      · have hp : p = ⟨index, h128⟩ := Fin.ext hpi
        subst hp
        rw [ho1 _ (Or.inl (Nat.lt_succ_self _))]
        exact ⟨baseBuilt_mono _ _ _ _ hm1 hbuilt, hwg⟩
      · obtain ⟨hx, hy⟩ := hb1 p (by omega) hp2
        refine ⟨hx, ?_⟩
        rw [hy, hother p (fun h => hpi (congrArg Fin.val h))]
    · intro j hj
      have hne : j ≠ ⟨index, h128⟩ := by
        intro h
        have := congrArg Fin.val h
        simp only at this
        omega
      rw [ho1 j (by omega), hother j hne]
    · rw [hc1, hcount]
      omega
    · intro w L hold
      exact hm1 _ _ (hmono _ _ hold)

theorem higherNote_spec (st : OctaveLoop) (index : Fin 128) (h : st.toBaseNote < 128) :
    ∃ st1, WaveFactory.higherNote st index = Outcome.ok st1 ∧ st1.f.heap = st.f.heap ∧
      st1.f.notes = Function.update st.f.notes index
        { st.f.notes index with
          midiNoteNr := (index.val : Int)
          samples := (st.f.notes ⟨st.toBaseNote, h⟩).samples
          sampleSizes := (st.f.notes ⟨st.toBaseNote, h⟩).sampleSizes
          delta := st.multiplier } ∧
      st1.baseCount = (if st.baseCount + 1 = 12 then 0 else st.baseCount + 1) ∧
      st1.toBaseNote = (if st.baseCount + 1 = 12 then 21 else st.toBaseNote + 1) ∧
      st1.multiplier = (if st.baseCount + 1 = 12 then st.multiplier * 2 else st.multiplier) := by
  unfold WaveFactory.higherNote
  rw [dif_pos h]
  by_cases hw : st.baseCount + 1 = 12
  · have hw2 : st.baseCount + 1 = NROFNOTESINOCTAVE := hw
    simp only [hw2, if_true]
    exact ⟨_, rfl, rfl, rfl, by simp [NROFNOTESINOCTAVE], by simp [NROFNOTESINOCTAVE, MINMIDINOTES],
      by simp [NROFNOTESINOCTAVE]⟩
  · have hw2 : ¬ st.baseCount + 1 = NROFNOTESINOCTAVE := hw
    simp only [hw2, if_false]
    exact ⟨_, rfl, rfl, rfl, by simp [hw], by simp [hw], by simp [hw]⟩

/-- The second loop of `begin` from `index` on: it returns, allocates nothing, leaves the
entries below `index` alone and gives every pitch `p ≥ index` the tables and table
lengths of the base-octave pitch `21 + (p - 21) % 12` with stride `2 ^ ((p - 21) / 12)`,
without writing its correction units. -/
theorem higherOctaves_spec (n : Nat) :
    ∀ (index fuel : Nat) (st : OctaveLoop), index + n = 128 → 33 ≤ index → n ≤ fuel →
      st.baseCount = (index - 21) % 12 → st.toBaseNote = 21 + (index - 21) % 12 →
      st.multiplier = 2 ^ ((index - 21) / 12) →
      ∃ st1, WaveFactory.higherOctaves fuel index st = Outcome.ok st1 ∧
        st1.f.heap = st.f.heap ∧
        (∀ j : Fin 128, j.val < index → st1.f.notes j = st.f.notes j) ∧
        (∀ p b : Fin 128, index ≤ p.val → b.val = 21 + (p.val - 21) % 12 →
          (st1.f.notes p).samples = (st.f.notes b).samples ∧
          (st1.f.notes p).sampleSizes = (st.f.notes b).sampleSizes ∧
          (st1.f.notes p).delta = 2 ^ ((p.val - 21) / 12) ∧
          (st1.f.notes p).midiNoteNr = (p.val : Int) ∧
          (st1.f.notes p).sampleErrors = (st.f.notes p).sampleErrors ∧
          (st1.f.notes p).toWaveGenerator = (st.f.notes p).toWaveGenerator) := by
  induction n with
  | zero =>
    intro index fuel st hidx _ _ _ _ _
    have hge : ¬ index ≤ MAXMIDINOTES := by
      simp only [MAXMIDINOTES]
      omega
    refine ⟨st, ?_, rfl, fun _ _ => rfl, ?_⟩
    · cases fuel <;> simp only [WaveFactory.higherOctaves, if_neg hge]
    · intro p b hp
      have := p.isLt
      omega
  | succ n ih =>
    intro index fuel st hidx h33 hfuel hbc htb hmul
    obtain ⟨fuel1, rfl⟩ : ∃ m, fuel = m + 1 := ⟨fuel - 1, by omega⟩
    have hle : index ≤ MAXMIDINOTES := by
      simp only [MAXMIDINOTES]
      omega
    have h128 : index < 128 := by omega
    have htb128 : st.toBaseNote < 128 := by omega
    obtain ⟨st2, hnote, hheap2, hnotes2, hbc2, htb2, hmul2⟩ :=
      higherNote_spec st ⟨index, h128⟩ htb128
    have hwrap : st.baseCount + 1 = 12 ↔ (index + 1 - 21) % 12 = 0 := by omega
    obtain ⟨st1, hrun, hheap1, hold1, hnew1⟩ := ih (index + 1) fuel1 st2 (by omega) (by omega)
      (by omega)
      (by rw [hbc2]; split <;> omega)
      (by rw [htb2]; split <;> omega)
      (by
        rw [hmul2, hmul]
        by_cases hw : st.baseCount + 1 = 12
        · rw [if_pos hw]
          have hq : (index + 1 - 21) / 12 = (index - 21) / 12 + 1 := by omega
          rw [hq, pow_succ]
        · rw [if_neg hw]
          have hq : (index + 1 - 21) / 12 = (index - 21) / 12 := by omega
          rw [hq])
    refine ⟨st1, ?_, hheap1.trans hheap2, ?_, ?_⟩
    · simp only [WaveFactory.higherOctaves, if_pos hle, dif_pos h128, hnote]
      exact hrun
    · intro j hj
      rw [hold1 j (by omega), hnotes2]
      exact Function.update_noteq (fun h => by
        have := congrArg Fin.val h
        simp only at this
        omega) _ _
    · intro p b hp hb
      have hbne : b ≠ ⟨index, h128⟩ := by
        intro h
        have := congrArg Fin.val h
        simp only at this
        omega
      have hbase : st2.f.notes b = st.f.notes b := by
        rw [hnotes2]
        exact Function.update_noteq hbne _ _
      by_cases hpi : p.val = index
      · have hp2 : p = ⟨index, h128⟩ := Fin.ext hpi
        subst hp2
        have hbb : b = ⟨st.toBaseNote, htb128⟩ := Fin.ext (by
          show b.val = st.toBaseNote
          simp only at hb
          omega)
        rw [hold1 _ (Nat.lt_succ_self _), hnotes2, Function.update_same, hbb]
        exact ⟨rfl, rfl, hmul, rfl, rfl, rfl⟩
      · obtain ⟨a1, a2, a3, a4, a5, a6⟩ := hnew1 p b (by omega) hb
        have hpne : p ≠ ⟨index, h128⟩ := fun h => hpi (congrArg Fin.val h)
        have hsame : st2.f.notes p = st.f.notes p := by
          rw [hnotes2]
          exact Function.update_noteq hpne _ _
        rw [hbase] at a1 a2
        rw [hsame] at a5 a6
        exact ⟨a1, a2, a3, a4, a5, a6⟩

/-- `WaveFactory::begin` returns; what it leaves in the note entries and on the heap. -/
theorem begin_spec (sinusSample triangleSample : Nat → Nat → Nat) (fuel : Nat)
    (hfuel : 95 ≤ fuel) (f : WaveFactory) :
    ∃ f1, WaveFactory.begin sinusSample triangleSample fuel f = Outcome.ok f1 ∧
      (∀ p : Fin 128, 21 ≤ p.val → p.val < 33 → (f1.notes p).BaseBuilt f1.heap p.val) ∧
      (∀ p b : Fin 128, 33 ≤ p.val → b.val = 21 + (p.val - 21) % 12 →
        (f1.notes p).samples = (f1.notes b).samples ∧
        (f1.notes p).sampleSizes = (f1.notes b).sampleSizes ∧
        (f1.notes p).delta = 2 ^ ((p.val - 21) / 12) ∧
        (f1.notes p).midiNoteNr = (p.val : Int) ∧
        (f1.notes p).sampleErrors = (f.notes p).sampleErrors) ∧
      (∀ p : Fin 128, (f1.notes p).toWaveGenerator = (f.notes p).toWaveGenerator) ∧
      f1.heap.count = f.heap.count + 36 := by
  obtain ⟨f1, hrun1, hbase, hother, hcount, -⟩ :=
    firstOctave_spec sinusSample triangleSample 12 21 fuel f rfl (by omega)
  obtain ⟨st, hrun2, hheap, hold, hnew⟩ := higherOctaves_spec 95 33 fuel
    { f := f1, multiplier := 2, baseCount := 0, toBaseNote := MINMIDINOTES } rfl (le_refl _)
    hfuel rfl rfl rfl
  have hheap2 : st.f.heap = f1.heap := hheap
  refine ⟨st.f, ?_, ?_, ?_, ?_, ?_⟩
  · unfold WaveFactory.begin
    have h1 : WaveFactory.firstOctave sinusSample triangleSample fuel MINMIDINOTES f
        = Outcome.ok f1 := hrun1
    have h2 : WaveFactory.higherOctaves fuel (MINMIDINOTES + NROFNOTESINOCTAVE)
        { f := f1, multiplier := 2, baseCount := 0, toBaseNote := MINMIDINOTES }
        = Outcome.ok st := hrun2
    rw [h1]
    simp only [h2]
  · intro p h21 h33
    rw [hold p h33, hheap2]
    exact (hbase p h21 h33).1
  · intro p b h33 hb
    obtain ⟨a1, a2, a3, a4, a5, -⟩ := hnew p b h33 hb
    have hb33 : b.val < 33 := by omega
    have hsame : st.f.notes b = f1.notes b := hold b hb33
    have a1b : (st.f.notes p).samples = (f1.notes b).samples := a1
    have a2b : (st.f.notes p).sampleSizes = (f1.notes b).sampleSizes := a2
    have a5b : (st.f.notes p).sampleErrors = (f1.notes p).sampleErrors := a5
    rw [hsame]
    refine ⟨a1b, a2b, a3, a4, ?_⟩
    rw [a5b, hother p (Or.inr h33)]
  · intro p
    by_cases h33 : p.val < 33
    · rw [hold p h33]
      by_cases h21 : 21 ≤ p.val
      · exact (hbase p h21 h33).2
      · rw [hother p (Or.inl (by omega))]
    · obtain ⟨-, -, -, -, -, a6⟩ := hnew p ⟨21 + (p.val - 21) % 12, by omega⟩ (by omega) rfl
      have a6b : (st.f.notes p).toWaveGenerator = (f1.notes p).toWaveGenerator := a6
      rw [a6b, hother p (Or.inr (by omega))]
  · rw [hheap2, hcount]

/-- C14. `WaveFactory::begin` on the zero-initialised factory returns (95 iterations
per loop suffice) and leaves: stride 1 for every pitch in [21,32]; for every pitch `p`
in [33,127] and every style the table pointer and table length of the base-octave pitch
`b = 21 + (p - 21) % 12`, and stride `2 ^ ((p - 21) / 12)`; and exactly 36 = 12 x 3
`malloc` calls. -/
theorem begin_shares_base_tables (sinusSample triangleSample : Nat → Nat → Nat) (start : Int)
    (fuel : Nat) (hfuel : 95 ≤ fuel) :
    ∃ f1, WaveFactory.begin sinusSample triangleSample fuel (WaveFactory.zero start)
        = Outcome.ok f1 ∧
      (∀ p : Fin 128, 21 ≤ p.val → p.val ≤ 32 → (f1.notes p).delta = 1) ∧
      (∀ p b : Fin 128, 33 ≤ p.val → b.val = 21 + (p.val - 21) % 12 → ∀ s : Fin 3,
        (f1.notes p).samples s = (f1.notes b).samples s ∧
        (f1.notes p).sampleSizes s = (f1.notes b).sampleSizes s ∧
        (f1.notes p).delta = 2 ^ ((p.val - 21) / 12)) ∧
      f1.heap.count = NROFNOTESINOCTAVE * NROFSTYLES := by
  obtain ⟨f1, hrun, hbase, hhigh, -, hcount⟩ :=
    begin_spec sinusSample triangleSample fuel hfuel (WaveFactory.zero start)
  refine ⟨f1, hrun, ?_, ?_, ?_⟩
  · intro p h21 h32
    exact (hbase p h21 (by omega)).1
  · intro p b h33 hb s
    obtain ⟨a1, a2, a3, -⟩ := hhigh p b h33 hb
    exact ⟨congrFun a1 s, congrFun a2 s, a3⟩
  · rw [hcount]
    rfl

theorem begin_shares_base_tables_witness :
    ∃ f1, WaveFactory.begin (fun _ _ => 0) (fun _ _ => 0) 95 (WaveFactory.zero 1000)
        = Outcome.ok f1 ∧
      (∀ p : Fin 128, 21 ≤ p.val → p.val ≤ 32 → (f1.notes p).delta = 1) ∧
      (∀ p b : Fin 128, 33 ≤ p.val → b.val = 21 + (p.val - 21) % 12 → ∀ s : Fin 3,
        (f1.notes p).samples s = (f1.notes b).samples s ∧
        (f1.notes p).sampleSizes s = (f1.notes b).sampleSizes s ∧
        (f1.notes p).delta = 2 ^ ((p.val - 21) / 12)) ∧
      f1.heap.count = NROFNOTESINOCTAVE * NROFSTYLES :=
  begin_shares_base_tables (fun _ _ => 0) (fun _ _ => 0) 1000 95 (by decide)



/-- For every pitch, four times the table length of its pitch class, divided by its
stride, is at most the exact period `SAMPLERATE/frequency` and less than four samples
below it (cross-multiplied). -/
theorem period_bounds : ∀ p < 128, 21 ≤ p →
    4 * quarterSize (21 + (p - 21) % 12) * periodDen p ≤ periodNum p * 2 ^ ((p - 21) / 12) ∧
    periodNum p * 2 ^ ((p - 21) / 12)
      < 4 * periodDen p * (quarterSize (21 + (p - 21) % 12) + 2 ^ ((p - 21) / 12)) := by
  decide



theorem sampleErrorOf_ne_zero : ∀ p < 128, 33 ≤ p → sampleErrorOf p ≠ 0 := by
  decide

/-- C15 (divergence). `WaveFactory::begin` on the zero-initialised factory stores the
correction unit `trunc(frac(SAMPLERATE/frequency(p)) * WAVEPARTERRORMAX)` only for the
pitches 21 to 32. For every pitch `p` in [33,127] and every style the entry keeps the
correction unit 0 it had before `begin`, while the value of the formula is not 0; for
`p = 69` the formula gives 18182. -/
theorem begin_leaves_error_units_unset (sinusSample triangleSample : Nat → Nat → Nat)
    (start : Int) (fuel : Nat) (hfuel : 95 ≤ fuel) :
    ∃ f1, WaveFactory.begin sinusSample triangleSample fuel (WaveFactory.zero start)
        = Outcome.ok f1 ∧
      (∀ p : Fin 128, 21 ≤ p.val → p.val ≤ 32 → ∀ s : Fin 3,
        (f1.notes p).sampleErrors s = sampleErrorOf p.val) ∧
      (∀ p : Fin 128, 33 ≤ p.val → ∀ s : Fin 3,
        (f1.notes p).sampleErrors s = 0 ∧ sampleErrorOf p.val ≠ 0) ∧
      sampleErrorOf 69 = 18182 := by
  obtain ⟨f1, hrun, hbase, hhigh, -, -⟩ :=
    begin_spec sinusSample triangleSample fuel hfuel (WaveFactory.zero start)
  refine ⟨f1, hrun, ?_, ?_, by decide⟩
  · intro p h21 h32 s
    exact ((hbase p h21 (by omega)).2.2 s).2.1
  · intro p h33 s
    obtain ⟨-, -, -, -, a5⟩ := hhigh p ⟨21 + (p.val - 21) % 12, by omega⟩ h33 rfl
    refine ⟨?_, sampleErrorOf_ne_zero p.val p.isLt h33⟩
    rw [a5]
    rfl

theorem begin_leaves_error_units_unset_witness :
    ∃ f1, WaveFactory.begin (fun _ _ => 0) (fun _ _ => 0) 95 (WaveFactory.zero 1000)
        = Outcome.ok f1 ∧
      (∀ p : Fin 128, 21 ≤ p.val → p.val ≤ 32 → ∀ s : Fin 3,
        (f1.notes p).sampleErrors s = sampleErrorOf p.val) ∧
      (∀ p : Fin 128, 33 ≤ p.val → ∀ s : Fin 3,
        (f1.notes p).sampleErrors s = 0 ∧ sampleErrorOf p.val ≠ 0) ∧
      sampleErrorOf 69 = 18182 :=
  begin_leaves_error_units_unset (fun _ _ => 0) (fun _ _ => 0) 1000 95 (by decide)

/-- C16 (counterexample). After `begin`, pitch 21 has table length 1745 and stride 1 in
every style, and `SAMPLERATE/frequency(21) = 1920000/275 = 6981.81...`: the distance
from `4 * 1745 * 1 = 6980` is `500/275 > 1`. Pitch 69 has table length 1745 and stride
16: `4 * 1745 * 16 = 111680`, more than 111000 away from its period of less than 437
samples. -/
theorem period_claim_fails :
    ∃ f1, WaveFactory.begin (fun _ _ => 0) (fun _ _ => 0) 95 (WaveFactory.zero 1000)
        = Outcome.ok f1 ∧
      (f1.notes 21).sampleSizes 0 = 1745 ∧ (f1.notes 21).delta = 1 ∧
      periodNum 21 = 1920000 ∧ periodDen 21 = 275 ∧
      ¬ (4 * (f1.notes 21).sampleSizes 0 * (f1.notes 21).delta * (periodDen 21 : Int)
          - (periodNum 21 : Int)).natAbs ≤ periodDen 21 ∧
      (f1.notes 69).sampleSizes 0 = 1745 ∧ (f1.notes 69).delta = 16 ∧
      periodNum 69 < 437 * periodDen 69 := by
  obtain ⟨f1, hrun, hbase, hhigh, -, -⟩ :=
    begin_spec (fun _ _ => 0) (fun _ _ => 0) 95 (le_refl _) (WaveFactory.zero 1000)
  have hq : quarterSize 21 = 1745 := by decide
  have h21 := hbase 21 (by decide) (by decide)
  obtain ⟨a1, a2, a3, -⟩ := hhigh 69 21 (by decide) (by decide)
  have hs : (f1.notes 21).sampleSizes 0 = 1745 := by
    rw [(h21.2.2 0).1]
    exact congrArg Nat.cast hq
  refine ⟨f1, hrun, hs, h21.1, by decide, by decide, ?_, ?_, ?_, by decide⟩
  · rw [hs, h21.1]
    decide
  · rw [a2, hs]
  · rw [a3]
    rfl

/-- C16 (amended). After `begin`, for every pitch `p` in [21,127] and every style, with
`L` the table length and `d` the stride of the entry:
`0 ≤ SAMPLERATE/frequency(p) - 4 * L / d < 4`, stated cross-multiplied with
`SAMPLERATE/frequency(p) = periodNum p / periodDen p`. -/
theorem period_within_four_samples (sinusSample triangleSample : Nat → Nat → Nat)
    (start : Int) (fuel : Nat) (hfuel : 95 ≤ fuel) :
    ∃ f1, WaveFactory.begin sinusSample triangleSample fuel (WaveFactory.zero start)
        = Outcome.ok f1 ∧
      ∀ p : Fin 128, 21 ≤ p.val → ∀ s : Fin 3,
        4 * (f1.notes p).sampleSizes s * (periodDen p.val : Int)
          ≤ (periodNum p.val : Int) * (f1.notes p).delta ∧
        (periodNum p.val : Int) * (f1.notes p).delta
          < 4 * (periodDen p.val : Int) * ((f1.notes p).sampleSizes s + (f1.notes p).delta) := by
  obtain ⟨f1, hrun, hbase, hhigh, -, -⟩ :=
    begin_spec sinusSample triangleSample fuel hfuel (WaveFactory.zero start)
  refine ⟨f1, hrun, ?_⟩
  intro p h21 s
  obtain ⟨hlo, hhi⟩ := period_bounds p.val p.isLt h21
  have hsize : (f1.notes p).sampleSizes s = (quarterSize (21 + (p.val - 21) % 12) : Int) ∧
      (f1.notes p).delta = ((2 ^ ((p.val - 21) / 12) : Nat) : Int) := by
    by_cases h33 : p.val < 33
    · have hb := hbase p h21 h33
      have hp : 21 + (p.val - 21) % 12 = p.val := by omega
      have hq : (p.val - 21) / 12 = 0 := by omega
      rw [hp, hq, (hb.2.2 s).1, hb.1]
      exact ⟨rfl, rfl⟩
    · obtain ⟨-, a2, a3, -⟩ := hhigh p ⟨21 + (p.val - 21) % 12, by omega⟩ (by omega) rfl
      have hb := hbase ⟨21 + (p.val - 21) % 12, by omega⟩ (by simp) (by simp; omega)
      rw [a2, a3, (hb.2.2 s).1]
      exact ⟨rfl, by push_cast; rfl⟩
  rw [hsize.1, hsize.2]
  constructor
  · exact_mod_cast hlo
  · exact_mod_cast hhi

theorem period_within_four_samples_witness :
    ∃ f1, WaveFactory.begin (fun _ _ => 0) (fun _ _ => 0) 95 (WaveFactory.zero 1000)
        = Outcome.ok f1 ∧
      ∀ p : Fin 128, 21 ≤ p.val → ∀ s : Fin 3,
        4 * (f1.notes p).sampleSizes s * (periodDen p.val : Int)
          ≤ (periodNum p.val : Int) * (f1.notes p).delta ∧
        (periodNum p.val : Int) * (f1.notes p).delta
          < 4 * (periodDen p.val : Int) * ((f1.notes p).sampleSizes s + (f1.notes p).delta) :=
  period_within_four_samples (fun _ _ => 0) (fun _ _ => 0) 1000 95 (by decide)



/-! ## The mix of one period -/

/-- A run of `n` samples of an Idle voice or a voice in play is what both fill functions
produce. -/
theorem fills_of_emits (mem : Mem) (g g1 : WaveGenerator) (w L d : Int) (out buffer : List Nat)
    (fuel : Nat) (hp : g.state = 0 ∨ g.Playing mem w L d) (he : Emits mem g out g1)
    (hbuf : out.length ≤ buffer.length) (hfuel : 2 * out.length ≤ fuel) :
    g.setSamplesInBuffer mem fuel buffer out.length
      = Outcome.ok (g1, writeList (fun _ v => v) buffer 0 out) ∧
    g.addSamplesToBuffer mem fuel buffer out.length
      = Outcome.ok (g1, writeList add32 buffer 0 out) := by
  obtain ⟨out2, g2, he2, hlen2, -, hset, hadd⟩ :=
    fills_total mem g w L d buffer out.length fuel hp hbuf hfuel
  obtain ⟨ho, hg⟩ := emits_functional he he2 hlen2.symm
  rw [ho, hg]
  rw [ho] at hset hadd
  exact ⟨hset, hadd⟩

theorem pollVoice_buffer (s : PolySynth) (index : Fin 16) (g : WaveGenerator)
    (buffer : List Nat) : (s.pollVoice index g buffer).buffer = buffer := by
  unfold PolySynth.pollVoice
  split <;> rfl

theorem pollVoice_other (s : PolySynth) (index j : Fin 16) (g : WaveGenerator)
    (buffer : List Nat) (hj : j ≠ index) :
    (s.pollVoice index g buffer).wavegenerators j = s.wavegenerators j := by
  unfold PolySynth.pollVoice
  split
  · exact Function.update_noteq hj _ _
  · exact Function.update_noteq hj _ _

theorem pollVoice_self (s : PolySynth) (index : Fin 16) (g : WaveGenerator)
    (buffer : List Nat) :
    ∃ link, (s.pollVoice index g buffer).wavegenerators index
      = { (g.clearStopping).2 with toNextFreeWaveGenerator := link } := by
  unfold PolySynth.pollVoice
  split
  · exact ⟨s.toFreeWaveGenerators, Function.update_same _ _ _⟩
  · exact ⟨((g.clearStopping).2).toNextFreeWaveGenerator, Function.update_same _ _ _⟩

/-- The `for` loop of `PolySynth::loop` from slot `index` on, when every remaining voice
`j` is as at the start of the period and its fill adds the samples `outs j`: the loop
returns, every buffer word has grown by the words of the remaining voices mod 2^32, the
slots below `index` are untouched and every remaining voice is left as its fill and poll
leave it. -/
theorem loopRest_mix (mem : Mem) (fuel : Nat) (s0 : PolySynth) (outs : Fin 16 → List Nat)
    (gs : Fin 16 → WaveGenerator) (hlen : ∀ k, (outs k).length = BUFFERSIZE)
    (hfill : ∀ (k : Fin 16) (buffer : List Nat), buffer.length = BUFFERSIZE →
      (s0.wavegenerators k).addSamplesToBuffer mem fuel buffer BUFFERSIZE
        = Outcome.ok (gs k, writeList add32 buffer 0 (outs k)))
    (count : Nat) :
    ∀ (index : Nat) (s : PolySynth), 16 ≤ index + count → index ≤ 16 →
      s.buffer.length = BUFFERSIZE →
      (∀ j : Fin 16, index ≤ j.val → s.wavegenerators j = s0.wavegenerators j) →
      ∃ s1, PolySynth.loopRest mem fuel count index s = Outcome.ok s1 ∧
        s1.buffer.length = BUFFERSIZE ∧
        (∀ i : Nat, i < BUFFERSIZE → s1.buffer[i]? = some
          (if index < 16 then
            (s.buffer.getD i 0 + Finset.sum (Finset.Ico index 16) (fun j => slotWord outs j i))
              % UINT32
           else s.buffer.getD i 0)) ∧
        (∀ j : Fin 16, j.val < index → s1.wavegenerators j = s.wavegenerators j) ∧
        (∀ j : Fin 16, index ≤ j.val → ∃ link, s1.wavegenerators j
          = { ((gs j).clearStopping).2 with toNextFreeWaveGenerator := link }) := by
  induction count with
  | zero =>
    intro index s h16 hle hbuf _
    have hidx : index = 16 := by omega
    subst hidx
    refine ⟨s, rfl, hbuf, ?_, fun _ _ => rfl, ?_⟩
    · intro i hi
      have hlt : i < s.buffer.length := by omega
      rw [if_neg (lt_irrefl 16), List.getD_eq_getElem _ _ hlt]
      exact List.getElem?_eq_getElem hlt
    · intro j hj
      have := j.isLt
      omega
  | succ count ih =>
    intro index s h16 hle hbuf hsame
    by_cases hlt : index < 16
    · have hadd := hfill ⟨index, hlt⟩ s.buffer hbuf
      rw [← hsame ⟨index, hlt⟩ (le_refl _)] at hadd
      have hbody : s.loopBody mem fuel ⟨index, hlt⟩ = Outcome.ok
          (s.pollVoice ⟨index, hlt⟩ (gs ⟨index, hlt⟩)
            (writeList add32 s.buffer 0 (outs ⟨index, hlt⟩))) := by
        unfold PolySynth.loopBody
        rw [hadd]
      have hbuf2 : (s.pollVoice ⟨index, hlt⟩ (gs ⟨index, hlt⟩)
          (writeList add32 s.buffer 0 (outs ⟨index, hlt⟩))).buffer.length = BUFFERSIZE := by
        rw [pollVoice_buffer, writeList_length]
        exact hbuf
      obtain ⟨s1, hrun, hlen1, hwords, hold, hnew⟩ := ih (index + 1) _ (by omega) (by omega)
        hbuf2 (by
          intro j hj
          rw [pollVoice_other _ _ _ _ _ (fun h => by
            have := congrArg Fin.val h
            simp only at this
            omega)]
          exact hsame j (by omega))
      refine ⟨s1, ?_, hlen1, ?_, ?_, ?_⟩
      · simp only [PolySynth.loopRest, dif_pos hlt, hbody]
        exact hrun
      · intro i hi
        rw [hwords i hi, if_pos hlt, pollVoice_buffer]
        have hroom : 0 + (outs ⟨index, hlt⟩).length ≤ s.buffer.length := by
          rw [hlen, hbuf]
          omega
        have hword : (writeList add32 s.buffer 0 (outs ⟨index, hlt⟩)).getD i 0
            = add32 (s.buffer.getD i 0) ((outs ⟨index, hlt⟩).getD i 0) := by
          rw [List.getD_eq_getElem?_getD, writeList_getElem _ _ _ 0 hroom i]
          have hin : 0 ≤ i ∧ i < 0 + (outs ⟨index, hlt⟩).length := by
            rw [hlen]
            omega
          rw [if_pos hin]
          rfl
        rw [hword, Finset.sum_eq_sum_Ico_succ_bot hlt]
        have hslot : slotWord outs index i = (outs ⟨index, hlt⟩).getD i 0 := by
          unfold slotWord
          rw [dif_pos hlt]
        rw [hslot]
        unfold add32
        by_cases hnext : index + 1 < 16
        · rw [if_pos hnext]
          congr 1
          rw [Nat.add_mod, Nat.mod_mod, ← Nat.add_mod, Nat.add_assoc]
        · rw [if_neg hnext]
          have h15 : index + 1 = 16 := by omega
          rw [h15, Finset.Ico_self, Finset.sum_empty, Nat.add_zero]
      · intro j hj
        rw [hold j (by omega)]
        exact pollVoice_other _ _ _ _ _ (fun h => by
          have := congrArg Fin.val h
          simp only at this
          omega)
      · intro j hj
        by_cases hji : j.val = index
        · have hj2 : j = ⟨index, hlt⟩ := Fin.ext hji
          subst hj2
          rw [hold _ (Nat.lt_succ_self _)]
          exact pollVoice_self _ _ _ _
        · exact hnew j (by omega)
    · have hidx : index = 16 := by omega
      subst hidx
      refine ⟨s, ?_, hbuf, ?_, fun _ _ => rfl, ?_⟩
      · simp only [PolySynth.loopRest, dif_neg hlt]
      · intro i hi
        have hlt2 : i < s.buffer.length := by omega
        rw [if_neg (lt_irrefl 16), List.getD_eq_getElem _ _ hlt2]
        exact List.getElem?_eq_getElem hlt2
      · intro j hj
        have := j.isLt
        omega

/-- The `n` samples an Idle voice or a voice in play emits next, and what the two fill
functions make of them in any buffer with room for them. -/
theorem voice_period (mem : Mem) (g : WaveGenerator) (fuel n : Nat) (hsound : g.Sound mem)
    (hfuel : 2 * n ≤ fuel) :
    ∃ out g1, Emits mem g out g1 ∧ out.length = n ∧
      ∀ buffer : List Nat, n ≤ buffer.length →
        g.setSamplesInBuffer mem fuel buffer n
          = Outcome.ok (g1, writeList (fun _ v => v) buffer 0 out) ∧
        g.addSamplesToBuffer mem fuel buffer n
          = Outcome.ok (g1, writeList add32 buffer 0 out) := by
  have hp : ∃ w L d, g.state = 0 ∨ g.Playing mem w L d := by
    rcases hsound with h0 | ⟨w, L, d, h⟩
    · exact ⟨0, 0, 0, Or.inl h0⟩
    · exact ⟨w, L, d, Or.inr h⟩
  obtain ⟨w, L, d, hp⟩ := hp
  obtain ⟨out, g1, he, hlen, -, -, -⟩ :=
    fills_total mem g w L d (List.replicate n 0) n fuel hp (by simp) hfuel
  refine ⟨out, g1, he, hlen, ?_⟩
  intro buffer hbuf
  have h := fills_of_emits mem g g1 w L d out buffer fuel hp he (by omega) (by omega)
  rw [hlen] at h
  exact h

theorem slotWord_fin (outs : Fin 16 → List Nat) (k : Fin 16) (i : Nat) :
    slotWord outs k.val i = (outs k).getD i 0 := by
  unfold slotWord
  rw [dif_pos k.isLt]

/-- C19. In a state whose 16 voices are each Idle or in play and whose buffer has
BUFFERSIZE words, one `PolySynth::loop` period returns (fuel for `2 * BUFFERSIZE`
outer-loop iterations per fill suffices). With `outs k` the BUFFERSIZE samples voice `k`
emits next, which are the words `setSamplesInBuffer` on its own writes into any buffer:
word `i` of the buffer after the period is the sum of `(outs k)[i]` over the 16 slots
mod 2^32, whatever the buffer held before; the samples of an Idle voice are all
STEREOBASE; and every voice is left as those BUFFERSIZE samples and its poll leave it
(up to its free-list link). -/
theorem loop_mixes_all_voices (mem : Mem) (s : PolySynth) (fuel : Nat)
    (hfuel : 2 * BUFFERSIZE ≤ fuel) (hlen : s.buffer.length = BUFFERSIZE)
    (hsound : ∀ k, (s.wavegenerators k).Sound mem) :
    ∃ (s1 : PolySynth) (outs : Fin 16 → List Nat) (gs : Fin 16 → WaveGenerator),
      s.loop mem fuel = Outcome.ok s1 ∧
      (∀ k : Fin 16, Emits mem (s.wavegenerators k) (outs k) (gs k) ∧
        (outs k).length = BUFFERSIZE ∧
        (∀ buffer : List Nat, BUFFERSIZE ≤ buffer.length →
          (s.wavegenerators k).setSamplesInBuffer mem fuel buffer BUFFERSIZE
            = Outcome.ok (gs k, outs k ++ buffer.drop BUFFERSIZE)) ∧
        ((s.wavegenerators k).state = 0 → ∀ x ∈ outs k, x = STEREOBASE) ∧
        ∃ link, s1.wavegenerators k
          = { ((gs k).clearStopping).2 with toNextFreeWaveGenerator := link }) ∧
      s1.buffer.length = BUFFERSIZE ∧
      ∀ i : Nat, i < BUFFERSIZE → s1.buffer[i]? = some
        ((Finset.sum Finset.univ (fun k : Fin 16 => (outs k).getD i 0)) % UINT32) := by
  choose outs gs hE hL hF using fun k : Fin 16 =>
    voice_period mem (s.wavegenerators k) fuel BUFFERSIZE (hsound k) hfuel
  have hset0 := (hF 0 s.buffer (le_of_eq hlen.symm)).1
  have hfirst : s.loopFirst mem fuel = Outcome.ok
      (s.pollVoice 0 (gs 0) (writeList (fun _ v => v) s.buffer 0 (outs 0))) := by
    unfold PolySynth.loopFirst
    rw [hset0]
  have hbuf1 : (s.pollVoice 0 (gs 0)
      (writeList (fun _ v => v) s.buffer 0 (outs 0))).buffer.length = BUFFERSIZE := by
    rw [pollVoice_buffer, writeList_length]
    exact hlen
  obtain ⟨s1, hrun, hlen1, hwords, hold, hnew⟩ := loopRest_mix mem fuel s outs gs hL
    (fun k buffer hb => (hF k buffer (le_of_eq hb.symm)).2) NROFWAVEGENERATORS 1
    (s.pollVoice 0 (gs 0) (writeList (fun _ v => v) s.buffer 0 (outs 0)))
    (by decide) (by decide) hbuf1 (by
      intro j hj
      exact pollVoice_other _ _ _ _ _ (fun h => by
        have := congrArg Fin.val h
        simp only [Fin.val_zero] at this
        omega))
  refine ⟨s1, outs, gs, ?_, ?_, hlen1, ?_⟩
  · unfold PolySynth.loop
    rw [hfirst]
    exact hrun
  · intro k
    refine ⟨hE k, hL k, ?_, fun h0 => emits_idle mem _ _ _ (hE k) h0, ?_⟩
    · intro buffer hb
      rw [(hF k buffer hb).1, writeList_set_zero buffer (outs k) 0 (by rw [hL k]; omega)]
      simp only [List.take_zero, List.nil_append, Nat.zero_add, hL k]
    · by_cases hk : k.val = 0
      · have hk0 : k = 0 := Fin.ext hk
        subst hk0
        rw [hold 0 (by decide)]
        exact pollVoice_self _ _ _ _
      · exact hnew k (by omega)
  · intro i hi
    rw [hwords i hi, if_pos (by decide), pollVoice_buffer]
    have hroom : 0 + (outs 0).length ≤ s.buffer.length := by
      rw [hL 0, hlen]
      omega
    have hword : (writeList (fun _ v => v) s.buffer 0 (outs 0)).getD i 0 = (outs 0).getD i 0 := by
      rw [List.getD_eq_getElem?_getD, writeList_getElem _ _ _ 0 hroom i]
      have hin : 0 ≤ i ∧ i < 0 + (outs 0).length := by
        rw [hL 0]
        omega
      rw [if_pos hin]
      rfl
    have hsum : Finset.sum Finset.univ (fun k : Fin 16 => (outs k).getD i 0)
        = Finset.sum (Finset.range 16) (fun j => slotWord outs j i) := by
      rw [← Fin.sum_univ_eq_sum_range (fun j => slotWord outs j i) 16]
      exact Finset.sum_congr rfl (fun k _ => (slotWord_fin outs k i).symm)
    rw [hword, hsum, Finset.range_eq_Ico, Finset.sum_eq_sum_Ico_succ_bot (by decide : 0 < 16)]
    have hslot : slotWord outs 0 i = (outs 0).getD i 0 := slotWord_fin outs 0 i
    rw [hslot]

theorem demoBound_fields :
    demoBound.buffer.length = BUFFERSIZE ∧
    demoBound.wavegenerators = Function.update (PolySynth.initial demoTables).wavegenerators 0
      (((PolySynth.initial demoTables).wavegenerators 0).setWave 100 3 1 0) := by
  have h := startNote_eq (PolySynth.initial demoTables) 100 69 0 1 (by decide) rfl rfl
  have hb : (PolySynth.initial demoTables).startNote 69 100 = Outcome.ok demoBound :=
    ok_get _ _ _ h
  have hb2 := h.symm.trans hb
  injection hb2 with hb
  rw [← hb]
  exact ⟨by simp [PolySynth.initial, PolySynth.initFreeWaveGenerators], rfl⟩

theorem demoBound_sound : ∀ k, (demoBound.wavegenerators k).Sound demoMem := by
  intro k
  rw [demoBound_fields.2]
  by_cases hk : k = 0
  · subst hk
    right
    refine ⟨100, 3, 1, ?_⟩
    simp only [Function.update_same]
    exact setWave_playing demoMem _ 100 3 1 0 (by decide) (by decide)
      (by intro k h0 h3; interval_cases k <;> decide)
  · left
    simp only [Function.update_noteq hk]
    rfl

theorem loop_mixes_all_voices_witness :
    ∃ (s1 : PolySynth) (outs : Fin 16 → List Nat) (gs : Fin 16 → WaveGenerator),
      demoBound.loop demoMem 512 = Outcome.ok s1 ∧
      (∀ k : Fin 16, Emits demoMem (demoBound.wavegenerators k) (outs k) (gs k) ∧
        (outs k).length = BUFFERSIZE ∧
        (∀ buffer : List Nat, BUFFERSIZE ≤ buffer.length →
          (demoBound.wavegenerators k).setSamplesInBuffer demoMem 512 buffer BUFFERSIZE
            = Outcome.ok (gs k, outs k ++ buffer.drop BUFFERSIZE)) ∧
        ((demoBound.wavegenerators k).state = 0 → ∀ x ∈ outs k, x = STEREOBASE) ∧
        ∃ link, s1.wavegenerators k
          = { ((gs k).clearStopping).2 with toNextFreeWaveGenerator := link }) ∧
      s1.buffer.length = BUFFERSIZE ∧
      ∀ i : Nat, i < BUFFERSIZE → s1.buffer[i]? = some
        ((Finset.sum Finset.univ (fun k : Fin 16 => (outs k).getD i 0)) % UINT32) :=
  loop_mixes_all_voices demoMem demoBound 512 (by decide) demoBound_fields.1 demoBound_sound



/-! ## Release of a voice -/

theorem stepsLeft_past (span d : Int) (h1 : span < 0) (h2 : -d ≤ span) :
    stepsLeft span d = 0 := by
  unfold stepsLeft
  rw [Int.ediv_eq_zero_of_lt (by omega) (by omega)]
  rfl

theorem stepsLeft_step (span d : Int) (hd : 1 ≤ d) (h : 0 ≤ span) :
    stepsLeft span d = stepsLeft (span - d) d + 1 := by
  unfold stepsLeft
  have h1 : span + d = (span - d + d) + 1 * d := by ring
  have h2 : 0 ≤ (span - d + d) / d := Int.ediv_nonneg (by omega) (by omega)
  rw [h1, Int.add_mul_ediv_right _ _ (by omega)]
  omega

/-- The ways one step of the automaton can go. -/
theorem microStep_cases (mem : Mem) (g g1 : WaveGenerator) (o : Option Nat)
    (h : g.microStep mem = Outcome.ok (g1, o)) :
    (g.state = 0 ∧ g1 = g ∧ o = some STEREOBASE) ∨
    ((g.state = 1 ∨ g.state = 3) ∧ g.toWave ≤ g.toEndWave ∧
      g1 = { g with toWave := g.toWave + g.delta } ∧ o ≠ none) ∨
    (g.state = 1 ∧ g.toEndWave < g.toWave ∧ g1 = endForward 2 5 g ∧ o = none) ∨
    (g.state = 3 ∧ g.toEndWave < g.toWave ∧ g1 = endForward 4 6 g ∧ o = none) ∨
    ((g.state = 2 ∨ g.state = 4) ∧ g.toStartWave ≤ g.toWave ∧
      g1 = { g with toWave := g.toWave - g.delta } ∧ o ≠ none) ∨
    (g.state = 2 ∧ g.toWave < g.toStartWave ∧
      g1 = { g with state := if g.stopping then 0 else 3, toWave := g.toStartWave } ∧
      o = none) ∨
    (g.state = 4 ∧ g.toWave < g.toStartWave ∧
      g1 = { g with state := 1, toWave := g.toStartWave } ∧ o = none) ∨
    (g.state = 5 ∧
      g1 = { g with totalError := sub32 g.totalError WAVEPARTERRORMAX, state := 2 } ∧
      o ≠ none) ∨
    (g.state = 6 ∧
      g1 = { g with totalError := sub32 g.totalError WAVEPARTERRORMAX, state := 4 } ∧
      o ≠ none) ∨
    (6 < g.state ∧ g1 = g ∧ o = none) := by
  unfold WaveGenerator.microStep at h
  split at h
  · rename_i hst
    simp only [Outcome.ok.injEq, Prod.mk.injEq] at h
    exact Or.inl ⟨hst, h.1.symm, h.2.symm⟩
  · rename_i hst
    split at h
    · rename_i hle
      split at h
      · cases h
      · simp only [Outcome.ok.injEq, Prod.mk.injEq] at h
        refine Or.inr (Or.inl ⟨Or.inl hst, hle, h.1.symm, ?_⟩)
        rw [← h.2]
        exact Option.some_ne_none _
    · rename_i hgt
      simp only [Outcome.ok.injEq, Prod.mk.injEq] at h
      exact Or.inr (Or.inr (Or.inl ⟨hst, by omega, h.1.symm, h.2.symm⟩))
  · rename_i hst
    split at h
    · rename_i hle
      split at h
      · cases h
      · simp only [Outcome.ok.injEq, Prod.mk.injEq] at h
        refine Or.inr (Or.inr (Or.inr (Or.inr (Or.inl ⟨Or.inl hst, hle, h.1.symm, ?_⟩))))
        rw [← h.2]
        exact Option.some_ne_none _
    · rename_i hgt
      simp only [Outcome.ok.injEq, Prod.mk.injEq] at h
      exact Or.inr (Or.inr (Or.inr (Or.inr (Or.inr (Or.inl
        ⟨hst, by omega, h.1.symm, h.2.symm⟩)))))
  · rename_i hst
    split at h
    · rename_i hle
      split at h
      · cases h
      · simp only [Outcome.ok.injEq, Prod.mk.injEq] at h
        refine Or.inr (Or.inl ⟨Or.inr hst, hle, h.1.symm, ?_⟩)
        rw [← h.2]
        exact Option.some_ne_none _
    · rename_i hgt
      simp only [Outcome.ok.injEq, Prod.mk.injEq] at h
      exact Or.inr (Or.inr (Or.inr (Or.inl ⟨hst, by omega, h.1.symm, h.2.symm⟩)))
  · rename_i hst
    split at h
    · rename_i hle
      split at h
      · cases h
      · simp only [Outcome.ok.injEq, Prod.mk.injEq] at h
        refine Or.inr (Or.inr (Or.inr (Or.inr (Or.inl ⟨Or.inr hst, hle, h.1.symm, ?_⟩))))
        rw [← h.2]
        exact Option.some_ne_none _
    · rename_i hgt
      simp only [Outcome.ok.injEq, Prod.mk.injEq] at h
      exact Or.inr (Or.inr (Or.inr (Or.inr (Or.inr (Or.inr (Or.inl
        ⟨hst, by omega, h.1.symm, h.2.symm⟩))))))
  · rename_i hst
    split at h
    · cases h
    · simp only [Outcome.ok.injEq, Prod.mk.injEq] at h
      refine Or.inr (Or.inr (Or.inr (Or.inr (Or.inr (Or.inr (Or.inr (Or.inl
        ⟨hst, h.1.symm, ?_⟩)))))))
      rw [← h.2]
      exact Option.some_ne_none _
  · rename_i hst
    split at h
    · cases h
    · simp only [Outcome.ok.injEq, Prod.mk.injEq] at h
      refine Or.inr (Or.inr (Or.inr (Or.inr (Or.inr (Or.inr (Or.inr (Or.inr (Or.inl
        ⟨hst, h.1.symm, ?_⟩))))))))
      rw [← h.2]
      exact Option.some_ne_none _
  · rename_i n0 n1 n2 n3 n4 n5 n6
    simp only [Outcome.ok.injEq, Prod.mk.injEq] at h
    refine Or.inr (Or.inr (Or.inr (Or.inr (Or.inr (Or.inr (Or.inr (Or.inr (Or.inr
      ⟨?_, h.1.symm, h.2.symm⟩))))))))
    have m0 : g.state ≠ 0 := n0
    have m1 : g.state ≠ 1 := n1
    have m2 : g.state ≠ 2 := n2
    have m3 : g.state ≠ 3 := n3
    have m4 : g.state ≠ 4 := n4
    have m5 : g.state ≠ 5 := n5
    have m6 : g.state ≠ 6 := n6
    omega

/-- One step of the automaton keeps a voice in play on its table and keeps its stop
flag. -/
theorem microStep_playing (mem : Mem) (w L d : Int) (g g1 : WaveGenerator) (o : Option Nat)
    (hp : g.Playing mem w L d) (h : g.microStep mem = Outcome.ok (g1, o)) :
    g1.Playing mem w L d ∧ g1.stopping = g.stopping := by
  obtain ⟨hstart, hend, hdelta, hL, hd, hst6, hread, hup, hdn, h56⟩ := hp
  rcases microStep_cases mem g g1 o h with
    ⟨hs, hg, -⟩ | ⟨hs, hle, hg, -⟩ | ⟨hs, hgt, hg, -⟩ | ⟨hs, hgt, hg, -⟩ | ⟨hs, hle, hg, -⟩ |
    ⟨hs, hlt, hg, -⟩ | ⟨hs, hlt, hg, -⟩ | ⟨hs, hg, -⟩ | ⟨hs, hg, -⟩ | ⟨hs, hg, -⟩
  · subst hg
    exact ⟨⟨hstart, hend, hdelta, hL, hd, hst6, hread, hup, hdn, h56⟩, rfl⟩
  · subst hg
    have hcur := hup hs
    have hodd : g.state % 2 = 1 ∧ g.state ≤ 3 := by
      rcases hs with h | h <;> rw [h] <;> decide
    clear hup hdn h56 hs
    refine ⟨⟨hstart, hend, hdelta, hL, hd, hst6, hread, ?_, ?_, ?_⟩, rfl⟩
    · intro _
      show w ≤ g.toWave + g.delta ∧ g.toWave + g.delta ≤ g.toEndWave + d
      omega
    · intro h24
      have h24b : g.state = 2 ∨ g.state = 4 := h24
      omega
    · intro h56
      have h56b : g.state = 5 ∨ g.state = 6 := h56
      omega
  · subst hg
    have hstate := endForward_state 2 5 g
    clear hup hdn h56
    refine ⟨⟨hstart, hend, hdelta, hL, hd, ?_, hread, ?_, ?_, ?_⟩, rfl⟩
    · omega
    · intro h13
      omega
    · intro _
      show g.toEndWave ≤ g.toEndWave ∧ w ≤ g.toEndWave + d
      omega
    · intro _
      rfl
  · subst hg
    have hstate := endForward_state 4 6 g
    clear hup hdn h56
    refine ⟨⟨hstart, hend, hdelta, hL, hd, ?_, hread, ?_, ?_, ?_⟩, rfl⟩
    · omega
    · intro h13
      omega
    · intro _
      show g.toEndWave ≤ g.toEndWave ∧ w ≤ g.toEndWave + d
      omega
    · intro _
      rfl
  · subst hg
    have hcur := hdn hs
    have heven : g.state % 2 = 0 ∧ 2 ≤ g.state ∧ g.state ≤ 4 := by
      rcases hs with h | h <;> rw [h] <;> decide
    clear hup hdn h56 hs
    refine ⟨⟨hstart, hend, hdelta, hL, hd, hst6, hread, ?_, ?_, ?_⟩, rfl⟩
    · intro h13
      have h13b : g.state = 1 ∨ g.state = 3 := h13
      omega
    · intro _
      show g.toWave - g.delta ≤ g.toEndWave ∧ w ≤ g.toWave - g.delta + d
      omega
    · intro h56
      have h56b : g.state = 5 ∨ g.state = 6 := h56
      omega
  · subst hg
    clear hup hdn h56
    refine ⟨⟨hstart, hend, hdelta, hL, hd, ?_, hread, ?_, ?_, ?_⟩, rfl⟩
    · show (if g.stopping then 0 else 3) ≤ 6
      split <;> decide
    · intro _
      show w ≤ g.toStartWave ∧ g.toStartWave ≤ g.toEndWave + d
      omega
    · intro h24
      have h24b : (if g.stopping then 0 else 3) = 2 ∨ (if g.stopping then 0 else 3) = 4 := h24
      split at h24b <;> omega
    · intro h56
      have h56b : (if g.stopping then 0 else 3) = 5 ∨ (if g.stopping then 0 else 3) = 6 := h56
      split at h56b <;> omega
  · subst hg
    clear hup hdn h56
    refine ⟨⟨hstart, hend, hdelta, hL, hd, ?_, hread, ?_, ?_, ?_⟩, rfl⟩
    · show (1 : Nat) ≤ 6
      decide
    · intro _
      show w ≤ g.toStartWave ∧ g.toStartWave ≤ g.toEndWave + d
      omega
    · intro h24
      have h24b : (1 : Nat) = 2 ∨ (1 : Nat) = 4 := h24
      omega
    · intro h56
      have h56b : (1 : Nat) = 5 ∨ (1 : Nat) = 6 := h56
      omega
  · subst hg
    have hcur := h56 (Or.inl hs)
    clear hup hdn h56
    refine ⟨⟨hstart, hend, hdelta, hL, hd, ?_, hread, ?_, ?_, ?_⟩, rfl⟩
    · show (2 : Nat) ≤ 6
      decide
    · intro h13
      have h13b : (2 : Nat) = 1 ∨ (2 : Nat) = 3 := h13
      omega
    · intro _
      show g.toWave ≤ g.toEndWave ∧ w ≤ g.toWave + d
      omega
    · intro h56
      have h56b : (2 : Nat) = 5 ∨ (2 : Nat) = 6 := h56
      omega
  · subst hg
    have hcur := h56 (Or.inr hs)
    clear hup hdn h56
    refine ⟨⟨hstart, hend, hdelta, hL, hd, ?_, hread, ?_, ?_, ?_⟩, rfl⟩
    · show (4 : Nat) ≤ 6
      decide
    · intro h13
      have h13b : (4 : Nat) = 1 ∨ (4 : Nat) = 3 := h13
      omega
    · intro _
      show g.toWave ≤ g.toEndWave ∧ w ≤ g.toWave + d
      omega
    · intro h56
      have h56b : (4 : Nat) = 5 ∨ (4 : Nat) = 6 := h56
      omega
  · omega

/-- One step of a voice in play with a pending stop request and the samples left before
it is Idle: an emitted sample takes one off (none off, for an extra sample that was not
counted), a step without sample adds none. -/
theorem microStep_remain (mem : Mem) (w L d : Int) (g g1 : WaveGenerator) (o : Option Nat)
    (e : Nat) (he : e ≤ 1) (hp : g.Playing mem w L d) (hstop : g.stopping = true)
    (h : g.microStep mem = Outcome.ok (g1, o)) :
    (o ≠ none → g.state ≠ 0 →
      g1.remain e + e ≤ g.remain e ∧ g.remain e ≤ g1.remain e + 1) ∧
    (o = none → g1.remain e ≤ g.remain e ∧ g.remain e ≤ g1.remain e + e) := by
  obtain ⟨hstart, hend, hdelta, hL, hd, hst6, hread, hup, hdn, h56⟩ := hp
  have hd1 : 1 ≤ g.delta := by rw [hdelta]; exact hd
  rcases microStep_cases mem g g1 o h with
    ⟨hs, hg, ho⟩ | ⟨hs, hle, hg, ho⟩ | ⟨hs, hgt, hg, ho⟩ | ⟨hs, hgt, hg, ho⟩ |
    ⟨hs, hle, hg, ho⟩ | ⟨hs, hlt, hg, ho⟩ | ⟨hs, hlt, hg, ho⟩ | ⟨hs, hg, ho⟩ | ⟨hs, hg, ho⟩ |
    ⟨hs, hg, ho⟩
  · subst hg
    exact ⟨fun _ hne => absurd hs hne, fun honone => by rw [honone] at ho; cases ho⟩
  · subst hg
    refine ⟨fun _ _ => ?_, fun honone => absurd honone ho⟩
    have hstep : stepsLeft (g.toEndWave - g.toWave) g.delta
        = stepsLeft (g.toEndWave - (g.toWave + g.delta)) g.delta + 1 := by
      rw [stepsLeft_step _ _ hd1 (by omega)]
      congr 2
      ring
    clear hup hdn h56
    rcases hs with hs | hs
    · simp only [WaveGenerator.remain, hs, WaveGenerator.upLeft, WaveGenerator.passLength]
      omega
    · simp only [WaveGenerator.remain, hs, WaveGenerator.upLeft, WaveGenerator.passLength]
      omega
  · subst hg
    refine ⟨fun hsome => absurd ho hsome, fun _ => ?_⟩
    have hcur := hup (Or.inl hs)
    have hpast : stepsLeft (g.toEndWave - g.toWave) g.delta = 0 :=
      stepsLeft_past _ _ (by omega) (by omega)
    clear hup hdn h56
    unfold endForward
    by_cases hbig : add32 g.totalError g.sampleError > WAVEPARTERRORMAX
    · simp only [WaveGenerator.remain, hs, hbig, if_true, WaveGenerator.upLeft,
        WaveGenerator.passLength, hpast]
      omega
    · simp only [WaveGenerator.remain, hs, hbig, if_false, WaveGenerator.upLeft,
        WaveGenerator.downLeft, WaveGenerator.passLength, hpast]
      omega
  · subst hg
    refine ⟨fun hsome => absurd ho hsome, fun _ => ?_⟩
    have hcur := hup (Or.inr hs)
    have hpast : stepsLeft (g.toEndWave - g.toWave) g.delta = 0 :=
      stepsLeft_past _ _ (by omega) (by omega)
    clear hup hdn h56
    unfold endForward
    by_cases hbig : add32 g.totalError g.sampleError > WAVEPARTERRORMAX
    · simp only [WaveGenerator.remain, hs, hbig, if_true, WaveGenerator.upLeft,
        WaveGenerator.passLength, hpast]
      omega
    · simp only [WaveGenerator.remain, hs, hbig, if_false, WaveGenerator.upLeft,
        WaveGenerator.downLeft, WaveGenerator.passLength, hpast]
      omega
  · subst hg
    refine ⟨fun _ _ => ?_, fun honone => absurd honone ho⟩
    have hstep : stepsLeft (g.toWave - g.toStartWave) g.delta
        = stepsLeft (g.toWave - g.delta - g.toStartWave) g.delta + 1 := by
      rw [stepsLeft_step _ _ hd1 (by omega)]
      congr 2
      ring
    clear hup hdn h56
    rcases hs with hs | hs
    · simp only [WaveGenerator.remain, hs, WaveGenerator.downLeft, WaveGenerator.passLength]
      omega
    · simp only [WaveGenerator.remain, hs, WaveGenerator.downLeft, WaveGenerator.passLength]
      omega
  · subst hg
    refine ⟨fun hsome => absurd ho hsome, fun _ => ?_⟩
    have hcur := hdn (Or.inl hs)
    have hpast : stepsLeft (g.toWave - g.toStartWave) g.delta = 0 :=
      stepsLeft_past _ _ (by omega) (by omega)
    clear hup hdn h56
    simp only [WaveGenerator.remain, hs, hstop, if_true, WaveGenerator.downLeft, hpast]
    omega
  · subst hg
    refine ⟨fun hsome => absurd ho hsome, fun _ => ?_⟩
    have hcur := hdn (Or.inr hs)
    have hpast : stepsLeft (g.toWave - g.toStartWave) g.delta = 0 :=
      stepsLeft_past _ _ (by omega) (by omega)
    clear hup hdn h56
    simp only [WaveGenerator.remain, hs, WaveGenerator.upLeft, WaveGenerator.downLeft,
      WaveGenerator.passLength, hpast]
    omega
  · subst hg
    refine ⟨fun _ _ => ?_, fun honone => absurd honone ho⟩
    have hcur := h56 (Or.inl hs)
    clear hup hdn h56
    simp only [WaveGenerator.remain, hs, WaveGenerator.downLeft, WaveGenerator.passLength, hcur]
    omega
  · subst hg
    refine ⟨fun _ _ => ?_, fun honone => absurd honone ho⟩
    have hcur := h56 (Or.inr hs)
    clear hup hdn h56
    simp only [WaveGenerator.remain, hs, WaveGenerator.downLeft, WaveGenerator.passLength, hcur]
    omega
  · omega



theorem emits_playing (mem : Mem) (w L d : Int) (g g1 : WaveGenerator) (out : List Nat)
    (h : Emits mem g out g1) (hp : g.Playing mem w L d) :
    g1.Playing mem w L d ∧ g1.stopping = g.stopping := by
  induction h with
  | nil g => exact ⟨hp, rfl⟩
  | emit hstep _ ih =>
    obtain ⟨hp1, hs1⟩ := microStep_playing mem w L d _ _ _ hp hstep
    obtain ⟨hp2, hs2⟩ := ih hp1
    exact ⟨hp2, hs2.trans hs1⟩
  | quiet hstep _ _ ih =>
    obtain ⟨hp1, hs1⟩ := microStep_playing mem w L d _ _ _ hp hstep
    obtain ⟨hp2, hs2⟩ := ih hp1
    exact ⟨hp2, hs2.trans hs1⟩

/-- An Idle voice stays as it is. -/
theorem emits_idle_end (mem : Mem) (g g1 : WaveGenerator) (out : List Nat)
    (h : Emits mem g out g1) (hz : g.state = 0) : g1 = g := by
  induction h with
  | nil g => rfl
  | emit hstep _ ih =>
    have h1 := ((microStep_idle mem _ _ _ hstep).1 hz).1
    subst h1
    exact ih hz
  | quiet hstep _ _ ih =>
    have h1 := ((microStep_idle mem _ _ _ hstep).1 hz).2
    cases h1

/-- A voice without stop request that is not Idle does not become Idle. -/
theorem emits_not_idle (mem : Mem) (g g1 : WaveGenerator) (out : List Nat)
    (h : Emits mem g out g1) (hstop : g.stopping = false) (hne : g.state ≠ 0) :
    g1.state ≠ 0 ∧ g1.stopping = false := by
  induction h with
  | nil g => exact ⟨hne, hstop⟩
  | @emit g g1 g2 v out hstep _ ih =>
    have hkeep : g1.stopping = g.stopping := by
      rcases microStep_cases mem g g1 _ hstep with
        ⟨-, hg, -⟩ | ⟨-, -, hg, -⟩ | ⟨-, -, hg, -⟩ | ⟨-, -, hg, -⟩ | ⟨-, -, hg, -⟩ |
        ⟨-, -, hg, -⟩ | ⟨-, -, hg, -⟩ | ⟨-, hg, -⟩ | ⟨-, hg, -⟩ | ⟨-, hg, -⟩ <;>
      rw [hg] <;> rfl
    have hne1 : g1.state ≠ 0 := by
      intro hz
      have := ((microStep_idle mem _ _ _ hstep).2 hne hz).2.2.2
      rw [hstop] at this
      cases this
    exact ih (hkeep.trans hstop) hne1
  | @quiet g g1 g2 out hstep _ _ ih =>
    have hkeep : g1.stopping = g.stopping := by
      rcases microStep_cases mem g g1 _ hstep with
        ⟨-, hg, -⟩ | ⟨-, -, hg, -⟩ | ⟨-, -, hg, -⟩ | ⟨-, -, hg, -⟩ | ⟨-, -, hg, -⟩ |
        ⟨-, -, hg, -⟩ | ⟨-, -, hg, -⟩ | ⟨-, hg, -⟩ | ⟨-, hg, -⟩ | ⟨-, hg, -⟩ <;>
      rw [hg] <;> rfl
    have hne1 : g1.state ≠ 0 := by
      intro hz
      have := ((microStep_idle mem _ _ _ hstep).2 hne hz).2.2.2
      rw [hstop] at this
      cases this
    exact ih (hkeep.trans hstop) hne1

/-- A voice in play with a pending stop request is Idle once it has emitted more than
`remain 1` samples, and not before it has emitted `remain 0` samples. -/
theorem emits_remain (mem : Mem) (w L d : Int) (g g1 : WaveGenerator) (out : List Nat)
    (h : Emits mem g out g1) (hp : g.Playing mem w L d) (hstop : g.stopping = true) :
    (g1.state = 0 ∨ g1.remain 1 + out.length ≤ g.remain 1) ∧
    g.remain 0 ≤ g1.remain 0 + out.length := by
  induction h with
  | nil g => exact ⟨Or.inr (le_refl _), le_refl _⟩
  | @emit g g1 g2 v out hstep hrest ih =>
    obtain ⟨hp1, hs1⟩ := microStep_playing mem w L d _ _ _ hp hstep
    obtain ⟨ihU, ihL⟩ := ih hp1 (hs1.trans hstop)
    by_cases hz : g.state = 0
    · have h1 := ((microStep_idle mem _ _ _ hstep).1 hz).1
      subst h1
      have h2 := emits_idle_end mem _ _ _ hrest hz
      subst h2
      refine ⟨Or.inl hz, ?_⟩
      simp only [List.length_cons]
      omega
    · have hU := (microStep_remain mem w L d _ _ _ 1 (le_refl _) hp hstop hstep).1
        (Option.some_ne_none v) hz
      have hL := (microStep_remain mem w L d _ _ _ 0 (Nat.zero_le _) hp hstop hstep).1
        (Option.some_ne_none v) hz
      simp only [List.length_cons]
      refine ⟨?_, by omega⟩
      rcases ihU with h0 | hle
      · exact Or.inl h0
      · right
        omega
  | @quiet g g1 g2 out hstep hrest _ ih =>
    obtain ⟨hp1, hs1⟩ := microStep_playing mem w L d _ _ _ hp hstep
    obtain ⟨ihU, ihL⟩ := ih hp1 (hs1.trans hstop)
    have hU := (microStep_remain mem w L d _ _ _ 1 (le_refl _) hp hstop hstep).2 rfl
    have hL := (microStep_remain mem w L d _ _ _ 0 (Nat.zero_le _) hp hstop hstep).2 rfl
    refine ⟨?_, by omega⟩
    rcases ihU with h0 | hle
    · exact Or.inl h0
    · right
      omega



theorem stepsLeft_mono (s1 s2 d : Int) (hd : 1 ≤ d) (h : s1 ≤ s2) :
    stepsLeft s1 d ≤ stepsLeft s2 d := by
  unfold stepsLeft
  exact Int.toNat_le_toNat (Int.ediv_le_ediv (by omega) (by omega))

/-- A voice in play with a pending stop request is at most `4 * ceil(L/d) + 2` samples
from Idle. -/
theorem remain_le (mem : Mem) (w L d : Int) (g : WaveGenerator) (hp : g.Playing mem w L d) :
    g.remain 1 ≤ 4 * g.passLength + 2 ∧ g.passLength = stepsLeft (L - 1) d := by
  obtain ⟨hstart, hend, hdelta, hL, hd, hst6, hread, hup, hdn, h56⟩ := hp
  have hd1 : 1 ≤ g.delta := by rw [hdelta]; exact hd
  have hQ : g.passLength = stepsLeft (L - 1) d := by
    unfold WaveGenerator.passLength
    rw [hdelta, hend, hstart]
    congr 1
    ring
  refine ⟨?_, hQ⟩
  have hcases : g.state = 0 ∨ g.state = 1 ∨ g.state = 2 ∨ g.state = 3 ∨ g.state = 4 ∨
      g.state = 5 ∨ g.state = 6 := by
    clear hup hdn h56
    omega
  have hupLe : (g.state = 1 ∨ g.state = 3) → g.upLeft ≤ g.passLength := by
    intro hs
    have hcur := hup hs
    exact stepsLeft_mono _ _ _ hd1 (by clear hup hdn h56 hs hcases; omega)
  have hdownLe : (g.state = 2 ∨ g.state = 4) → g.downLeft ≤ g.passLength := by
    intro hs
    have hcur := hdn hs
    exact stepsLeft_mono _ _ _ hd1 (by clear hup hdn h56 hs hcases hupLe; omega)
  clear hup hdn h56 hst6
  rcases hcases with hs | hs | hs | hs | hs | hs | hs
  · simp only [WaveGenerator.remain, hs]
    omega
  · have := hupLe (Or.inl hs)
    clear hupLe hdownLe
    simp only [WaveGenerator.remain, hs]
    omega
  · have := hdownLe (Or.inl hs)
    clear hupLe hdownLe
    simp only [WaveGenerator.remain, hs]
    omega
  · have := hupLe (Or.inr hs)
    clear hupLe hdownLe
    simp only [WaveGenerator.remain, hs]
    omega
  · have := hdownLe (Or.inr hs)
    clear hupLe hdownLe
    simp only [WaveGenerator.remain, hs]
    omega
  · clear hupLe hdownLe
    simp only [WaveGenerator.remain, hs]
    omega
  · clear hupLe hdownLe
    simp only [WaveGenerator.remain, hs]
    omega

theorem pollVoice_keep (s : PolySynth) (index : Fin 16) (g : WaveGenerator) (buffer : List Nat)
    (h : ¬ (g.stopping = true ∧ g.state = 0)) :
    s.pollVoice index g buffer
      = { s with buffer := buffer, wavegenerators := Function.update s.wavegenerators index g } := by
  have hc : g.clearStopping = (false, g) := by
    unfold WaveGenerator.clearStopping
    have : (g.stopping && g.state == 0) = false := by
      rcases Bool.eq_false_or_eq_true g.stopping with hs | hs
      · have hne : g.state ≠ 0 := fun hz => h ⟨hs, hz⟩
        simp [hs, hne]
      · simp [hs]
    rw [this]
    rfl
  unfold PolySynth.pollVoice
  rw [hc]
  rfl

theorem pollVoice_release (s : PolySynth) (index : Fin 16) (g : WaveGenerator)
    (buffer : List Nat) (hstop : g.stopping = true) (hz : g.state = 0) :
    s.pollVoice index g buffer
      = { s with
          buffer := buffer
          wavegenerators := Function.update s.wavegenerators index
            { g with stopping := false, toNextFreeWaveGenerator := s.toFreeWaveGenerators }
          toFreeWaveGenerators := some index } := by
  have hc : g.clearStopping = (true, { g with stopping := false }) := by
    unfold WaveGenerator.clearStopping
    have : (g.stopping && g.state == 0) = true := by simp [hstop, hz]
    rw [this]
    rfl
  unfold PolySynth.pollVoice
  rw [hc]
  rfl

/-- The `for` loop of `PolySynth::loop` over voices that are Idle without stop request
only touches the buffer. -/
theorem loopRest_idle (mem : Mem) (fuel : Nat) (hfuel : 2 * BUFFERSIZE ≤ fuel) (count : Nat) :
    ∀ (index : Nat) (s : PolySynth),
      (∀ j : Fin 16, index ≤ j.val →
        (s.wavegenerators j).state = 0 ∧ (s.wavegenerators j).stopping = false) →
      s.buffer.length = BUFFERSIZE →
      ∃ s1, PolySynth.loopRest mem fuel count index s = Outcome.ok s1 ∧
        s1.wavegenerators = s.wavegenerators ∧ s1.notes = s.notes ∧
        s1.toFreeWaveGenerators = s.toFreeWaveGenerators ∧ s1.style = s.style ∧
        s1.buffer.length = BUFFERSIZE := by
  induction count with
  | zero =>
    intro index s _ hbuf
    exact ⟨s, rfl, rfl, rfl, rfl, rfl, hbuf⟩
  | succ count ih =>
    intro index s hidle hbuf
    by_cases hlt : index < 16
    · obtain ⟨hz, hstop⟩ := hidle ⟨index, hlt⟩ (le_refl _)
      obtain ⟨out, g1, he, hlen, hfill⟩ := voice_period mem (s.wavegenerators ⟨index, hlt⟩)
        fuel BUFFERSIZE (Or.inl hz) hfuel
      have hg1 := emits_idle_end mem _ _ _ he hz
      subst hg1
      have hadd := (hfill s.buffer (le_of_eq hbuf.symm)).2
      have hkeep := pollVoice_keep s ⟨index, hlt⟩ (s.wavegenerators ⟨index, hlt⟩)
        (writeList add32 s.buffer 0 out) (by rw [hstop]; simp)
      rw [Function.update_eq_self] at hkeep
      have hbody : s.loopBody mem fuel ⟨index, hlt⟩ = Outcome.ok
          { s with buffer := writeList add32 s.buffer 0 out } := by
        unfold PolySynth.loopBody
        rw [hadd]
        simp only
        rw [hkeep]
      obtain ⟨s1, hrun, h1, h2, h3, h4, h5⟩ := ih (index + 1)
        { s with buffer := writeList add32 s.buffer 0 out }
        (fun j hj => hidle j (by omega))
        (by rw [writeList_length]; exact hbuf)
      refine ⟨s1, ?_, h1, h2, h3, h4, h5⟩
      simp only [PolySynth.loopRest, dif_pos hlt, hbody]
      exact hrun
    · refine ⟨s, ?_, rfl, rfl, rfl, rfl, hbuf⟩
      simp only [PolySynth.loopRest, dif_neg hlt]

/-- One period of `PolySynth::loop` when only voice 0 may be in play, the other voices
being Idle without stop request: voice 0 advances by BUFFERSIZE samples and is polled;
it is pushed on the free list exactly if it is then Idle with its stop flag set. -/
theorem loop_solo (mem : Mem) (fuel : Nat) (hfuel : 2 * BUFFERSIZE ≤ fuel) (s : PolySynth)
    (hbuf : s.buffer.length = BUFFERSIZE) (hsound : (s.wavegenerators 0).Sound mem)
    (hidle : ∀ j : Fin 16, 1 ≤ j.val →
      (s.wavegenerators j).state = 0 ∧ (s.wavegenerators j).stopping = false) :
    ∃ out g1 s1, Emits mem (s.wavegenerators 0) out g1 ∧ out.length = BUFFERSIZE ∧
      s.loop mem fuel = Outcome.ok s1 ∧
      s1.notes = s.notes ∧ s1.style = s.style ∧ s1.buffer.length = BUFFERSIZE ∧
      (¬ (g1.stopping = true ∧ g1.state = 0) →
        s1.wavegenerators = Function.update s.wavegenerators 0 g1 ∧
        s1.toFreeWaveGenerators = s.toFreeWaveGenerators) ∧
      (g1.stopping = true → g1.state = 0 →
        s1.wavegenerators = Function.update s.wavegenerators 0
          { g1 with stopping := false, toNextFreeWaveGenerator := s.toFreeWaveGenerators } ∧
        s1.toFreeWaveGenerators = some 0) := by
  obtain ⟨out, g1, he, hlen, hfill⟩ := voice_period mem (s.wavegenerators 0) fuel BUFFERSIZE
    hsound hfuel
  have hset := (hfill s.buffer (le_of_eq hbuf.symm)).1
  have hfirst : s.loopFirst mem fuel = Outcome.ok
      (s.pollVoice 0 g1 (writeList (fun _ v => v) s.buffer 0 out)) := by
    unfold PolySynth.loopFirst
    rw [hset]
  have hrest : ∀ s2 : PolySynth, s2.buffer.length = BUFFERSIZE →
      (∀ j : Fin 16, 1 ≤ j.val → s2.wavegenerators j = s.wavegenerators j) →
      s.loopFirst mem fuel = Outcome.ok s2 →
      ∃ s1, s.loop mem fuel = Outcome.ok s1 ∧ s1.wavegenerators = s2.wavegenerators ∧
        s1.notes = s2.notes ∧ s1.toFreeWaveGenerators = s2.toFreeWaveGenerators ∧
        s1.style = s2.style ∧ s1.buffer.length = BUFFERSIZE := by
    intro s2 hb2 hsame h2
    obtain ⟨s1, hrun, h⟩ := loopRest_idle mem fuel hfuel NROFWAVEGENERATORS 1 s2
      (fun j hj => by rw [hsame j hj]; exact hidle j hj) hb2
    refine ⟨s1, ?_, h⟩
    unfold PolySynth.loop
    rw [h2]
    exact hrun
  have hother : ∀ (g2 : WaveGenerator) (j : Fin 16), 1 ≤ j.val →
      Function.update s.wavegenerators 0 g2 j = s.wavegenerators j := by
    intro g2 j hj
    exact Function.update_noteq (fun h => by
      have := congrArg Fin.val h
      simp only [Fin.val_zero] at this
      omega) _ _
  by_cases hrel : g1.stopping = true ∧ g1.state = 0
  · have hpoll := pollVoice_release s 0 g1 (writeList (fun _ v => v) s.buffer 0 out)
      hrel.1 hrel.2
    rw [hpoll] at hfirst
    obtain ⟨s1, hrun, h1, h2, h3, h4, h5⟩ := hrest _
      (by simp only [writeList_length]; exact hbuf) (fun j hj => hother _ j hj) hfirst
    exact ⟨out, g1, s1, he, hlen, hrun, h2, h4, h5, fun hno => absurd hrel hno,
      fun _ _ => ⟨h1, h3⟩⟩
  · have hpoll := pollVoice_keep s 0 g1 (writeList (fun _ v => v) s.buffer 0 out) hrel
    rw [hpoll] at hfirst
    obtain ⟨s1, hrun, h1, h2, h3, h4, h5⟩ := hrest _
      (by simp only [writeList_length]; exact hbuf) (fun j hj => hother _ j hj) hfirst
    exact ⟨out, g1, s1, he, hlen, hrun, h2, h4, h5, fun _ => ⟨h1, h3⟩,
      fun hs hz => absurd ⟨hs, hz⟩ hrel⟩



theorem loops_succ (mem : Mem) (fuel n : Nat) (s s1 : PolySynth)
    (h : s.loop mem fuel = Outcome.ok s1) :
    s.loops mem fuel (n + 1) = s1.loops mem fuel n := by
  simp only [PolySynth.loops, h]

/-- A state in which only voice 0 is in play, with a pending stop request and fewer than
`BUFFERSIZE * (n + 1)` samples from Idle by the count `remain 1`: within `n + 1` periods
voice 0 is Idle, its stop flag is clear and it is the head of the free list, linked to
the previous head. -/
theorem release_within (mem : Mem) (fuel : Nat) (hfuel : 2 * BUFFERSIZE ≤ fuel) (w L d : Int)
    (n : Nat) :
    ∀ s : PolySynth, s.buffer.length = BUFFERSIZE →
      (s.wavegenerators 0).Playing mem w L d → (s.wavegenerators 0).stopping = true →
      (∀ j : Fin 16, 1 ≤ j.val →
        (s.wavegenerators j).state = 0 ∧ (s.wavegenerators j).stopping = false) →
      (s.wavegenerators 0).remain 1 < BUFFERSIZE * (n + 1) →
      ∃ m s1, 1 ≤ m ∧ m ≤ n + 1 ∧ s.loops mem fuel m = Outcome.ok s1 ∧
        (s1.wavegenerators 0).state = 0 ∧ (s1.wavegenerators 0).stopping = false ∧
        s1.toFreeWaveGenerators = some 0 ∧
        (s1.wavegenerators 0).toNextFreeWaveGenerator = s.toFreeWaveGenerators ∧
        s1.notes = s.notes ∧ s1.style = s.style ∧ s1.buffer.length = BUFFERSIZE ∧
        (∀ j : Fin 16, 1 ≤ j.val → s1.wavegenerators j = s.wavegenerators j) := by
  induction n with
  | zero =>
    intro s hbuf hp hstop hidle hrem
    obtain ⟨out, g1, s1, he, hlen, hloop, hnotes, hstyle, hbuf1, -, hrel⟩ :=
      loop_solo mem fuel hfuel s hbuf (Or.inr ⟨w, L, d, hp⟩) hidle
    obtain ⟨hp1, hstop1⟩ := emits_playing mem w L d _ _ _ he hp
    have hz : g1.state = 0 := by
      rcases (emits_remain mem w L d _ _ _ he hp hstop).1 with h0 | hle
      · exact h0
      · rw [hlen] at hle
        omega
    obtain ⟨hw, hfree⟩ := hrel (hstop1.trans hstop) hz
    refine ⟨1, s1, le_refl _, le_refl _, ?_, ?_, ?_, hfree, ?_, hnotes, hstyle, hbuf1, ?_⟩
    · rw [loops_succ mem fuel 0 s s1 hloop]
      rfl
    · rw [hw, Function.update_same]
      exact hz
    · rw [hw, Function.update_same]
    · rw [hw, Function.update_same]
    · intro j hj
      rw [hw]
      exact Function.update_noteq (fun h => by
        have := congrArg Fin.val h
        simp only [Fin.val_zero] at this
        omega) _ _
  | succ n ih =>
    intro s hbuf hp hstop hidle hrem
    obtain ⟨out, g1, s1, he, hlen, hloop, hnotes, hstyle, hbuf1, hkeep, hrel⟩ :=
      loop_solo mem fuel hfuel s hbuf (Or.inr ⟨w, L, d, hp⟩) hidle
    obtain ⟨hp1, hstop1⟩ := emits_playing mem w L d _ _ _ he hp
    have hother : ∀ (g2 : WaveGenerator) (j : Fin 16), 1 ≤ j.val →
        Function.update s.wavegenerators 0 g2 j = s.wavegenerators j := by
      intro g2 j hj
      exact Function.update_noteq (fun h => by
        have := congrArg Fin.val h
        simp only [Fin.val_zero] at this
        omega) _ _
    by_cases hz : g1.state = 0
    · obtain ⟨hw, hfree⟩ := hrel (hstop1.trans hstop) hz
      refine ⟨1, s1, le_refl _, by omega, ?_, ?_, ?_, hfree, ?_, hnotes, hstyle, hbuf1, ?_⟩
      · rw [loops_succ mem fuel 0 s s1 hloop]
        rfl
      · rw [hw, Function.update_same]
        exact hz
      · rw [hw, Function.update_same]
      · rw [hw, Function.update_same]
      · intro j hj
        rw [hw]
        exact hother _ j hj
    · obtain ⟨hw, hfree⟩ := hkeep (fun h => hz h.2)
      have hle : g1.remain 1 + BUFFERSIZE ≤ (s.wavegenerators 0).remain 1 := by
        rcases (emits_remain mem w L d _ _ _ he hp hstop).1 with h0 | hle
        · exact absurd h0 hz
        · rw [hlen] at hle
          exact hle
      have hg1 : s1.wavegenerators 0 = g1 := by
        rw [hw, Function.update_same]
      obtain ⟨m, s2, hm1, hm2, hrun, a1, a2, a3, a4, a5, a6, a7, a8⟩ := ih s1 hbuf1
        (by rw [hg1]; exact hp1) (by rw [hg1]; exact hstop1.trans hstop)
        (fun j hj => by rw [hw, hother _ j hj]; exact hidle j hj)
        (by
          rw [hg1]
          have : BUFFERSIZE * (n + 1 + 1) = BUFFERSIZE * (n + 1) + BUFFERSIZE := by ring
          omega)
      refine ⟨m + 1, s2, by omega, by omega, ?_, a1, a2, a3, a4.trans hfree, a5.trans hnotes,
        a6.trans hstyle, a7, ?_⟩
      · rw [loops_succ mem fuel m s s1 hloop]
        exact hrun
      · intro j hj
        rw [a8 j hj, hw]
        exact hother _ j hj



/-- The first `startNote` after initialisation binds voice 0. -/
theorem first_startNote (tables : Fin 128 → Note) (p : Fin 128) (st : Fin 3) (v : Nat)
    (hp : 21 ≤ p.val) :
    ∃ s1, ((PolySynth.initial tables).setStyle st.val).startNote p.val v = Outcome.ok s1 ∧
      s1.buffer.length = BUFFERSIZE ∧ s1.style = st.val ∧
      (s1.notes p).toWaveGenerator = some 0 ∧
      s1.wavegenerators 0 = ({ WaveGenerator.fresh with
          toNextFreeWaveGenerator := initLink 0 } : WaveGenerator).setWave
        ((tables p).samples st) ((tables p).sampleSizes st) (tables p).delta
        ((tables p).sampleErrors st) ∧
      (∀ j : Fin 16, 1 ≤ j.val →
        (s1.wavegenerators j).state = 0 ∧ (s1.wavegenerators j).stopping = false) := by
  have h := startNote_eq ((PolySynth.initial tables).setStyle st.val) v p 0 st hp rfl rfl
  refine ⟨_, h, ?_, rfl, ?_, ?_, ?_⟩
  · simp [PolySynth.initial, PolySynth.initFreeWaveGenerators, PolySynth.setStyle]
  · simp only [Function.update_same]
  · simp only [Function.update_same]
    rfl
  · intro j hj
    have hne : j ≠ 0 := fun h => by
      have := congrArg Fin.val h
      simp only [Fin.val_zero] at this
      omega
    simp only [Function.update_noteq hne]
    exact ⟨rfl, rfl⟩

/-- A note played and released on the freshly initialised synthesizer: `startNote`
binds voice 0, which is not Idle after one period; after `stopNote` it is Idle, with
stop flag clear and head of the free list, within `(4 * ceil(L/d) + 2) / BUFFERSIZE + 1`
periods, and the next `startNote` binds it again. -/
theorem note_cycle (mem : Mem) (tables : Fin 128 → Note) (fuel : Nat)
    (hfuel : 2 * BUFFERSIZE ≤ fuel) (p : Fin 128) (st : Fin 3) (v : Nat) (hp : 21 ≤ p.val)
    (hL : 1 ≤ (tables p).sampleSizes st) (hd : 1 ≤ (tables p).delta)
    (hread : ∀ k : Int, 0 ≤ k → k < (tables p).sampleSizes st →
      mem ((tables p).samples st + k) ≠ none) :
    ∃ s1 s2 s3,
      ((PolySynth.initial tables).setStyle st.val).startNote p.val v = Outcome.ok s1 ∧
      (s1.notes p).toWaveGenerator = some 0 ∧ (s1.wavegenerators 0).state = 1 ∧
      s1.loop mem fuel = Outcome.ok s2 ∧ (s2.wavegenerators 0).state ≠ 0 ∧
      s2.stopNote p.val v = Outcome.ok s3 ∧ (s3.wavegenerators 0).stopping = true ∧
      (∃ out g1, Emits mem
          (({ WaveGenerator.fresh with toNextFreeWaveGenerator := initLink 0 } :
            WaveGenerator).setWave ((tables p).samples st) ((tables p).sampleSizes st)
            (tables p).delta ((tables p).sampleErrors st)) out g1 ∧
        out.length = BUFFERSIZE ∧ s3.wavegenerators 0 = { g1 with stopping := true }) ∧
      s3.buffer.length = BUFFERSIZE ∧
      (∀ j : Fin 16, 1 ≤ j.val →
        (s3.wavegenerators j).state = 0 ∧ (s3.wavegenerators j).stopping = false) ∧
      ∃ n s4, 1 ≤ n ∧
        n ≤ (4 * stepsLeft ((tables p).sampleSizes st - 1) (tables p).delta + 2) / BUFFERSIZE
          + 1 ∧
        s3.loops mem fuel n = Outcome.ok s4 ∧
        (s4.wavegenerators 0).state = 0 ∧ (s4.wavegenerators 0).stopping = false ∧
        s4.toFreeWaveGenerators = some 0 ∧
        ∃ s5, s4.startNote p.val v = Outcome.ok s5 ∧
          (s5.notes p).toWaveGenerator = some 0 ∧ (s5.wavegenerators 0).state = 1 := by
  obtain ⟨s1, hstart, hbuf1, hstyle1, href1, hwg1, hidle1⟩ := first_startNote tables p st v hp
  have hplay1 : (s1.wavegenerators 0).Playing mem ((tables p).samples st)
      ((tables p).sampleSizes st) (tables p).delta := by
    rw [hwg1]
    exact setWave_playing mem _ _ _ _ _ hL hd hread
  have hstate1 : (s1.wavegenerators 0).state = 1 := by rw [hwg1]; rfl
  have hstop1 : (s1.wavegenerators 0).stopping = false := by rw [hwg1]; rfl
  obtain ⟨out, g1, s2, he, hlen, hloop, hnotes2, hstyle2, hbuf2, hkeep, -⟩ :=
    loop_solo mem fuel hfuel s1 hbuf1 (Or.inr ⟨_, _, _, hplay1⟩) hidle1
  obtain ⟨hne1, hns1⟩ := emits_not_idle mem _ _ _ he hstop1 (by rw [hstate1]; decide)
  obtain ⟨hpg1, -⟩ := emits_playing mem _ _ _ _ _ _ he hplay1
  obtain ⟨hw2, hfree2⟩ := hkeep (fun h => hne1 h.2)
  have hother : ∀ (g2 : WaveGenerator) (j : Fin 16), 1 ≤ j.val →
      Function.update s1.wavegenerators 0 g2 j = s1.wavegenerators j := by
    intro g2 j hj
    exact Function.update_noteq (fun h => by
      have := congrArg Fin.val h
      simp only [Fin.val_zero] at this
      omega) _ _
  have hg2 : s2.wavegenerators 0 = g1 := by rw [hw2, Function.update_same]
  obtain ⟨s3, hstopNote, hw3, hw3o, -, -, hfree3, -, -, hbuf3, hstyle3⟩ :=
    stopNote_sets_stop s2 v p 0 hp (by rw [hnotes2]; exact href1)
  have hplay3 : (s3.wavegenerators 0).Playing mem ((tables p).samples st)
      ((tables p).sampleSizes st) (tables p).delta := by
    rw [hw3, hg2]
    exact hpg1
  have hstop3 : (s3.wavegenerators 0).stopping = true := by rw [hw3]
  obtain ⟨hrem, hQ⟩ := remain_le mem _ _ _ _ hplay3
  rw [hQ] at hrem
  have hidle3 : ∀ j : Fin 16, 1 ≤ j.val →
      (s3.wavegenerators j).state = 0 ∧ (s3.wavegenerators j).stopping = false := by
    intro j hj
    have hne : j ≠ 0 := fun h => by
      have := congrArg Fin.val h
      simp only [Fin.val_zero] at this
      omega
    rw [hw3o j hne, hw2, hother _ j hj]
    exact hidle1 j hj
  obtain ⟨n, s4, hn1, hn2, hrun, a1, a2, a3, -, -, a6, -, -⟩ :=
    release_within mem fuel hfuel _ _ _
      ((4 * stepsLeft ((tables p).sampleSizes st - 1) (tables p).delta + 2) / BUFFERSIZE)
      s3 (by rw [hbuf3]; exact hbuf2) hplay3 hstop3 hidle3
      (lt_of_le_of_lt hrem (Nat.lt_mul_div_succ _ (by decide)))
  have hstyle4 : s4.style = st.val := by rw [a6, hstyle3, hstyle2, hstyle1]
  have hagain := startNote_eq s4 v p 0 st hp hstyle4 a3
  refine ⟨s1, s2, s3, hstart, href1, hstate1, hloop, by rw [hg2]; exact hne1, hstopNote, hstop3,
    ⟨out, g1, by rw [← hwg1]; exact he, hlen, by rw [hw3, hg2]⟩,
    by rw [hbuf3]; exact hbuf2, hidle3,
    n, s4, hn1, hn2, hrun, a1, a2, a3, _, hagain, ?_, ?_⟩
  · simp only [Function.update_same]
  · simp only [Function.update_same]
    rfl



/-- A forward pass emits `n` samples as long as the `n` words it visits are in the
table. -/
theorem forward_run (mem : Mem) (g : WaveGenerator) (s e : Nat) (hs : s = 1 ∨ s = 3)
    (n : Nat) : ∀ t : Int,
      (∀ i : Nat, i < n → t + i * g.delta ≤ g.toEndWave ∧ mem (t + i * g.delta) ≠ none) →
      ∃ out, out.length = n ∧
        Emits mem (g.inPass s t e) out (g.inPass s (t + n * g.delta) e) := by
  induction n with
  | zero =>
    intro t _
    have h0 : t + ((0 : Nat) : Int) * g.delta = t := by simp
    rw [h0]
    exact ⟨[], rfl, Emits.nil _⟩
  | succ n ih =>
    intro t hvisit
    obtain ⟨hle, hread⟩ := hvisit 0 (Nat.succ_pos n)
    have h0 : t + ((0 : Nat) : Int) * g.delta = t := by simp
    rw [h0] at hle hread
    obtain ⟨v, hv⟩ := Option.ne_none_iff_exists'.mp hread
    have hstep := microStep_forward mem g s t e v hs hle hv
    obtain ⟨out, hlen, hrest⟩ := ih (t + g.delta) (fun i hi => by
      have := hvisit (i + 1) (by omega)
      have hcast : t + ((i + 1 : Nat) : Int) * g.delta = t + g.delta + (i : Int) * g.delta := by
        push_cast
        ring
      rw [hcast] at this
      exact this)
    have hcast : t + g.delta + (n : Int) * g.delta = t + ((n + 1 : Nat) : Int) * g.delta := by
      push_cast
      ring
    rw [hcast] at hrest
    exact ⟨_ :: out, by simp [hlen], Emits.emit hstep hrest⟩

/-- A backward pass emits `n` samples as long as the `n` words it visits are in the
table. -/
theorem backward_run (mem : Mem) (g : WaveGenerator) (s e : Nat) (hs : s = 2 ∨ s = 4)
    (n : Nat) : ∀ t : Int,
      (∀ i : Nat, i < n → g.toStartWave ≤ t - i * g.delta ∧ mem (t - i * g.delta) ≠ none) →
      ∃ out, out.length = n ∧
        Emits mem (g.inPass s t e) out (g.inPass s (t - n * g.delta) e) := by
  induction n with
  | zero =>
    intro t _
    have h0 : t - ((0 : Nat) : Int) * g.delta = t := by simp
    rw [h0]
    exact ⟨[], rfl, Emits.nil _⟩
  | succ n ih =>
    intro t hvisit
    obtain ⟨hle, hread⟩ := hvisit 0 (Nat.succ_pos n)
    have h0 : t - ((0 : Nat) : Int) * g.delta = t := by simp
    rw [h0] at hle hread
    obtain ⟨v, hv⟩ := Option.ne_none_iff_exists'.mp hread
    have hstep := microStep_backward mem g s t e v hs hle hv
    obtain ⟨out, hlen, hrest⟩ := ih (t - g.delta) (fun i hi => by
      have := hvisit (i + 1) (by omega)
      have hcast : t - ((i + 1 : Nat) : Int) * g.delta = t - g.delta - (i : Int) * g.delta := by
        push_cast
        ring
      rw [hcast] at this
      exact this)
    have hcast : t - g.delta - (n : Int) * g.delta = t - ((n + 1 : Nat) : Int) * g.delta := by
      push_cast
      ring
    rw [hcast] at hrest
    exact ⟨_ :: out, by simp [hlen], Emits.emit hstep hrest⟩

/-- The first BUFFERSIZE samples of a voice bound to a table of 1745 words with stride 16
and correction unit 0 (pitch 69): 110 samples up, 110 down, and 36 of the third quarter,
which leaves the cursor at word 576. -/
theorem concert_a_first_period (mem : Mem) (w : Int) (g00 : WaveGenerator)
    (hread : ∀ k : Int, 0 ≤ k → k < 1745 → mem (w + k) ≠ none) :
    ∃ out, out.length = BUFFERSIZE ∧
      Emits mem (g00.setWave w 1745 16 0) out
        ((g00.setWave w 1745 16 0).inPass 3 (w + 576) (add32 0 0)) := by
  have hA := forward_run mem (g00.setWave w 1745 16 0) 1 0 (Or.inl rfl) 110 w (by
    intro i hi
    show w + (i : Int) * 16 ≤ w + (1745 - 1) ∧ mem (w + (i : Int) * 16) ≠ none
    exact ⟨by omega, hread _ (by omega) (by omega)⟩)
  have hB := backward_run mem (g00.setWave w 1745 16 0) 2 (add32 0 0) (Or.inl rfl) 110
    (w + 1744) (by
    intro i hi
    show w ≤ w + 1744 - (i : Int) * 16 ∧ mem (w + 1744 - (i : Int) * 16) ≠ none
    refine ⟨by omega, ?_⟩
    have := hread (1744 - (i : Int) * 16) (by omega) (by omega)
    rw [show w + 1744 - (i : Int) * 16 = w + (1744 - (i : Int) * 16) by ring]
    exact this)
  have hC := forward_run mem (g00.setWave w 1745 16 0) 3 (add32 0 0) (Or.inr rfl) 36 w (by
    intro i hi
    show w + (i : Int) * 16 ≤ w + (1745 - 1) ∧ mem (w + (i : Int) * 16) ≠ none
    exact ⟨by omega, hread _ (by omega) (by omega)⟩)
  obtain ⟨outA, hlenA, hA⟩ := hA
  obtain ⟨outB, hlenB, hB⟩ := hB
  obtain ⟨outC, hlenC, hC⟩ := hC
  have eA : w + ((110 : Nat) : Int) * (g00.setWave w 1745 16 0).delta = w + 1760 := by
    show w + ((110 : Nat) : Int) * 16 = w + 1760
    norm_num
  have eB : w + 1744 - ((110 : Nat) : Int) * (g00.setWave w 1745 16 0).delta = w - 16 := by
    show w + 1744 - ((110 : Nat) : Int) * 16 = w - 16
    norm_num
    ring
  have eC : w + ((36 : Nat) : Int) * (g00.setWave w 1745 16 0).delta = w + 576 := by
    show w + ((36 : Nat) : Int) * 16 = w + 576
    norm_num
  rw [eA] at hA
  rw [eB] at hB
  rw [eC] at hC
  have h0 : (g00.setWave w 1745 16 0).inPass 1 w 0 = g00.setWave w 1745 16 0 := by
    have := setWave_inPass g00 w 1745 16 0
    simp only [Nat.cast_zero, add_zero] at this
    exact this.symm
  rw [h0] at hA
  have htop := microStep_top mem (g00.setWave w 1745 16 0) 1 (w + 1760) 0 (Or.inl rfl)
    (by show w + (1745 - 1) < w + 1760; omega)
    (by show add32 0 0 ≤ WAVEPARTERRORMAX; decide)
  have hend : (g00.setWave w 1745 16 0).toEndWave = w + 1744 := by
    show w + (1745 - 1) = w + 1744
    norm_num
  rw [hend] at htop
  have hbot := microStep_bottom mem (g00.setWave w 1745 16 0) 2 (w - 16) (add32 0 0)
    (Or.inl rfl) (by show w - 16 < w; omega) rfl
  have hneC : outC ≠ [] := by
    intro h
    rw [h] at hlenC
    cases hlenC
  have hneB : outB ++ outC ≠ [] := by
    intro h
    have := congrArg List.length h
    simp only [List.length_append, hlenB, hlenC, List.length_nil] at this
    omega
  refine ⟨outA ++ (outB ++ outC), ?_, ?_⟩
  · simp only [List.length_append, hlenA, hlenB, hlenC]
    rfl
  · exact emits_append hA (Emits.quiet htop (emits_append hB (Emits.quiet hbot hC hneC)) hneB)

theorem remain_idle (e : Nat) (g : WaveGenerator) (h : g.state = 0) : g.remain e = 0 := by
  simp only [WaveGenerator.remain, h]

/-- Pitch 69 in the default style, on tables that give it 1745 words, stride 16 and
correction unit 0: after `startNote`, one period and `stopNote`, voice 0 is still not
Idle after the first further period and is Idle, with stop flag clear and head of the
free list, after the second. -/
theorem concert_a_cycle (mem : Mem) (tables : Fin 128 → Note) (fuel : Nat)
    (hfuel : 2 * BUFFERSIZE ≤ fuel) (v : Nat)
    (hsize : (tables 69).sampleSizes 1 = 1745) (hdelta : (tables 69).delta = 16)
    (herr : (tables 69).sampleErrors 1 = 0)
    (hread : ∀ k : Int, 0 ≤ k → k < 1745 → mem ((tables 69).samples 1 + k) ≠ none) :
    ∃ s1 s2 s3 s4 s5,
      (PolySynth.initial tables).startNote 69 v = Outcome.ok s1 ∧
      s1.loop mem fuel = Outcome.ok s2 ∧ (s2.wavegenerators 0).state ≠ 0 ∧
      s2.stopNote 69 v = Outcome.ok s3 ∧
      s3.loop mem fuel = Outcome.ok s4 ∧ (s4.wavegenerators 0).state ≠ 0 ∧
      s4.loop mem fuel = Outcome.ok s5 ∧ (s5.wavegenerators 0).state = 0 ∧
      (s5.wavegenerators 0).stopping = false ∧ s5.toFreeWaveGenerators = some 0 := by
  obtain ⟨s1, s2, s3, hstart, -, -, hloop1, hne2, hstopNote, hstop3, ⟨out, g1, he, hlen, hw3⟩,
    hbuf3, hidle3, n, s6, hn1, hn2, hrun, a1, a2, a3, -⟩ :=
    note_cycle mem tables fuel hfuel 69 1 v (by decide) (by rw [hsize]; decide)
      (by rw [hdelta]; decide) (by rw [hsize]; exact hread)
  rw [hsize, hdelta, herr] at he
  obtain ⟨out1, hlen1, he1⟩ := concert_a_first_period mem ((tables 69).samples 1)
    ({ WaveGenerator.fresh with toNextFreeWaveGenerator := initLink 0 } : WaveGenerator) hread
  obtain ⟨-, hg1⟩ := emits_functional he he1 (hlen.trans hlen1.symm)
  have hplay0 := setWave_playing mem
    ({ WaveGenerator.fresh with toNextFreeWaveGenerator := initLink 0 } : WaveGenerator)
    ((tables 69).samples 1) 1745 16 0 (by decide) (by decide) hread
  obtain ⟨hplay1, -⟩ := emits_playing mem _ _ _ _ _ _ he1 hplay0
  have hplay3 : (s3.wavegenerators 0).Playing mem ((tables 69).samples 1) 1745 16 := by
    rw [hw3, hg1]
    exact hplay1
  have hrem0 : (s3.wavegenerators 0).remain 0 = 404 := by
    rw [hw3, hg1]
    simp only [WaveGenerator.remain, WaveGenerator.inPass, WaveGenerator.setWave,
      WaveGenerator.upLeft, WaveGenerator.passLength]
    have e1 : (tables 69).samples 1 + (1745 - 1) - ((tables 69).samples 1 + 576)
        = (1168 : Int) := by ring
    have e2 : (tables 69).samples 1 + (1745 - 1) - (tables 69).samples 1 = (1744 : Int) := by
      ring
    rw [e1, e2]
    decide
  obtain ⟨out3, g4, s4, he3, hlen3, hloop3, -, -, -, hkeep, -⟩ :=
    loop_solo mem fuel hfuel s3 hbuf3 (Or.inr ⟨_, _, _, hplay3⟩) hidle3
  have hlow := (emits_remain mem _ _ _ _ _ _ he3 hplay3 hstop3).2
  rw [hrem0, hlen3] at hlow
  have hne4 : g4.state ≠ 0 := by
    intro hz
    rw [remain_idle 0 g4 hz] at hlow
    simp only [BUFFERSIZE] at hlow
    omega
  obtain ⟨hw4, -⟩ := hkeep (fun h => hne4 h.2)
  have hg4 : s4.wavegenerators 0 = g4 := by rw [hw4, Function.update_same]
  have hbound : (4 * stepsLeft ((tables 69).sampleSizes 1 - 1) (tables 69).delta + 2)
      / BUFFERSIZE + 1 = 2 := by
    rw [hsize, hdelta]
    decide
  rw [hbound] at hn2
  have hn : n = 1 ∨ n = 2 := by omega
  have hval : ((69 : Fin 128) : Nat) = 69 := rfl
  rw [hval] at hstart hstopNote
  rcases hn with hn | hn
  · subst hn
    rw [loops_succ mem fuel 0 s3 s4 hloop3] at hrun
    have h64 : s4 = s6 := by
      simp only [PolySynth.loops, Outcome.ok.injEq] at hrun
      exact hrun
    subst h64
    rw [hg4] at a1
    exact absurd a1 hne4
  · subst hn
    rw [loops_succ mem fuel 1 s3 s4 hloop3] at hrun
    cases hloop4 : s4.loop mem fuel with
    | ok s5 =>
      rw [loops_succ mem fuel 0 s4 s5 hloop4] at hrun
      have h56 : s5 = s6 := by
        simp only [PolySynth.loops, Outcome.ok.injEq] at hrun
        exact hrun
      subst h56
      exact ⟨s1, s2, s3, s4, s5, hstart, hloop1, hne2, hstopNote, hloop3,
        by rw [hg4]; exact hne4, hloop4, a1, a2, a3⟩
    | fault =>
      simp only [PolySynth.loops, hloop4] at hrun
      cases hrun
    | fuel =>
      simp only [PolySynth.loops, hloop4] at hrun
      cases hrun



theorem quarterSize_pos : ∀ b < 33, 21 ≤ b → 1 ≤ quarterSize b := by
  decide

/-- After `WaveFactory::begin` every supported pitch has, in every style, a readable
table of at least one word and a stride of at least 1. -/
theorem begin_ready (sinusSample triangleSample : Nat → Nat → Nat) (fuel : Nat)
    (hfuel : 95 ≤ fuel) (f : WaveFactory) :
    ∃ f1, WaveFactory.begin sinusSample triangleSample fuel f = Outcome.ok f1 ∧
      ∀ p : Fin 128, 21 ≤ p.val → ∀ s : Fin 3,
        (f1.notes p).sampleSizes s = (quarterSize (21 + (p.val - 21) % 12) : Int) ∧
        (f1.notes p).delta = 2 ^ ((p.val - 21) / 12) ∧
        1 ≤ (f1.notes p).sampleSizes s ∧ 1 ≤ (f1.notes p).delta ∧
        (∀ k : Int, 0 ≤ k → k < (f1.notes p).sampleSizes s →
          f1.heap.mem ((f1.notes p).samples s + k) ≠ none) ∧
        (33 ≤ p.val → (f1.notes p).sampleErrors s = (f.notes p).sampleErrors s) := by
  obtain ⟨f1, hrun, hbase, hhigh, -, -⟩ := begin_spec sinusSample triangleSample fuel hfuel f
  refine ⟨f1, hrun, ?_⟩
  intro p h21 s
  have hb128 : 21 + (p.val - 21) % 12 < 128 := by omega
  have hb := hbase ⟨21 + (p.val - 21) % 12, hb128⟩ (by simp) (by simp; omega)
  have hq := quarterSize_pos (21 + (p.val - 21) % 12) (by omega) (by omega)
  have hfacts : (f1.notes p).sampleSizes s = (quarterSize (21 + (p.val - 21) % 12) : Int) ∧
      (f1.notes p).delta = 2 ^ ((p.val - 21) / 12) ∧
      (f1.notes p).samples s = (f1.notes ⟨21 + (p.val - 21) % 12, hb128⟩).samples s ∧
      (33 ≤ p.val → (f1.notes p).sampleErrors s = (f.notes p).sampleErrors s) := by
    by_cases h33 : p.val < 33
    · have hpb : (⟨21 + (p.val - 21) % 12, hb128⟩ : Fin 128) = p := Fin.ext (by
        show 21 + (p.val - 21) % 12 = p.val
        omega)
      have hq0 : (p.val - 21) / 12 = 0 := by omega
      rw [hpb] at hb ⊢
      rw [hq0]
      have hpp : 21 + (p.val - 21) % 12 = p.val := by omega
      rw [hpp]
      exact ⟨(hb.2.2 s).1, hb.1, rfl, fun h => by omega⟩
    · obtain ⟨a1, a2, a3, -, a5⟩ := hhigh p ⟨21 + (p.val - 21) % 12, hb128⟩ (by omega) rfl
      refine ⟨?_, a3, congrFun a1 s, fun _ => congrFun a5 s⟩
      rw [a2]
      exact (hb.2.2 s).1
  obtain ⟨h1, h2, h3, h4⟩ := hfacts
  refine ⟨h1, h2, ?_, ?_, ?_, h4⟩
  · rw [h1]
    exact_mod_cast hq
  · rw [h2]
    exact one_le_pow₀ (by decide)
  · rw [h1, h3]
    exact (hb.2.2 s).2.2.1

theorem stepsLeft_ceil (L d : Int) : stepsLeft (L - 1) d = ((L + d - 1) / d).toNat := by
  unfold stepsLeft
  congr 2
  ring

/-- C20. On the tables `WaveFactory::begin` builds, from the initial state (free list
0..15), for every pitch `p` in [21,127], style and velocity: `startNote` binds voice 0,
which is in a non-Idle state after one `loop` period; after the following `stopNote`
there is a number `n` of further periods, `1 ≤ n ≤ (4 * ceil(L/d) + 2) / BUFFERSIZE + 1`
(so within the bound `... + 2`), with `L` the table length and `d` the stride of the
entry, after which voice 0 is Idle with its stop flag clear and is the head of the free
list, and the next `startNote` binds voice 0 again. For pitch 69 in the default style
(`L = 1745`, `d = 16`) voice 0 is still not Idle after the first period after `stopNote`
and is returned to the free list in the second. -/
theorem note_off_returns_voice (sinusSample triangleSample : Nat → Nat → Nat) (start : Int)
    (fuel : Nat) (hfuel : 2 * BUFFERSIZE ≤ fuel) :
    ∃ f1, WaveFactory.begin sinusSample triangleSample fuel (WaveFactory.zero start)
        = Outcome.ok f1 ∧
      (∀ (p : Fin 128) (st : Fin 3) (v : Nat), 21 ≤ p.val →
        ∃ s1 s2 s3,
          ((PolySynth.initial f1.notes).setStyle st.val).startNote p.val v = Outcome.ok s1 ∧
          (s1.notes p).toWaveGenerator = some 0 ∧ (s1.wavegenerators 0).state = 1 ∧
          s1.loop f1.heap.mem fuel = Outcome.ok s2 ∧ (s2.wavegenerators 0).state ≠ 0 ∧
          s2.stopNote p.val v = Outcome.ok s3 ∧
          ∃ n s4, 1 ≤ n ∧
            n ≤ (4 * (((f1.notes p).sampleSizes st + (f1.notes p).delta - 1)
                  / (f1.notes p).delta).toNat + 2) / BUFFERSIZE + 1 ∧
            s3.loops f1.heap.mem fuel n = Outcome.ok s4 ∧
            (s4.wavegenerators 0).state = 0 ∧ (s4.wavegenerators 0).stopping = false ∧
            s4.toFreeWaveGenerators = some 0 ∧
            ∃ s5, s4.startNote p.val v = Outcome.ok s5 ∧
              (s5.notes p).toWaveGenerator = some 0 ∧ (s5.wavegenerators 0).state = 1) ∧
      (f1.notes 69).sampleSizes 1 = 1745 ∧ (f1.notes 69).delta = 16 ∧
      ∀ v : Nat, ∃ s1 s2 s3 s4 s5,
        (PolySynth.initial f1.notes).startNote 69 v = Outcome.ok s1 ∧
        s1.loop f1.heap.mem fuel = Outcome.ok s2 ∧ (s2.wavegenerators 0).state ≠ 0 ∧
        s2.stopNote 69 v = Outcome.ok s3 ∧
        s3.loop f1.heap.mem fuel = Outcome.ok s4 ∧ (s4.wavegenerators 0).state ≠ 0 ∧
        s4.loop f1.heap.mem fuel = Outcome.ok s5 ∧ (s5.wavegenerators 0).state = 0 ∧
        (s5.wavegenerators 0).stopping = false ∧ s5.toFreeWaveGenerators = some 0 := by
  have hfuel95 : 95 ≤ fuel := by
    simp only [BUFFERSIZE] at hfuel
    omega
  obtain ⟨f1, hrun, hready⟩ :=
    begin_ready sinusSample triangleSample fuel hfuel95 (WaveFactory.zero start)
  obtain ⟨a1, a2, a3, a4, a5, a6⟩ := hready 69 (by decide) 1
  have hsize : (f1.notes 69).sampleSizes 1 = 1745 := by
    rw [a1]
    have : quarterSize (21 + ((69 : Fin 128).val - 21) % 12) = 1745 := by decide
    exact congrArg Nat.cast this
  have hdelta : (f1.notes 69).delta = 16 := by
    rw [a2]
    rfl
  have herr : (f1.notes 69).sampleErrors 1 = 0 := by
    rw [a6 (by decide)]
    rfl
  refine ⟨f1, hrun, ?_, hsize, hdelta, ?_⟩
  · intro p st v hp
    obtain ⟨-, -, hL, hd, hread, -⟩ := hready p hp st
    obtain ⟨s1, s2, s3, h1, h2, h3, h4, h5, h6, -, -, -, -, n, s4, hn1, hn2, h7⟩ :=
      note_cycle f1.heap.mem f1.notes fuel hfuel p st v hp hL hd hread
    rw [stepsLeft_ceil] at hn2
    exact ⟨s1, s2, s3, h1, h2, h3, h4, h5, h6, n, s4, hn1, hn2, h7⟩
  · intro v
    exact concert_a_cycle f1.heap.mem f1.notes fuel hfuel v hsize hdelta herr
      (by rw [← hsize]; exact a5)

theorem note_off_returns_voice_witness :
    ∃ f1, WaveFactory.begin (fun _ _ => 0) (fun _ _ => 0) 512 (WaveFactory.zero 1000)
        = Outcome.ok f1 ∧
      (∀ (p : Fin 128) (st : Fin 3) (v : Nat), 21 ≤ p.val →
        ∃ s1 s2 s3,
          ((PolySynth.initial f1.notes).setStyle st.val).startNote p.val v = Outcome.ok s1 ∧
          (s1.notes p).toWaveGenerator = some 0 ∧ (s1.wavegenerators 0).state = 1 ∧
          s1.loop f1.heap.mem 512 = Outcome.ok s2 ∧ (s2.wavegenerators 0).state ≠ 0 ∧
          s2.stopNote p.val v = Outcome.ok s3 ∧
          ∃ n s4, 1 ≤ n ∧
            n ≤ (4 * (((f1.notes p).sampleSizes st + (f1.notes p).delta - 1)
                  / (f1.notes p).delta).toNat + 2) / BUFFERSIZE + 1 ∧
            s3.loops f1.heap.mem 512 n = Outcome.ok s4 ∧
            (s4.wavegenerators 0).state = 0 ∧ (s4.wavegenerators 0).stopping = false ∧
            s4.toFreeWaveGenerators = some 0 ∧
            ∃ s5, s4.startNote p.val v = Outcome.ok s5 ∧
              (s5.notes p).toWaveGenerator = some 0 ∧ (s5.wavegenerators 0).state = 1) ∧
      (f1.notes 69).sampleSizes 1 = 1745 ∧ (f1.notes 69).delta = 16 ∧
      ∀ v : Nat, ∃ s1 s2 s3 s4 s5,
        (PolySynth.initial f1.notes).startNote 69 v = Outcome.ok s1 ∧
        s1.loop f1.heap.mem 512 = Outcome.ok s2 ∧ (s2.wavegenerators 0).state ≠ 0 ∧
        s2.stopNote 69 v = Outcome.ok s3 ∧
        s3.loop f1.heap.mem 512 = Outcome.ok s4 ∧ (s4.wavegenerators 0).state ≠ 0 ∧
        s4.loop f1.heap.mem 512 = Outcome.ok s5 ∧ (s5.wavegenerators 0).state = 0 ∧
        (s5.wavegenerators 0).stopping = false ∧ s5.toFreeWaveGenerators = some 0 :=
  note_off_returns_voice (fun _ _ => 0) (fun _ _ => 0) 1000 512 (by decide)



/-! ## Reachable states on built tables -/

theorem sound_congr (mem : Mem) (g g1 : WaveGenerator) (h1 : g1.state = g.state)
    (h2 : g1.toStartWave = g.toStartWave) (h3 : g1.toEndWave = g.toEndWave)
    (h4 : g1.delta = g.delta) (h5 : g1.toWave = g.toWave) (h : g.Sound mem) :
    g1.Sound mem := by
  unfold WaveGenerator.Sound WaveGenerator.Playing at h ⊢
  rw [h1, h2, h3, h4, h5]
  exact h

theorem emits_sound (mem : Mem) (g g1 : WaveGenerator) (out : List Nat)
    (h : Emits mem g out g1) (hs : g.Sound mem) : g1.Sound mem := by
  rcases hs with h0 | ⟨w, L, d, hp⟩
  · rw [emits_idle_end mem g g1 out h h0]
    exact Or.inl h0
  · exact Or.inr ⟨w, L, d, (emits_playing mem w L d g g1 out h hp).1⟩

theorem fit_pollVoice (mem : Mem) (tables : Fin 128 → Note) (s : PolySynth) (index : Fin 16)
    (g : WaveGenerator) (buffer : List Nat) (hfit : s.Fit mem tables)
    (hg : g.Sound mem) (hlen : buffer.length = BUFFERSIZE) :
    (s.pollVoice index g buffer).Fit mem tables := by
  obtain ⟨-, hsound, htab⟩ := hfit
  refine ⟨by rw [pollVoice_buffer]; exact hlen, ?_, ?_⟩
  · intro k
    by_cases hk : k = index
    · subst hk
      obtain ⟨link, hl⟩ := pollVoice_self s k g buffer
      rw [hl]
      refine sound_congr mem g _ ?_ ?_ ?_ ?_ ?_ hg <;>
        (unfold WaveGenerator.clearStopping; split <;> rfl)
    · rw [pollVoice_other s index k g buffer hk]
      exact hsound k
  · intro p
    have : (s.pollVoice index g buffer).notes = s.notes := by
      unfold PolySynth.pollVoice
      split <;> rfl
    rw [this]
    exact htab p

theorem fit_loopRest (mem : Mem) (tables : Fin 128 → Note) (fuel count : Nat) :
    ∀ (index : Nat) (s s1 : PolySynth), s.Fit mem tables →
      PolySynth.loopRest mem fuel count index s = Outcome.ok s1 → s1.Fit mem tables := by
  induction count with
  | zero =>
    intro index s s1 hfit h
    simp only [PolySynth.loopRest, Outcome.ok.injEq] at h
    subst h
    exact hfit
  | succ n ih =>
    intro index s s1 hfit h
    simp only [PolySynth.loopRest] at h
    split at h
    · rename_i hlt
      split at h
      · rename_i s2 hbody
        refine ih _ _ _ ?_ h
        unfold PolySynth.loopBody at hbody
        split at hbody
        · rename_i g buffer hfill
          simp only [Outcome.ok.injEq] at hbody
          subst hbody
          obtain ⟨out, he, -, hb⟩ := addSamplesToBuffer_emits _ _ _ _ _ _ _ hfill
          exact fit_pollVoice mem tables s _ g buffer hfit
            (emits_sound mem _ _ _ he (hfit.2.1 _))
            (by rw [hb, writeList_length]; exact hfit.1)
        · cases hbody
        · cases hbody
      · cases h
      · cases h
    · simp only [Outcome.ok.injEq] at h
      subst h
      exact hfit

/-- One period keeps the buffer length, the voices Idle or in play, and the tables. -/
theorem fit_loop (mem : Mem) (tables : Fin 128 → Note) (fuel : Nat) (s s1 : PolySynth)
    (hfit : s.Fit mem tables) (h : s.loop mem fuel = Outcome.ok s1) : s1.Fit mem tables := by
  unfold PolySynth.loop at h
  split at h
  · rename_i s2 hfirst
    refine fit_loopRest mem tables fuel _ _ _ _ ?_ h
    unfold PolySynth.loopFirst at hfirst
    split at hfirst
    · rename_i g buffer hfill
      simp only [Outcome.ok.injEq] at hfirst
      subst hfirst
      obtain ⟨out, he, hlen, hb⟩ := setSamplesInBuffer_emits _ _ _ _ _ _ _
        (le_of_eq hfit.1.symm) hfill
      refine fit_pollVoice mem tables s _ g buffer hfit
        (emits_sound mem _ _ _ he (hfit.2.1 _)) ?_
      rw [hb, List.length_append, List.length_drop, hlen, hfit.1]
      omega
    · cases hfirst
    · cases hfirst
  · cases h
  · cases h

theorem fit_startNote (mem : Mem) (tables : Fin 128 → Note) (hready : TablesReady mem tables)
    (s s1 : PolySynth) (pitch velocity : Nat) (hfit : s.Fit mem tables)
    (h : s.startNote pitch velocity = Outcome.ok s1) : s1.Fit mem tables := by
  obtain ⟨hbuf, hsound, htab⟩ := hfit
  unfold PolySynth.startNote at h
  split at h
  · simp only [Outcome.ok.injEq] at h
    subst h
    exact ⟨hbuf, hsound, htab⟩
  · rename_i V hhead
    simp only at h
    split at h
    · cases h
    · rename_i i hnote
      split at h
      · rename_i hstyle
        simp only [Outcome.ok.injEq] at h
        subst h
        have hi : 21 ≤ i.val := by
          unfold WaveFactory.getNote at hnote
          split at hnote
          · rename_i hr
            simp only [Option.some.injEq] at hnote
            subst hnote
            exact hr.1
          · cases hnote
        obtain ⟨t1, t2, t3, t4, -⟩ := htab i
        obtain ⟨hL, hd, hread⟩ := hready i hi ⟨s.style, hstyle⟩
        refine ⟨hbuf, ?_, ?_⟩
        · intro k
          by_cases hk : k = V
          · subst hk
            simp only [Function.update_same]
            right
            refine ⟨_, _, _, setWave_playing mem _ _ _ _ _ ?_ ?_ ?_⟩
            · rw [t2]
              exact hL
            · rw [t4]
              exact hd
            · rw [t1, t2]
              exact hread
          · simp only [Function.update_noteq hk]
            exact hsound k
        · intro p
          by_cases hp : p = i
          · subst hp
            simp only [Function.update_same]
            exact htab p
          · simp only [Function.update_noteq hp]
            exact htab p
      · cases h

theorem fit_stopNote (mem : Mem) (tables : Fin 128 → Note) (s s1 : PolySynth)
    (pitch velocity : Nat) (hfit : s.Fit mem tables)
    (h : s.stopNote pitch velocity = Outcome.ok s1) : s1.Fit mem tables := by
  obtain ⟨hbuf, hsound, htab⟩ := hfit
  unfold PolySynth.stopNote at h
  split at h
  · cases h
  · rename_i i hnote
    simp only [Outcome.ok.injEq] at h
    subst h
    refine ⟨hbuf, ?_, ?_⟩
    · intro k
      simp only
      cases href : (s.notes i).toWaveGenerator with
      | none => exact hsound k
      | some V =>
        simp only
        by_cases hk : k = V
        · subst hk
          simp only [Function.update_same]
          exact sound_congr mem _ _ rfl rfl rfl rfl rfl (hsound k)
        · simp only [Function.update_noteq hk]
          exact hsound k
    · intro p
      by_cases hp : p = i
      · subst hp
        simp only [Function.update_same]
        exact htab p
      · simp only [Function.update_noteq hp]
        exact htab p

/-- In every state reachable on built tables the buffer has BUFFERSIZE words and every
voice is Idle or in play on a table. -/
theorem reachable_fit (mem : Mem) (tables : Fin 128 → Note) (hready : TablesReady mem tables)
    (s : PolySynth) (h : Reachable mem tables s) : s.Fit mem tables := by
  induction h with
  | init =>
    refine ⟨?_, fun k => Or.inl rfl, fun p => ⟨rfl, rfl, rfl, rfl, rfl⟩⟩
    simp [PolySynth.initial, PolySynth.initFreeWaveGenerators]
  | startNote pitch velocity _ hstep ih => exact fit_startNote mem tables hready _ _ _ _ ih hstep
  | stopNote pitch velocity _ hstep ih => exact fit_stopNote mem tables _ _ _ _ ih hstep
  | setStyle newStyle _ ih => exact ih
  | loop fuel _ hstep ih => exact fit_loop mem tables fuel _ _ ih hstep

/-- The tables `WaveFactory::begin` builds are ready in the memory of its heap. -/
theorem begin_tablesReady (sinusSample triangleSample : Nat → Nat → Nat) (fuel : Nat)
    (hfuel : 95 ≤ fuel) (f : WaveFactory) :
    ∃ f1, WaveFactory.begin sinusSample triangleSample fuel f = Outcome.ok f1 ∧
      TablesReady f1.heap.mem f1.notes := by
  obtain ⟨f1, hrun, hready⟩ := begin_ready sinusSample triangleSample fuel hfuel f
  refine ⟨f1, hrun, ?_⟩
  intro p hp st
  obtain ⟨-, -, hL, hd, hread, -⟩ := hready p hp st
  exact ⟨hL, hd, hread⟩



/-! ## Adding against storing -/

/-- C24. For every voice that is Idle or in play on a readable table, every buffer `B`
with room for `bufferSize` words and fuel for `2 * bufferSize` outer-loop iterations:
`setSamplesInBuffer` and `addSamplesToBuffer` return with the same voice `g1` (same
automaton state, cursor, accumulator and stop flag), and with `b1` the buffer stored and
`b2` the buffer added to, word `j < bufferSize` of `b2` is `B[j] + b1[j]` mod 2^32,
while both leave the words from `bufferSize` on as they are in `B`. -/
theorem add_is_buffer_plus_set (mem : Mem) (g : WaveGenerator) (w L d : Int) (B : List Nat)
    (bufferSize fuel : Nat) (hp : g.state = 0 ∨ g.Playing mem w L d)
    (hbuf : bufferSize ≤ B.length) (hfuel : 2 * bufferSize ≤ fuel) :
    ∃ g1 b1 b2,
      g.setSamplesInBuffer mem fuel B bufferSize = Outcome.ok (g1, b1) ∧
      g.addSamplesToBuffer mem fuel B bufferSize = Outcome.ok (g1, b2) ∧
      b1.length = B.length ∧ b2.length = B.length ∧
      ∀ j : Nat,
        (j < bufferSize → b2[j]? = some ((B.getD j 0 + b1.getD j 0) % UINT32)) ∧
        (bufferSize ≤ j → b2[j]? = B[j]? ∧ b1[j]? = B[j]?) := by
  obtain ⟨out, g1, -, hlen, -, hset, hadd⟩ :=
    fills_total mem g w L d B bufferSize fuel hp hbuf hfuel
  refine ⟨g1, _, _, hset, hadd, writeList_length _ _ _ _, writeList_length _ _ _ _, ?_⟩
  intro j
  have hroom : 0 + out.length ≤ B.length := by omega
  have h1 := writeList_getElem (fun _ v => v) out B 0 hroom j
  have h2 := writeList_getElem add32 out B 0 hroom j
  simp only [Nat.zero_le, true_and, Nat.zero_add, Nat.sub_zero, hlen] at h1 h2
  constructor
  · intro hj
    rw [if_pos hj] at h1 h2
    rw [h2, List.getD_eq_getElem?_getD (writeList _ B 0 out), h1]
    rfl
  · intro hj
    have hno : ¬ j < bufferSize := by omega
    rw [if_neg hno] at h1 h2
    exact ⟨h2, h1⟩

theorem add_is_buffer_plus_set_witness :
    ∃ g1 b1 b2,
      demoVoice.setSamplesInBuffer demoMem 8 [7, 7, 7, 7, 7] 4 = Outcome.ok (g1, b1) ∧
      demoVoice.addSamplesToBuffer demoMem 8 [7, 7, 7, 7, 7] 4 = Outcome.ok (g1, b2) ∧
      b1.length = [7, 7, 7, 7, 7].length ∧ b2.length = [7, 7, 7, 7, 7].length ∧
      ∀ j : Nat,
        (j < 4 → b2[j]? = some (([7, 7, 7, 7, 7].getD j 0 + b1.getD j 0) % UINT32)) ∧
        (4 ≤ j → b2[j]? = [7, 7, 7, 7, 7][j]? ∧ b1[j]? = [7, 7, 7, 7, 7][j]?) :=
  add_is_buffer_plus_set demoMem demoVoice 100 3 1 [7, 7, 7, 7, 7] 4 8
    (Or.inr (setWave_playing demoMem WaveGenerator.fresh 100 3 1 0 (by decide) (by decide)
      (by intro k h0 h3; interval_cases k <;> decide)))
    (by decide) (by decide)

/-! ## The pool invariant -/

/-- C27. In every state reachable from initialisation by `startNote`, `stopNote`,
`setStyle` and `loop` calls that return: the links from the head of the free list end
in NULL after visiting the voices of a duplicate-free list `L` (no cycle), every voice
on `L` is Idle with its stop flag clear, no note entry references a voice on `L`, and
no two note entries reference the same voice. -/
theorem pool_invariant (mem : Mem) (tables : Fin 128 → Note) (s : PolySynth)
    (h : Reachable mem tables s) :
    ∃ L, s.freeList = some L ∧ L.Nodup ∧
      (∀ V ∈ L, (s.wavegenerators V).state = 0 ∧ (s.wavegenerators V).stopping = false) ∧
      (∀ i V, (s.notes i).toWaveGenerator = some V → V ∉ L) ∧
      (∀ i j V, (s.notes i).toWaveGenerator = some V →
        (s.notes j).toWaveGenerator = some V → i = j) := by
  obtain ⟨L, hinv⟩ := reachable_poolInv mem tables s h
  exact ⟨L, hinv.free, hinv.nodup, hinv.idle, fun i V href => (hinv.bound i V href).1,
    hinv.unique⟩

theorem pool_invariant_witness :
    ∃ L, demoReleased.freeList = some L ∧ L.Nodup ∧
      (∀ V ∈ L, (demoReleased.wavegenerators V).state = 0 ∧
        (demoReleased.wavegenerators V).stopping = false) ∧
      (∀ i V, (demoReleased.notes i).toWaveGenerator = some V → V ∉ L) ∧
      (∀ i j V, (demoReleased.notes i).toWaveGenerator = some V →
        (demoReleased.notes j).toWaveGenerator = some V → i = j) :=
  pool_invariant demoMem demoTables demoReleased reachable_demoReleased



/-! ## Where the cursor is between calls -/

theorem playing_within (mem : Mem) (w L d : Int) (g : WaveGenerator)
    (hp : g.Playing mem w L d) (hne : g.state ≠ 0) : g.Within := by
  obtain ⟨hstart, hend, hdelta, hL, hd, hst6, hread, hup, hdn, h56⟩ := hp
  have hcases : g.state = 1 ∨ g.state = 2 ∨ g.state = 3 ∨ g.state = 4 ∨
      g.state = 5 ∨ g.state = 6 := by
    clear hup hdn h56
    omega
  unfold WaveGenerator.Within
  rcases hcases with hs | hs | hs | hs | hs | hs
  · have := hup (Or.inl hs)
    clear hup hdn h56
    omega
  · have := hdn (Or.inl hs)
    clear hup hdn h56
    omega
  · have := hup (Or.inr hs)
    clear hup hdn h56
    omega
  · have := hdn (Or.inr hs)
    clear hup hdn h56
    omega
  · have := h56 (Or.inl hs)
    clear hup hdn h56
    omega
  · have := h56 (Or.inr hs)
    clear hup hdn h56
    omega

theorem emits_within (mem : Mem) (w L d : Int) (g g1 : WaveGenerator) (out : List Nat)
    (h : Emits mem g out g1) (hp : g.Playing mem w L d) (hw : g.Within) : g1.Within := by
  by_cases hz : g1.state = 0
  · induction h with
    | nil g => exact hw
    | @emit g g1 g2 v out hstep hrest ih =>
      obtain ⟨hp1, -⟩ := microStep_playing mem w L d _ _ _ hp hstep
      by_cases h1 : g1.state = 0
      · rw [emits_idle_end mem _ _ _ hrest h1]
        by_cases h0 : g.state = 0
        · rw [((microStep_idle mem _ _ _ hstep).1 h0).1]
          exact hw
        · have := ((microStep_idle mem _ _ _ hstep).2 h0 h1).1
          cases this
      · exact ih hp1 (playing_within mem w L d _ hp1 h1) hz
    | @quiet g g1 g2 out hstep hrest _ ih =>
      obtain ⟨hp1, -⟩ := microStep_playing mem w L d _ _ _ hp hstep
      by_cases h1 : g1.state = 0
      · rw [emits_idle_end mem _ _ _ hrest h1]
        obtain ⟨hstart, hend, hdelta, hL, hd, -⟩ := hp
        rcases microStep_cases mem g g1 _ hstep with
          ⟨-, -, ho⟩ | ⟨-, -, -, ho⟩ | ⟨-, -, hg, -⟩ | ⟨-, -, hg, -⟩ | ⟨-, -, -, ho⟩ |
          ⟨-, -, hg, -⟩ | ⟨-, -, hg, -⟩ | ⟨-, -, ho⟩ | ⟨-, -, ho⟩ | ⟨hs, hg, -⟩
        · cases ho
        · exact absurd rfl ho
        · rw [hg]
          show g.toStartWave - g.delta ≤ g.toEndWave ∧ g.toEndWave ≤ g.toEndWave + g.delta
          omega
        · rw [hg]
          show g.toStartWave - g.delta ≤ g.toEndWave ∧ g.toEndWave ≤ g.toEndWave + g.delta
          omega
        · exact absurd rfl ho
        · rw [hg]
          show g.toStartWave - g.delta ≤ g.toStartWave ∧ g.toStartWave ≤ g.toEndWave + g.delta
          omega
        · rw [hg]
          show g.toStartWave - g.delta ≤ g.toStartWave ∧ g.toStartWave ≤ g.toEndWave + g.delta
          omega
        · exact absurd rfl ho
        · exact absurd rfl ho
        · rw [hg]
          exact hw
      · exact ih hp1 (playing_within mem w L d _ hp1 h1) hz
  · exact playing_within mem w L d g1 (emits_playing mem w L d g g1 out h hp).1 hz

/-- Any sequence of fill calls on a voice in play returns, given fuel for two outer-loop
iterations per sample of the longest call; the voice stays in play on its table and the
calls together are one run of the automaton. -/
theorem playFrames_total (mem : Mem) (w L d : Int) (fuel : Nat) (frames : List (Bool × Nat)) :
    ∀ g : WaveGenerator, g.Playing mem w L d → (∀ f ∈ frames, 2 * f.2 ≤ fuel) →
      ∃ out g1 run, playFrames mem fuel frames g = Outcome.ok (out, g1) ∧
        g1.Playing mem w L d ∧ Emits mem g run g1 := by
  induction frames with
  | nil =>
    intro g hp _
    exact ⟨[], g, [], rfl, hp, Emits.nil g⟩
  | cons f frames ih =>
    intro g hp hfuel
    have hf := hfuel f (List.mem_cons_self _ _)
    obtain ⟨out, g1, he, hlen, -, hset, hadd⟩ :=
      fills_total mem g w L d (List.replicate f.2 0) f.2 fuel (Or.inr hp) (by simp) hf
    obtain ⟨hp1, -⟩ := emits_playing mem w L d g g1 out he hp
    obtain ⟨out2, g2, run2, hrun, hp2, he2⟩ := ih g1 hp1
      (fun f2 hf2 => hfuel f2 (List.mem_cons_of_mem _ hf2))
    have hfill : ∃ b, g.fill mem fuel f.1 f.2 = Outcome.ok (g1, b) := by
      unfold WaveGenerator.fill
      cases f.1
      · exact ⟨_, hset⟩
      · exact ⟨_, hadd⟩
    obtain ⟨b, hb⟩ := hfill
    refine ⟨b ++ out2, g2, out ++ run2, ?_, hp2, emits_append he he2⟩
    simp only [playFrames, hb, hrun]

theorem tableMem_readable (w : Int) (T : List Nat) :
    ∀ k : Int, 0 ≤ k → k < (T.length : Int) → tableMem w T (w + k) ≠ none := by
  intro k h0 hk
  have h : tableMem w T (w + ((k.toNat : Nat) : Int)) ≠ none := by
    rw [tableMem_read w T k.toNat (by omega)]
    exact Option.some_ne_none _
  rw [Int.toNat_of_nonneg h0] at h
  exact h

theorem tableMem_outside (w : Int) (T : List Nat) (a : Int)
    (h : a < w ∨ w + (T.length : Int) ≤ a) : tableMem w T a = none := by
  unfold tableMem
  split
  · rfl
  · exact List.getElem?_eq_none (by omega)

/-- C21 (counterexample). The table `[0, 5, 9]` at addresses 100 to 102 bound with stride
1: a call of `setSamplesInBuffer` with `bufferSize = 3` returns in state 1 with the
cursor at 103, one past `toEndWave = 102`; a call with `bufferSize = 6` returns in state
2 with the cursor at 99, one before `toStartWave = 100`. -/
theorem cursor_leaves_table_between_calls :
    demoVoice.setSamplesInBuffer demoMem 8 [7, 7, 7] 3
      = Outcome.ok ({ demoVoice with toWave := 103 }, [0, 5, 9]) ∧
    ({ demoVoice with toWave := 103 } : WaveGenerator).toEndWave = 102 ∧
    demoVoice.setSamplesInBuffer demoMem 16 [7, 7, 7, 7, 7, 7] 6
      = Outcome.ok ({ demoVoice with state := 2, toWave := 99 }, [0, 5, 9, 9, 5, 0]) ∧
    ({ demoVoice with state := 2, toWave := 99 } : WaveGenerator).toStartWave = 100 := by
  refine ⟨by decide, rfl, by decide, rfl⟩

/-- C21 (amended). A voice bound by `setWave` to a readable table of `L ≥ 1` words at
`w` with stride `d ≥ 1` has its cursor at `w`; after any sequence of fill calls, a stop
request and any further fill calls (all of which return), the cursor is at most one
stride outside the table, `w - d ≤ toWave ≤ w + (L - 1) + d`: not before the table in a
forward pass (states 1 and 3), not past it in a backward pass (states 2 and 4), and at the
last word in states 5 and 6. -/
theorem cursor_within_one_stride (mem : Mem) (g0 : WaveGenerator) (w L d : Int) (u fuel : Nat)
    (frames1 frames2 : List (Bool × Nat)) (hL : 1 ≤ L) (hd : 1 ≤ d)
    (hread : ∀ k : Int, 0 ≤ k → k < L → mem (w + k) ≠ none)
    (hfuel1 : ∀ f ∈ frames1, 2 * f.2 ≤ fuel) (hfuel2 : ∀ f ∈ frames2, 2 * f.2 ≤ fuel) :
    (g0.setWave w L d u).toWave = w ∧
    ∃ out1 g1 out2 g2,
      playFrames mem fuel frames1 (g0.setWave w L d u) = Outcome.ok (out1, g1) ∧
      playFrames mem fuel frames2 g1.clearWave = Outcome.ok (out2, g2) ∧
      ∀ g : WaveGenerator, g = g1 ∨ g = g2 →
        w - d ≤ g.toWave ∧ g.toWave ≤ w + (L - 1) + d ∧
        ((g.state = 1 ∨ g.state = 3) → w ≤ g.toWave) ∧
        ((g.state = 2 ∨ g.state = 4) → g.toWave ≤ w + (L - 1)) ∧
        ((g.state = 5 ∨ g.state = 6) → g.toWave = w + (L - 1)) := by
  refine ⟨rfl, ?_⟩
  have hp0 := setWave_playing mem g0 w L d u hL hd hread
  have hw0 : (g0.setWave w L d u).Within := by
    show w - d ≤ w ∧ w ≤ w + (L - 1) + d
    omega
  obtain ⟨out1, g1, run1, h1, hp1, he1⟩ := playFrames_total mem w L d fuel frames1 _ hp0 hfuel1
  have hw1 := emits_within mem w L d _ _ _ he1 hp0 hw0
  have hpc : g1.clearWave.Playing mem w L d := hp1
  have hwc : g1.clearWave.Within := hw1
  obtain ⟨out2, g2, run2, h2, hp2, he2⟩ :=
    playFrames_total mem w L d fuel frames2 _ hpc hfuel2
  have hw2 := emits_within mem w L d _ _ _ he2 hpc hwc
  refine ⟨out1, g1, out2, g2, h1, h2, ?_⟩
  have hbounds : ∀ g : WaveGenerator, g.Playing mem w L d → g.Within →
      w - d ≤ g.toWave ∧ g.toWave ≤ w + (L - 1) + d ∧
      ((g.state = 1 ∨ g.state = 3) → w ≤ g.toWave) ∧
      ((g.state = 2 ∨ g.state = 4) → g.toWave ≤ w + (L - 1)) ∧
      ((g.state = 5 ∨ g.state = 6) → g.toWave = w + (L - 1)) := by
    intro g hp hw
    obtain ⟨hstart, hend, hdelta, -, -, -, -, hup, hdn, h56⟩ := hp
    unfold WaveGenerator.Within at hw
    rw [hstart, hend, hdelta] at hw
    refine ⟨hw.1, hw.2, fun h => (hup h).1, fun h => ?_, fun h => ?_⟩
    · rw [← hend]
      exact (hdn h).1
    · rw [← hend]
      exact h56 h
  intro g hg
  rcases hg with hg | hg
  · rw [hg]
    exact hbounds g1 hp1 hw1
  · rw [hg]
    exact hbounds g2 hp2 hw2

theorem cursor_within_one_stride_witness :
    (WaveGenerator.fresh.setWave 100 3 1 0).toWave = 100 ∧
    ∃ out1 g1 out2 g2,
      playFrames demoMem 8 [(false, 3)] (WaveGenerator.fresh.setWave 100 3 1 0)
        = Outcome.ok (out1, g1) ∧
      playFrames demoMem 8 [(true, 4)] g1.clearWave = Outcome.ok (out2, g2) ∧
      ∀ g : WaveGenerator, g = g1 ∨ g = g2 →
        100 - 1 ≤ g.toWave ∧ g.toWave ≤ 100 + (3 - 1) + 1 ∧
        ((g.state = 1 ∨ g.state = 3) → 100 ≤ g.toWave) ∧
        ((g.state = 2 ∨ g.state = 4) → g.toWave ≤ 100 + (3 - 1)) ∧
        ((g.state = 5 ∨ g.state = 6) → g.toWave = 100 + (3 - 1)) :=
  cursor_within_one_stride demoMem WaveGenerator.fresh 100 3 1 0 8 [(false, 3)] [(true, 4)]
    (by decide) (by decide) (by intro k h0 h3; interval_cases k <;> decide)
    (by decide) (by decide)

/-! ## Reads stay in the table -/

/-- C26. Memory in which exactly the `L ≥ 1` words of the table `T` at `w` are mapped,
so that a read at any index outside `[0, L-1]` is a fault: for a voice bound by `setWave`
to `T` with stride `d ≥ 1` and any correction unit, any sequence of `setSamplesInBuffer`
and `addSamplesToBuffer` calls, a stop request and any further calls all return without
fault (given fuel for two outer-loop iterations per sample of a call), so every read was
inside the table, although the cursor itself may be one stride outside it. -/
theorem reads_stay_in_table (w : Int) (T : List Nat) (g0 : WaveGenerator) (d : Int)
    (u fuel : Nat) (frames1 frames2 : List (Bool × Nat)) (hL : 1 ≤ T.length) (hd : 1 ≤ d)
    (hfuel1 : ∀ f ∈ frames1, 2 * f.2 ≤ fuel) (hfuel2 : ∀ f ∈ frames2, 2 * f.2 ≤ fuel) :
    (∀ a : Int, tableMem w T a ≠ none ↔ (w ≤ a ∧ a < w + (T.length : Int))) ∧
    ∃ out1 g1 out2 g2,
      playFrames (tableMem w T) fuel frames1 (g0.setWave w T.length d u)
        = Outcome.ok (out1, g1) ∧
      playFrames (tableMem w T) fuel frames2 g1.clearWave = Outcome.ok (out2, g2) ∧
      g2.Within := by
  constructor
  · intro a
    constructor
    · intro hne
      by_contra hout
      exact hne (tableMem_outside w T a (by omega))
    · intro hin
      have := tableMem_readable w T (a - w) (by omega) (by omega)
      rw [show w + (a - w) = a by ring] at this
      exact this
  · have hp0 := setWave_playing (tableMem w T) g0 w T.length d u (by omega) hd
      (tableMem_readable w T)
    have hw0 : (g0.setWave w T.length d u).Within := by
      show w - d ≤ w ∧ w ≤ w + ((T.length : Int) - 1) + d
      omega
    obtain ⟨out1, g1, run1, h1, hp1, he1⟩ :=
      playFrames_total (tableMem w T) w T.length d fuel frames1 _ hp0 hfuel1
    have hpc : g1.clearWave.Playing (tableMem w T) w T.length d := hp1
    have hw1 : g1.Within := emits_within _ w T.length d _ _ _ he1 hp0 hw0
    have hwc : g1.clearWave.Within := hw1
    obtain ⟨out2, g2, run2, h2, -, he2⟩ :=
      playFrames_total (tableMem w T) w T.length d fuel frames2 _ hpc hfuel2
    exact ⟨out1, g1, out2, g2, h1, h2, emits_within _ w T.length d _ _ _ he2 hpc hwc⟩

theorem reads_stay_in_table_witness :
    (∀ a : Int, tableMem 100 [0, 5, 9, 12] a ≠ none ↔
      (100 ≤ a ∧ a < 100 + (([0, 5, 9, 12] : List Nat).length : Int))) ∧
    ∃ out1 g1 out2 g2,
      playFrames (tableMem 100 [0, 5, 9, 12]) 20 [(false, 7), (true, 10)]
          (WaveGenerator.fresh.setWave 100 ([0, 5, 9, 12] : List Nat).length 3 40000)
        = Outcome.ok (out1, g1) ∧
      playFrames (tableMem 100 [0, 5, 9, 12]) 20 [(true, 9)] g1.clearWave
        = Outcome.ok (out2, g2) ∧
      g2.Within :=
  reads_stay_in_table 100 [0, 5, 9, 12] WaveGenerator.fresh 3 40000 20 [(false, 7), (true, 10)]
    [(true, 9)] (by decide) (by decide) (by decide) (by decide)



/-! ## The average period -/

/-- For the base-octave pitches, the exact period `SAMPLERATE/frequency` exceeds
`4 * L + 2 * u / WAVEPARTERRORMAX` by more than -1 and less than 3 (cross-multiplied), and
by less than 1 in absolute value exactly for the pitches 21, 22, 23, 25 and 27. -/
theorem average_bounds : ∀ p < 33, 21 ≤ p →
    (4 * quarterSize p * WAVEPARTERRORMAX + 2 * sampleErrorOf p) * periodDen p
      < periodNum p * WAVEPARTERRORMAX + WAVEPARTERRORMAX * periodDen p ∧
    periodNum p * WAVEPARTERRORMAX
      < (4 * quarterSize p * WAVEPARTERRORMAX + 2 * sampleErrorOf p) * periodDen p
        + 3 * WAVEPARTERRORMAX * periodDen p ∧
    (periodNum p * WAVEPARTERRORMAX
      < (4 * quarterSize p * WAVEPARTERRORMAX + 2 * sampleErrorOf p) * periodDen p
        + WAVEPARTERRORMAX * periodDen p ↔
      (p = 21 ∨ p = 22 ∨ p = 23 ∨ p = 25 ∨ p = 27)) := by
  decide

/-- C22 (counterexample). After `begin`, pitch 24 has table length 1467, stride 1 and
correction unit 49294, so `4 * L + 2 * u / WAVEPARTERRORMAX = 5869.97...`, while
`SAMPLERATE/frequency(24) = 5870.98...`: the difference is more than one sample. -/
theorem average_period_misses_by_more_than_one :
    ∃ f1, WaveFactory.begin (fun _ _ => 0) (fun _ _ => 0) 95 (WaveFactory.zero 1000)
        = Outcome.ok f1 ∧
      (f1.notes 24).sampleSizes 0 = 1467 ∧ (f1.notes 24).delta = 1 ∧
      (f1.notes 24).sampleErrors 0 = 49294 ∧
      ((4 * (f1.notes 24).sampleSizes 0 * WAVEPARTERRORMAX
          + 2 * ((f1.notes 24).sampleErrors 0 : Int)) * periodDen 24
        + WAVEPARTERRORMAX * periodDen 24 < periodNum 24 * WAVEPARTERRORMAX) := by
  obtain ⟨f1, hrun, hbase, -, -, -⟩ :=
    begin_spec (fun _ _ => 0) (fun _ _ => 0) 95 (le_refl _) (WaveFactory.zero 1000)
  have h24 := hbase 24 (by decide) (by decide)
  have hq : quarterSize 24 = 1467 := by decide
  have he : sampleErrorOf 24 = 49294 := by decide
  have hs : (f1.notes 24).sampleSizes 0 = 1467 := by
    rw [(h24.2.2 0).1]
    exact congrArg Nat.cast hq
  have hu : (f1.notes 24).sampleErrors 0 = 49294 := by
    rw [(h24.2.2 0).2.1]
    exact he
  refine ⟨f1, hrun, hs, h24.1, hu, ?_⟩
  rw [hs, hu]
  decide

/-- C22 (amended). After `begin`, for every base-octave pitch `p` in [21,32] and every
style, with `L` the table length and `u` the correction unit of the entry, the exact
period `SAMPLERATE/frequency(p) = periodNum p / periodDen p` satisfies
`-1 < SAMPLERATE/frequency(p) - (4 * L + 2 * u / WAVEPARTERRORMAX) < 3`
(cross-multiplied), and the difference is below one sample exactly for the pitches 21,
22, 23, 25 and 27. -/
theorem average_period_within_three (sinusSample triangleSample : Nat → Nat → Nat)
    (start : Int) (fuel : Nat) (hfuel : 95 ≤ fuel) :
    ∃ f1, WaveFactory.begin sinusSample triangleSample fuel (WaveFactory.zero start)
        = Outcome.ok f1 ∧
      ∀ p : Fin 128, 21 ≤ p.val → p.val ≤ 32 → ∀ s : Fin 3,
        (f1.notes p).delta = 1 ∧
        (4 * (f1.notes p).sampleSizes s * WAVEPARTERRORMAX
            + 2 * ((f1.notes p).sampleErrors s : Int)) * periodDen p.val
          < periodNum p.val * WAVEPARTERRORMAX + WAVEPARTERRORMAX * periodDen p.val ∧
        (periodNum p.val * WAVEPARTERRORMAX : Int)
          < (4 * (f1.notes p).sampleSizes s * WAVEPARTERRORMAX
              + 2 * ((f1.notes p).sampleErrors s : Int)) * periodDen p.val
            + 3 * WAVEPARTERRORMAX * periodDen p.val ∧
        ((periodNum p.val * WAVEPARTERRORMAX : Int)
          < (4 * (f1.notes p).sampleSizes s * WAVEPARTERRORMAX
              + 2 * ((f1.notes p).sampleErrors s : Int)) * periodDen p.val
            + WAVEPARTERRORMAX * periodDen p.val ↔
          (p.val = 21 ∨ p.val = 22 ∨ p.val = 23 ∨ p.val = 25 ∨ p.val = 27)) := by
  obtain ⟨f1, hrun, hbase, -, -, -⟩ :=
    begin_spec sinusSample triangleSample fuel hfuel (WaveFactory.zero start)
  refine ⟨f1, hrun, ?_⟩
  intro p h21 h32 s
  have hb := hbase p h21 (by omega)
  obtain ⟨b1, b2, b3⟩ := average_bounds p.val (by omega) h21
  rw [(hb.2.2 s).1, (hb.2.2 s).2.1]
  refine ⟨hb.1, ?_, ?_, ?_⟩
  · exact_mod_cast b1
  · exact_mod_cast b2
  · rw [← b3]
    norm_cast

theorem average_period_within_three_witness :
    ∃ f1, WaveFactory.begin (fun _ _ => 0) (fun _ _ => 0) 95 (WaveFactory.zero 1000)
        = Outcome.ok f1 ∧
      ∀ p : Fin 128, 21 ≤ p.val → p.val ≤ 32 → ∀ s : Fin 3,
        (f1.notes p).delta = 1 ∧
        (4 * (f1.notes p).sampleSizes s * WAVEPARTERRORMAX
            + 2 * ((f1.notes p).sampleErrors s : Int)) * periodDen p.val
          < periodNum p.val * WAVEPARTERRORMAX + WAVEPARTERRORMAX * periodDen p.val ∧
        (periodNum p.val * WAVEPARTERRORMAX : Int)
          < (4 * (f1.notes p).sampleSizes s * WAVEPARTERRORMAX
              + 2 * ((f1.notes p).sampleErrors s : Int)) * periodDen p.val
            + 3 * WAVEPARTERRORMAX * periodDen p.val ∧
        ((periodNum p.val * WAVEPARTERRORMAX : Int)
          < (4 * (f1.notes p).sampleSizes s * WAVEPARTERRORMAX
              + 2 * ((f1.notes p).sampleErrors s : Int)) * periodDen p.val
            + WAVEPARTERRORMAX * periodDen p.val ↔
          (p.val = 21 ∨ p.val = 22 ∨ p.val = 23 ∨ p.val = 25 ∨ p.val = 27)) :=
  average_period_within_three (fun _ _ => 0) (fun _ _ => 0) 1000 95 (by decide)


/-! ## Passes with any stride -/

theorem tableMem_getD (w : Int) (T : List Nat) (k : Nat) (hk : k < T.length) :
    tableMem w T (w + k) = some (T.getD k 0) := by
  rw [tableMem_read w T k hk]
  simp [List.getD, List.getElem?_eq_getElem hk]

/-- A forward pass from offset `i0` with stride `d` emits the words at the offsets
`i0 + k * d`, as long as they are in the table. -/
theorem forward_stride (w : Int) (T : List Nat) (g : WaveGenerator) (s e : Nat) (d : Nat)
    (hs : s = 1 ∨ s = 3) (hend : g.toEndWave = w + (T.length - 1)) (hdelta : g.delta = d)
    (n : Nat) : ∀ i0 : Nat, (∀ k : Nat, k < n → i0 + k * d < T.length) →
      Emits (tableMem w T) (g.inPass s (w + i0) e)
        ((List.range n).map (fun k => if s = 1 then T.getD (i0 + k * d) 0
          else neg32 (T.getD (i0 + k * d) 0)))
        (g.inPass s (w + i0 + n * d) e) := by
  induction n with
  | zero =>
    intro i0 _
    have h0 : w + (i0 : Int) + ((0 : Nat) : Int) * d = w + i0 := by simp
    rw [h0]
    exact Emits.nil _
  | succ n ih =>
    intro i0 hin
    have hlt : i0 < T.length := by
      have := hin 0 (Nat.succ_pos n)
      simpa using this
    rw [List.range_succ_eq_map, List.map_cons, List.map_map]
    have hstep := microStep_forward (tableMem w T) g s (w + i0) e (T.getD i0 0) hs
      (by rw [hend]; omega) (tableMem_getD w T i0 hlt)
    have hnext := ih (i0 + d) (fun k hk => by
      have := hin (k + 1) (by omega)
      rw [Nat.succ_mul] at this
      omega)
    have hcast : w + ((i0 + d : Nat) : Int) = w + (i0 : Int) + g.delta := by
      rw [hdelta]
      push_cast
      ring
    have hcast2 : w + ((i0 + d : Nat) : Int) + (n : Int) * d
        = w + (i0 : Int) + ((n + 1 : Nat) : Int) * d := by
      push_cast
      ring
    rw [hcast2, hcast] at hnext
    have hfun : ((fun k => if s = 1 then T.getD (i0 + k * d) 0
          else neg32 (T.getD (i0 + k * d) 0)) ∘ Nat.succ)
        = (fun k => if s = 1 then T.getD (i0 + d + k * d) 0
          else neg32 (T.getD (i0 + d + k * d) 0)) := by
      funext k
      have hk : i0 + Nat.succ k * d = i0 + d + k * d := by
        rw [Nat.succ_mul]
        omega
      simp only [Function.comp_apply, hk]
    rw [hfun]
    have hhead : (if s = 1 then T.getD (i0 + 0 * d) 0 else neg32 (T.getD (i0 + 0 * d) 0))
        = (if s = 1 then T.getD i0 0 else neg32 (T.getD i0 0)) := by
      simp
    rw [hhead]
    exact Emits.emit hstep hnext

/-- A backward pass from offset `i0` with stride `d` emits the words at the offsets
`i0 - k * d`, as long as they are in the table. -/
theorem backward_stride (w : Int) (T : List Nat) (g : WaveGenerator) (s e : Nat) (d : Nat)
    (hs : s = 2 ∨ s = 4) (hstart : g.toStartWave = w) (hdelta : g.delta = d)
    (n : Nat) : ∀ i0 : Nat, i0 < T.length → (∀ k : Nat, k < n → k * d ≤ i0) →
      Emits (tableMem w T) (g.inPass s (w + i0) e)
        ((List.range n).map (fun k => if s = 2 then T.getD (i0 - k * d) 0
          else neg32 (T.getD (i0 - k * d) 0)))
        (g.inPass s (w + i0 - n * d) e) := by
  induction n with
  | zero =>
    intro i0 _ _
    have h0 : w + (i0 : Int) - ((0 : Nat) : Int) * d = w + i0 := by simp
    rw [h0]
    exact Emits.nil _
  | succ n ih =>
    intro i0 hlt hin
    rw [List.range_succ_eq_map, List.map_cons, List.map_map]
    have hstep := microStep_backward (tableMem w T) g s (w + i0) e (T.getD i0 0) hs
      (by rw [hstart]; omega) (tableMem_getD w T i0 hlt)
    have hhead : (if s = 2 then T.getD (i0 - 0 * d) 0 else neg32 (T.getD (i0 - 0 * d) 0))
        = (if s = 2 then T.getD i0 0 else neg32 (T.getD i0 0)) := by
      simp
    rw [hhead]
    cases n with
    | zero =>
      have hcast : w + (i0 : Int) - ((0 + 1 : Nat) : Int) * d = w + (i0 : Int) - g.delta := by
        rw [hdelta]
        push_cast
        ring
      rw [hcast]
      exact Emits.emit hstep (Emits.nil _)
    | succ m =>
      have hd : d ≤ i0 := by
        have := hin 1 (by omega)
        simpa using this
      have hnext := ih (i0 - d) (by omega) (fun k hk => by
        have := hin (k + 1) (by omega)
        rw [Nat.succ_mul] at this
        omega)
      have hcast : w + ((i0 - d : Nat) : Int) = w + (i0 : Int) - g.delta := by
        rw [hdelta]
        push_cast [hd]
        ring
      have hcast2 : w + ((i0 - d : Nat) : Int) - ((m + 1 : Nat) : Int) * d
          = w + (i0 : Int) - ((m + 1 + 1 : Nat) : Int) * d := by
        push_cast [hd]
        ring
      rw [hcast2, hcast] at hnext
      have hfun : ((fun k => if s = 2 then T.getD (i0 - k * d) 0
            else neg32 (T.getD (i0 - k * d) 0)) ∘ Nat.succ)
          = (fun k => if s = 2 then T.getD (i0 - d - k * d) 0
            else neg32 (T.getD (i0 - d - k * d) 0)) := by
        funext k
        have hk : i0 - Nat.succ k * d = i0 - d - k * d := by
          rw [Nat.succ_mul]
          omega
        simp only [Function.comp_apply, hk]
      rw [hfun]
      exact Emits.emit hstep hnext

theorem indices_length (L d : Nat) :
    (upIndices L d).length = (L - 1) / d + 1 ∧ (downIndices L d).length = (L - 1) / d + 1 := by
  simp [upIndices, downIndices]

theorem downIndices_getLast (L d : Nat) :
    (downIndices L d).getLast? = some ((L - 1) % d) := by
  unfold downIndices
  rw [List.range_succ, List.map_append, List.map_singleton, List.getLast?_append,
    List.getLast?_singleton, Nat.mod_def, Nat.mul_comm]
  rfl

theorem upIndices_getLast (L d : Nat) :
    (upIndices L d).getLast? = some ((L - 1) / d * d) := by
  unfold upIndices
  rw [List.range_succ, List.map_append, List.map_singleton, List.getLast?_append,
    List.getLast?_singleton]
  rfl

/-- The backward pass visits the offsets of the forward pass in reverse exactly if the
stride divides `L - 1`. -/
theorem downIndices_reverse_iff (L d : Nat) :
    downIndices L d = (upIndices L d).reverse ↔ d ∣ L - 1 := by
  constructor
  · intro h
    have h1 := congrArg List.head? h
    rw [List.head?_reverse, upIndices_getLast] at h1
    have h2 : (downIndices L d).head? = some (L - 1) := by
      unfold downIndices
      rw [List.range_succ_eq_map]
      simp
    rw [h2] at h1
    have h3 : L - 1 = (L - 1) / d * d := Option.some.inj h1
    exact Dvd.intro_left _ h3.symm
  · intro h
    have hm : (L - 1) / d * d = L - 1 := Nat.div_mul_cancel h
    unfold downIndices upIndices
    have hrev : (List.range ((L - 1) / d + 1)).reverse
        = (List.range ((L - 1) / d + 1)).map (fun i => 0 + ((L - 1) / d + 1) - 1 - i) := by
      rw [List.range_eq_range', List.reverse_range', ← List.range_eq_range']
    rw [← List.map_reverse, hrev, List.map_map]
    apply List.map_congr_left
    intro k hk
    have hk2 : k < (L - 1) / d + 1 := List.mem_range.mp hk
    simp only [Function.comp_apply]
    have e1 : 0 + ((L - 1) / d + 1) - 1 - k = (L - 1) / d - k := by omega
    rw [e1, Nat.sub_mul, hm]

/-- C25 (counterexample). The table `[0, 5, 9, 12]` (L = 4) bound with stride 2: the
first pass (Up1) emits the words at the offsets 0 and 2, `[0, 9]`; the voice then enters
Down1 at the table end and emits the words at the offsets 3 and 1, `[12, 5]`, before it
leaves for state 3. The Down1 pass is not the Up1 pass reversed, and its last sample is
the word at offset 1, not the one at the table start. -/
theorem down_pass_is_not_up_pass_reversed :
    ∃ gA gB gC gD, Emits demoMem4 (WaveGenerator.fresh.setWave 100 4 2 0) [0, 9] gA ∧
      gA.state = 1 ∧ gA.microStep demoMem4 = Outcome.ok (gB, none) ∧ gB.state = 2 ∧
      Emits demoMem4 gB [12, 5] gC ∧ gC.state = 2 ∧
      gC.microStep demoMem4 = Outcome.ok (gD, none) ∧ gD.state = 3 ∧
      [12, 5] ≠ [0, 9].reverse ∧ [12, 5].getLast? = [0, 5, 9, 12][1]? ∧
      [12, 5].getLast? ≠ [0, 5, 9, 12][0]? :=
  ⟨_, _, _, _, Emits.emit rfl (Emits.emit rfl (Emits.nil _)), rfl, rfl, rfl,
    Emits.emit rfl (Emits.emit rfl (Emits.nil _)), rfl, rfl, rfl,
    by decide, by decide, by decide⟩

/-- C25 (amended). For a voice bound to a table `T` of `L ≥ 1` words with stride `d ≥ 1`,
with `n = (L - 1) / d + 1`: a forward pass (state `s` = 1 or 3) from the table start emits
the `n` words at the offsets `0, d, ..., (n - 1) d` and ends with the cursor past the
table end; the backward pass that follows (state `s + 1`), from the table end, emits the
`n` words at the offsets `L - 1, L - 1 - d, ..., (L - 1) mod d` and ends with the cursor
before the table start; in states 3 and 4 the words are negated. The backward pass visits
the offsets of the forward pass in reverse exactly if `d` divides `L - 1`, and then it
emits the samples of the forward pass in reverse order; its last sample is the word at
offset `(L - 1) mod d`. -/
theorem passes_visit_strided_offsets (w : Int) (T : List Nat) (g0 : WaveGenerator) (d u : Nat)
    (hL : 1 ≤ T.length) (hd : 1 ≤ d) (s e : Nat) (hs : s = 1 ∨ s = 3) :
    Emits (tableMem w T) ((g0.setWave w T.length d u).inPass s w e)
      ((upIndices T.length d).map (fun i => if s = 1 then T.getD i 0 else neg32 (T.getD i 0)))
      ((g0.setWave w T.length d u).inPass s (w + (((T.length - 1) / d + 1 : Nat) : Int) * d) e) ∧
    (g0.setWave w T.length d u).toEndWave < w + (((T.length - 1) / d + 1 : Nat) : Int) * d ∧
    Emits (tableMem w T)
      ((g0.setWave w T.length d u).inPass (s + 1) (g0.setWave w T.length d u).toEndWave e)
      ((downIndices T.length d).map
        (fun i => if s = 1 then T.getD i 0 else neg32 (T.getD i 0)))
      ((g0.setWave w T.length d u).inPass (s + 1)
        (w + ((T.length - 1 : Nat) : Int) - (((T.length - 1) / d + 1 : Nat) : Int) * d) e) ∧
    w + ((T.length - 1 : Nat) : Int) - (((T.length - 1) / d + 1 : Nat) : Int) * d
      < (g0.setWave w T.length d u).toStartWave ∧
    (upIndices T.length d).length = (T.length - 1) / d + 1 ∧
    (downIndices T.length d).length = (T.length - 1) / d + 1 ∧
    (downIndices T.length d = (upIndices T.length d).reverse ↔ d ∣ T.length - 1) ∧
    (d ∣ T.length - 1 →
      (downIndices T.length d).map (fun i => if s = 1 then T.getD i 0 else neg32 (T.getD i 0))
        = ((upIndices T.length d).map
            (fun i => if s = 1 then T.getD i 0 else neg32 (T.getD i 0))).reverse) ∧
    (downIndices T.length d).getLast? = some ((T.length - 1) % d) := by
  have hdiv : (T.length - 1) / d * d ≤ T.length - 1 := Nat.div_mul_le_self _ _
  have hlt : T.length - 1 < d * ((T.length - 1) / d + 1) := Nat.lt_mul_div_succ _ hd
  have hltZ : ((T.length - 1 : Nat) : Int) < (((T.length - 1) / d + 1 : Nat) : Int) * d := by
    rw [Nat.mul_comm] at hlt
    exact_mod_cast hlt
  have hcastL : ((T.length - 1 : Nat) : Int) = (T.length : Int) - 1 := by omega
  have hin : ∀ k : Nat, k < (T.length - 1) / d + 1 → k * d ≤ T.length - 1 := by
    intro k hk
    exact le_trans (Nat.mul_le_mul_right d (Nat.lt_succ_iff.mp hk)) hdiv
  have hF := forward_stride w T (g0.setWave w T.length d u) s e d hs rfl rfl
    ((T.length - 1) / d + 1) 0 (fun k hk => by
      have := hin k hk
      omega)
  have hB := backward_stride w T (g0.setWave w T.length d u) (s + 1) e d
    (by rcases hs with h | h <;> subst h <;> decide) rfl rfl
    ((T.length - 1) / d + 1) (T.length - 1) (by omega) hin
  have hz : w + ((0 : Nat) : Int) = w := by simp
  rw [hz] at hF
  have hup : (List.range ((T.length - 1) / d + 1)).map
        (fun k => if s = 1 then T.getD (0 + k * d) 0 else neg32 (T.getD (0 + k * d) 0))
      = (upIndices T.length d).map
        (fun i => if s = 1 then T.getD i 0 else neg32 (T.getD i 0)) := by
    unfold upIndices
    rw [List.map_map]
    apply List.map_congr_left
    intro k _
    simp only [Function.comp_apply, Nat.zero_add]
  have hdown : (List.range ((T.length - 1) / d + 1)).map
        (fun k => if s + 1 = 2 then T.getD (T.length - 1 - k * d) 0
          else neg32 (T.getD (T.length - 1 - k * d) 0))
      = (downIndices T.length d).map
        (fun i => if s = 1 then T.getD i 0 else neg32 (T.getD i 0)) := by
    unfold downIndices
    rw [List.map_map]
    apply List.map_congr_left
    intro k _
    rcases hs with h | h <;> subst h <;> rfl
  rw [hup] at hF
  rw [hdown] at hB
  have hendw : (g0.setWave w T.length d u).toEndWave = w + ((T.length - 1 : Nat) : Int) := by
    show w + ((T.length : Int) - 1) = w + ((T.length - 1 : Nat) : Int)
    rw [hcastL]
  refine ⟨hF, ?_, ?_, ?_, (indices_length _ _).1, (indices_length _ _).2,
    downIndices_reverse_iff _ _, ?_, downIndices_getLast _ _⟩
  · rw [hendw]
    omega
  · rw [hendw]
    exact hB
  · show w + ((T.length - 1 : Nat) : Int) - (((T.length - 1) / d + 1 : Nat) : Int) * d < w
    omega
  · intro hdvd
    rw [(downIndices_reverse_iff _ _).mpr hdvd, List.map_reverse]

theorem passes_visit_strided_offsets_witness :
    Emits (tableMem 100 [0, 5, 9, 12])
      ((WaveGenerator.fresh.setWave 100 ([0, 5, 9, 12] : List Nat).length (3 : Nat) 0).inPass
        3 100 0)
      [neg32 0, neg32 12]
      ((WaveGenerator.fresh.setWave 100 ([0, 5, 9, 12] : List Nat).length (3 : Nat) 0).inPass
        3 106 0) ∧
    Emits (tableMem 100 [0, 5, 9, 12])
      ((WaveGenerator.fresh.setWave 100 ([0, 5, 9, 12] : List Nat).length (3 : Nat) 0).inPass
        4 103 0)
      [neg32 12, neg32 0]
      ((WaveGenerator.fresh.setWave 100 ([0, 5, 9, 12] : List Nat).length (3 : Nat) 0).inPass
        4 97 0) ∧
    (downIndices 4 3 = (upIndices 4 3).reverse ↔ 3 ∣ 4 - 1) ∧
    (downIndices 4 3).getLast? = some 0 :=
  have h := passes_visit_strided_offsets 100 [0, 5, 9, 12] WaveGenerator.fresh 3 0
    (by decide) (by decide) 3 0 (Or.inr rfl)
  ⟨h.1, h.2.2.1, h.2.2.2.2.2.2.1, h.2.2.2.2.2.2.2.2⟩


/-! ## The accumulator accounts for the extra samples -/

theorem sub32_exact (a b : Nat) (hb : b ≤ a) (ha : a < UINT32) : sub32 a b = a - b := by
  unfold sub32
  have hb2 : b < UINT32 := lt_of_le_of_lt hb ha
  rw [Nat.mod_eq_of_lt ha, Nat.mod_eq_of_lt hb2]
  have e : a + (UINT32 - b) = (a - b) + UINT32 := by omega
  rw [e, Nat.add_mod_right]
  exact Nat.mod_eq_of_lt (by omega)

/-- One micro step keeps the accumulator invariant and the balance between the
accumulator, the forward passes and the extra samples. -/
theorem microStep_account (mem : Mem) (g g1 : WaveGenerator) (o : Option Nat)
    (h : g.microStep mem = Outcome.ok (g1, o)) (hinv : g.ErrInv) :
    g1.ErrInv ∧ g1.sampleError = g.sampleError ∧
    g1.totalError + WAVEPARTERRORMAX * extraCount g
      = g.totalError + g.sampleError * passExit g o := by
  obtain ⟨hu, hhigh, hlow⟩ := hinv
  have hfwd : ∀ down extra : Nat, (extra = 5 ∨ extra = 6) → ¬ (down = 5 ∨ down = 6) →
      (g.state = 1 ∨ g.state = 3) → g1 = endForward down extra g → o = none →
      g1.ErrInv ∧ g1.sampleError = g.sampleError ∧
      g1.totalError + WAVEPARTERRORMAX * extraCount g
        = g.totalError + g.sampleError * passExit g o := by
    intro down extra hextra hdown hs hg ho
    have hns : ¬ (g.state = 5 ∨ g.state = 6) := by
      rcases hs with h1 | h1 <;> rw [h1] <;> decide
    have ht := hlow hns
    have hsum : add32 g.totalError g.sampleError = g.totalError + g.sampleError := by
      unfold add32
      apply Nat.mod_eq_of_lt
      simp only [WAVEPARTERRORMAX, UINT32] at *
      omega
    refine ⟨?_, ?_, ?_⟩
    · rw [hg]
      exact endForward_err down extra g hextra hdown hns ⟨hu, hhigh, hlow⟩
    · rw [hg]
      rfl
    · have e1 : g1.totalError = g.totalError + g.sampleError := by
        rw [hg]
        exact hsum
      have e2 : extraCount g = 0 := by
        unfold extraCount
        rw [if_neg hns]
      have e3 : passExit g o = 1 := by
        unfold passExit
        rw [if_pos ⟨hs, ho⟩]
      rw [e1, e2, e3]
      omega
  have hextra : ∀ s2 : Nat, (g.state = 5 ∨ g.state = 6) → ¬ (s2 = 5 ∨ s2 = 6) →
      g1 = { g with totalError := sub32 g.totalError WAVEPARTERRORMAX, state := s2 } →
      g1.ErrInv ∧ g1.sampleError = g.sampleError ∧
      g1.totalError + WAVEPARTERRORMAX * extraCount g
        = g.totalError + g.sampleError * passExit g o := by
    intro s2 hs hs2 hg
    obtain ⟨hgt, hle⟩ := hhigh hs
    have hsub : sub32 g.totalError WAVEPARTERRORMAX = g.totalError - WAVEPARTERRORMAX :=
      sub32_exact _ _ (le_of_lt hgt) (by
        simp only [WAVEPARTERRORMAX, UINT32] at *
        omega)
    have e1 : g1.totalError = g.totalError - WAVEPARTERRORMAX := by
      rw [hg]
      exact hsub
    have e2 : extraCount g = 1 := by
      unfold extraCount
      rw [if_pos hs]
    have e3 : passExit g o = 0 := by
      unfold passExit
      have hno : ¬ ((g.state = 1 ∨ g.state = 3) ∧ o = none) := by
        intro hc
        rcases hs with h5 | h5 <;> rw [h5] at hc <;> exact absurd hc.1 (by decide)
      rw [if_neg hno]
    have e4 : g1.state = s2 := by rw [hg]
    have e5 : g1.sampleError = g.sampleError := by rw [hg]
    refine ⟨⟨by rw [e5]; exact hu, ?_, ?_⟩, e5, ?_⟩
    · intro hc
      rw [e4] at hc
      exact absurd hc hs2
    · intro _
      rw [e1]
      omega
    · rw [e1, e2, e3]
      omega
  have hsame : g1.totalError = g.totalError → g1.sampleError = g.sampleError →
      ((g1.state = 5 ∨ g1.state = 6) → (g.state = 5 ∨ g.state = 6)) →
      ¬ (g.state = 5 ∨ g.state = 6) → ((g.state = 1 ∨ g.state = 3) → o ≠ none) →
      g1.ErrInv ∧ g1.sampleError = g.sampleError ∧
      g1.totalError + WAVEPARTERRORMAX * extraCount g
        = g.totalError + g.sampleError * passExit g o := by
    intro ht hse hst hns ho
    have e2 : extraCount g = 0 := by
      unfold extraCount
      rw [if_neg hns]
    have e3 : passExit g o = 0 := by
      unfold passExit
      rw [if_neg (fun hc => ho hc.1 hc.2)]
    refine ⟨⟨by rw [hse]; exact hu, ?_, ?_⟩, hse, ?_⟩
    · intro hc
      exact absurd (hst hc) hns
    · intro _
      rw [ht]
      exact hlow hns
    · rw [ht, e2, e3]
      omega
  rcases microStep_cases mem g g1 o h with
    ⟨hs, hg, ho⟩ | ⟨hs, -, hg, ho⟩ | ⟨hs, -, hg, ho⟩ | ⟨hs, -, hg, ho⟩ | ⟨hs, -, hg, ho⟩ |
    ⟨hs, -, hg, ho⟩ | ⟨hs, -, hg, ho⟩ | ⟨hs, hg, ho⟩ | ⟨hs, hg, ho⟩ | ⟨hs, hg, ho⟩
  · exact hsame (by rw [hg]) (by rw [hg]) (by rw [hg]; exact id) (by rw [hs]; decide)
      (by rw [hs]; intro hc; exact absurd hc (by decide))
  · exact hsame (by rw [hg]) (by rw [hg]) (by rw [hg]; exact id)
      (by rcases hs with h1 | h1 <;> rw [h1] <;> decide) (fun _ => ho)
  · exact hfwd 2 5 (Or.inl rfl) (by decide) (Or.inl hs) hg ho
  · exact hfwd 4 6 (Or.inr rfl) (by decide) (Or.inr hs) hg ho
  · exact hsame (by rw [hg]) (by rw [hg]) (by rw [hg]; exact id)
      (by rcases hs with h1 | h1 <;> rw [h1] <;> decide)
      (by intro hc; rcases hs with h1 | h1 <;> rw [h1] at hc <;> exact absurd hc (by decide))
  · refine hsame (by rw [hg]) (by rw [hg]) ?_ (by rw [hs]; decide)
      (by rw [hs]; intro hc; exact absurd hc (by decide))
    rw [hg]
    intro hc
    exfalso
    cases hstop : g.stopping <;> simp [hstop] at hc
  · refine hsame (by rw [hg]) (by rw [hg]) ?_ (by rw [hs]; decide)
      (by rw [hs]; intro hc; exact absurd hc (by decide))
    rw [hg]
    intro hc
    exfalso
    simp at hc
  · exact hextra 2 (Or.inl hs) (by decide) hg
  · exact hextra 4 (Or.inr hs) (by decide) hg
  · exact hsame (by rw [hg]) (by rw [hg]) (by rw [hg]; exact id) (by omega)
      (by intro hc; omega)

/-- The balance along any sequence of stop requests and micro steps. -/
theorem tally_account (mem : Mem) (events : List Bool) : ∀ (g g1 : WaveGenerator)
    (passes extras : Nat), g.ErrInv → tally mem events g = Outcome.ok (g1, passes, extras) →
    g1.ErrInv ∧ g1.sampleError = g.sampleError ∧
    g1.totalError + WAVEPARTERRORMAX * extras = g.totalError + g.sampleError * passes := by
  induction events with
  | nil =>
    intro g g1 passes extras hinv h
    simp only [tally, Outcome.ok.injEq, Prod.mk.injEq] at h
    obtain ⟨hg, hp, hx⟩ := h
    subst hg
    subst hp
    subst hx
    exact ⟨hinv, rfl, by omega⟩
  | cons ev events ih =>
    intro g g1 passes extras hinv h
    cases ev with
    | true =>
      have hc : g.clearWave.ErrInv := hinv
      exact ih g.clearWave g1 passes extras hc h
    | false =>
      simp only [tally] at h
      cases hm : g.microStep mem with
      | ok p =>
        obtain ⟨g2, o⟩ := p
        rw [hm] at h
        simp only at h
        cases ht : tally mem events g2 with
        | ok q =>
          obtain ⟨g3, F, X⟩ := q
          rw [ht] at h
          simp only [Outcome.ok.injEq, Prod.mk.injEq] at h
          obtain ⟨hg, hp, hx⟩ := h
          obtain ⟨hinv2, hse2, hbal2⟩ := microStep_account mem g g2 o hm hinv
          obtain ⟨hinv3, hse3, hbal3⟩ := ih g2 g3 F X hinv2 ht
          subst hg
          subst hp
          subst hx
          refine ⟨hinv3, hse3.trans hse2, ?_⟩
          rw [hse2] at hbal3
          rw [Nat.mul_add, Nat.mul_add]
          omega
        | fault =>
          rw [ht] at h
          cases h
        | fuel =>
          rw [ht] at h
          cases h
      | fault =>
        rw [hm] at h
        cases h
      | fuel =>
        rw [hm] at h
        cases h

theorem tally_append (mem : Mem) (e1 e2 : List Bool) : ∀ (g g1 g2 : WaveGenerator)
    (F1 X1 F2 X2 : Nat), tally mem e1 g = Outcome.ok (g1, F1, X1) →
    tally mem e2 g1 = Outcome.ok (g2, F2, X2) →
    tally mem (e1 ++ e2) g = Outcome.ok (g2, F2 + F1, X2 + X1) := by
  induction e1 with
  | nil =>
    intro g g1 g2 F1 X1 F2 X2 h1 h2
    simp only [tally, Outcome.ok.injEq, Prod.mk.injEq] at h1
    obtain ⟨hg, hp, hx⟩ := h1
    subst hg
    subst hp
    subst hx
    simpa using h2
  | cons ev e1 ih =>
    intro g g1 g2 F1 X1 F2 X2 h1 h2
    cases ev with
    | true => exact ih g.clearWave g1 g2 F1 X1 F2 X2 h1 h2
    | false =>
      simp only [tally, List.cons_append] at h1 ⊢
      cases hm : g.microStep mem with
      | ok p =>
        obtain ⟨g3, o⟩ := p
        rw [hm] at h1
        simp only at h1 ⊢
        cases ht : tally mem e1 g3 with
        | ok q =>
          obtain ⟨g4, F, X⟩ := q
          rw [ht] at h1
          simp only [Outcome.ok.injEq, Prod.mk.injEq] at h1
          obtain ⟨hg, hp, hx⟩ := h1
          subst hg
          subst hp
          subst hx
          have hrec := ih g3 g4 g2 F X F2 X2 ht h2
          rw [List.append_eq, hrec]
          simp only [Nat.add_assoc]
        | fault =>
          rw [ht] at h1
          cases h1
        | fuel =>
          rw [ht] at h1
          cases h1
      | fault =>
        rw [hm] at h1
        cases h1
      | fuel =>
        rw [hm] at h1
        cases h1

/-- Every run of the fill functions is a sequence of micro steps. -/
theorem emits_tally {mem : Mem} {g g1 : WaveGenerator} {out : List Nat}
    (h : Emits mem g out g1) :
    ∃ n passes extras, tally mem (List.replicate n false) g = Outcome.ok (g1, passes, extras) ∧
      extras ≤ out.length := by
  induction h with
  | nil g => exact ⟨0, 0, 0, rfl, Nat.le_refl _⟩
  | @emit g g1 g2 v out hm _ ih =>
    obtain ⟨n, F, X, ht, hx⟩ := ih
    refine ⟨n + 1, F + passExit g (some v), X + extraCount g, ?_, ?_⟩
    · rw [List.replicate_succ]
      simp only [tally, hm, ht]
    · unfold extraCount
      simp only [List.length_cons]
      split <;> omega
  | @quiet g g1 g2 out hm _ _ ih =>
    obtain ⟨n, F, X, ht, hx⟩ := ih
    have hx0 : extraCount g = 0 := by
      unfold extraCount
      by_cases hs : g.state = 5 ∨ g.state = 6
      · exfalso
        rcases microStep_cases mem g g1 none hm with
          ⟨-, -, ho⟩ | ⟨-, -, -, ho⟩ | ⟨h1, -⟩ | ⟨h1, -⟩ | ⟨-, -, -, ho⟩ |
          ⟨h1, -⟩ | ⟨h1, -⟩ | ⟨-, -, ho⟩ | ⟨-, -, ho⟩ | ⟨h1, -⟩
        · cases ho
        · exact ho rfl
        · omega
        · omega
        · exact ho rfl
        · omega
        · omega
        · exact ho rfl
        · exact ho rfl
        · omega
      · rw [if_neg hs]
    refine ⟨n + 1, F + passExit g none, X + extraCount g, ?_, ?_⟩
    · rw [List.replicate_succ]
      simp only [tally, hm, ht]
    · rw [hx0]
      exact hx

theorem setWave_errInv (g0 : WaveGenerator) (w L d : Int) (u : Nat)
    (hu : u ≤ WAVEPARTERRORMAX) : (g0.setWave w L d u).ErrInv := by
  refine ⟨hu, ?_, ?_⟩
  · intro hs
    exfalso
    simp [WaveGenerator.setWave] at hs
  · intro _
    exact Nat.zero_le _

/-- C29. For a voice bound by `setWave` with a correction unit `u ≤ WAVEPARTERRORMAX`,
after any sequence of micro steps of the fill functions and stop requests, with `passes`
the number of forward passes completed (exits from states 1 and 3) and `extras` the
number of extra samples emitted (in states 5 and 6) since the bind:
`totalError + WAVEPARTERRORMAX * extras = u * passes`, and `totalError` is at most
`2 * WAVEPARTERRORMAX`, so `extras` differs from `passes * u / WAVEPARTERRORMAX` by at
most 2. Every state the voice is in after a run of the fill functions, with or without
a stop request on the way, is reached by such a sequence, in which the extra samples are
among the samples emitted. -/
theorem accumulator_balances_extra_samples (mem : Mem) (g0 : WaveGenerator) (w L d : Int)
    (u : Nat) (hu : u ≤ WAVEPARTERRORMAX) :
    (∀ (events : List Bool) (g1 : WaveGenerator) (passes extras : Nat),
      tally mem events (g0.setWave w L d u) = Outcome.ok (g1, passes, extras) →
      g1.totalError + WAVEPARTERRORMAX * extras = u * passes ∧
      g1.totalError ≤ 2 * WAVEPARTERRORMAX ∧
      WAVEPARTERRORMAX * extras ≤ u * passes ∧
      u * passes ≤ WAVEPARTERRORMAX * (extras + 2)) ∧
    (∀ (out1 : List Nat) (g1 : WaveGenerator), Emits mem (g0.setWave w L d u) out1 g1 →
      (∃ n passes extras, tally mem (List.replicate n false) (g0.setWave w L d u)
          = Outcome.ok (g1, passes, extras) ∧ extras ≤ out1.length) ∧
      ∀ (out2 : List Nat) (g2 : WaveGenerator), Emits mem g1.clearWave out2 g2 →
        ∃ events passes extras, tally mem events (g0.setWave w L d u)
          = Outcome.ok (g2, passes, extras) ∧ extras ≤ out1.length + out2.length) := by
  have hinv := setWave_errInv g0 w L d u hu
  constructor
  · intro events g1 passes extras h
    obtain ⟨⟨-, hhigh, hlow⟩, -, hbal⟩ :=
      tally_account mem events _ g1 passes extras hinv h
    have hbal2 : g1.totalError + WAVEPARTERRORMAX * extras = u * passes := by
      rw [hbal]
      show 0 + u * passes = u * passes
      omega
    have hle : g1.totalError ≤ 2 * WAVEPARTERRORMAX := by
      by_cases hs : g1.state = 5 ∨ g1.state = 6
      · exact (hhigh hs).2
      · exact le_trans (hlow hs) (by omega)
    refine ⟨hbal2, hle, by omega, ?_⟩
    rw [Nat.mul_add]
    omega
  · intro out1 g1 h1
    obtain ⟨n, F1, X1, ht1, hx1⟩ := emits_tally h1
    refine ⟨⟨n, F1, X1, ht1, hx1⟩, ?_⟩
    intro out2 g2 h2
    obtain ⟨m, F2, X2, ht2, hx2⟩ := emits_tally h2
    have ht2b : tally mem (true :: List.replicate m false) g1 = Outcome.ok (g2, F2, X2) := ht2
    exact ⟨_, _, _, tally_append mem _ _ _ _ _ _ _ _ _ ht1 ht2b, by omega⟩

theorem accumulator_balances_extra_samples_witness :
    tally demoMem (List.replicate 13 false) (WaveGenerator.fresh.setWave 100 3 1 40000)
        = Outcome.ok ({ WaveGenerator.fresh.setWave 100 3 1 40000 with
            state := 4, toWave := 102, totalError := 30000 }, 2, 1) ∧
      30000 + WAVEPARTERRORMAX * 1 = 40000 * 2 ∧
      30000 ≤ 2 * WAVEPARTERRORMAX ∧
      WAVEPARTERRORMAX * 1 ≤ 40000 * 2 ∧
      40000 * 2 ≤ WAVEPARTERRORMAX * (1 + 2) :=
  ⟨by decide,
    (accumulator_balances_extra_samples demoMem WaveGenerator.fresh 100 3 1 40000
      (by decide)).1 (List.replicate 13 false)
      { WaveGenerator.fresh.setWave 100 3 1 40000 with
        state := 4, toWave := 102, totalError := 30000 } 2 1 (by decide)⟩


/-! ## The two lanes of emitted and mixed words -/

/-- A sample a micro step emits is STEREOBASE, a table word, or a negated table word. -/
theorem microStep_value (mem : Mem) (g g1 : WaveGenerator) (v : Nat)
    (h : g.microStep mem = Outcome.ok (g1, some v)) :
    v = STEREOBASE ∨ ∃ a t, mem a = some t ∧ (v = t ∨ v = neg32 t) := by
  unfold WaveGenerator.microStep at h
  split at h
  · simp only [Outcome.ok.injEq, Prod.mk.injEq, Option.some.injEq] at h
    exact Or.inl h.2.symm
  · split at h
    · split at h
      · cases h
      · rename_i t ht
        simp only [Outcome.ok.injEq, Prod.mk.injEq, Option.some.injEq] at h
        exact Or.inr ⟨_, t, ht, Or.inl h.2.symm⟩
    · simp only [Outcome.ok.injEq, Prod.mk.injEq] at h
      exact absurd h.2 (by simp)
  · split at h
    · split at h
      · cases h
      · rename_i t ht
        simp only [Outcome.ok.injEq, Prod.mk.injEq, Option.some.injEq] at h
        exact Or.inr ⟨_, t, ht, Or.inl h.2.symm⟩
    · simp only [Outcome.ok.injEq, Prod.mk.injEq] at h
      exact absurd h.2 (by simp)
  · split at h
    · split at h
      · cases h
      · rename_i t ht
        simp only [Outcome.ok.injEq, Prod.mk.injEq, Option.some.injEq] at h
        exact Or.inr ⟨_, t, ht, Or.inr h.2.symm⟩
    · simp only [Outcome.ok.injEq, Prod.mk.injEq] at h
      exact absurd h.2 (by simp)
  · split at h
    · split at h
      · cases h
      · rename_i t ht
        simp only [Outcome.ok.injEq, Prod.mk.injEq, Option.some.injEq] at h
        exact Or.inr ⟨_, t, ht, Or.inr h.2.symm⟩
    · simp only [Outcome.ok.injEq, Prod.mk.injEq] at h
      exact absurd h.2 (by simp)
  · split at h
    · cases h
    · rename_i t ht
      simp only [Outcome.ok.injEq, Prod.mk.injEq, Option.some.injEq] at h
      exact Or.inr ⟨_, t, ht, Or.inl h.2.symm⟩
  · split at h
    · cases h
    · rename_i t ht
      simp only [Outcome.ok.injEq, Prod.mk.injEq, Option.some.injEq] at h
      exact Or.inr ⟨_, t, ht, Or.inr h.2.symm⟩
  · simp only [Outcome.ok.injEq, Prod.mk.injEq] at h
    exact absurd h.2 (by simp)

theorem emits_values {mem : Mem} {g g1 : WaveGenerator} {out : List Nat}
    (h : Emits mem g out g1) :
    ∀ v ∈ out, v = STEREOBASE ∨ ∃ a t, mem a = some t ∧ (v = t ∨ v = neg32 t) := by
  induction h with
  | nil => simp
  | emit hm _ ih =>
    intro x hx
    rcases List.mem_cons.mp hx with hx | hx
    · rw [hx]
      exact microStep_value mem _ _ _ hm
    · exact ih x hx
  | quiet _ _ _ ih => exact ih

/-- The level of a packed word and of its negation. -/
theorem packed_level (m : Nat) (hm : m ≤ TOP) :
    laneLevel (m * 65537) = m ∧ ((m * 65537 : Nat) : Int) = ((m : Int) * 65537) % UINT32 ∧
    laneLevel (neg32 (m * 65537)) = -(m : Int) ∧
    ((neg32 (m * 65537) : Nat) : Int) = (-(m : Int) * 65537) % UINT32 := by
  have htop : TOP = 2031 := by decide
  rw [htop] at hm
  unfold laneLevel neg32
  simp only [UINT32]
  refine ⟨?_, ?_, ?_, ?_⟩
  · split <;> omega
  · omega
  · split <;> omega
  · omega

/-- The two lanes of the word `(S * 65537) mod 2^32` for a 16-bit signed `S`. -/
theorem lanes_of_level (S : Int) (W : Nat) (h1 : -32768 ≤ S) (h2 : S ≤ 32767)
    (hW : (W : Int) = (S * 65537) % UINT32) :
    ((W % 65536 : Nat) : Int) = S % 65536 ∧
    ((W / 65536 : Nat) : Int) = (if 0 ≤ S then S else S - 1) % 65536 ∧
    (0 ≤ S → W / 65536 = W % 65536) ∧ (S < 0 → W / 65536 + 1 = W % 65536) ∧
    laneLevel W = S := by
  simp only [UINT32] at hW
  unfold laneLevel
  by_cases hS : 0 ≤ S
  · have hval : (W : Int) = S * 65537 := by omega
    clear hW
    have e1 : S % 65536 = S := by omega
    have e2 : (W : Int) / 65536 = S := by
      rw [hval]
      omega
    have e3 : (W : Int) % 65536 = S := by
      rw [hval]
      omega
    rw [if_pos hS]
    clear hval
    refine ⟨by omega, by omega, by omega, by omega, ?_⟩
    split <;> omega
  · have hval : (W : Int) = S * 65537 + 4294967296 := by omega
    clear hW
    have e1 : S % 65536 = S + 65536 := by omega
    have e1b : (S - 1) % 65536 = S + 65535 := by omega
    have e2 : (W : Int) / 65536 = S + 65535 := by
      rw [hval]
      omega
    have e3 : (W : Int) % 65536 = S + 65536 := by
      rw [hval]
      omega
    rw [if_neg hS]
    clear hval
    refine ⟨by omega, by omega, by omega, by omega, ?_⟩
    split <;> omega

/-- One `PolySynth::loop` period in a state whose voices are each Idle or in play: the
call returns, voice `k` emits BUFFERSIZE samples `outs k` and is left as they and its
poll leave it, and every buffer word is the sum of the 16 samples mod 2^32. -/
theorem loop_period (mem : Mem) (s : PolySynth) (fuel : Nat)
    (hfuel : 2 * BUFFERSIZE ≤ fuel) (hlen : s.buffer.length = BUFFERSIZE)
    (hsound : ∀ k, (s.wavegenerators k).Sound mem) :
    ∃ (s1 : PolySynth) (outs : Fin 16 → List Nat) (gs : Fin 16 → WaveGenerator),
      s.loop mem fuel = Outcome.ok s1 ∧
      (∀ k : Fin 16, Emits mem (s.wavegenerators k) (outs k) (gs k) ∧
        (outs k).length = BUFFERSIZE ∧
        ∃ link, s1.wavegenerators k
          = { ((gs k).clearStopping).2 with toNextFreeWaveGenerator := link }) ∧
      s1.buffer.length = BUFFERSIZE ∧
      ∀ i : Nat, i < BUFFERSIZE → s1.buffer[i]? = some
        ((Finset.sum Finset.univ (fun k : Fin 16 => (outs k).getD i 0)) % UINT32) := by
  choose outs gs hE hL hF using fun k : Fin 16 =>
    voice_period mem (s.wavegenerators k) fuel BUFFERSIZE (hsound k) hfuel
  have hfirst : s.loopFirst mem fuel = Outcome.ok
      (s.pollVoice 0 (gs 0) (writeList (fun _ v => v) s.buffer 0 (outs 0))) := by
    unfold PolySynth.loopFirst
    rw [(hF 0 s.buffer (le_of_eq hlen.symm)).1]
  have hbuf1 : (s.pollVoice 0 (gs 0)
      (writeList (fun _ v => v) s.buffer 0 (outs 0))).buffer.length = BUFFERSIZE := by
    rw [pollVoice_buffer, writeList_length]
    exact hlen
  have hne : ∀ j : Fin 16, 1 ≤ j.val → j ≠ 0 := by
    intro j hj h
    rw [h] at hj
    exact absurd hj (by decide)
  obtain ⟨s1, hrun, hlen1, hwords, hold, hnew⟩ := loopRest_mix mem fuel s outs gs hL
    (fun k buffer hb => (hF k buffer (le_of_eq hb.symm)).2) NROFWAVEGENERATORS 1
    (s.pollVoice 0 (gs 0) (writeList (fun _ v => v) s.buffer 0 (outs 0)))
    (by decide) (by decide) hbuf1
    (fun j hj => pollVoice_other _ _ _ _ _ (hne j hj))
  refine ⟨s1, outs, gs, ?_, ?_, hlen1, ?_⟩
  · unfold PolySynth.loop
    rw [hfirst]
    exact hrun
  · intro k
    refine ⟨hE k, hL k, ?_⟩
    by_cases hk : k.val = 0
    · have hk0 : k = 0 := Fin.ext hk
      rw [hk0, hold 0 (by decide)]
      exact pollVoice_self _ _ _ _
    · exact hnew k (by omega)
  · intro i hi
    rw [hwords i hi, if_pos (by decide), pollVoice_buffer]
    have hword : (writeList (fun _ v => v) s.buffer 0 (outs 0)).getD i 0
        = (outs 0).getD i 0 := by
      rw [List.getD_eq_getElem?_getD,
        writeList_getElem _ _ _ 0 (by rw [hL 0, hlen]; omega) i,
        if_pos ⟨Nat.zero_le _, by rw [hL 0]; omega⟩]
      rfl
    have hsum : Finset.sum Finset.univ (fun k : Fin 16 => (outs k).getD i 0)
        = Finset.sum (Finset.range 16) (fun j => slotWord outs j i) := by
      rw [← Fin.sum_univ_eq_sum_range (fun j => slotWord outs j i) 16]
      exact Finset.sum_congr rfl (fun k _ => (slotWord_fin outs k i).symm)
    have hslot : slotWord outs 0 i = (outs 0).getD i 0 := slotWord_fin outs 0 i
    rw [hword, hsum, Finset.range_eq_Ico, Finset.sum_eq_sum_Ico_succ_bot (by decide : 0 < 16),
      hslot]

/-- In a memory of packed words, every emitted word is `(S * 65537) mod 2^32` for its
level `S`, which is at most TOP in absolute value. -/
theorem emitted_level (mem : Mem)
    (hmem : ∀ a v, mem a = some v → ∃ m, m ≤ TOP ∧ v = m * 65537)
    {g g1 : WaveGenerator} {out : List Nat} (h : Emits mem g out g1) (v : Nat) (hv : v ∈ out) :
    -(TOP : Int) ≤ laneLevel v ∧ laneLevel v ≤ (TOP : Int) ∧
    (v : Int) = (laneLevel v * 65537) % UINT32 := by
  have hzero := packed_level 0 (Nat.zero_le _)
  rcases emits_values h v hv with h0 | ⟨a, t, ht, hvt | hvt⟩
  · have hv0 : v = 0 * 65537 := by
      rw [h0]
      decide
    rw [hv0, hzero.1]
    exact ⟨by omega, by omega, hzero.2.1⟩
  · obtain ⟨m, hm, htm⟩ := hmem a t ht
    obtain ⟨p1, p2, -, -⟩ := packed_level m hm
    rw [hvt, htm, p1]
    exact ⟨by omega, by omega, p2⟩
  · obtain ⟨m, hm, htm⟩ := hmem a t ht
    obtain ⟨-, -, p3, p4⟩ := packed_level m hm
    rw [hvt, htm, p3]
    exact ⟨by omega, by omega, p4⟩

/-- The sum of 16 packed words mod 2^32 is the packed sum of their levels. -/
theorem mixed_level (w : Fin 16 → Nat)
    (hw : ∀ k, -(TOP : Int) ≤ laneLevel (w k) ∧ laneLevel (w k) ≤ (TOP : Int) ∧
      (w k : Int) = (laneLevel (w k) * 65537) % UINT32) :
    (((Finset.sum Finset.univ w) % UINT32 : Nat) : Int)
      = ((Finset.sum Finset.univ (fun k => laneLevel (w k))) * 65537) % UINT32 ∧
    -32768 ≤ Finset.sum Finset.univ (fun k => laneLevel (w k)) ∧
    Finset.sum Finset.univ (fun k => laneLevel (w k)) ≤ 32767 := by
  have htop : (TOP : Int) = 2031 := by decide
  have hdvd : ∀ k ∈ (Finset.univ : Finset (Fin 16)),
      ((UINT32 : Nat) : Int) ∣ (w k : Int) - laneLevel (w k) * 65537 := by
    intro k _
    have h := (hw k).2.2
    have h2 : ((UINT32 : Nat) : Int) ∣ laneLevel (w k) * 65537 - (w k : Int) :=
      Int.dvd_sub_of_emod_eq h.symm
    exact (dvd_sub_comm).mp h2
  have hsum := Finset.dvd_sum hdvd
  rw [Finset.sum_sub_distrib, ← Finset.sum_mul] at hsum
  have hup := Finset.sum_le_card_nsmul (Finset.univ : Finset (Fin 16))
    (fun k => laneLevel (w k)) (TOP : Int) (fun k _ => (hw k).2.1)
  have hlow := Finset.card_nsmul_le_sum (Finset.univ : Finset (Fin 16))
    (fun k => laneLevel (w k)) (-(TOP : Int)) (fun k _ => (hw k).1)
  simp only [Finset.card_univ, Fintype.card_fin, smul_eq_mul, nsmul_eq_mul, htop] at hup hlow
  refine ⟨?_, by omega, by omega⟩
  rw [Int.natCast_mod, Nat.cast_sum]
  exact (Int.emod_eq_emod_iff_emod_sub_eq_zero).mpr (Int.emod_eq_zero_of_dvd hsum)

theorem getD_mem (l : List Nat) (i : Nat) (hi : i < l.length) : l.getD i 0 ∈ l := by
  rw [List.getD_eq_getElem?_getD, List.getElem?_eq_getElem hi]
  exact List.getElem_mem hi

/-- C30. In a memory whose words all have two equal lanes (`m * 65537` with `m ≤ TOP`):
every word `v` a voice emits is `(S * 65537) mod 2^32` for its level `S = laneLevel v`,
`|S| ≤ TOP`, and its high lane equals the low lane if `S ≥ 0` and is one less if
`S < 0`; one `loop` period in a state of sound voices returns, and every word `W` of the
mixed buffer is `(S * 65537) mod 2^32` for the sum `S` of the levels of the 16 samples
mixed into it, a 16-bit signed value, so that the low lane of `W` is `S mod 2^16` and
the high lane is `S mod 2^16` for `S ≥ 0` but `(S - 1) mod 2^16` for `S < 0`; for any
16-bit signed `S` the word `(S * 65537) mod 2^32` has these lanes; and a negated sample
`-(m * 65537)` with `0 < m ≤ TOP` has low lane `2^16 - m` and high lane `2^16 - m - 1`. -/
theorem lanes_follow_signed_sum (mem : Mem) (s : PolySynth) (fuel : Nat)
    (hfuel : 2 * BUFFERSIZE ≤ fuel) (hlen : s.buffer.length = BUFFERSIZE)
    (hsound : ∀ k, (s.wavegenerators k).Sound mem)
    (hmem : ∀ a v, mem a = some v → ∃ m, m ≤ TOP ∧ v = m * 65537) :
    (∀ (g g1 : WaveGenerator) (out : List Nat), Emits mem g out g1 → ∀ v ∈ out,
      -(TOP : Int) ≤ laneLevel v ∧ laneLevel v ≤ (TOP : Int) ∧
      (v : Int) = (laneLevel v * 65537) % UINT32 ∧
      (0 ≤ laneLevel v → v / 65536 = v % 65536) ∧
      (laneLevel v < 0 → v / 65536 + 1 = v % 65536)) ∧
    (∃ (s1 : PolySynth) (outs : Fin 16 → List Nat) (gs : Fin 16 → WaveGenerator),
      s.loop mem fuel = Outcome.ok s1 ∧
      (∀ k : Fin 16, Emits mem (s.wavegenerators k) (outs k) (gs k) ∧
        (outs k).length = BUFFERSIZE) ∧
      ∀ i : Nat, i < BUFFERSIZE → ∃ (W : Nat) (S : Int),
        s1.buffer[i]? = some W ∧
        S = Finset.sum Finset.univ (fun k : Fin 16 => laneLevel ((outs k).getD i 0)) ∧
        (W : Int) = (S * 65537) % UINT32 ∧ -32768 ≤ S ∧ S ≤ 32767 ∧
        ((W % 65536 : Nat) : Int) = S % 65536 ∧
        ((W / 65536 : Nat) : Int) = (if 0 ≤ S then S else S - 1) % 65536) ∧
    (∀ (S : Int) (W : Nat), -32768 ≤ S → S ≤ 32767 → (W : Int) = (S * 65537) % UINT32 →
      ((W % 65536 : Nat) : Int) = S % 65536 ∧
      ((W / 65536 : Nat) : Int) = (if 0 ≤ S then S else S - 1) % 65536 ∧
      (0 ≤ S → W / 65536 = W % 65536) ∧ (S < 0 → W / 65536 + 1 = W % 65536)) ∧
    (∀ m : Nat, 0 < m → m ≤ TOP →
      neg32 (m * 65537) % 65536 = 65536 - m ∧ neg32 (m * 65537) / 65536 = 65536 - m - 1) := by
  have htop : (TOP : Int) = 2031 := by decide
  refine ⟨?_, ?_, ?_, ?_⟩
  · intro g g1 out h v hv
    obtain ⟨h1, h2, h3⟩ := emitted_level mem hmem h v hv
    obtain ⟨-, -, l3, l4, -⟩ := lanes_of_level (laneLevel v) v (by omega) (by omega) h3
    exact ⟨h1, h2, h3, l3, l4⟩
  · obtain ⟨s1, outs, gs, hrun, hvoices, -, hwords⟩ :=
      loop_period mem s fuel hfuel hlen hsound
    refine ⟨s1, outs, gs, hrun, fun k => ⟨(hvoices k).1, (hvoices k).2.1⟩, ?_⟩
    intro i hi
    obtain ⟨m1, m2, m3⟩ := mixed_level (fun k => (outs k).getD i 0) (fun k =>
      emitted_level mem hmem (hvoices k).1 _
        (getD_mem _ i (by rw [(hvoices k).2.1]; exact hi)))
    obtain ⟨l1, l2, -, -, -⟩ := lanes_of_level _ _ m2 m3 m1
    exact ⟨_, _, hwords i hi, rfl, m1, m2, m3, l1, l2⟩
  · intro S W h1 h2 hW
    obtain ⟨l1, l2, l3, l4, -⟩ := lanes_of_level S W h1 h2 hW
    exact ⟨l1, l2, l3, l4⟩
  · intro m hm0 hm
    have hm2 : m ≤ 2031 := by
      have : TOP = 2031 := by decide
      omega
    have hval : neg32 (m * 65537) = (65536 - m - 1) * 65536 + (65536 - m) := by
      unfold neg32
      simp only [UINT32]
      omega
    rw [hval]
    constructor
    · rw [Nat.mul_add_mod_of_lt (by omega)]
    · rw [Nat.add_comm, Nat.add_mul_div_right _ _ (by decide), Nat.div_eq_of_lt (by omega)]
      omega

theorem demoPacked_words :
    ∀ a v, demoPacked a = some v → ∃ m, m ≤ TOP ∧ v = m * 65537 := by
  intro a v hv
  unfold demoPacked tableMem at hv
  split at hv
  · cases hv
  · have hmem : v ∈ [0, 5 * 65537, 9 * 65537] := List.mem_iff_getElem?.mpr ⟨_, hv⟩
    simp only [List.mem_cons, List.mem_singleton, List.not_mem_nil, or_false] at hmem
    rcases hmem with h | h | h
    · exact ⟨0, by decide, by rw [h]⟩
    · exact ⟨5, by decide, h⟩
    · exact ⟨9, by decide, h⟩

theorem demoBound_sound_packed : ∀ k, (demoBound.wavegenerators k).Sound demoPacked := by
  intro k
  rw [demoBound_fields.2]
  by_cases hk : k = 0
  · subst hk
    right
    refine ⟨100, 3, 1, ?_⟩
    simp only [Function.update_same]
    exact setWave_playing demoPacked _ 100 3 1 0 (by decide) (by decide)
      (by intro k h0 h3; interval_cases k <;> decide)
  · left
    simp only [Function.update_noteq hk]
    rfl

theorem lanes_follow_signed_sum_witness :
    ∃ (s1 : PolySynth) (outs : Fin 16 → List Nat) (gs : Fin 16 → WaveGenerator),
      demoBound.loop demoPacked 512 = Outcome.ok s1 ∧
      (∀ k : Fin 16, Emits demoPacked (demoBound.wavegenerators k) (outs k) (gs k) ∧
        (outs k).length = BUFFERSIZE) ∧
      ∀ i : Nat, i < BUFFERSIZE → ∃ (W : Nat) (S : Int),
        s1.buffer[i]? = some W ∧
        S = Finset.sum Finset.univ (fun k : Fin 16 => laneLevel ((outs k).getD i 0)) ∧
        (W : Int) = (S * 65537) % UINT32 ∧ -32768 ≤ S ∧ S ≤ 32767 ∧
        ((W % 65536 : Nat) : Int) = S % 65536 ∧
        ((W / 65536 : Nat) : Int) = (if 0 ≤ S then S else S - 1) % 65536 :=
  (lanes_follow_signed_sum demoPacked demoBound 512 (by decide) demoBound_fields.1
    demoBound_sound_packed demoPacked_words).2.1


/-! ## A voice left behind by a second note-on -/

/-- A property of the object that every poll of a filled voice keeps is kept by
`PolySynth::loop`. -/
theorem loop_keeps (mem : Mem) (fuel : Nat) (P : PolySynth → Prop)
    (hP : ∀ (s : PolySynth) (X : Fin 16) (g1 : WaveGenerator) (buffer1 : List Nat), P s →
      (s.wavegenerators X).SameBinding g1 → (s.wavegenerators X).RunTransition g1 →
      P (s.pollVoice X g1 buffer1))
    (s s1 : PolySynth) (hs : P s) (h : s.loop mem fuel = Outcome.ok s1) : P s1 := by
  have hbody : ∀ (s s1 : PolySynth) (index : Fin 16), P s →
      s.loopBody mem fuel index = Outcome.ok s1 → P s1 := by
    intro s s1 index hs h
    unfold PolySynth.loopBody at h
    split at h
    · rename_i g buffer hfill
      simp only [Outcome.ok.injEq] at h
      subst h
      obtain ⟨hb, ht⟩ := addSamplesToBuffer_spec _ _ _ _ _ _ _ hfill
      exact hP s index g buffer hs hb ht
    · cases h
    · cases h
  have hrest : ∀ (count index : Nat) (s s1 : PolySynth), P s →
      PolySynth.loopRest mem fuel count index s = Outcome.ok s1 → P s1 := by
    intro count
    induction count with
    | zero =>
      intro index s s1 hs h
      simp only [PolySynth.loopRest, Outcome.ok.injEq] at h
      subst h
      exact hs
    | succ n ih =>
      intro index s s1 hs h
      simp only [PolySynth.loopRest] at h
      split at h
      · split at h
        · rename_i s2 hb
          exact ih _ _ _ (hbody _ _ _ hs hb) h
        · cases h
        · cases h
      · simp only [Outcome.ok.injEq] at h
        subst h
        exact hs
  unfold PolySynth.loop at h
  split at h
  · rename_i s2 hfirst
    refine hrest _ _ _ _ ?_ h
    unfold PolySynth.loopFirst at hfirst
    split at hfirst
    · rename_i g buffer hfill
      simp only [Outcome.ok.injEq] at hfirst
      subst hfirst
      obtain ⟨hb, ht⟩ := setSamplesInBuffer_spec _ _ _ _ _ _ _ hfill
      exact hP s 0 g buffer hs hb ht
    · cases hfirst
    · cases hfirst
  · cases h
  · cases h

theorem pollVoice_notes (s : PolySynth) (X : Fin 16) (g1 : WaveGenerator)
    (buffer1 : List Nat) :
    (s.pollVoice X g1 buffer1).notes = s.notes ∧ (s.pollVoice X g1 buffer1).style = s.style := by
  unfold PolySynth.pollVoice
  split <;> exact ⟨rfl, rfl⟩

/-- `PolySynth::loop` changes no note entry and not the style. -/
theorem loop_notes (mem : Mem) (fuel : Nat) (s s1 : PolySynth)
    (h : s.loop mem fuel = Outcome.ok s1) : s1.notes = s.notes ∧ s1.style = s.style :=
  loop_keeps mem fuel (fun t => t.notes = s.notes ∧ t.style = s.style)
    (fun t X g1 buffer1 ht _ _ =>
      ⟨(pollVoice_notes t X g1 buffer1).1.trans ht.1,
        (pollVoice_notes t X g1 buffer1).2.trans ht.2⟩)
    s s1 ⟨rfl, rfl⟩ h

theorem orphan_pollVoice (V : Fin 16) (s : PolySynth) (X : Fin 16) (g1 : WaveGenerator)
    (buffer1 : List Nat) (horph : s.Orphan V) (hb : (s.wavegenerators X).SameBinding g1)
    (ht : (s.wavegenerators X).RunTransition g1) : (s.pollVoice X g1 buffer1).Orphan V := by
  obtain ⟨hno, hstop, hstate⟩ := horph
  refine ⟨?_, ?_⟩
  · rw [(pollVoice_notes s X g1 buffer1).1]
    exact hno
  · by_cases hX : X = V
    · subst hX
      have hs1 : g1.stopping = false := hb.2.1.trans hstop
      have hz1 : g1.state ≠ 0 := by
        intro hz
        rcases ht.2.1 hz with h0 | h0
        · exact hstate h0
        · rw [hstop] at h0
          cases h0
      rw [pollVoice_keep s X g1 buffer1 (fun hc => hz1 hc.2)]
      simp only [Function.update_same]
      exact ⟨hs1, hz1⟩
    · have hV : V ≠ X := fun h => hX h.symm
      have hsame : (s.pollVoice X g1 buffer1).wavegenerators V = s.wavegenerators V :=
        pollVoice_other s X V g1 buffer1 hV
      rw [hsame]
      exact ⟨hstop, hstate⟩

theorem orphan_loop (mem : Mem) (fuel : Nat) (V : Fin 16) (s s1 : PolySynth)
    (horph : s.Orphan V) (h : s.loop mem fuel = Outcome.ok s1) : s1.Orphan V :=
  loop_keeps mem fuel (fun t => t.Orphan V)
    (fun t X g1 buffer1 ht hb hr => orphan_pollVoice V t X g1 buffer1 ht hb hr) s s1 horph h

theorem orphan_stopNote (V : Fin 16) (s s1 : PolySynth) (pitch velocity : Nat)
    (horph : s.Orphan V) (h : s.stopNote pitch velocity = Outcome.ok s1) : s1.Orphan V := by
  obtain ⟨hno, hstop, hstate⟩ := horph
  unfold PolySynth.stopNote at h
  split at h
  · cases h
  · rename_i i hi
    simp only [Outcome.ok.injEq] at h
    subst h
    refine ⟨?_, ?_⟩
    · intro j
      by_cases hj : j = i
      · subst hj
        simp
      · simp only [Function.update_noteq hj]
        exact hno j
    · simp only
      cases href : (s.notes i).toWaveGenerator with
      | none => exact ⟨hstop, hstate⟩
      | some Y =>
        have hY : V ≠ Y := fun hc => hno i (hc ▸ href)
        simp only [Function.update_noteq hY]
        exact ⟨hstop, hstate⟩

theorem orphan_startNote (V : Fin 16) (s s1 : PolySynth) (L : List (Fin 16))
    (pitch velocity : Nat) (hinv : PoolInv s L) (horph : s.Orphan V)
    (h : s.startNote pitch velocity = Outcome.ok s1) : s1.Orphan V := by
  obtain ⟨hno, hstop, hstate⟩ := horph
  cases L with
  | nil =>
    rw [startNote_none s pitch velocity (freeList_nil s hinv.free)] at h
    simp only [Outcome.ok.injEq] at h
    subst h
    exact ⟨hno, hstop, hstate⟩
  | cons X rest =>
    obtain ⟨hhead, -⟩ := freeList_cons s X rest hinv.free
    have hXV : V ≠ X := by
      intro hc
      exact hstate (hc ▸ (hinv.idle X (List.mem_cons_self _ _)).1)
    unfold PolySynth.startNote at h
    rw [hhead] at h
    simp only at h
    split at h
    · cases h
    · rename_i i hi
      split at h
      · simp only [Outcome.ok.injEq] at h
        subst h
        refine ⟨?_, ?_⟩
        · intro j
          by_cases hj : j = i
          · subst hj
            simp only [Function.update_same]
            intro hc
            exact hXV (Option.some.inj hc).symm
          · simp only [Function.update_noteq hj]
            exact hno j
        · simp only [Function.update_noteq hXV]
          exact ⟨hstop, hstate⟩
      · cases h

theorem getNote_val (pitch : Nat) (i : Fin 128) (h : WaveFactory.getNote pitch = some i) :
    i.val = pitch := by
  unfold WaveFactory.getNote at h
  split at h
  · rw [← Option.some.inj h]
  · cases h

theorem evolves_poolInv {mem : Mem} {allowed : Nat → Prop} {s s2 : PolySynth}
    (h : Evolves mem allowed s s2) (L : List (Fin 16)) (hinv : PoolInv s L) :
    ∃ L2, PoolInv s2 L2 := by
  induction h with
  | refl => exact ⟨L, hinv⟩
  | startNote pitch velocity _ _ hstep ih =>
    obtain ⟨L1, h1⟩ := ih
    exact poolInv_startNote _ _ _ _ _ h1 hstep
  | stopNote pitch velocity _ _ hstep ih =>
    obtain ⟨L1, h1⟩ := ih
    exact ⟨L1, poolInv_stopNote _ _ _ _ _ h1 hstep⟩
  | setStyle newStyle _ ih =>
    obtain ⟨L1, h1⟩ := ih
    exact ⟨L1, poolInv_setStyle _ _ _ h1⟩
  | loop fuel _ hstep ih =>
    obtain ⟨L1, h1⟩ := ih
    exact poolInv_loop _ _ _ _ _ h1 hstep

/-- No operation ever gives an orphaned voice a stop request, makes it Idle or lets a
note entry reference it. -/
theorem evolves_orphan {mem : Mem} {allowed : Nat → Prop} {s s2 : PolySynth}
    (h : Evolves mem allowed s s2) (V : Fin 16) (L : List (Fin 16)) (hinv : PoolInv s L)
    (horph : s.Orphan V) : s2.Orphan V := by
  induction h with
  | refl => exact horph
  | startNote pitch velocity hev _ hstep ih =>
    obtain ⟨L1, h1⟩ := evolves_poolInv hev L hinv
    exact orphan_startNote V _ _ L1 pitch velocity h1 ih hstep
  | stopNote pitch velocity _ _ hstep ih => exact orphan_stopNote V _ _ pitch velocity ih hstep
  | setStyle newStyle _ ih => exact ih
  | loop fuel _ hstep ih => exact orphan_loop mem fuel V _ _ ih hstep

theorem orphan_off_list (s : PolySynth) (V : Fin 16) (L : List (Fin 16)) (hinv : PoolInv s L)
    (horph : s.Orphan V) : ¬ s.onFreeList V := by
  unfold PolySynth.onFreeList
  rw [hinv.free]
  intro hV
  exact horph.2.2 (hinv.idle V hV).1

/-- Operations on other pitches leave the note entry of pitch `p` as it is. -/
theorem evolves_note {mem : Mem} {p : Fin 128} {s s2 : PolySynth}
    (h : Evolves mem (fun q => q ≠ p.val) s s2) : s2.notes p = s.notes p := by
  induction h with
  | refl => rfl
  | @startNote s1 s2 pitch velocity _ hq hstep ih =>
    rw [← ih]
    unfold PolySynth.startNote at hstep
    split at hstep
    · simp only [Outcome.ok.injEq] at hstep
      rw [hstep]
    · split at hstep
      · cases hstep
      · rename_i i hi
        have hne : p ≠ i := by
          intro hc
          exact hq ((getNote_val pitch i hi).symm.trans (congrArg Fin.val hc.symm))
        split at hstep
        · simp only [Outcome.ok.injEq] at hstep
          rw [← hstep]
          simp only [Function.update_noteq hne]
        · cases hstep
  | @stopNote s1 s2 pitch velocity _ hq hstep ih =>
    rw [← ih]
    unfold PolySynth.stopNote at hstep
    split at hstep
    · cases hstep
    · rename_i i hi
      have hne : p ≠ i := by
        intro hc
        exact hq ((getNote_val pitch i hi).symm.trans (congrArg Fin.val hc.symm))
      simp only [Outcome.ok.injEq] at hstep
      rw [← hstep]
      simp only [Function.update_noteq hne]
  | setStyle newStyle _ ih => exact ih
  | loop fuel _ hstep ih =>
    rw [← ih, (loop_notes mem fuel _ _ hstep).1]

/-- C28. With voice `V` at the head of the free list, a pitch `p` in [21,127] and one
of the three styles selected, `startNote(p)` binds `V`. After any operations that
return, other than `startNote(p)` and `stopNote(p)`, note `p` still references `V`;
if then a voice `W` is at the head of the free list, a second `startNote(p)` returns
and makes note `p` reference `W ≠ V`, and from then on, whatever calls of `startNote`,
`stopNote`, `setStyle` and `loop` follow, `V` is referenced by no note entry, has its
stop flag clear, is not Idle and is not on the free list. -/
theorem second_start_orphans_voice (mem : Mem) (s0 : PolySynth) (p : Fin 128) (V : Fin 16)
    (rest0 : List (Fin 16)) (st : Fin 3) (velocity : Nat)
    (hp : MINMIDINOTES ≤ p.val) (hstyle : s0.style = st.val)
    (hinv : PoolInv s0 (V :: rest0)) :
    ∃ sA, s0.startNote p.val velocity = Outcome.ok sA ∧
      (sA.notes p).toWaveGenerator = some V ∧
      ∀ sA1, Evolves mem (fun q => q ≠ p.val) sA sA1 →
        (sA1.notes p).toWaveGenerator = some V ∧
        ∀ (W : Fin 16) (rest : List (Fin 16)) (st2 : Fin 3) (velocity2 : Nat),
          sA1.freeList = some (W :: rest) → sA1.style = st2.val →
          ∃ sB, sA1.startNote p.val velocity2 = Outcome.ok sB ∧
            (sB.notes p).toWaveGenerator = some W ∧ W ≠ V ∧
            sB.Orphan V ∧ ¬ sB.onFreeList V ∧
            ∀ s2, Evolves mem (fun _ => True) sB s2 → s2.Orphan V ∧ ¬ s2.onFreeList V := by
  obtain ⟨sA, hA, -, -, -, hnoteA, -, -, -, -⟩ :=
    startNote_pops_head s0 velocity p V rest0 st hp hstyle hinv.free
  obtain ⟨LA, hinvA⟩ := poolInv_startNote _ _ _ _ _ hinv hA
  have hrefA : (sA.notes p).toWaveGenerator = some V := by rw [hnoteA]
  refine ⟨sA, hA, hrefA, ?_⟩
  intro sA1 hev
  have href1 : (sA1.notes p).toWaveGenerator = some V := by
    rw [evolves_note hev]
    exact hrefA
  refine ⟨href1, ?_⟩
  intro W rest st2 velocity2 hfree hstyle2
  obtain ⟨L1, hinv1⟩ := evolves_poolInv hev LA hinvA
  have hL1 : L1 = W :: rest := Option.some.inj (hinv1.free.symm.trans hfree)
  obtain ⟨hVL, hVstop, hVstate⟩ := hinv1.bound p V href1
  have hWV : W ≠ V := by
    intro hc
    apply hVL
    rw [hL1, ← hc]
    exact List.mem_cons_self _ _
  obtain ⟨sB, hB, -, -, hothers, hnoteB, hnotes, -, -, -⟩ :=
    startNote_pops_head sA1 velocity2 p W rest st2 hp hstyle2 hfree
  obtain ⟨LB, hinvB⟩ := poolInv_startNote _ _ _ _ _ hinv1 hB
  have horph : sB.Orphan V := by
    refine ⟨?_, ?_, ?_⟩
    · intro i hi
      by_cases hip : i = p
      · rw [hip, hnoteB] at hi
        exact hWV (Option.some.inj hi)
      · rw [hnotes i hip] at hi
        exact hip (hinv1.unique i p V hi href1)
    · rw [hothers V (fun hc => hWV hc.symm)]
      exact hVstop
    · rw [hothers V (fun hc => hWV hc.symm)]
      exact hVstate
  refine ⟨sB, hB, by rw [hnoteB], hWV, horph, orphan_off_list sB V LB hinvB horph, ?_⟩
  intro s2 hev2
  have horph2 := evolves_orphan hev2 V LB hinvB horph
  obtain ⟨L2, hinv2⟩ := evolves_poolInv hev2 LB hinvB
  exact ⟨horph2, orphan_off_list s2 V L2 hinv2 horph2⟩

theorem second_start_orphans_voice_witness :
    ∃ sA sB, (PolySynth.initial demoTables).startNote 69 100 = Outcome.ok sA ∧
      (sA.notes 69).toWaveGenerator = some 0 ∧
      sA.startNote 69 100 = Outcome.ok sB ∧ (sB.notes 69).toWaveGenerator = some 1 ∧
      sB.Orphan 0 ∧ ¬ sB.onFreeList 0 ∧
      ∀ s2, Evolves demoMem (fun _ => True) sB s2 → s2.Orphan 0 ∧ ¬ s2.onFreeList 0 := by
  obtain ⟨sA, hA, hrefA, hrest⟩ := second_start_orphans_voice demoMem
    (PolySynth.initial demoTables) 69 0 [1, 2, 3, 4, 5, 6, 7, 8, 9, 10, 11, 12, 13, 14, 15] 1 100
    (by decide) rfl (poolInv_initial demoTables)
  obtain ⟨sA2, hA2, hfreeA, -, -, -, -, -, hstyleA, -⟩ := startNote_pops_head
    (PolySynth.initial demoTables) 100 69 0 [1, 2, 3, 4, 5, 6, 7, 8, 9, 10, 11, 12, 13, 14, 15] 1
    (by decide) rfl (poolInv_initial demoTables).free
  have hsame : sA2 = sA := Outcome.ok.inj (hA2.symm.trans hA)
  subst hsame
  obtain ⟨-, h2⟩ := hrest sA2 (Evolves.refl _)
  obtain ⟨sB, hB, hrefB, -, horph, hoff, hall⟩ :=
    h2 1 [2, 3, 4, 5, 6, 7, 8, 9, 10, 11, 12, 13, 14, 15] 1 100 hfreeA (hstyleA.trans rfl)
  exact ⟨sA2, sB, hA, hrefA, hB, hrefB, horph, hoff, hall⟩


/-! ## Two voices for one pitch -/

theorem playing_congr (mem : Mem) (w L d : Int) (g g1 : WaveGenerator)
    (h1 : g1.state = g.state) (h2 : g1.toStartWave = g.toStartWave)
    (h3 : g1.toEndWave = g.toEndWave) (h4 : g1.delta = g.delta) (h5 : g1.toWave = g.toWave)
    (h : g.Playing mem w L d) : g1.Playing mem w L d := by
  unfold WaveGenerator.Playing at h ⊢
  rw [h1, h2, h3, h4, h5]
  exact h

theorem remain_congr (e : Nat) (g g1 : WaveGenerator)
    (h1 : g1.state = g.state) (h2 : g1.toStartWave = g.toStartWave)
    (h3 : g1.toEndWave = g.toEndWave) (h4 : g1.delta = g.delta) (h5 : g1.toWave = g.toWave) :
    g1.remain e = g.remain e := by
  unfold WaveGenerator.remain WaveGenerator.upLeft WaveGenerator.downLeft
    WaveGenerator.passLength
  rw [h1, h2, h3, h4, h5]

/-- A property that every period keeps holds after any number of periods. -/
theorem loops_keeps (mem : Mem) (fuel : Nat) (P : PolySynth → Prop)
    (hP : ∀ s s1 : PolySynth, P s → s.loop mem fuel = Outcome.ok s1 → P s1) (n : Nat) :
    ∀ s s1 : PolySynth, P s → s.loops mem fuel n = Outcome.ok s1 → P s1 := by
  induction n with
  | zero =>
    intro s s1 hs h
    simp only [PolySynth.loops, Outcome.ok.injEq] at h
    subst h
    exact hs
  | succ n ih =>
    intro s s1 hs h
    simp only [PolySynth.loops] at h
    split at h
    · rename_i s2 hloop
      exact ih s2 s1 (hP s s2 hs hloop) h
    · cases h
    · cases h

/-- In a fit state any number of periods return. -/
theorem loops_total (mem : Mem) (tables : Fin 128 → Note) (fuel : Nat)
    (hfuel : 2 * BUFFERSIZE ≤ fuel) (n : Nat) :
    ∀ s : PolySynth, s.Fit mem tables → ∃ s1, s.loops mem fuel n = Outcome.ok s1 := by
  induction n with
  | zero => exact fun s _ => ⟨s, rfl⟩
  | succ n ih =>
    intro s hfit
    obtain ⟨s1, -, -, hloop, -⟩ := loop_period mem s fuel hfuel hfit.1 hfit.2.1
    obtain ⟨s2, h2⟩ := ih s1 (fit_loop mem tables fuel s s1 hfit hloop)
    exact ⟨s2, by rw [loops_succ mem fuel n s s1 hloop]; exact h2⟩

/-- An Idle voice stays Idle over a period. -/
theorem loop_idle_stays (mem : Mem) (fuel : Nat) (X : Fin 16) (s s1 : PolySynth)
    (hz : (s.wavegenerators X).state = 0) (h : s.loop mem fuel = Outcome.ok s1) :
    (s1.wavegenerators X).state = 0 := by
  refine loop_keeps mem fuel (fun t => (t.wavegenerators X).state = 0) ?_ s s1 hz h
  intro t Y g1 buffer1 ht _ hr
  by_cases hY : X = Y
  · subst hY
    obtain ⟨link, hl⟩ := pollVoice_self t X g1 buffer1
    have hg1 : g1.state = 0 := hr.1 ht
    show ((t.pollVoice X g1 buffer1).wavegenerators X).state = 0
    rw [hl]
    unfold WaveGenerator.clearStopping
    split <;> exact hg1
  · show ((t.pollVoice Y g1 buffer1).wavegenerators X).state = 0
    rw [pollVoice_other t Y X g1 buffer1 hY]
    exact ht

/-- One period for a voice in play with a pending stop request: the period returns, and
the voice is either Idle with the stop flag cleared, or still in play with the request
pending and BUFFERSIZE samples closer to Idle. -/
theorem loop_release_step (mem : Mem) (tables : Fin 128 → Note) (fuel : Nat)
    (hfuel : 2 * BUFFERSIZE ≤ fuel) (w L d : Int) (V : Fin 16) (s : PolySynth)
    (hfit : s.Fit mem tables) (hp : (s.wavegenerators V).Playing mem w L d)
    (hstop : (s.wavegenerators V).stopping = true) :
    ∃ s1, s.loop mem fuel = Outcome.ok s1 ∧ (s1.wavegenerators V).Playing mem w L d ∧
      (((s1.wavegenerators V).state = 0 ∧ (s1.wavegenerators V).stopping = false) ∨
       ((s1.wavegenerators V).state ≠ 0 ∧ (s1.wavegenerators V).stopping = true ∧
        (s1.wavegenerators V).remain 1 + BUFFERSIZE ≤ (s.wavegenerators V).remain 1)) := by
  obtain ⟨s1, outs, gs, hloop, hvoices, -, -⟩ := loop_period mem s fuel hfuel hfit.1 hfit.2.1
  obtain ⟨he, hlen, link, hl⟩ := hvoices V
  obtain ⟨hp1, hs1⟩ := emits_playing mem w L d _ _ _ he hp
  have hstop1 : (gs V).stopping = true := hs1.trans hstop
  refine ⟨s1, hloop, ?_, ?_⟩
  · rw [hl]
    refine playing_congr mem w L d (gs V) _ ?_ ?_ ?_ ?_ ?_ hp1 <;>
      (unfold WaveGenerator.clearStopping; split <;> rfl)
  · by_cases hz : (gs V).state = 0
    · left
      have hc : ((gs V).clearStopping).1 = true := by
        unfold WaveGenerator.clearStopping
        simp [hstop1, hz]
      rw [hl, (clearStopping_true (gs V) hc).2.2]
      exact ⟨hz, rfl⟩
    · right
      have hc : ¬ ((gs V).clearStopping).1 = true := fun hc =>
        hz (clearStopping_true (gs V) hc).2.1
      rw [hl, (clearStopping_false (gs V) hc).2]
      refine ⟨hz, hstop1, ?_⟩
      have hrem : ({ gs V with toNextFreeWaveGenerator := link } : WaveGenerator).remain 1
          = (gs V).remain 1 := remain_congr 1 (gs V) _ rfl rfl rfl rfl rfl
      rw [hrem]
      rcases (emits_remain mem w L d _ _ _ he hp hstop).1 with h0 | hle
      · exact absurd h0 hz
      · rw [hlen] at hle
        exact hle

/-- A voice in play is in play on the same table after a period. -/
theorem loop_playing (mem : Mem) (tables : Fin 128 → Note) (fuel : Nat)
    (hfuel : 2 * BUFFERSIZE ≤ fuel) (w L d : Int) (V : Fin 16) (s s1 : PolySynth)
    (hfit : s.Fit mem tables) (hp : (s.wavegenerators V).Playing mem w L d)
    (h : s.loop mem fuel = Outcome.ok s1) : (s1.wavegenerators V).Playing mem w L d := by
  obtain ⟨s2, outs, gs, hloop, hvoices, -, -⟩ := loop_period mem s fuel hfuel hfit.1 hfit.2.1
  have hsame : s2 = s1 := Outcome.ok.inj (hloop.symm.trans h)
  subst hsame
  obtain ⟨he, -, link, hl⟩ := hvoices V
  obtain ⟨hp1, -⟩ := emits_playing mem w L d _ _ _ he hp
  rw [hl]
  refine playing_congr mem w L d (gs V) _ ?_ ?_ ?_ ?_ ?_ hp1 <;>
    (unfold WaveGenerator.clearStopping; split <;> rfl)

/-- What any number of periods keep: the state is fit, it satisfies the pool invariant,
the note entries and the style are as before, a voice in play is in play on the same
table, and an Idle voice is Idle. -/
theorem loops_frame (mem : Mem) (tables : Fin 128 → Note) (fuel : Nat)
    (hfuel : 2 * BUFFERSIZE ≤ fuel) (n : Nat) (s s1 : PolySynth) (L0 : List (Fin 16))
    (hfit : s.Fit mem tables) (hinv : PoolInv s L0)
    (h : s.loops mem fuel n = Outcome.ok s1) :
    s1.Fit mem tables ∧ (∃ L1, PoolInv s1 L1) ∧ s1.notes = s.notes ∧ s1.style = s.style ∧
    (∀ (V : Fin 16) (w L d : Int), (s.wavegenerators V).Playing mem w L d →
      (s1.wavegenerators V).Playing mem w L d) ∧
    (∀ X : Fin 16, (s.wavegenerators X).state = 0 → (s1.wavegenerators X).state = 0) := by
  refine loops_keeps mem fuel (fun t => t.Fit mem tables ∧ (∃ L1, PoolInv t L1) ∧
    t.notes = s.notes ∧ t.style = s.style ∧
    (∀ (V : Fin 16) (w L d : Int), (s.wavegenerators V).Playing mem w L d →
      (t.wavegenerators V).Playing mem w L d) ∧
    (∀ X : Fin 16, (s.wavegenerators X).state = 0 → (t.wavegenerators X).state = 0))
    ?_ n s s1 ⟨hfit, ⟨L0, hinv⟩, rfl, rfl, fun _ _ _ _ hp => hp, fun _ hz => hz⟩ h
  intro t t1 ht hloop
  obtain ⟨hfitT, ⟨LT, hinvT⟩, hnotes, hstyle, hplay, hidle⟩ := ht
  obtain ⟨hn1, hs1⟩ := loop_notes mem fuel t t1 hloop
  exact ⟨fit_loop mem tables fuel t t1 hfitT hloop, poolInv_loop mem fuel t t1 LT hinvT hloop,
    hn1.trans hnotes, hs1.trans hstyle,
    fun V w L d hp => loop_playing mem tables fuel hfuel w L d V t t1 hfitT (hplay V w L d hp)
      hloop,
    fun X hz => loop_idle_stays mem fuel X t t1 (hidle X hz) hloop⟩

/-- A voice in play with a pending stop request and fewer than `BUFFERSIZE * (n + 1)`
samples from Idle is Idle with its stop flag cleared within `n + 1` periods, whatever
the other voices do. -/
theorem release_any (mem : Mem) (tables : Fin 128 → Note) (fuel : Nat)
    (hfuel : 2 * BUFFERSIZE ≤ fuel) (w L d : Int) (V : Fin 16) (n : Nat) :
    ∀ s : PolySynth, s.Fit mem tables → (s.wavegenerators V).Playing mem w L d →
      (s.wavegenerators V).stopping = true →
      (s.wavegenerators V).remain 1 < BUFFERSIZE * (n + 1) →
      ∃ m s1, 1 ≤ m ∧ m ≤ n + 1 ∧ s.loops mem fuel m = Outcome.ok s1 ∧
        (s1.wavegenerators V).state = 0 ∧ (s1.wavegenerators V).stopping = false := by
  induction n with
  | zero =>
    intro s hfit hp hstop hrem
    obtain ⟨s1, hloop, -, hcase⟩ := loop_release_step mem tables fuel hfuel w L d V s hfit hp hstop
    rcases hcase with ⟨hz, hs⟩ | ⟨-, -, hle⟩
    · exact ⟨1, s1, le_refl _, le_refl _, by rw [loops_succ mem fuel 0 s s1 hloop]; rfl, hz, hs⟩
    · omega
  | succ n ih =>
    intro s hfit hp hstop hrem
    obtain ⟨s1, hloop, hp1, hcase⟩ :=
      loop_release_step mem tables fuel hfuel w L d V s hfit hp hstop
    rcases hcase with ⟨hz, hs⟩ | ⟨-, hs1, hle⟩
    · exact ⟨1, s1, le_refl _, by omega, by rw [loops_succ mem fuel 0 s s1 hloop]; rfl, hz, hs⟩
    · have hmul : BUFFERSIZE * (n + 1 + 1) = BUFFERSIZE * (n + 1) + BUFFERSIZE := by ring
      obtain ⟨m, s2, hm1, hm2, hrun, hz, hs⟩ :=
        ih s1 (fit_loop mem tables fuel s s1 hfit hloop) hp1 hs1 (by omega)
      exact ⟨m + 1, s2, by omega, by omega,
        by rw [loops_succ mem fuel m s s1 hloop]; exact hrun, hz, hs⟩

/-- A voice with a pending stop request that is not Idle after some periods still has
the request pending. -/
theorem loops_stopping (mem : Mem) (tables : Fin 128 → Note) (fuel : Nat)
    (hfuel : 2 * BUFFERSIZE ≤ fuel) (w L d : Int) (V : Fin 16) (k : Nat) :
    ∀ s s1 : PolySynth, s.Fit mem tables → (s.wavegenerators V).Playing mem w L d →
      (s.wavegenerators V).stopping = true → s.loops mem fuel k = Outcome.ok s1 →
      (s1.wavegenerators V).state ≠ 0 → (s1.wavegenerators V).stopping = true := by
  induction k with
  | zero =>
    intro s s1 _ _ hstop h _
    simp only [PolySynth.loops, Outcome.ok.injEq] at h
    subst h
    exact hstop
  | succ k ih =>
    intro s s1 hfit hp hstop h hne
    obtain ⟨s2, hloop, hp2, hcase⟩ :=
      loop_release_step mem tables fuel hfuel w L d V s hfit hp hstop
    rw [loops_succ mem fuel k s s2 hloop] at h
    rcases hcase with ⟨hz, -⟩ | ⟨-, hs2, -⟩
    · exfalso
      apply hne
      exact loops_keeps mem fuel (fun t => (t.wavegenerators V).state = 0)
        (fun t t1 ht hl => loop_idle_stays mem fuel V t t1 ht hl) k s2 s1 hz h
    · exact ih s2 s1 (fit_loop mem tables fuel s s2 hfit hloop) hp2 hs2 h hne

/-- C23. In a fit state on built tables that satisfies the pool invariant with the free
list `V1 :: V2 :: rest`, for a pitch `p` in [21,127] and one of the three styles:
`startNote(p)` binds `V1`; `n` periods, `stopNote(p)` and `k` further periods all
return; if `V1` is then not yet Idle, a second `startNote(p)` returns and binds a voice
`W ≠ V1`: `V1` is not Idle with its stop flag set, `W` is in state 1 with its stop flag
clear, and note `p` references `W`. After at most
`(4 * ceil(L/d) + 2) / BUFFERSIZE + 1` more periods `V1` is Idle with its stop flag
clear and on the free list, while note `p` still references `W`, which is not Idle and
has no stop request. -/
theorem same_pitch_overlap (mem : Mem) (tables : Fin 128 → Note)
    (hready : TablesReady mem tables) (fuel : Nat) (hfuel : 2 * BUFFERSIZE ≤ fuel)
    (s0 : PolySynth) (p : Fin 128) (V1 V2 : Fin 16) (rest : List (Fin 16)) (st : Fin 3)
    (velocity n k : Nat) (hp : 21 ≤ p.val) (hstyle : s0.style = st.val)
    (hfit : s0.Fit mem tables) (hinv : PoolInv s0 (V1 :: V2 :: rest)) :
    ∃ s1 s2 s3 s4,
      s0.startNote p.val velocity = Outcome.ok s1 ∧
      (s1.notes p).toWaveGenerator = some V1 ∧
      s1.loops mem fuel n = Outcome.ok s2 ∧
      s2.stopNote p.val velocity = Outcome.ok s3 ∧
      (s3.wavegenerators V1).stopping = true ∧
      s3.loops mem fuel k = Outcome.ok s4 ∧
      ((s4.wavegenerators V1).state ≠ 0 →
        ∃ W s5, s4.startNote p.val velocity = Outcome.ok s5 ∧ W ≠ V1 ∧
          (s5.notes p).toWaveGenerator = some W ∧
          (s5.wavegenerators V1).state ≠ 0 ∧ (s5.wavegenerators V1).stopping = true ∧
          (s5.wavegenerators W).state = 1 ∧ (s5.wavegenerators W).stopping = false ∧
          ∃ m s6, 1 ≤ m ∧
            m ≤ (4 * stepsLeft ((tables p).sampleSizes st - 1) (tables p).delta + 2)
              / BUFFERSIZE + 1 ∧
            s5.loops mem fuel m = Outcome.ok s6 ∧
            (s6.wavegenerators V1).state = 0 ∧ (s6.wavegenerators V1).stopping = false ∧
            s6.onFreeList V1 ∧ (s6.notes p).toWaveGenerator = some W ∧
            (s6.wavegenerators W).state ≠ 0 ∧ (s6.wavegenerators W).stopping = false) := by
  obtain ⟨hL, hd, hread⟩ := hready p hp st
  obtain ⟨e1, e2, -, e4, -⟩ := hfit.2.2 p
  have hV21 : V2 ≠ V1 := by
    intro hc
    have := (List.nodup_cons.mp hinv.nodup).1
    rw [hc] at this
    exact this (List.mem_cons_self _ _)
  have hV2idle : (s0.wavegenerators V2).state = 0 :=
    (hinv.idle V2 (List.mem_cons_of_mem _ (List.mem_cons_self _ _))).1
  -- the first note-on
  obtain ⟨s1, h1, -, hV1, hothers1, hnote1, -, -, hstyle1, -⟩ :=
    startNote_pops_head s0 velocity p V1 (V2 :: rest) st hp hstyle hinv.free
  have hfit1 := fit_startNote mem tables hready s0 s1 p.val velocity hfit h1
  obtain ⟨L1, hinv1⟩ := poolInv_startNote _ _ _ _ _ hinv h1
  have href1 : (s1.notes p).toWaveGenerator = some V1 := by rw [hnote1]
  rw [e1, e2, e4] at hV1
  have hplay1 : (s1.wavegenerators V1).Playing mem ((tables p).samples st)
      ((tables p).sampleSizes st) (tables p).delta := by
    rw [hV1]
    exact setWave_playing mem (s0.wavegenerators V1) _ _ _
      ((s0.notes p).sampleErrors st) hL hd hread
  have hidle1 : (s1.wavegenerators V2).state = 0 := by
    rw [hothers1 V2 hV21]
    exact hV2idle
  -- the periods before the note-off
  obtain ⟨s2, h2⟩ := loops_total mem tables fuel hfuel n s1 hfit1
  obtain ⟨hfit2, ⟨L2, hinv2⟩, hnotes2, hstyle2, hplayF2, hidleF2⟩ :=
    loops_frame mem tables fuel hfuel n s1 s2 L1 hfit1 hinv1 h2
  have href2 : (s2.notes p).toWaveGenerator = some V1 := by rw [hnotes2]; exact href1
  have hplay2 := hplayF2 V1 _ _ _ hplay1
  -- the note-off
  obtain ⟨s3, h3, hV13, hothers3, -, -, -, -, -, -, hstyle3⟩ :=
    stopNote_sets_stop s2 velocity p V1 hp href2
  have hfit3 := fit_stopNote mem tables s2 s3 p.val velocity hfit2 h3
  have hinv3 := poolInv_stopNote _ _ _ _ _ hinv2 h3
  have hstop3 : (s3.wavegenerators V1).stopping = true := by rw [hV13]
  have hplay3 : (s3.wavegenerators V1).Playing mem ((tables p).samples st)
      ((tables p).sampleSizes st) (tables p).delta := by
    rw [hV13]
    exact playing_congr mem _ _ _ (s2.wavegenerators V1) _ rfl rfl rfl rfl rfl hplay2
  have hidle3 : (s3.wavegenerators V2).state = 0 := by
    rw [hothers3 V2 hV21]
    exact hidleF2 V2 hidle1
  -- the periods after the note-off
  obtain ⟨s4, h4⟩ := loops_total mem tables fuel hfuel k s3 hfit3
  obtain ⟨hfit4, ⟨L4, hinv4⟩, -, hstyle4, hplayF4, hidleF4⟩ :=
    loops_frame mem tables fuel hfuel k s3 s4 L2 hfit3 hinv3 h4
  have hplay4 := hplayF4 V1 _ _ _ hplay3
  refine ⟨s1, s2, s3, s4, h1, href1, h2, h3, hstop3, h4, ?_⟩
  intro hne4
  have hstop4 : (s4.wavegenerators V1).stopping = true :=
    loops_stopping mem tables fuel hfuel _ _ _ V1 k s3 s4 hfit3 hplay3 hstop3 h4 hne4
  have hV2free : V2 ∈ L4 := hinv4.idleFree V2 (hidleF4 V2 hidle3)
  -- the second note-on
  cases L4 with
  | nil => exact absurd hV2free (List.not_mem_nil _)
  | cons W rest4 =>
    have hWV : W ≠ V1 := by
      intro hc
      exact hne4 (hc ▸ (hinv4.idle W (List.mem_cons_self _ _)).1)
    have hst4 : s4.style = st.val := by rw [hstyle4, hstyle3, hstyle2, hstyle1, hstyle]
    obtain ⟨s5, h5, -, hW5, hothers5, hnote5, -, -, -, -⟩ :=
      startNote_pops_head s4 velocity p W rest4 st hp hst4 hinv4.free
    have hfit5 := fit_startNote mem tables hready s4 s5 p.val velocity hfit4 h5
    obtain ⟨L5, hinv5⟩ := poolInv_startNote _ _ _ _ _ hinv4 h5
    have hV15 : s5.wavegenerators V1 = s4.wavegenerators V1 := hothers5 V1 (fun hc => hWV hc.symm)
    have href5 : (s5.notes p).toWaveGenerator = some W := by rw [hnote5]
    have hplay5 : (s5.wavegenerators V1).Playing mem ((tables p).samples st)
        ((tables p).sampleSizes st) (tables p).delta := by
      rw [hV15]
      exact hplay4
    -- the release of the first voice
    obtain ⟨hrem, hQ⟩ := remain_le mem _ _ _ _ hplay5
    rw [hQ] at hrem
    obtain ⟨m, s6, hm1, hm2, h6, hz6, hs6⟩ := release_any mem tables fuel hfuel _ _ _ V1
      ((4 * stepsLeft ((tables p).sampleSizes st - 1) (tables p).delta + 2) / BUFFERSIZE)
      s5 hfit5 hplay5 (by rw [hV15]; exact hstop4)
      (lt_of_le_of_lt hrem (Nat.lt_mul_div_succ _ (by decide)))
    obtain ⟨-, ⟨L6, hinv6⟩, hnotes6, -, -, -⟩ :=
      loops_frame mem tables fuel hfuel m s5 s6 L5 hfit5 hinv5 h6
    have href6 : (s6.notes p).toWaveGenerator = some W := by rw [hnotes6]; exact href5
    have hon : s6.onFreeList V1 := by
      unfold PolySynth.onFreeList
      rw [hinv6.free]
      exact hinv6.idleFree V1 hz6
    obtain ⟨-, hWstop6, hWstate6⟩ := hinv6.bound p W href6
    refine ⟨W, s5, h5, hWV, href5, by rw [hV15]; exact hne4, by rw [hV15]; exact hstop4,
      by rw [hW5], by rw [hW5], m, s6, hm1, hm2, h6, hz6, hs6, hon, href6, hWstate6, hWstop6⟩

theorem demoTables_ready : TablesReady demoMem demoTables := by
  intro p _ st
  have hL : (1 : Int) ≤ 3 := by decide
  have hd : (1 : Int) ≤ 1 := by decide
  refine ⟨hL, hd, ?_⟩
  intro k h0 h3
  have h3b : k < 3 := h3
  show demoMem (100 + k) ≠ none
  interval_cases k <;> decide

theorem same_pitch_overlap_witness :
    ∃ s1 s2 s3 s4,
      (PolySynth.initial demoTables).startNote 69 100 = Outcome.ok s1 ∧
      (s1.notes 69).toWaveGenerator = some 0 ∧
      s1.loops demoMem 512 0 = Outcome.ok s2 ∧
      s2.stopNote 69 100 = Outcome.ok s3 ∧
      (s3.wavegenerators 0).stopping = true ∧
      s3.loops demoMem 512 0 = Outcome.ok s4 ∧
      ((s4.wavegenerators 0).state ≠ 0 →
        ∃ W s5, s4.startNote 69 100 = Outcome.ok s5 ∧ W ≠ 0 ∧
          (s5.notes 69).toWaveGenerator = some W ∧
          (s5.wavegenerators 0).state ≠ 0 ∧ (s5.wavegenerators 0).stopping = true ∧
          (s5.wavegenerators W).state = 1 ∧ (s5.wavegenerators W).stopping = false ∧
          ∃ m s6, 1 ≤ m ∧
            m ≤ (4 * stepsLeft ((demoTables 69).sampleSizes 1 - 1) (demoTables 69).delta + 2)
              / BUFFERSIZE + 1 ∧
            s5.loops demoMem 512 m = Outcome.ok s6 ∧
            (s6.wavegenerators 0).state = 0 ∧ (s6.wavegenerators 0).stopping = false ∧
            s6.onFreeList 0 ∧ (s6.notes 69).toWaveGenerator = some W ∧
            (s6.wavegenerators W).state ≠ 0 ∧ (s6.wavegenerators W).stopping = false) :=
  same_pitch_overlap demoMem demoTables demoTables_ready 512 (by decide)
    (PolySynth.initial demoTables) 69 0 1 [2, 3, 4, 5, 6, 7, 8, 9, 10, 11, 12, 13, 14, 15] 1
    100 0 0 (by decide) rfl
    (reachable_fit demoMem demoTables demoTables_ready _ Reachable.init)
    (poolInv_initial demoTables)


/-! ## The cycle of a voice without correction -/

/-- A run that starts where the next micro step emits nothing continues from the state
after that step. -/
theorem emits_after_quiet {mem : Mem} {a a1 b : WaveGenerator} {o : List Nat}
    (h : Emits mem a o b) (hne : o ≠ []) (hq : a.microStep mem = Outcome.ok (a1, none)) :
    Emits mem a1 o b := by
  cases h with
  | nil => exact absurd rfl hne
  | emit hm _ =>
    rw [hq] at hm
    simp only [Outcome.ok.injEq, Prod.mk.injEq] at hm
    exact absurd hm.2 (by simp)
  | quiet hm hrest _ =>
    rw [hq] at hm
    simp only [Outcome.ok.injEq, Prod.mk.injEq] at hm
    rw [hm.1]
    exact hrest

/-- The four passes of a voice bound with correction unit 0 to a readable table of
`L ≥ 1` words with stride `d ≥ 1`: each emits `n = (L - 1) / d + 1` samples, the
accumulator stays 0, and the step after the fourth pass restores the bound state. -/
theorem four_passes (mem : Mem) (g0 : WaveGenerator) (w : Int) (L d : Nat)
    (hL : 1 ≤ L) (hd : 1 ≤ d)
    (hread : ∀ k : Int, 0 ≤ k → k < L → mem (w + k) ≠ none) :
    ∃ o1 o2 o3 o4 : List Nat,
      o1.length = (L - 1) / d + 1 ∧ o2.length = (L - 1) / d + 1 ∧
      o3.length = (L - 1) / d + 1 ∧ o4.length = (L - 1) / d + 1 ∧
      Emits mem (g0.setWave w L d 0) o1
        ((g0.setWave w L d 0).inPass 1 (w + (((L - 1) / d + 1 : Nat) : Int) * d) 0) ∧
      ((g0.setWave w L d 0).inPass 1 (w + (((L - 1) / d + 1 : Nat) : Int) * d) 0).microStep mem
        = Outcome.ok ((g0.setWave w L d 0).inPass 2 (w + ((L : Int) - 1)) 0, none) ∧
      Emits mem ((g0.setWave w L d 0).inPass 2 (w + ((L : Int) - 1)) 0) o2
        ((g0.setWave w L d 0).inPass 2
          (w + ((L : Int) - 1) - (((L - 1) / d + 1 : Nat) : Int) * d) 0) ∧
      ((g0.setWave w L d 0).inPass 2
          (w + ((L : Int) - 1) - (((L - 1) / d + 1 : Nat) : Int) * d) 0).microStep mem
        = Outcome.ok ((g0.setWave w L d 0).inPass 3 w 0, none) ∧
      Emits mem ((g0.setWave w L d 0).inPass 3 w 0) o3
        ((g0.setWave w L d 0).inPass 3 (w + (((L - 1) / d + 1 : Nat) : Int) * d) 0) ∧
      ((g0.setWave w L d 0).inPass 3 (w + (((L - 1) / d + 1 : Nat) : Int) * d) 0).microStep mem
        = Outcome.ok ((g0.setWave w L d 0).inPass 4 (w + ((L : Int) - 1)) 0, none) ∧
      Emits mem ((g0.setWave w L d 0).inPass 4 (w + ((L : Int) - 1)) 0) o4
        ((g0.setWave w L d 0).inPass 4
          (w + ((L : Int) - 1) - (((L - 1) / d + 1 : Nat) : Int) * d) 0) ∧
      ((g0.setWave w L d 0).inPass 4
          (w + ((L : Int) - 1) - (((L - 1) / d + 1 : Nat) : Int) * d) 0).microStep mem
        = Outcome.ok (g0.setWave w L d 0, none) := by
  have hdiv : (L - 1) / d * d ≤ L - 1 := Nat.div_mul_le_self _ _
  have hlt : L - 1 < d * ((L - 1) / d + 1) := Nat.lt_mul_div_succ _ hd
  have hltZ : (L : Int) - 1 < (((L - 1) / d + 1 : Nat) : Int) * d := by
    have h1 : ((L - 1 : Nat) : Int) < ((d * ((L - 1) / d + 1) : Nat) : Int) := by
      exact_mod_cast hlt
    have h2 : ((L - 1 : Nat) : Int) = (L : Int) - 1 := by omega
    rw [h2] at h1
    rw [Nat.mul_comm] at h1
    exact_mod_cast h1
  have hin : ∀ i : Nat, i < (L - 1) / d + 1 → (i : Int) * d ≤ (L : Int) - 1 := by
    intro i hi
    have h1 : i * d ≤ L - 1 :=
      le_trans (Nat.mul_le_mul_right d (Nat.lt_succ_iff.mp hi)) hdiv
    have h2 : ((i * d : Nat) : Int) ≤ ((L - 1 : Nat) : Int) := by exact_mod_cast h1
    have h3 : ((L - 1 : Nat) : Int) = (L : Int) - 1 := by omega
    rw [h3] at h2
    exact_mod_cast h2
  have hpos : ∀ i : Nat, (0 : Int) ≤ (i : Int) * d := fun i =>
    mul_nonneg (Int.ofNat_nonneg _) (Int.ofNat_nonneg _)
  have hup : ∀ i : Nat, i < (L - 1) / d + 1 →
      w + (i : Int) * (g0.setWave w L d 0).delta ≤ (g0.setWave w L d 0).toEndWave ∧
      mem (w + (i : Int) * (g0.setWave w L d 0).delta) ≠ none := by
    intro i hi
    show w + (i : Int) * d ≤ w + ((L : Int) - 1) ∧ mem (w + (i : Int) * d) ≠ none
    have h1 := hin i hi
    have h2 := hpos i
    exact ⟨by omega, hread _ h2 (by omega)⟩
  have hdown : ∀ i : Nat, i < (L - 1) / d + 1 →
      (g0.setWave w L d 0).toStartWave
        ≤ w + ((L : Int) - 1) - (i : Int) * (g0.setWave w L d 0).delta ∧
      mem (w + ((L : Int) - 1) - (i : Int) * (g0.setWave w L d 0).delta) ≠ none := by
    intro i hi
    show w ≤ w + ((L : Int) - 1) - (i : Int) * d ∧
      mem (w + ((L : Int) - 1) - (i : Int) * d) ≠ none
    have h1 := hin i hi
    have h2 := hpos i
    refine ⟨by omega, ?_⟩
    have h3 := hread ((L : Int) - 1 - (i : Int) * d) (by omega) (by omega)
    have h4 : w + ((L : Int) - 1) - (i : Int) * d = w + ((L : Int) - 1 - (i : Int) * d) := by
      ring
    rw [h4]
    exact h3
  have h00 : add32 0 0 ≤ WAVEPARTERRORMAX := by decide
  obtain ⟨o1, hl1, hA⟩ := forward_run mem (g0.setWave w L d 0) 1 0 (Or.inl rfl)
    ((L - 1) / d + 1) w hup
  obtain ⟨o2, hl2, hB⟩ := backward_run mem (g0.setWave w L d 0) 2 0 (Or.inl rfl)
    ((L - 1) / d + 1) (w + ((L : Int) - 1)) hdown
  obtain ⟨o3, hl3, hC⟩ := forward_run mem (g0.setWave w L d 0) 3 0 (Or.inr rfl)
    ((L - 1) / d + 1) w hup
  obtain ⟨o4, hl4, hD⟩ := backward_run mem (g0.setWave w L d 0) 4 0 (Or.inr rfl)
    ((L - 1) / d + 1) (w + ((L : Int) - 1)) hdown
  have htop : ∀ s : Nat, s = 1 ∨ s = 3 →
      ((g0.setWave w L d 0).inPass s (w + (((L - 1) / d + 1 : Nat) : Int) * d) 0).microStep mem
        = Outcome.ok ((g0.setWave w L d 0).inPass (s + 1) (w + ((L : Int) - 1)) 0, none) :=
    fun s hs => microStep_top mem (g0.setWave w L d 0) s _ 0 hs
      (by show w + ((L : Int) - 1) < w + (((L - 1) / d + 1 : Nat) : Int) * d; omega) h00
  have hbot : ∀ s : Nat, s = 2 ∨ s = 4 →
      ((g0.setWave w L d 0).inPass s
        (w + ((L : Int) - 1) - (((L - 1) / d + 1 : Nat) : Int) * d) 0).microStep mem
        = Outcome.ok ((g0.setWave w L d 0).inPass (if s = 2 then 3 else 1) w 0, none) :=
    fun s hs => microStep_bottom mem (g0.setWave w L d 0) s _ 0 hs
      (by show w + ((L : Int) - 1) - (((L - 1) / d + 1 : Nat) : Int) * d < w; omega) rfl
  exact ⟨o1, o2, o3, o4, hl1, hl2, hl3, hl4, hA, htop 1 (Or.inl rfl), hB, hbot 2 (Or.inl rfl),
    hC, htop 3 (Or.inr rfl), hD, hbot 4 (Or.inr rfl)⟩

set_option maxRecDepth 100000 in
/-- C31 (counterexample). The table `[0, 5, 9]` (L = 3) bound with stride 1 and
correction unit 0, so that `4 * ceil(L/d) = 12`: a call of `setSamplesInBuffer` with
`bufferSize = 12` emits the twelve samples of the four passes and returns in state 4
(Down2Inverted) with the cursor at 99, one before the table start at 100, not in Up1
with the cursor at the table start. -/
theorem full_cycle_ends_in_down2 :
    demoVoice.setSamplesInBuffer demoMem 24 [7, 7, 7, 7, 7, 7, 7, 7, 7, 7, 7, 7] 12
      = Outcome.ok ({ demoVoice with state := 4, toWave := 99 },
          [0, 5, 9, 9, 5, 0, 0, 4294967291, 4294967287, 4294967287, 4294967291, 0]) ∧
    4 * ((3 - 1) / 1 + 1) = 12 ∧
    ({ demoVoice with state := 4, toWave := 99 } : WaveGenerator).state ≠ 1 ∧
    demoVoice.toStartWave = 100 ∧
    ({ demoVoice with state := 4, toWave := 99 } : WaveGenerator).toWave
      ≠ demoVoice.toStartWave := by
  refine ⟨by decide, by decide, by decide, rfl, by decide⟩

/-- C31 (amended). A voice bound by `setWave` with correction unit 0 to a readable table
of `L ≥ 1` words with stride `d ≥ 1`, without stop request, with `n = (L - 1) / d + 1`,
which is `ceil(L/d)`: each of the four passes, in the states 1, 2, 3 and 4, emits exactly
`n` samples, with the accumulator at 0 throughout. Right after `4 * n` emitted samples
the voice is in state 4 with the cursor before the table start; the next execution of
the `switch`, which emits nothing, puts it back in the state `setWave` left it in (state
1, cursor at the table start, accumulator 0). The sample stream is periodic with period
`4 * n`, and runs of every length exist. -/
theorem cycle_of_four_passes (mem : Mem) (g0 : WaveGenerator) (w : Int) (L d : Nat)
    (hL : 1 ≤ L) (hd : 1 ≤ d)
    (hread : ∀ k : Int, 0 ≤ k → k < L → mem (w + k) ≠ none) :
    (L ≤ ((L - 1) / d + 1) * d ∧ ((L - 1) / d + 1) * d < L + d) ∧
    (∃ o1 o2 o3 o4 : List Nat,
      o1.length = (L - 1) / d + 1 ∧ o2.length = (L - 1) / d + 1 ∧
      o3.length = (L - 1) / d + 1 ∧ o4.length = (L - 1) / d + 1 ∧
      (∃ a, a.state = 1 ∧ a.totalError = 0 ∧ Emits mem (g0.setWave w L d 0) o1 a ∧
        ∃ b, a.microStep mem = Outcome.ok (b, none) ∧ b.state = 2 ∧ b.totalError = 0 ∧
        ∃ c, c.state = 2 ∧ Emits mem b o2 c ∧
        ∃ e, c.microStep mem = Outcome.ok (e, none) ∧ e.state = 3 ∧
        ∃ f, f.state = 3 ∧ f.totalError = 0 ∧ Emits mem e o3 f ∧
        ∃ h, f.microStep mem = Outcome.ok (h, none) ∧ h.state = 4 ∧ h.totalError = 0 ∧
        ∃ i, i.state = 4 ∧ i.toWave < i.toStartWave ∧ Emits mem h o4 i ∧
          i.microStep mem = Outcome.ok (g0.setWave w L d 0, none) ∧
          Emits mem (g0.setWave w L d 0) (o1 ++ (o2 ++ (o3 ++ o4))) i)) ∧
    (g0.setWave w L d 0).state = 1 ∧ (g0.setWave w L d 0).toWave = w ∧
    (g0.setWave w L d 0).toStartWave = w ∧ (g0.setWave w L d 0).totalError = 0 ∧
    (∀ (out : List Nat) (g1 : WaveGenerator), Emits mem (g0.setWave w L d 0) out g1 →
      (out.length = 4 * ((L - 1) / d + 1) → g1.state = 4 ∧ g1.toWave < g1.toStartWave) ∧
      ∀ t : Nat, t + 4 * ((L - 1) / d + 1) < out.length →
        out[t + 4 * ((L - 1) / d + 1)]? = out[t]?) ∧
    (∀ N : Nat, ∃ out g1, Emits mem (g0.setWave w L d 0) out g1 ∧ out.length = N) := by
  have hdiv : (L - 1) / d * d ≤ L - 1 := Nat.div_mul_le_self _ _
  have hlt : L - 1 < d * ((L - 1) / d + 1) := Nat.lt_mul_div_succ _ hd
  have hceil : L ≤ ((L - 1) / d + 1) * d ∧ ((L - 1) / d + 1) * d < L + d := by
    rw [Nat.mul_comm, Nat.add_mul, Nat.one_mul] at hlt
    rw [Nat.add_mul, Nat.one_mul]
    constructor <;> omega
  have hltZ : (L : Int) - 1 < (((L - 1) / d + 1 : Nat) : Int) * d := by
    have h1 : ((L : Nat) : Int) ≤ ((((L - 1) / d + 1) * d : Nat) : Int) := by
      exact_mod_cast hceil.1
    push_cast at h1 ⊢
    omega
  obtain ⟨o1, o2, o3, o4, hl1, hl2, hl3, hl4, hA, htop1, hB, hbot1, hC, htop2, hD, hbot2⟩ :=
    four_passes mem g0 w L d hL hd hread
  have hne : ∀ o : List Nat, o.length = (L - 1) / d + 1 → o ≠ [] := by
    intro o ho hnil
    rw [hnil] at ho
    simp at ho
  have hne4 : o4 ≠ [] := hne o4 hl4
  have hne34 : o3 ++ o4 ≠ [] := by simp [hne o3 hl3]
  have hne234 : o2 ++ (o3 ++ o4) ≠ [] := by simp [hne o2 hl2]
  have hcycle : Emits mem (g0.setWave w L d 0) (o1 ++ (o2 ++ (o3 ++ o4)))
      ((g0.setWave w L d 0).inPass 4
        (w + ((L : Int) - 1) - (((L - 1) / d + 1 : Nat) : Int) * d) 0) :=
    emits_append hA (Emits.quiet htop1
      (emits_append hB (Emits.quiet hbot1
        (emits_append hC (Emits.quiet htop2 hD hne4)) hne34)) hne234)
  have hlen : (o1 ++ (o2 ++ (o3 ++ o4))).length = 4 * ((L - 1) / d + 1) := by
    simp only [List.length_append, hl1, hl2, hl3, hl4]
    omega
  have hbefore : w + ((L : Int) - 1) - (((L - 1) / d + 1 : Nat) : Int) * d < w := by omega
  refine ⟨hceil, ⟨o1, o2, o3, o4, hl1, hl2, hl3, hl4, _, rfl, rfl, hA, _, htop1, rfl, rfl,
    _, rfl, hB, _, hbot1, rfl, _, rfl, rfl, hC, _, htop2, rfl, rfl, _, rfl, hbefore, hD,
    hbot2, hcycle⟩, rfl, rfl, rfl, rfl, ?_, ?_⟩
  · intro out g1 hrun
    constructor
    · intro hout
      obtain ⟨-, hg⟩ := emits_functional hcycle hrun (hlen.trans hout.symm)
      rw [← hg]
      exact ⟨rfl, hbefore⟩
    · intro t ht
      obtain ⟨o5, ho, hrest⟩ := emits_prefix hcycle hrun (by rw [hlen]; omega)
      have hlen5 : out.length = 4 * ((L - 1) / d + 1) + o5.length := by
        rw [ho, List.length_append, hlen]
      have hne5 : o5 ≠ [] := by
        intro hnil
        rw [hnil] at hlen5
        simp only [List.length_nil] at hlen5
        omega
      have hagain := emits_after_quiet hrest hne5 hbot2
      have hshift : out[t + 4 * ((L - 1) / d + 1)]? = o5[t]? := by
        rw [ho, List.getElem?_append_right (by rw [hlen]; omega), hlen]
        congr 1
        omega
      rw [hshift]
      exact emits_sample hagain hrun t (by omega) (by omega)
  · intro N
    have hsound : (g0.setWave w L d 0).Sound mem :=
      Or.inr ⟨w, L, d, setWave_playing mem g0 w L d 0 (by exact_mod_cast hL)
        (by exact_mod_cast hd) hread⟩
    obtain ⟨out, g1, he, hN, -⟩ := voice_period mem (g0.setWave w L d 0) (2 * N) N hsound
      (le_refl _)
    exact ⟨out, g1, he, hN⟩

theorem cycle_of_four_passes_witness :
    (3 ≤ ((3 - 1) / 1 + 1) * 1 ∧ ((3 - 1) / 1 + 1) * 1 < 3 + 1) ∧
    (∀ (out : List Nat) (g1 : WaveGenerator),
      Emits demoMem (WaveGenerator.fresh.setWave 100 ((3 : Nat) : Int) ((1 : Nat) : Int) 0)
        out g1 →
      (out.length = 4 * ((3 - 1) / 1 + 1) → g1.state = 4 ∧ g1.toWave < g1.toStartWave) ∧
      ∀ t : Nat, t + 4 * ((3 - 1) / 1 + 1) < out.length →
        out[t + 4 * ((3 - 1) / 1 + 1)]? = out[t]?) ∧
    (∀ N : Nat, ∃ out g1,
      Emits demoMem (WaveGenerator.fresh.setWave 100 ((3 : Nat) : Int) ((1 : Nat) : Int) 0)
        out g1 ∧ out.length = N) :=
  have h := cycle_of_four_passes demoMem WaveGenerator.fresh 100 3 1 (by decide) (by decide)
    (by
      intro k h0 h3
      have h3b : k < 3 := by exact_mod_cast h3
      interval_cases k <;> decide)
  ⟨h.1, h.2.2.2.2.2.2.1, h.2.2.2.2.2.2.2⟩
